import Mathlib

/-! Sliding-tile puzzle solver (hw1/main.cpp): embedding and verification.

Shallow embedding of `src/hw1/main.cpp`.

Conventions of the embedding.
* A `std::vector<int>` holding a board or an inverse index is a `List Nat`
  (board entries and indices are non-negative in every input considered).
  A read `v[i]` is `v.getD i 0`, a write `v[i] = x` is `v.set i x`.
* The `int`s that may be negative or carry a sentinel (row/column deltas,
  `g`, `bound`, the value returned by `search`) are `Int`.
* `std::vector<State>& path` is threaded through `search` explicitly: the
  function returns the value and the path as it is on return.
* Recursion (`search`) and the `while (true)` loop (`ida_star`) take a fuel
  argument; running out of fuel is `none`.
* Two layers.  `State.h`, `Grid.inversions`, `State.is_solvable`, `search`,
  `ida_star` and `solve` keep every sum as an exact integer.  `State.h32`,
  `Grid.inversions32`, `State.is_solvable32`, `search32`, `ida_star32` and
  `solve32` follow the same code with each `int` addition reduced to 32 bits
  (two's complement) and `%` as the remainder of the truncating division; the
  two layers agree as long as the sums stay within the range of `int`.
-/

namespace Hw1

/-- The constant `INF = std::numeric_limits<int>::max()`. -/
def INF : Int := 2147483647

/-- The constant `FOUND = -1`. -/
def FOUND : Int := -1

/-- The nested `struct Move`: row delta, column delta, label. -/
structure Move where
  row : Int
  col : Int
  move : String

/-- The member `moves` of `State`, in its source order. -/
def moves : List Move :=
  [⟨1, 0, "up"⟩, ⟨-1, 0, "down"⟩, ⟨0, 1, "left"⟩, ⟨0, -1, "right"⟩]

/-- The static function `swap_indices`: `vnew` starts as `v.size()` zeros and
the loop performs `vnew[v[i]] = i` for `i = 0 .. v.size()-1`. -/
def swap_indices (v : List Nat) : List Nat :=
  (List.range v.length).foldl (fun vnew i => vnew.set (v.getD i 0) i)
    (List.replicate v.length 0)

/-- Downward search used by `isqrt`: the largest `r ≤ k` with `r * r ≤ x`. -/
def isqrtAux (x : Nat) : Nat → Nat
  | 0 => 0
  | k + 1 => if (k + 1) * (k + 1) ≤ x then k + 1 else isqrtAux x k

/-- The conversion `int(sqrt(x))` of the constructor for a non-negative
integer `x`: the largest `r` with `r * r ≤ x`. -/
def isqrt (x : Nat) : Nat := isqrtAux x x

/-- The data members `n`, `board`, `board_swp` of a `State`.  The goal object
of `solve` (built with a null goal pointer) is only ever read through these. -/
structure Grid where
  n : Nat
  board : List Nat
  board_swp : List Nat

/-- The constructor's initialisers `n(sqrt(board.size() + 1))`, `board(board)`,
`board_swp(swap_indices(board))`. -/
def Grid.new (board : List Nat) : Grid :=
  { n := isqrt (board.length + 1), board := board, board_swp := swap_indices board }

/-- The method `row(val) = board_swp[val] / n`. -/
def Grid.row (s : Grid) (val : Nat) : Nat := s.board_swp.getD val 0 / s.n

/-- The method `col(val) = board_swp[val] % n`. -/
def Grid.col (s : Grid) (val : Nat) : Nat := s.board_swp.getD val 0 % s.n

/-- The method `idx(val) = board_swp[val]`. -/
def Grid.idx (s : Grid) (val : Nat) : Nat := s.board_swp.getD val 0

/-- The method `idx(row, col) = row * n + col`. -/
def Grid.idx2 (s : Grid) (row col : Int) : Int := row * s.n + col

/-- The count that the loops of `inversions()` accumulate, as an exact natural
number: outer loop `i = 0 .. size-2`, inner loop `j = i .. size-1`, both
skipping the blank.  The `int` that the method returns is `Grid.inversions32`. -/
def Grid.inversions (s : Grid) : Nat :=
  (List.range (s.board.length - 1)).foldl (fun inversions i =>
    if s.board.getD i 0 = 0 then inversions
    else
      (List.range' i (s.board.length - i)).foldl (fun inversions j =>
        if s.board.getD j 0 = 0 then inversions
        else if s.board.getD i 0 > s.board.getD j 0 then inversions + 1
        else inversions) inversions) 0

/-- The class `State`: the grid data, the goal it points to, and the label of
the move that produced it. -/
structure State extends Grid where
  goal : Grid
  move : String

/-- The constructor `State(board, goal, move)`. -/
def State.new (board : List Nat) (goal : Grid) (move : String) : State :=
  { Grid.new board with goal := goal, move := move }

/-- The sum that the loop of `h()` accumulates, as an exact integer: the loop
`for (i = 1; i < n * n; i++)` adding
`abs(row(i) - goal->row(i)) + abs(col(i) - goal->col(i))`.  The `int` that the
method returns is `State.h32`. -/
def State.h (s : State) : Int :=
  (List.range' 1 (s.n * s.n - 1)).foldl (fun distance i =>
    distance +
      ((((s.row i : Int) - (s.goal.row i : Int)).natAbs : Int) +
       (((s.col i : Int) - (s.goal.col i : Int)).natAbs : Int))) 0

/-- The method `cost()`. -/
def State.cost (_s : State) : Int := 1

/-- The method `is_goal()`: `board == goal->board`. -/
def State.is_goal (s : State) : Bool := s.board == s.goal.board

/-- The method `is_solvable()` on the exact inversion counts. -/
def State.is_solvable (s : State) : Bool :=
  if s.n ≠ s.goal.n then false
  else
    let si := s.inversions
    let gi := s.goal.inversions
    if s.n % 2 = 1 then
      gi % 2 == si % 2
    else
      let sz := s.row 0
      let gz := s.goal.row 0
      gi % 2 == (si + gz + sz) % 2

/-- The call `std::swap(v[a], v[b])`. -/
def swapAt (v : List Nat) (a b : Nat) : List Nat :=
  (v.set a (v.getD b 0)).set b (v.getD a 0)

/-- The method `successors()`: one successor per entry of `moves`, in order,
whenever the blank's new cell `(rn, cn)` lies on the grid. -/
def State.successors (s : State) : List State :=
  moves.filterMap (fun move =>
    let rn : Int := (s.row 0 : Int) + move.row
    let cn : Int := (s.col 0 : Int) + move.col
    if rn ≥ 0 ∧ rn < s.n ∧ cn ≥ 0 ∧ cn < s.n then
      some (State.new (swapAt s.board (s.idx 0) (s.idx2 rn cn).toNat) s.goal move.move)
    else none)

/-- The test `std::find(path.begin(), path.end(), succ) != path.end()`, with
`operator==` comparing boards only. -/
def inPath (path : List State) (succ : State) : Bool :=
  path.any (fun s => s.board == succ.board)

/-- The `for` loop of `search` over the successors still to be tried; `rec`
is the recursive call `search(path, g + succ.cost(), bound)`. -/
def searchLoop (rec : List State → Int → Option (Int × List State)) (g : Int) :
    List State → List State → Int → Option (Int × List State)
  | [], path, min => some (min, path)
  | succ :: rest, path, min =>
    if inPath path succ then searchLoop rec g rest path min
    else
      match rec (path ++ [succ]) (g + succ.cost) with
      | none => none
      | some (t, path1) =>
        if t = FOUND then some (FOUND, path1)
        else searchLoop rec g rest path1.dropLast (if t < min then t else min)

/-- The function `search(path, g, bound)` on exact integers; returns the value
and the path on return.  `none`: out of fuel, or `path.back()` on an empty
path. -/
def search : Nat → List State → Int → Int → Option (Int × List State)
  | 0, _, _, _ => none
  | fuel + 1, path, g, bound =>
    match path.getLast? with
    | none => none
    | some state =>
      let f := g + state.h
      if f > bound then some (f, path)
      else if state.is_goal then some (FOUND, path)
      else searchLoop (fun p g1 => search fuel p g1 bound) g state.successors path INF

/-- The `while (true)` loop of `ida_star`. -/
def idaLoop (sfuel : Nat) : Nat → List State → Int → Option (List State)
  | 0, _, _ => none
  | fuel + 1, path, bound =>
    match search sfuel path 0 bound with
    | none => none
    | some (t, path1) =>
      if t = FOUND then some path1
      else if t = INF then some []
      else idaLoop sfuel fuel path1 t

/-- The function `ida_star(root)`. -/
def ida_star (fuel : Nat) (root : State) : Option (List State) :=
  idaLoop fuel fuel [root] root.h

/-- The loop of `solve` that fills `goalBoard`: `0` at index `I`, otherwise
the running counter `v`. -/
def goalBoard (size : Nat) (I : Int) : List Nat :=
  ((List.range size).foldl (fun (acc : List Nat × Nat) (i : Nat) =>
    if (i : Int) = I then (acc.1.set i 0, acc.2)
    else (acc.1.set i acc.2, acc.2 + 1)) (List.replicate size 0, 1)).1

/-- The function `solve(N, I, board)`.  The outer `Option` is `none` when the
fuel does not suffice; the inner one is the returned `std::optional`. -/
def solve (fuel : Nat) (N I : Int) (board : List Nat) : Option (Option (List String)) :=
  let I := if I = -1 then N else I
  let goal := Grid.new (goalBoard board.length I)
  let root := State.new board goal ""
  if !root.is_solvable then some none
  else
    match ida_star fuel root with
    | none => none
    | some path =>
      some (some ((path.filter (fun s => s.move ≠ "")).map (fun s => s.move)))

end Hw1


namespace Hw1

/-- A valid board of the `n × n` puzzle: a permutation of `0 .. n*n-1`. -/
abbrev ValidBoard (n : Nat) (b : List Nat) : Prop := List.Perm b (List.range (n * n))

end Hw1

namespace Hw1

/-- The Manhattan distance sum of the spec: over the tile values `1 .. n*n-1`,
the row distance plus the column distance between the cell where the value
occurs in `b` and the cell where it occurs in `g` (row-major cells). -/
def manhattan (n : Nat) (b g : List Nat) : Int :=
  ∑ v in Finset.Ico 1 (n * n),
    (|((b.indexOf v / n : Nat) : Int) - ((g.indexOf v / n : Nat) : Int)| +
     |((b.indexOf v % n : Nat) : Int) - ((g.indexOf v % n : Nat) : Int)|)

end Hw1

namespace Hw1

/-- Number of inversions of a list: pairs of positions `i < j` whose entries
are out of order (`l[i] > l[j]`). -/
def inv : List Nat → Nat
  | [] => 0
  | x :: xs => xs.countP (fun y => decide (y < x)) + inv xs

/-- The tiles of a board in row-major order, the blank left out. -/
def tiles (b : List Nat) : List Nat := b.filter (fun y => decide (y ≠ 0))

end Hw1

namespace Hw1

/-- The inversion count of the spec: the number of index pairs `(i, j)` with
`i < j`, both entries nonzero and `b[i] > b[j]`. -/
def inversionPairs (b : List Nat) : Nat :=
  ((Finset.range b.length ×ˢ Finset.range b.length).filter (fun p =>
    p.1 < p.2 ∧ b.getD p.1 0 ≠ 0 ∧ b.getD p.2 0 ≠ 0 ∧ b.getD p.1 0 > b.getD p.2 0)).card

end Hw1

namespace Hw1

/-- Closed form of the entry that the loop of `solve` writes at index `i` of
`goalBoard`. -/
def goalEntry (I : Int) (i : Nat) : Nat :=
  if (i : Int) = I then 0 else if 0 ≤ I ∧ I < (i : Int) then i else i + 1

end Hw1

namespace Hw1

/-- The cells `z` and `j` (row-major indices) are neighbours on a grid of
width `n`: one row apart in the same column, or side by side in a row. -/
def Adj (n z j : Nat) : Prop :=
  (j = z + n) ∨ (z = j + n) ∨ (j = z + 1 ∧ z % n + 1 < n) ∨ (z = j + 1 ∧ j % n + 1 < n)

/-- One legal blank move between boards: `b'` is the board of a state that
`successors()` returns for a state holding `b`. -/
def Step (b b' : List Nat) : Prop :=
  ∃ s ∈ (State.new b (Grid.new b) "").successors, s.board = b'

/-- The board `b'` is reached from `b` by exactly `k` legal blank moves. -/
def ReachIn : Nat → List Nat → List Nat → Prop
  | 0, b, b' => b = b'
  | k + 1, b, b' => ∃ c, Step b c ∧ ReachIn k c b'

/-- The board `b'` is reachable from `b` by a finite sequence of legal blank moves. -/
def Reachable (b b' : List Nat) : Prop := ∃ k, ReachIn k b b'

end Hw1

namespace Hw1

/-- The goal board that `solve(N, I, board)` builds. -/
def solveGoal (N I : Int) (board : List Nat) : List Nat :=
  goalBoard board.length (if I = -1 then N else I)

/-- The root state that `solve(N, I, board)` builds. -/
def solveRoot (N I : Int) (board : List Nat) : State :=
  State.new board (Grid.new (solveGoal N I board)) ""

/-- The move list that `solve` extracts from the path returned by `ida_star`. -/
def pathMoves (path : List State) : List String :=
  (path.filter (fun s => s.move ≠ "")).map (fun s => s.move)

/-- A state as `solve` and `successors()` build it for the `n × n` puzzle with
goal board `gb`: a valid board, the grid data computed by the constructor,
and the goal pointer referring to the goal object. -/
def GoodState (n : Nat) (gb : List Nat) (s : State) : Prop :=
  ValidBoard n s.board ∧ s.toGrid = Grid.new s.board ∧ s.goal = Grid.new gb

/-- Invariant of the search path: all states are well formed, each state is
among the successors of the one before it, and no board occurs twice. -/
def PathInv (n : Nat) (gb : List Nat) (path : List State) : Prop :=
  (∀ s ∈ path, GoodState n gb s) ∧
  List.Chain' (fun a b => b ∈ a.successors) path ∧
  (path.map (fun s => s.board)).Nodup

/-- The last state of the path is the goal. -/
def EndsAtGoal (path : List State) : Prop :=
  ∃ s, path.getLast? = some s ∧ s.is_goal = true

end Hw1

namespace Hw1

/-- What a call `search(path, g, bound)` establishes when it returns the value
`t` with the path `p`: either `FOUND` with the entry path extended to the goal
within the bound, or a non-negative value with the path restored, above the
bound (capped at `INF`), at most `INF` unless the entry state itself exceeds
the bound, and not above the cost of any repetition-free way to the goal. -/
def SearchPost (n : Nat) (gb : List Nat) (bound : Int) (path : List State) (g : Int)
    (t : Int) (p : List State) : Prop :=
  (t = FOUND ∧ ∃ e, p = path ++ e ∧ PathInv n gb (path ++ e) ∧ EndsAtGoal (path ++ e) ∧
    g + e.length ≤ bound) ∨
  (0 ≤ t ∧ p = path ∧ min INF (bound + 1) ≤ t ∧
    (∀ s, path.getLast? = some s → g + s.h ≤ bound → t ≤ INF) ∧
    ∀ e, PathInv n gb (path ++ e) → EndsAtGoal (path ++ e) → t ≤ g + e.length)

end Hw1

namespace Hw1

/-- The parity that `is_solvable()` compares between start and goal: the
inversions of the tile sequence, plus the blank's row when `n` is even. -/
def parity (n : Nat) (b : List Nat) : Nat :=
  (inv (tiles b) + (if n % 2 = 1 then 0 else b.indexOf 0 / n)) % 2

end Hw1

namespace Hw1

/-- Number of out-of-order pairs with the first entry taken from `a` and the
second from `b`. -/
def cross (a b : List Nat) : Nat :=
  (a.map (fun u => b.countP (fun y => decide (y < u)))).sum

end Hw1

namespace Hw1

/-- Applying one move label to a board: the board of the state that
`successors()` tags with this label; `none` when no successor carries it (the
move is not legal there). -/
def applyMove (goal : Grid) (b : List Nat) (label : String) : Option (List Nat) :=
  ((State.new b goal "").successors.find? (fun s => s.move == label)).map (fun s => s.board)

/-- Applying a list of move labels in order. -/
def applyMoves (goal : Grid) : List Nat → List String → Option (List Nat)
  | b, [] => some b
  | b, l :: ls =>
    match applyMove goal b l with
    | none => none
    | some b1 => applyMoves goal b1 ls

end Hw1

namespace Hw1

/-- The boustrophedon ("snake") order of the cells of the grid: row by row,
even rows from left to right and odd rows from right to left.  `snake n k` is
the row-major index of the `k`-th cell of that order. -/
def snake (n k : Nat) : Nat :=
  (k / n) * n + (if (k / n) % 2 = 0 then k % n else n - 1 - k % n)

/-- The board whose cells, read in snake order, are the entries of `s`. -/
def unsnake (n : Nat) (s : List Nat) : List Nat :=
  (List.range (n * n)).map (fun i => s.getD (snake n i) 0)

/-- Tile sequences (snake order, blank left out) that are permutations of each
other and whose boards, with the blank put in front, are connected by legal moves. -/
def TileReach (n : Nat) (t t' : List Nat) : Prop :=
  t.Perm t' ∧ (ValidBoard n (0 :: t) → Reachable (unsnake n (0 :: t)) (unsnake n (0 :: t')))

end Hw1

namespace Hw1

/-- Distance on the grid of width `n` between the cells with row-major indices
`p` and `q`: row distance plus column distance. -/
def cellDist (n p q : Nat) : Int :=
  |((p / n : Nat) : Int) - ((q / n : Nat) : Int)| + |((p % n : Nat) : Int) - ((q % n : Nat) : Int)|

/-- Exchanging the entries of a board at each pair of positions of a list, in order. -/
def applySwaps (ps : List (Nat × Nat)) (b : List Nat) : List Nat :=
  ps.foldl (fun b p => swapAt b p.1 p.2) b

/-- Two pairs of positions have no position in common. -/
def DisjointPair (p q : Nat × Nat) : Prop :=
  p.1 ≠ q.1 ∧ p.1 ≠ q.2 ∧ p.2 ≠ q.1 ∧ p.2 ≠ q.2

end Hw1

namespace Hw1

/-! ### A solvable 2048 × 2048 instance whose heuristic value is `INF - 2` -/

/-- The goal board of the 2048 × 2048 puzzle with the blank at the last index. -/
def bigGoal : List Nat := goalBoard (2048 * 2048) ((4194303 : Nat) : Int)

/-- In the rows 0 .. 1023: the cells `(r, c)` and `(r, c + 1024)`, for the first
1048574 pairs in row-major order (`c < 1024`). -/
def farPairs : List (Nat × Nat) :=
  (List.range 1048574).map (fun k =>
    ((k / 1024) * 2048 + k % 1024, (k / 1024) * 2048 + k % 1024 + 1024))

/-- In the rows 1030 and 1031: 2045 pairs of cells side by side. -/
def nearPairs : List (Nat × Nat) :=
  (List.range 2045).map (fun k => (2109440 + 2 * k, 2109440 + 2 * k + 1))

/-- The goal board with the tiles of each pair of `farPairs` and `nearPairs` exchanged. -/
def bigBase : List Nat := applySwaps (farPairs ++ nearPairs) bigGoal

/-- The instance: on `bigBase`, the tile above the goal cell of the blank is
exchanged with the tile left of it, then the blank moves one cell to the left. -/
def bigBoard : List Nat := swapAt (swapAt bigBase 4192255 4194302) 4194303 4194302

end Hw1

namespace Hw1

/-- The values `t` that the successive top-level calls `search(path, 0, bound)`
in the loop of `ida_star` return, in order; the loop is that of `idaLoop`. -/
def idaTrace (sfuel : Nat) : Nat → List State → Int → List Int
  | 0, _, _ => []
  | fuel + 1, path, bound =>
    match search sfuel path 0 bound with
    | none => []
    | some (t, path1) =>
      if t = FOUND then [t]
      else if t = INF then [t]
      else t :: idaTrace sfuel fuel path1 t

end Hw1

namespace Hw1

/-- The states `e` that one run of `search(path, g, bound)` can push onto the
path, one after the other: each is a successor of the state that is then last
on the path, that state having `f = g + h ≤ bound` and not being the goal, and
the successor's board not occurring on the path so far. -/
def Branch (bound : Int) : List State → Int → List State → Prop
  | _, _, [] => True
  | path, g, s :: e =>
    ∃ last, path.getLast? = some last ∧ g + last.h ≤ bound ∧ last.is_goal = false ∧
      s ∈ last.successors ∧ inPath path s = false ∧
      Branch bound (path ++ [s]) (g + s.cost) e

/-- The bounds that the successive top-level calls `search(path, 0, bound)` in
the loop of `ida_star` use, in order; the loop is that of `idaLoop`. -/
def idaBounds (sfuel : Nat) : Nat → List State → Int → List Int
  | 0, _, _ => []
  | fuel + 1, path, bound =>
    match search sfuel path 0 bound with
    | none => [bound]
    | some (t, path1) =>
      if t = FOUND then [bound]
      else if t = INF then [bound]
      else bound :: idaBounds sfuel fuel path1 t

end Hw1

namespace Hw1

/-! ### The same code with every array access checked

A result `none` of the functions below (`some none` for those that also take
fuel) reports an access outside the bounds of a vector; everything else
follows the unchecked embedding above line by line. -/

/-- A loop over `l` that threads an accumulator and stops at the first failing
step. -/
def foldlC {α β : Type} (f : β → α → Option β) : β → List α → Option β
  | b, [] => some b
  | b, a :: l =>
    match f b a with
    | none => none
    | some b1 => foldlC f b1 l

/-- The write `v[i] = x`, checked. -/
def setC (v : List Nat) (i : Nat) (x : Nat) : Option (List Nat) :=
  if i < v.length then some (v.set i x) else none

/-- The function `swap_indices` with the read `v[i]` and the write
`vnew[v[i]]` checked. -/
def swap_indicesC (v : List Nat) : Option (List Nat) :=
  foldlC (fun vnew i => (v[i]?).bind (fun x => setC vnew x i)) (List.replicate v.length 0)
    (List.range v.length)

/-- The constructor's initialisers, with `swap_indices` checked. -/
def Grid.newC (board : List Nat) : Option Grid :=
  (swap_indicesC board).map (fun swp =>
    { n := isqrt (board.length + 1), board := board, board_swp := swp })

/-- The constructor `State(board, goal, move)`, checked. -/
def State.newC (board : List Nat) (goal : Grid) (move : String) : Option State :=
  (Grid.newC board).map (fun g => { g with goal := goal, move := move })

/-- The method `row(val)` with the read `board_swp[val]` checked. -/
def Grid.rowC (s : Grid) (val : Nat) : Option Nat := (s.board_swp[val]?).map (fun x => x / s.n)

/-- The method `col(val)` with the read `board_swp[val]` checked. -/
def Grid.colC (s : Grid) (val : Nat) : Option Nat := (s.board_swp[val]?).map (fun x => x % s.n)

/-- The method `idx(val)` with the read `board_swp[val]` checked. -/
def Grid.idxC (s : Grid) (val : Nat) : Option Nat := s.board_swp[val]?

/-- The method `h()` with the reads of `row` and `col` checked. -/
def State.hC (s : State) : Option Int :=
  foldlC (fun distance i =>
    (s.rowC i).bind fun r => (s.goal.rowC i).bind fun gr =>
    (s.colC i).bind fun c => (s.goal.colC i).bind fun gc =>
      some (distance + ((((r : Int) - (gr : Int)).natAbs : Int) +
        (((c : Int) - (gc : Int)).natAbs : Int)))) 0 (List.range' 1 (s.n * s.n - 1))

/-- The method `inversions()` with the reads `board[i]`, `board[j]` checked. -/
def Grid.inversionsC (s : Grid) : Option Nat :=
  foldlC (fun inversions i =>
    (s.board[i]?).bind fun bi =>
      if bi = 0 then some inversions
      else
        foldlC (fun inversions j =>
          (s.board[j]?).bind fun bj =>
            if bj = 0 then some inversions
            else if bi > bj then some (inversions + 1)
            else some inversions) inversions (List.range' i (s.board.length - i))) 0
    (List.range (s.board.length - 1))

/-- The method `is_solvable()`, checked. -/
def State.is_solvableC (s : State) : Option Bool :=
  if s.n ≠ s.goal.n then some false
  else
    (s.inversionsC).bind fun si => (s.goal.inversionsC).bind fun gi =>
      if s.n % 2 = 1 then some (gi % 2 == si % 2)
      else
        (s.rowC 0).bind fun sz => (s.goal.rowC 0).bind fun gz =>
          some (gi % 2 == (si + gz + sz) % 2)

/-- The call `std::swap(v[a], v[b])` with both accesses checked; `b` is the
`int` that `idx(rn, cn)` returns. -/
def swapAtC (v : List Nat) (a : Nat) (b : Int) : Option (List Nat) :=
  if 0 ≤ b then
    (v[a]?).bind fun x => (v[b.toNat]?).bind fun y => some ((v.set a y).set b.toNat x)
  else none

/-- The loop of `successors()` over the moves still to be tried, checked. -/
def successorsLoopC (s : State) : List Move → Option (List State)
  | [] => some []
  | move :: rest =>
    (s.rowC 0).bind fun r0 => (s.colC 0).bind fun c0 =>
      let rn : Int := (r0 : Int) + move.row
      let cn : Int := (c0 : Int) + move.col
      if rn ≥ 0 ∧ rn < s.n ∧ cn ≥ 0 ∧ cn < s.n then
        (s.idxC 0).bind fun z => (swapAtC s.board z (s.idx2 rn cn)).bind fun boardn =>
          (State.newC boardn s.goal move.move).bind fun st =>
            (successorsLoopC s rest).map fun l => st :: l
      else successorsLoopC s rest

/-- The method `successors()`, checked. -/
def State.successorsC (s : State) : Option (List State) := successorsLoopC s moves

/-- The `for` loop of `search`, checked. -/
def searchLoopC (rec : List State → Int → Option (Option (Int × List State))) (g : Int) :
    List State → List State → Int → Option (Option (Int × List State))
  | [], path, min => some (some (min, path))
  | succ :: rest, path, min =>
    if inPath path succ then searchLoopC rec g rest path min
    else
      match rec (path ++ [succ]) (g + succ.cost) with
      | none => none
      | some none => some none
      | some (some (t, path1)) =>
        if t = FOUND then some (some (FOUND, path1))
        else searchLoopC rec g rest path1.dropLast (if t < min then t else min)

/-- The function `search`, checked: `none` is out of fuel, `some none` an access
out of bounds (`path.back()` on an empty path included). -/
def searchC : Nat → List State → Int → Int → Option (Option (Int × List State))
  | 0, _, _, _ => none
  | fuel + 1, path, g, bound =>
    match path.getLast? with
    | none => some none
    | some state =>
      match state.hC with
      | none => some none
      | some hv =>
        let f := g + hv
        if f > bound then some (some (f, path))
        else if state.is_goal then some (some (FOUND, path))
        else
          match state.successorsC with
          | none => some none
          | some succs => searchLoopC (fun p g1 => searchC fuel p g1 bound) g succs path INF

/-- The loop of `ida_star`, checked. -/
def idaLoopC (sfuel : Nat) : Nat → List State → Int → Option (Option (List State))
  | 0, _, _ => none
  | fuel + 1, path, bound =>
    match searchC sfuel path 0 bound with
    | none => none
    | some none => some none
    | some (some (t, path1)) =>
      if t = FOUND then some (some path1)
      else if t = INF then some (some [])
      else idaLoopC sfuel fuel path1 t

/-- The function `ida_star`, checked. -/
def ida_starC (fuel : Nat) (root : State) : Option (Option (List State)) :=
  match root.hC with
  | none => some none
  | some h0 => idaLoopC fuel fuel [root] h0

/-- The loop of `solve` that fills `goalBoard`, with the writes checked. -/
def goalBoardC (size : Nat) (I : Int) : Option (List Nat) :=
  (foldlC (fun (acc : List Nat × Nat) (i : Nat) =>
    if (i : Int) = I then (setC acc.1 i 0).map (fun l => (l, acc.2))
    else (setC acc.1 i acc.2).map (fun l => (l, acc.2 + 1)))
    (List.replicate size 0, 1) (List.range size)).map (fun acc => acc.1)

/-- The function `solve`, checked: `none` is out of fuel, `some none` an access
out of bounds, `some (some r)` the returned `std::optional` `r`. -/
def solveC (fuel : Nat) (N I : Int) (board : List Nat) :
    Option (Option (Option (List String))) :=
  let I := if I = -1 then N else I
  match goalBoardC board.length I with
  | none => some none
  | some gb =>
    match Grid.newC gb with
    | none => some none
    | some goal =>
      match State.newC board goal "" with
      | none => some none
      | some root =>
        match root.is_solvableC with
        | none => some none
        | some false => some (some none)
        | some true =>
          match ida_starC fuel root with
          | none => none
          | some none => some none
          | some (some path) =>
            some (some (some ((path.filter (fun s => s.move ≠ "")).map (fun s => s.move))))

end Hw1

namespace Hw1

/-- What `search(path, g, bound)` leaves behind when it returns `FOUND`: the
path on return is the path on entry extended by states `e` that the search
pushed, and its last state is the goal with `f ≤ bound` (or, for a negative
`g`, a state whose overshooting `f` happens to be the value of `FOUND`). -/
def FoundOut (bound : Int) (path : List State) (g : Int) (p : List State) : Prop :=
  ∃ e last, p = path ++ e ∧ Branch bound path g e ∧ (path ++ e).getLast? = some last ∧
    ((g + (e.length : Int) + last.h ≤ bound ∧ last.is_goal = true) ∨
     (bound < g + (e.length : Int) + last.h ∧ g + (e.length : Int) + last.h = FOUND))

/-- The value `t` and the path `p` that `search(path, g, bound)` returns:
either `FOUND` with `FoundOut`, or the path unchanged and `t` the minimum of
`INF` and of `f = g + h` over the states with `f > bound` that the search
reaches. -/
def SearchOut (bound : Int) (path : List State) (g t : Int) (p : List State) : Prop :=
  (t = FOUND ∧ FoundOut bound path g p) ∨
  (t ≠ FOUND ∧ p = path ∧ min INF (bound + 1) ≤ t ∧
    (∀ e last, Branch bound path g e → (path ++ e).getLast? = some last →
      bound < g + (e.length : Int) + last.h → t ≤ g + (e.length : Int) + last.h) ∧
    (t = INF ∨ ∃ e last, Branch bound path g e ∧ (path ++ e).getLast? = some last ∧
      bound < g + (e.length : Int) + last.h ∧ t = g + (e.length : Int) + last.h))

end Hw1

namespace Hw1

/-- The label of the move that undoes a move: `up` and `down`, `left` and
`right` are opposite to each other in the table `moves`. -/
def opposite (label : String) : String :=
  if label = "up" then "down"
  else if label = "down" then "up"
  else if label = "left" then "right"
  else if label = "right" then "left"
  else label

end Hw1

namespace Hw1

/-! ### The 32-bit arithmetic of the source -/

/-- The value of an integer as a 32-bit `int`: reduced modulo `2^32` to the
range `-2^31 .. 2^31 - 1`. -/
def int32 (x : Int) : Int := (x + 2147483648) % 4294967296 - 2147483648

/-- The method `h()`: the loop `for (i = 1; i < n * n; i++)` with the
accumulator `int distance`, every `distance += ...` reduced to 32 bits. -/
def State.h32 (s : State) : Int :=
  (List.range' 1 (s.n * s.n - 1)).foldl (fun distance i =>
    int32 (distance +
      ((((s.row i : Int) - (s.goal.row i : Int)).natAbs : Int) +
       (((s.col i : Int) - (s.goal.col i : Int)).natAbs : Int)))) 0

/-- The method `inversions()` with the counter `int inversions`, every
`inversions++` reduced to 32 bits. -/
def Grid.inversions32 (s : Grid) : Int :=
  (List.range (s.board.length - 1)).foldl (fun inversions i =>
    if s.board.getD i 0 = 0 then inversions
    else
      (List.range' i (s.board.length - i)).foldl (fun inversions j =>
        if s.board.getD j 0 = 0 then inversions
        else if s.board.getD i 0 > s.board.getD j 0 then int32 (inversions + 1)
        else inversions) inversions) 0

/-- The method `is_solvable()` on 32-bit `int`s: `x % 2` is the remainder of
the truncating division (`-1` for a negative odd `x`), and the sum
`si + gz + sz` is taken in 32 bits. -/
def State.is_solvable32 (s : State) : Bool :=
  if s.n ≠ s.goal.n then false
  else
    let si := s.inversions32
    let gi := s.goal.inversions32
    if s.n % 2 = 1 then
      Int.tmod gi 2 == Int.tmod si 2
    else
      let sz := s.row 0
      let gz := s.goal.row 0
      Int.tmod gi 2 == Int.tmod (int32 (int32 (si + gz) + sz)) 2

/-- The `for` loop of `search` on 32-bit `int`s; `rec` is the recursive call
`search(path, g + succ.cost(), bound)`. -/
def searchLoop32 (rec : List State → Int → Option (Int × List State)) (g : Int) :
    List State → List State → Int → Option (Int × List State)
  | [], path, min => some (min, path)
  | succ :: rest, path, min =>
    if inPath path succ then searchLoop32 rec g rest path min
    else
      match rec (path ++ [succ]) (int32 (g + succ.cost)) with
      | none => none
      | some (t, path1) =>
        if t = FOUND then some (FOUND, path1)
        else searchLoop32 rec g rest path1.dropLast (if t < min then t else min)

/-- The function `search(path, g, bound)` on 32-bit `int`s: `f = g + h()` with
the value that `h()` returns, the sum reduced to 32 bits.  `none`: out of
fuel, or `path.back()` on an empty path. -/
def search32 : Nat → List State → Int → Int → Option (Int × List State)
  | 0, _, _, _ => none
  | fuel + 1, path, g, bound =>
    match path.getLast? with
    | none => none
    | some state =>
      let f := int32 (g + state.h32)
      if f > bound then some (f, path)
      else if state.is_goal then some (FOUND, path)
      else searchLoop32 (fun p g1 => search32 fuel p g1 bound) g state.successors path INF

/-- The `while (true)` loop of `ida_star` on 32-bit `int`s. -/
def idaLoop32 (sfuel : Nat) : Nat → List State → Int → Option (List State)
  | 0, _, _ => none
  | fuel + 1, path, bound =>
    match search32 sfuel path 0 bound with
    | none => none
    | some (t, path1) =>
      if t = FOUND then some path1
      else if t = INF then some []
      else idaLoop32 sfuel fuel path1 t

/-- The function `ida_star(root)` on 32-bit `int`s. -/
def ida_star32 (fuel : Nat) (root : State) : Option (List State) :=
  idaLoop32 fuel fuel [root] root.h32

/-- The function `solve(N, I, board)` on 32-bit `int`s.  The outer `Option` is
`none` when the fuel does not suffice; the inner one is the returned
`std::optional`. -/
def solve32 (fuel : Nat) (N I : Int) (board : List Nat) : Option (Option (List String)) :=
  let I := if I = -1 then N else I
  let goal := Grid.new (goalBoard board.length I)
  let root := State.new board goal ""
  if !root.is_solvable32 then some none
  else
    match ida_star32 fuel root with
    | none => none
    | some path =>
      some (some ((path.filter (fun s => s.move ≠ "")).map (fun s => s.move)))

/-! ### Boards on which the 32-bit sums leave the range of `int` -/

/-- In the rows 1032 .. 1287 and 1544 .. 1799 of the 2048 × 2048 grid: each of
the 524288 cells `(r, c)` of the rows 1032 .. 1287 with the cell 512 rows
below it and 1024 columns to the right (for `c < 1024`) or to the left (for
`c ≥ 1024`). -/
def crossPairs : List (Nat × Nat) :=
  (List.range 524288).map (fun k =>
    (2113536 + k, if k % 2048 < 1024 then 2113536 + k + 1049600 else 2113536 + k + 1047552))

/-- In the rows 1288 .. 1543: the cells `(r, c)` and `(r, c + 1024)` for
`c < 1024`, 262144 pairs. -/
def rowPairs : List (Nat × Nat) :=
  (List.range 262144).map (fun k =>
    (2637824 + (k / 1024) * 2048 + k % 1024, 2637824 + (k / 1024) * 2048 + k % 1024 + 1024))

/-- The board `bigBoard` with the tiles of each pair of `crossPairs` and
`rowPairs` exchanged: its Manhattan sum is `2^32 - 3`. -/
def wrapBoard : List Nat := applySwaps (crossPairs ++ rowPairs) bigBoard

/-- The board `bigBoard` with the tiles of the cells `(1800, 0)` and
`(1800, 1)` exchanged: its Manhattan sum is `INF`. -/
def edgeBoard : List Nat := applySwaps [(3686400, 3686401)] bigBoard

/-- The board `wrapBoard` with the tiles of the cells `(1800, 0)` and
`(1800, 1)` exchanged and the blank then exchanged with the tile above it: its Manhattan sum
is `2^32`. -/
def zeroBoard : List Nat :=
  swapAt (applySwaps (crossPairs ++ rowPairs ++ [(3686400, 3686401)]) bigBoard) 4194302 4192254

/-- A board of the 257 × 257 puzzle with `2^31 - 1` inversions: the tiles
65536 down to 32768, then 65537, then 32767 down to 1, then 65538 up to 66048,
and the blank in the last cell. -/
def invBoard : List Nat :=
  (List.range' 32768 32769).reverse ++ [65537] ++ (List.range' 1 32767).reverse ++
    List.range' 65538 511 ++ [0]

/-- The board of the successor of `invBoard` by the move `down`: the blank
exchanged with the tile 65792 above it; `2^31 + 255` inversions. -/
def invNext : List Nat := swapAt invBoard 66048 65791

/-- The tiles of `invBoard` that come before the tile 65792. -/
def invHead : List Nat :=
  (List.range' 32768 32769).reverse ++ [65537] ++ (List.range' 1 32767).reverse ++
    List.range' 65538 254

/-- The goal board of the 257 × 257 puzzle with the blank last and the tiles
1 and 2 exchanged: one inversion. -/
def oddGoal : List Nat := [2, 1] ++ List.range' 3 66046 ++ [0]

end Hw1

/-! ## The frog puzzle (bonus1/main.cpp)

Embedding of `src/bonus1/main.cpp`.  The board is a `List Char`, the
`std::stack<std::string>` a `List String` with the top at the head.  The
`size_t` indices stay within `0 .. 2 * N` on every move that `moves()` lists, so
their arithmetic is modelled in `Int` and converted back with `toNat`.
`solve_dfs` takes fuel (`none`: out of fuel) and returns its result together
with the state and the stack on return, both being passed by reference. -/

namespace Bonus1

/-- The data members `N`, `iEmpty`, `board` of the class `State`. -/
structure State where
  N : Nat
  iEmpty : Nat
  board : List Char

/-- The call `std::swap(v[a], v[b])`. -/
def swapChars (v : List Char) (a b : Nat) : List Char :=
  (v.set a (v.getD b ' ')).set b (v.getD a ' ')

/-- The method `swapEmpty(iEmptyNew)`. -/
def State.swapEmpty (s : State) (iEmptyNew : Nat) : State :=
  { s with board := swapChars s.board s.iEmpty iEmptyNew, iEmpty := iEmptyNew }

/-- The constructor `State(N)`: the board of `2 * N + 1` cells is filled from
the left with `N` times `'>'`, the blank `'_'` (whose index is recorded in
`iEmpty`), and `N` times `'<'`. -/
def State.new (N : Nat) : State :=
  let board0 := List.replicate (2 * N + 1) (Char.ofNat 0)
  let p1 := (List.range N).foldl
    (fun (acc : List Char × Nat) (_ : Nat) => (acc.1.set acc.2 '>', acc.2 + 1)) (board0, 0)
  let p2 : List Char × Nat := (p1.1.set p1.2 '_', p1.2 + 1)
  let p3 := (List.range N).foldl
    (fun (acc : List Char × Nat) (_ : Nat) => (acc.1.set acc.2 '<', acc.2 + 1)) p2
  { N := N, iEmpty := p1.2, board := p3.1 }

/-- The method `isGoalState()`. -/
def State.isGoalState (s : State) : Bool :=
  if s.iEmpty ≠ s.N then false
  else (List.range s.N).all (fun i =>
    !(s.board.getD i ' ' != '<' || s.board.getD (s.N + 1 + i) ' ' != '>'))

/-- The method `moves()`: the offsets of the cells the blank can be exchanged
with, in the order `-1, -2, +1, +2`. -/
def State.moves (s : State) : List Int :=
  (if s.iEmpty > 0 then
    (if s.board.getD (s.iEmpty - 1) ' ' = '>' then [(-1 : Int)] else []) ++
    (if s.iEmpty > 1 ∧ s.board.getD (s.iEmpty - 2) ' ' = '>' then [(-2 : Int)] else [])
  else []) ++
  (if s.iEmpty < s.board.length - 1 then
    (if s.board.getD (s.iEmpty + 1) ' ' = '<' then [(1 : Int)] else []) ++
    (if s.iEmpty < s.board.length - 2 ∧ s.board.getD (s.iEmpty + 2) ' ' = '<' then [(2 : Int)]
      else [])
  else [])

/-- The method `applyMove(move)`. -/
def State.applyMove (s : State) (move : Int) : State :=
  s.swapEmpty ((s.iEmpty : Int) + move).toNat

/-- The method `undoMove(move)`. -/
def State.undoMove (s : State) (move : Int) : State :=
  s.swapEmpty ((s.iEmpty : Int) - move).toNat

/-- The method `toString()`. -/
def State.toString (s : State) : String := String.mk s.board

/-- The `for` loop of `solve_dfs` over the moves still to be tried; `rec` is the
recursive call. -/
def solveLoop (rec : State → List String → Option (Bool × State × List String)) :
    List Int → State → List String → Option (Bool × State × List String)
  | [], state, path => some (false, state, path)
  | move :: rest, state, path =>
    match rec (state.applyMove move) path with
    | none => none
    | some (solved, state1, path1) =>
      if solved then
        some (true, state1.undoMove move, (state1.undoMove move).toString :: path1)
      else solveLoop rec rest (state1.undoMove move) path1

/-- The function `solve_dfs(state, path)`: the returned `bool`, and the state
and the stack on return. -/
def solve_dfs : Nat → State → List String → Option (Bool × State × List String)
  | 0, _, _ => none
  | fuel + 1, state, path =>
    if state.isGoalState then some (true, state, state.toString :: path)
    else solveLoop (fun s p => solve_dfs fuel s p) state.moves state path

/-- The function `solve(N)`: the stack that `solve_dfs` leaves. -/
def solve (fuel : Nat) (N : Nat) : Option (List String) :=
  (solve_dfs fuel (State.new N) []).map (fun r => r.2.2)

/-- One move of the puzzle as `moves()` lists it: `t` is `s` after
`applyMove(m)` for an offset `m` of `s.moves()`. -/
def Move (s t : State) : Prop := ∃ m ∈ s.moves, t = s.applyMove m

/-- The states whose `board` and `iEmpty` agree with each other and with `N`:
the board has `2 * N + 1` cells and its cell `iEmpty` holds the blank. -/
def State.Wf (s : State) : Prop :=
  s.board.length = 2 * s.N + 1 ∧ s.iEmpty < s.board.length ∧ s.board.getD s.iEmpty ' ' = '_'

end Bonus1

/-! ## Tic-tac-toe with alpha-beta pruning (hw4/main.cpp) -/

namespace Hw4

/-- The constant `MIN = std::numeric_limits<int>::min()`. -/
def MIN : Int := -2147483648

/-- The constant `MAX = std::numeric_limits<int>::max()`. -/
def MAX : Int := 2147483647

def X : Char := 'X'

def O : Char := 'O'

def EMPTY : Char := '_'

/-- The constant `Board::SIZE`. -/
def SIZE : Nat := 3

/-- The conversion of a value to the 32-bit `int`: the value modulo `2^32`
in the range `MIN .. MAX`. -/
def toInt32 (x : Int) : Int := (x + 2147483648) % 4294967296 - 2147483648

/-- The data members of the class `Board`: the array `char board[3][3]` laid
out row by row (the cell `board[r][c]` is the entry `3 * r + c`), and the
64-bit `size_t emptyCount`. -/
structure Board where
  board : List Char
  emptyCount : Nat
deriving DecidableEq

/-- The constructor `Board()`: nine empty cells, `emptyCount = SIZE * SIZE`. -/
def Board.new : Board :=
  { board := List.replicate (SIZE * SIZE) EMPTY, emptyCount := SIZE * SIZE }

/-- The read `board[r][c]`. -/
def Board.cell (b : Board) (r c : Nat) : Char := b.board.getD (SIZE * r + c) ' '

/-- The method `Board::move(ch, r, c)`: the returned `bool` and the board
after the call; `--emptyCount` wraps at `2^64`. -/
def Board.move (b : Board) (ch : Char) (r c : Nat) : Bool × Board :=
  if r ≥ SIZE || c ≥ SIZE || b.cell r c != EMPTY then (false, b)
  else (true, { board := b.board.set (SIZE * r + c) ch,
                emptyCount := (b.emptyCount + 18446744073709551616 - 1) % 18446744073709551616 })

/-- The method `Board::successors(ch)`: the rows in order, in each row the
columns in order, a copy of the board is moved on and kept when the move
succeeds. -/
def Board.successors (b : Board) (ch : Char) : List Board :=
  (List.range SIZE).flatMap fun r =>
    (List.range SIZE).filterMap fun c =>
      if (b.move ch r c).1 then some (b.move ch r c).2 else none

/-- The table `Board::winnings`. -/
def winnings : List (List (Nat × Nat)) :=
  [[(0, 0), (0, 1), (0, 2)],
   [(1, 0), (1, 1), (1, 2)],
   [(2, 0), (2, 1), (2, 2)],
   [(0, 0), (1, 0), (2, 0)],
   [(0, 1), (1, 1), (2, 1)],
   [(0, 2), (1, 2), (2, 2)],
   [(0, 0), (1, 1), (2, 2)],
   [(0, 2), (1, 1), (2, 0)]]

/-- The method `Board::isWinner(ch)`. -/
def Board.isWinner (b : Board) (ch : Char) : Bool :=
  winnings.any fun w => w.all fun p => b.cell p.1 p.2 == ch

/-- The method `Board::isFilled()`. -/
def Board.isFilled (b : Board) : Bool := b.emptyCount == 0

/-- The method `Board::isFinal()`. -/
def Board.isFinal (b : Board) : Bool := b.isWinner X || b.isWinner O || b.isFilled

/-- The data members `isComputerFirst`, `computerCh`, `playerCh` of the class
`Game` (its `board` member is not read by `min`, `max` and `finalScore`,
which take the board as an argument). -/
structure Game where
  isComputerFirst : Bool
  computerCh : Char
  playerCh : Char
deriving DecidableEq

/-- The constructor `Game(isComputerFirst)`. -/
def Game.new (isComputerFirst : Bool) : Game :=
  { isComputerFirst := isComputerFirst,
    computerCh := if isComputerFirst then X else O,
    playerCh := if isComputerFirst then O else X }

/-- The method `Game::finalScore(board)`: the sums are taken in `size_t`
(modulo `2^64`) and converted to the returned `int`. -/
def Game.finalScore (g : Game) (board : Board) : Int :=
  if board.isWinner g.computerCh then
    toInt32 ((1 + (board.emptyCount : Int)) % 18446744073709551616)
  else if board.isWinner g.playerCh then
    toInt32 ((-1 - (board.emptyCount : Int)) % 18446744073709551616)
  else 0

/-- The `for` loop of `Game::min` over the successors still to be visited;
`rec` is the call of `max`. -/
def minLoop (rec : Board → Int → Int → Option Int) :
    List Board → Int → Int → Int → Option Int
  | [], bestScore, _, _ => some bestScore
  | succ :: rest, bestScore, alpha, beta =>
    match rec succ alpha beta with
    | none => none
    | some v =>
      if min bestScore v ≤ alpha then some (min bestScore v)
      else minLoop rec rest (min bestScore v) alpha (min beta (min bestScore v))

/-- The `for` loop of `Game::max` over the successors still to be visited;
`rec` is the call of `min`. -/
def maxLoop (rec : Board → Int → Int → Option Int) :
    List Board → Int → Int → Int → Option Int
  | [], bestScore, _, _ => some bestScore
  | succ :: rest, bestScore, alpha, beta =>
    match rec succ alpha beta with
    | none => none
    | some v =>
      if max bestScore v ≥ beta then some (max bestScore v)
      else maxLoop rec rest (max bestScore v) (max alpha (max bestScore v)) beta

mutual
/-- The method `Game::min(board, alpha, beta)`; `none` when the fuel runs
out. -/
def Game.min (g : Game) : Nat → Board → Int → Int → Option Int
  | 0, _, _, _ => none
  | fuel + 1, board, alpha, beta =>
    if board.isFinal then some (g.finalScore board)
    else minLoop (fun b a be => Game.max g fuel b a be) (board.successors g.playerCh)
      MAX alpha beta
/-- The method `Game::max(board, alpha, beta)`; `none` when the fuel runs
out. -/
def Game.max (g : Game) : Nat → Board → Int → Int → Option Int
  | 0, _, _, _ => none
  | fuel + 1, board, alpha, beta =>
    if board.isFinal then some (g.finalScore board)
    else maxLoop (fun b a be => Game.min g fuel b a be) (board.successors g.computerCh)
      MIN alpha beta
end

/-- The minimum of the values `rec` gives the boards of a list, starting
from `best`. -/
def minimaxMinLoop (rec : Board → Option Int) : List Board → Int → Option Int
  | [], best => some best
  | succ :: rest, best =>
    match rec succ with
    | none => none
    | some v => minimaxMinLoop rec rest (min best v)

/-- The maximum of the values `rec` gives the boards of a list, starting
from `best`. -/
def minimaxMaxLoop (rec : Board → Option Int) : List Board → Int → Option Int
  | [], best => some best
  | succ :: rest, best =>
    match rec succ with
    | none => none
    | some v => minimaxMaxLoop rec rest (max best v)

mutual
/-- The plain minimax value of a board with the player to move, minimising:
the `finalScore` of a final board, else the minimum over all the successors
of their value with the computer to move; `none` when the fuel runs out. -/
def minimaxMin (g : Game) : Nat → Board → Option Int
  | 0, _ => none
  | fuel + 1, board =>
    if board.isFinal then some (g.finalScore board)
    else minimaxMinLoop (fun b => minimaxMax g fuel b) (board.successors g.playerCh) MAX
/-- The plain minimax value of a board with the computer to move,
maximising. -/
def minimaxMax (g : Game) : Nat → Board → Option Int
  | 0, _ => none
  | fuel + 1, board =>
    if board.isFinal then some (g.finalScore board)
    else minimaxMaxLoop (fun b => minimaxMin g fuel b) (board.successors g.computerCh) MIN
end

/-- The number of empty cells of the board. -/
def Board.countEmpty (b : Board) : Nat := b.board.count EMPTY

/-- The relation of the value `r` that a search with the window
`(alpha, beta)` returns to the plain minimax value `v`: at most `alpha` it
is an upper bound of `v`, inside the window it is `v`, and from `beta` on it
is a lower bound of `v`. -/
def FailSoft (v r alpha beta : Int) : Prop :=
  (r ≤ alpha → v ≤ r) ∧ (alpha < r → r < beta → v = r) ∧ (beta ≤ r → r ≤ v)

end Hw4

/-! ## N queens by minimum conflicts (hw2/main.cpp)

The values of type `int` of the source are modelled exactly (`Int`, and `Nat`
where the source only produces non-negative values and uses them as indices);
with `N < 2^30` none of the operations leaves the 32-bit range.  The random
engine is modelled by the sequence `rnd` of its outcomes and the number
`draws` of calls made so far. -/

namespace Hw2

/-- The function `randint(i, j)`, a number of `i .. j - 1`: the outcome of the
call number `k` is taken from `rnd k`. -/
def randint (rnd : Nat → Nat) (k : Nat) (i j : Nat) : Nat := i + rnd k % (j - i)

/-- The function `getRandomEl(arr)` as the call number `k` of `randint`. -/
def getRandomEl (rnd : Nat → Nat) (k : Nat) (arr : List Nat) : Nat :=
  arr.getD (randint rnd k 0 arr.length) 0

/-- The `for` loop of `findExtremaIndices` over the indices `i` still to be
visited, with the current `extrema` and `indices`. -/
def findExtremaLoop (arr : List Int) (dir : Int) : List Nat → Int → List Nat → List Nat
  | [], _, indices => indices
  | i :: rest, extrema, indices =>
    if (dir < 0 && arr.getD i 0 < extrema) || (dir > 0 && arr.getD i 0 > extrema) then
      findExtremaLoop arr dir rest (arr.getD i 0) [i]
    else if arr.getD i 0 = extrema then
      findExtremaLoop arr dir rest extrema (indices ++ [i])
    else findExtremaLoop arr dir rest extrema indices

/-- The function `findExtremaIndices(arr, dir)`. -/
def findExtremaIndices (arr : List Int) (dir : Int) : List Nat :=
  if arr.isEmpty then []
  else findExtremaLoop arr dir (List.range' 1 (arr.length - 1)) (arr.getD 0 0) [0]

/-- The function `findMaxIndices(arr)`. -/
def findMaxIndices (arr : List Int) : List Nat := findExtremaIndices arr 1

/-- The function `findMinIndices(arr)`. -/
def findMinIndices (arr : List Int) : List Nat := findExtremaIndices arr (-1)

/-- The data members of the class `Solver`, and the number `draws` of calls of
`randint` made so far. -/
structure Solver where
  N : Nat
  max_iter : Int
  iter : Int
  queens : List Nat
  queensPerRow : List Int
  queensPerDL : List Int
  queensPerDR : List Int
  draws : Nat
deriving DecidableEq

/-- The constructor `Solver(N)`. -/
def Solver.new (N : Nat) : Solver :=
  { N := N, max_iter := (N : Int) * 2, iter := 0,
    queens := List.replicate N 0,
    queensPerRow := List.replicate N 0,
    queensPerDL := List.replicate (2 * N - 1) 0,
    queensPerDR := List.replicate (2 * N - 1) 0,
    draws := 0 }

/-- The method `DLI(row, col)`. -/
def Solver.DLI (s : Solver) (row col : Nat) : Int := (row : Int) - col + s.N - 1

/-- The method `DRI(row, col)`. -/
def Solver.DRI (_s : Solver) (row col : Nat) : Int := (row : Int) + col

/-- The method `countConflicts(row, col)`. -/
def Solver.countConflicts (s : Solver) (row col : Nat) : Int :=
  let conflicts := s.queensPerRow.getD row 0 + s.queensPerDL.getD (s.DLI row col).toNat 0
    + s.queensPerDR.getD (s.DRI row col).toNat 0
  if row = s.queens.getD col 0 then conflicts - 3 else conflicts

/-- The method `resetConflicts()`. -/
def Solver.resetConflicts (s : Solver) : Solver :=
  { s with queensPerRow := List.replicate s.queensPerRow.length 0,
           queensPerDL := List.replicate s.queensPerDL.length 0,
           queensPerDR := List.replicate s.queensPerDR.length 0 }

/-- The method `updateConflicts(row, col, val)`. -/
def Solver.updateConflicts (s : Solver) (row col : Nat) (val : Int) : Solver :=
  { s with
    queensPerRow := s.queensPerRow.set row (s.queensPerRow.getD row 0 + val),
    queensPerDL := s.queensPerDL.set (s.DLI row col).toNat
      (s.queensPerDL.getD (s.DLI row col).toNat 0 + val),
    queensPerDR := s.queensPerDR.set (s.DRI row col).toNat
      (s.queensPerDR.getD (s.DRI row col).toNat 0 + val) }

/-- The method `placeQueen(col, row)`. -/
def Solver.placeQueen (s : Solver) (col row : Nat) : Solver :=
  Solver.updateConflicts { s with queens := s.queens.set col row } row col 1

/-- The method `moveQueen(col, newRow)`. -/
def Solver.moveQueen (s : Solver) (col newRow : Nat) : Solver :=
  (s.updateConflicts (s.queens.getD col 0) col (-1)).placeQueen col newRow

/-- The method `hasConflicts()`. -/
def Solver.hasConflicts (s : Solver) : Bool :=
  (List.range s.N).any fun col => s.countConflicts (s.queens.getD col 0) col != 0

/-- The method `getColWithQueenWithMaxConf()`: the column, and the solver
after the call of `randint`. -/
def Solver.getColWithQueenWithMaxConf (rnd : Nat → Nat) (s : Solver) : Nat × Solver :=
  let queensConflicts := (List.range s.N).map fun col =>
    s.countConflicts (s.queens.getD col 0) col
  let queensCols := findMaxIndices queensConflicts
  (getRandomEl rnd s.draws queensCols, { s with draws := s.draws + 1 })

/-- The method `getRowWithMinConflict(col)`: the row, and the solver after
the call of `randint`. -/
def Solver.getRowWithMinConflict (rnd : Nat → Nat) (s : Solver) (col : Nat) : Nat × Solver :=
  let conflictsOnRow := (List.range s.N).map fun row => s.countConflicts row col
  let rows := findMinIndices conflictsOnRow
  (getRandomEl rnd s.draws rows, { s with draws := s.draws + 1 })

/-- The `for` loop of `init_horseWalk` over the columns still to be visited,
with the current `row`. -/
def horseWalkLoop : List Nat → Nat → Solver → Solver
  | [], _, s => s
  | col :: rest, row, s =>
    horseWalkLoop rest ((if row ≥ s.N then 0 else row) + 2)
      (s.placeQueen col (if row ≥ s.N then 0 else row))

/-- The method `init_horseWalk()`. -/
def Solver.init_horseWalk (rnd : Nat → Nat) (s : Solver) : Solver :=
  horseWalkLoop (List.range s.N) (randint rnd s.draws 0 s.N) { s with draws := s.draws + 1 }

/-- The method `init()`. -/
def Solver.init (rnd : Nat → Nat) (s : Solver) : Solver := s.init_horseWalk rnd

/-- The method `reset()`. -/
def Solver.reset (s : Solver) : Solver := Solver.resetConflicts { s with iter := 0 }

/-- One pass through the body of the `do ... while` loop of `solve`, up to
the test of `hasConflicts()`. -/
def Solver.step (rnd : Nat → Nat) (s : Solver) : Solver :=
  let s1 := if s.iter = 0 then s.init rnd else s
  let col := (s1.getColWithQueenWithMaxConf rnd).1
  let s2 := (s1.getColWithQueenWithMaxConf rnd).2
  let row := (s2.getRowWithMinConflict rnd col).1
  let s3 := (s2.getRowWithMinConflict rnd col).2
  let s4 := s3.moveQueen col row
  let s5 := { s4 with iter := s4.iter + 1 }
  if s5.iter ≥ s5.max_iter then s5.reset else s5

/-- The `do ... while (hasConflicts())` loop of `solve`; `none` when the fuel
runs out. -/
def solveLoop (rnd : Nat → Nat) : Nat → Solver → Option Solver
  | 0, _ => none
  | fuel + 1, s =>
    if (s.step rnd).hasConflicts then solveLoop rnd fuel (s.step rnd) else some (s.step rnd)

/-- The method `Solver::solve()`. -/
def Solver.solve (rnd : Nat → Nat) (fuel : Nat) (s : Solver) : Option (List Nat) :=
  if s.N = 1 then some [0]
  else if s.N = 2 ∨ s.N = 3 then some []
  else (solveLoop rnd fuel s).map fun s1 => s1.queens

/-- The function `solve(N)`. -/
def solve (rnd : Nat → Nat) (fuel : Nat) (N : Nat) : Option (List Nat) :=
  (Solver.new N).solve rnd fuel

/-- The counters count the queens of the columns `cols`: the vectors have
their lengths, the queens of these columns stand in rows below `N`, and each
entry of `queensPerRow`, `queensPerDL`, `queensPerDR` is the number of these
columns whose queen is in that row or on that diagonal. -/
def Counted (cols : List Nat) (s : Solver) : Prop :=
  s.queens.length = s.N ∧ s.queensPerRow.length = s.N ∧
  s.queensPerDL.length = 2 * s.N - 1 ∧ s.queensPerDR.length = 2 * s.N - 1 ∧
  (∀ c ∈ cols, c < s.N ∧ s.queens.getD c 0 < s.N) ∧
  (∀ r, s.queensPerRow.getD r 0 = (cols.countP fun c => s.queens.getD c 0 = r : Nat)) ∧
  (∀ d, s.queensPerDL.getD d 0
    = (cols.countP fun c => (s.DLI (s.queens.getD c 0) c).toNat = d : Nat)) ∧
  (∀ d, s.queensPerDR.getD d 0
    = (cols.countP fun c => (s.DRI (s.queens.getD c 0) c).toNat = d : Nat))

/-- The state of the solver at the head of the loop of `solve`: `iter` is not
negative, and the counters are all zero when `iter` is zero and count the
queens of all the columns otherwise. -/
def LoopInv (N : Nat) (s : Solver) : Prop :=
  s.N = N ∧ 0 ≤ s.iter ∧ (if s.iter = 0 then Counted [] s else Counted (List.range N) s)

end Hw2

namespace Hw1

theorem isqrtAux_eq (x r : Nat) (hr : r * r ≤ x) (hlt : x < (r + 1) * (r + 1)) :
    ∀ k, r ≤ k → isqrtAux x k = r := by
  intro k
  induction k with
  | zero => intro h; have : r = 0 := by omega
            subst this; rfl
  | succ k ih =>
    intro h
    unfold isqrtAux
    by_cases hk : r = k + 1
    · subst hk; simp [hr]
    · have h1 : r ≤ k := by omega
      have h2 : (r + 1) * (r + 1) ≤ (k + 1) * (k + 1) := Nat.mul_le_mul (by omega) (by omega)
      have h3 : ¬ (k + 1) * (k + 1) ≤ x := by omega
      simp [h3, ih h1]

theorem isqrt_eq_sqrt (x : Nat) : isqrt x = Nat.sqrt x := by
  unfold isqrt
  apply isqrtAux_eq
  · exact Nat.sqrt_le x
  · exact Nat.lt_succ_sqrt x
  · exact Nat.sqrt_le_self x

theorem isqrt_sq_add_one (n : Nat) (hn : 1 ≤ n) : isqrt (n * n + 1) = n := by
  unfold isqrt
  apply isqrtAux_eq
  · omega
  · nlinarith
  · nlinarith

/-- Running the loop of `swap_indices` over the first `k` indices. -/
theorem swap_loop_succ (v : List Nat) (init : List Nat) (k : Nat) :
    (List.range (k + 1)).foldl (fun vnew i => vnew.set (v.getD i 0) i) init =
      ((List.range k).foldl (fun vnew i => vnew.set (v.getD i 0) i) init).set (v.getD k 0) k := by
  rw [List.range_succ, List.foldl_append]; rfl

theorem swap_loop_length (v : List Nat) (init : List Nat) (k : Nat) :
    ((List.range k).foldl (fun vnew i => vnew.set (v.getD i 0) i) init).length = init.length := by
  induction k with
  | zero => rfl
  | succ k ih => rw [swap_loop_succ, List.length_set, ih]

theorem swap_loop_get (v : List Nat) (init : List Nat) (hnd : v.Nodup)
    (hlt : ∀ x ∈ v, x < init.length) (k : Nat) (hk : k ≤ v.length) :
    ∀ i, i < k → ((List.range k).foldl (fun vnew i => vnew.set (v.getD i 0) i) init).getD
      (v.getD i 0) 0 = i := by
  induction k with
  | zero => intro i hi; omega
  | succ k ih =>
    intro i hi
    rw [swap_loop_succ]
    have hkl : k < v.length := by omega
    have hil : i < v.length := by omega
    by_cases hik : i = k
    · subst hik
      rw [List.getD_eq_getElem?_getD, List.getElem?_set_eq]
      · rfl
      · rw [swap_loop_length]
        apply hlt
        rw [List.getD_eq_getElem _ _ hil]
        exact List.getElem_mem _
    · have hne : v.getD k 0 ≠ v.getD i 0 := by
        rw [List.getD_eq_getElem _ _ hil, List.getD_eq_getElem _ _ hkl]
        intro h
        exact hik ((List.Nodup.getElem_inj_iff hnd).mp h).symm
      rw [List.getD_eq_getElem?_getD, List.getElem?_set_ne hne, ← List.getD_eq_getElem?_getD]
      exact ih (by omega) i (by omega)

theorem swap_indices_length (v : List Nat) : (swap_indices v).length = v.length := by
  unfold swap_indices
  rw [swap_loop_length, List.length_replicate]

theorem swap_indices_getD (v : List Nat) (hnd : v.Nodup) (hlt : ∀ x ∈ v, x < v.length)
    (i : Nat) (hi : i < v.length) : (swap_indices v).getD (v.getD i 0) 0 = i := by
  unfold swap_indices
  exact swap_loop_get v _ hnd (by simpa using hlt) v.length le_rfl i hi

end Hw1

namespace Hw1

theorem ValidBoard.length_eq {n : Nat} {b : List Nat} (h : ValidBoard n b) :
    b.length = n * n := by
  have := List.Perm.length_eq h
  simpa using this

theorem ValidBoard.nodup {n : Nat} {b : List Nat} (h : ValidBoard n b) : b.Nodup :=
  (List.Perm.nodup_iff h).mpr (List.nodup_range _)

theorem ValidBoard.mem_iff {n : Nat} {b : List Nat} (h : ValidBoard n b) (v : Nat) :
    v ∈ b ↔ v < n * n := by
  rw [List.Perm.mem_iff h, List.mem_range]

theorem ValidBoard.lt_length {n : Nat} {b : List Nat} (h : ValidBoard n b) :
    ∀ x ∈ b, x < b.length := by
  intro x hx
  rw [h.length_eq]
  exact (h.mem_iff x).mp hx

theorem validBoard_of_nodup {n : Nat} {b : List Nat} (hl : b.length = n * n) (hnd : b.Nodup)
    (hlt : ∀ x ∈ b, x < n * n) : ValidBoard n b := by
  apply List.Subperm.perm_of_length_le
  · apply List.subperm_of_subset hnd
    intro x hx
    exact List.mem_range.mpr (hlt x hx)
  · simp [hl]

theorem ValidBoard.indexOf_lt {n : Nat} {b : List Nat} (h : ValidBoard n b) {v : Nat}
    (hv : v < n * n) : b.indexOf v < n * n := by
  rw [← h.length_eq]
  exact List.indexOf_lt_length.mpr ((h.mem_iff v).mpr hv)

theorem ValidBoard.getD_indexOf {n : Nat} {b : List Nat} (h : ValidBoard n b) {v : Nat}
    (hv : v < n * n) : b.getD (b.indexOf v) 0 = v := by
  have hlt : b.indexOf v < b.length := List.indexOf_lt_length.mpr ((h.mem_iff v).mpr hv)
  rw [List.getD_eq_getElem _ _ hlt]
  exact List.getElem_indexOf hlt

theorem ValidBoard.getD_lt {n : Nat} {b : List Nat} (h : ValidBoard n b) {p : Nat}
    (hp : p < n * n) : b.getD p 0 < n * n := by
  have hlt : p < b.length := by rw [h.length_eq]; exact hp
  rw [List.getD_eq_getElem _ _ hlt]
  exact (h.mem_iff _).mp (List.getElem_mem _)

theorem ValidBoard.indexOf_getD {n : Nat} {b : List Nat} (h : ValidBoard n b) {p : Nat}
    (hp : p < n * n) : b.indexOf (b.getD p 0) = p := by
  have hlt : p < b.length := by rw [h.length_eq]; exact hp
  rw [List.getD_eq_getElem _ _ hlt]
  exact List.indexOf_getElem h.nodup p hlt

theorem ValidBoard.getD_inj {n : Nat} {b : List Nat} (h : ValidBoard n b) {p q : Nat}
    (hp : p < n * n) (hq : q < n * n) (he : b.getD p 0 = b.getD q 0) : p = q := by
  rw [← h.indexOf_getD hp, ← h.indexOf_getD hq, he]

/-- On a valid board the inverse index holds the position of each value. -/
theorem ValidBoard.inverse_index {n : Nat} {b : List Nat} (h : ValidBoard n b) {v : Nat}
    (hv : v < n * n) : (swap_indices b).getD v 0 = b.indexOf v := by
  have hlt : b.indexOf v < b.length := by rw [h.length_eq]; exact h.indexOf_lt hv
  have := Hw1.swap_indices_getD b h.nodup h.lt_length (b.indexOf v) hlt
  rwa [h.getD_indexOf hv] at this

theorem Grid.new_n {n : Nat} {b : List Nat} (hn : 1 ≤ n) (h : ValidBoard n b) :
    (Grid.new b).n = n := by
  simp only [Grid.new, h.length_eq]
  exact isqrt_sq_add_one n hn

theorem Grid.new_idx {n : Nat} {b : List Nat} (h : ValidBoard n b) {v : Nat}
    (hv : v < n * n) : (Grid.new b).idx v = b.indexOf v := by
  simp only [Grid.new, Grid.idx]
  exact h.inverse_index hv

theorem Grid.new_row {n : Nat} {b : List Nat} (hn : 1 ≤ n) (h : ValidBoard n b) {v : Nat}
    (hv : v < n * n) : (Grid.new b).row v = b.indexOf v / n := by
  have h1 := Grid.new_n hn h
  have h2 := Grid.new_idx h hv
  simp only [Grid.row, Grid.idx] at *
  rw [h1, h2]

theorem Grid.new_col {n : Nat} {b : List Nat} (hn : 1 ≤ n) (h : ValidBoard n b) {v : Nat}
    (hv : v < n * n) : (Grid.new b).col v = b.indexOf v % n := by
  have h1 := Grid.new_n hn h
  have h2 := Grid.new_idx h hv
  simp only [Grid.col, Grid.idx] at *
  rw [h1, h2]

/-! ### `swapAt` -/

theorem swapAt_length (v : List Nat) (a b : Nat) : (swapAt v a b).length = v.length := by
  simp [swapAt]

theorem swapAt_getD (v : List Nat) {a b : Nat} (ha : a < v.length) (hb : b < v.length)
    (p : Nat) : (swapAt v a b).getD p 0 =
      if p = b then v.getD a 0 else if p = a then v.getD b 0 else v.getD p 0 := by
  unfold swapAt
  simp only [List.getD_eq_getElem?_getD, List.getElem?_set, List.length_set]
  by_cases h1 : b = p
  · subst h1; simp [hb]
  · by_cases h2 : a = p
    · subst h2; simp [h1, ha, Ne.symm h1]
    · simp [h1, h2, Ne.symm h1, Ne.symm h2]

theorem swapAt_valid {n : Nat} {v : List Nat} (h : ValidBoard n v) {a b : Nat}
    (ha : a < n * n) (hb : b < n * n) : ValidBoard n (swapAt v a b) := by
  have hl := h.length_eq
  have ha1 : a < v.length := by omega
  have hb1 : b < v.length := by omega
  apply validBoard_of_nodup
  · rw [swapAt_length, hl]
  · rw [List.nodup_iff_injective_getElem]
    intro ⟨p, hp⟩ ⟨q, hq⟩ hpq
    rw [swapAt_length] at hp hq
    simp only at hpq
    have e1 := swapAt_getD v ha1 hb1 p
    have e2 := swapAt_getD v ha1 hb1 q
    rw [List.getD_eq_getElem _ _ (by rw [swapAt_length]; exact hp)] at e1
    rw [List.getD_eq_getElem _ _ (by rw [swapAt_length]; exact hq)] at e2
    rw [hpq] at e1
    rw [e1] at e2
    have inj := fun x y (hx : x < n * n) (hy : y < n * n) => @ValidBoard.getD_inj n v h x y hx hy
    apply Fin.ext
    simp only
    split_ifs at e2 with c1 c2 c3 c4 c5 c6
    · omega
    · have := inj _ _ ha hb e2; omega
    · have := inj _ _ ha (by omega) e2; omega
    · have := inj _ _ hb ha e2; omega
    · omega
    · have := inj _ _ hb (by omega) e2; omega
    · have := inj _ _ (by omega) ha e2; omega
    · have := inj _ _ (by omega) hb e2; omega
    · exact inj _ _ (by omega) (by omega) e2
  · intro x hx
    obtain ⟨p, hp, rfl⟩ := List.getElem_of_mem hx
    rw [swapAt_length] at hp
    have e1 := swapAt_getD v ha1 hb1 p
    rw [List.getD_eq_getElem _ _ (by rw [swapAt_length]; exact hp)] at e1
    rw [e1]
    split_ifs
    · exact h.getD_lt ha
    · exact h.getD_lt hb
    · exact h.getD_lt (by omega)

end Hw1

namespace Hw1

theorem State.new_board (b : List Nat) (G : Grid) (m : String) : (State.new b G m).board = b := rfl
theorem State.new_goal (b : List Nat) (G : Grid) (m : String) : (State.new b G m).goal = G := rfl
theorem State.new_move (b : List Nat) (G : Grid) (m : String) : (State.new b G m).move = m := rfl
theorem State.new_toGrid (b : List Nat) (G : Grid) (m : String) :
    (State.new b G m).toGrid = Grid.new b := rfl

theorem successors_new {n : Nat} {b : List Nat} (hn : 1 ≤ n) (h : ValidBoard n b)
    (G : Grid) (m : String) :
    (State.new b G m).successors =
      (if b.indexOf 0 + n < n * n then
        [State.new (swapAt b (b.indexOf 0) (b.indexOf 0 + n)) G "up"] else []) ++
      ((if n ≤ b.indexOf 0 then
        [State.new (swapAt b (b.indexOf 0) (b.indexOf 0 - n)) G "down"] else []) ++
      ((if b.indexOf 0 % n + 1 < n then
        [State.new (swapAt b (b.indexOf 0) (b.indexOf 0 + 1)) G "left"] else []) ++
      (if 1 ≤ b.indexOf 0 % n then
        [State.new (swapAt b (b.indexOf 0) (b.indexOf 0 - 1)) G "right"] else []))) := by
  have h0 : 0 < n * n := Nat.mul_pos hn hn
  have hz := h.indexOf_lt h0
  have hrow : (State.new b G m).row 0 = b.indexOf 0 / n := Grid.new_row hn h h0
  have hcol : (State.new b G m).col 0 = b.indexOf 0 % n := Grid.new_col hn h h0
  have hidx : (State.new b G m).idx 0 = b.indexOf 0 := Grid.new_idx h h0
  have hnn : (State.new b G m).n = n := Grid.new_n hn h
  generalize b.indexOf 0 = z at *
  have hdm := Nat.div_add_mod z n
  have hmod : z % n < n := Nat.mod_lt _ hn
  have hdiv : z / n < n := Nat.div_lt_of_lt_mul hz
  have hq : n * (z / n) + n ≤ n * n := by
    have : n * (z / n + 1) ≤ n * n := Nat.mul_le_mul_left n hdiv
    rw [Nat.mul_add, Nat.mul_one] at this; exact this
  unfold State.successors moves
  simp only [List.filterMap_cons, List.filterMap_nil, hrow, hcol, hidx, hnn, Grid.idx2,
    State.new_goal, State.new_board]
  generalize hqd : z / n = q at *
  generalize hrd : z % n = r at *
  have hnq : n * q ≤ n * n := by omega
  have c1 : (((q : Int) + 1 ≥ 0 ∧ (q : Int) + 1 < n ∧ (r : Int) + 0 ≥ 0 ∧ (r : Int) + 0 < n)) ↔
      z + n < n * n := by
    constructor
    · rintro ⟨-, h2, -, -⟩
      have h2' : q + 1 < n := by omega
      have : n * (q + 1 + 1) ≤ n * n := Nat.mul_le_mul_left n h2'
      rw [Nat.mul_add, Nat.mul_add, Nat.mul_one] at this
      omega
    · intro h1
      have : q + 1 < n := by
        by_contra hc
        have : n * n ≤ n * (q + 1) := Nat.mul_le_mul_left n (by omega)
        rw [Nat.mul_add, Nat.mul_one] at this
        omega
      omega
  have c2 : (((q : Int) + -1 ≥ 0 ∧ (q : Int) + -1 < n ∧ (r : Int) + 0 ≥ 0 ∧ (r : Int) + 0 < n)) ↔
      n ≤ z := by
    constructor
    · rintro ⟨h1, -, -, -⟩
      have h1' : 1 ≤ q := by omega
      have : n * 1 ≤ n * q := Nat.mul_le_mul_left n h1'
      omega
    · intro h1
      have : 1 ≤ q := by
        by_contra hc
        have : q = 0 := by omega
        subst this
        omega
      omega
  have c3 : (((q : Int) + 0 ≥ 0 ∧ (q : Int) + 0 < n ∧ (r : Int) + 1 ≥ 0 ∧ (r : Int) + 1 < n)) ↔
      r + 1 < n := by omega
  have c4 : (((q : Int) + 0 ≥ 0 ∧ (q : Int) + 0 < n ∧ (r : Int) + -1 ≥ 0 ∧ (r : Int) + -1 < n)) ↔
      1 ≤ r := by omega
  have e1 : ((((q : Int) + 1) * n + ((r : Int) + 0)).toNat) = z + n := by
    have : (((q : Int) + 1) * n + ((r : Int) + 0)) = ((z + n : Nat) : Int) := by
      rw [← hdm]; push_cast; ring
    rw [this]; exact Int.toNat_natCast _
  have e2 : n ≤ z → ((((q : Int) + -1) * n + ((r : Int) + 0)).toNat) = z - n := by
    intro hle
    have : (((q : Int) + -1) * n + ((r : Int) + 0)) = ((z - n : Nat) : Int) := by
      rw [Nat.cast_sub hle, ← hdm]; push_cast; ring
    rw [this]; exact Int.toNat_natCast _
  have e3 : ((((q : Int) + 0) * n + ((r : Int) + 1)).toNat) = z + 1 := by
    have : (((q : Int) + 0) * n + ((r : Int) + 1)) = ((z + 1 : Nat) : Int) := by
      rw [← hdm]; push_cast; ring
    rw [this]; exact Int.toNat_natCast _
  have e4 : 1 ≤ r → ((((q : Int) + 0) * n + ((r : Int) + -1)).toNat) = z - 1 := by
    intro hle
    have hz1 : 1 ≤ z := by omega
    have : (((q : Int) + 0) * n + ((r : Int) + -1)) = ((z - 1 : Nat) : Int) := by
      rw [Nat.cast_sub hz1, ← hdm]; push_cast; ring
    rw [this]; exact Int.toNat_natCast _
  simp only [c1, c2, c3, c4, e1, e3]
  by_cases d1 : z + n < n * n <;> by_cases d2 : n ≤ z <;> by_cases d3 : r + 1 < n <;>
    by_cases d4 : 1 ≤ r <;> simp [d1, d2, d3, d4] <;>
    first
      | exact ⟨by rw [← e2 d2]; simp, by rw [← e4 d4]; simp⟩
      | (rw [← e2 d2]; simp)
      | (rw [← e4 d4]; simp)

end Hw1

namespace Hw1

theorem foldl_add_eq_sum {α : Type} (f : α → Int) (l : List α) (a : Int) :
    l.foldl (fun d i => d + f i) a = a + (l.map f).sum := by
  induction l generalizing a with
  | nil => simp
  | cons x xs ih => simp [ih, add_assoc]

theorem sum_map_range' (f : Nat → Int) (a k : Nat) :
    ((List.range' a k).map f).sum = ∑ v in Finset.Ico a (a + k), f v := by
  induction k with
  | zero => simp
  | succ k ih =>
    rw [List.range'_concat, List.map_append, List.sum_append, ih, ← Nat.add_assoc,
      Finset.sum_Ico_succ_top (by omega)]
    simp

theorem State.h_eq_foldl_sum (s : State) :
    s.h = ∑ v in Finset.Ico 1 (1 + (s.n * s.n - 1)),
      (|((s.row v : Nat) : Int) - ((s.goal.row v : Nat) : Int)| +
       |((s.col v : Nat) : Int) - ((s.goal.col v : Nat) : Int)|) := by
  unfold State.h
  rw [foldl_add_eq_sum, sum_map_range', zero_add]
  apply Finset.sum_congr rfl
  intro v _
  simp only [Int.natCast_natAbs]

theorem h_new_eq {n : Nat} {b g : List Nat} (hn : 1 ≤ n) (hb : ValidBoard n b)
    (hg : ValidBoard n g) (m : String) :
    (State.new b (Grid.new g) m).h = manhattan n b g := by
  rw [State.h_eq_foldl_sum]
  have hnn : (State.new b (Grid.new g) m).n = n := Grid.new_n hn hb
  have h0 : 0 < n * n := Nat.mul_pos hn hn
  rw [hnn, show 1 + (n * n - 1) = n * n by omega]
  unfold manhattan
  apply Finset.sum_congr rfl
  intro v hv
  rw [Finset.mem_Ico] at hv
  have r1 : (State.new b (Grid.new g) m).row v = b.indexOf v / n := Grid.new_row hn hb hv.2
  have r2 : (State.new b (Grid.new g) m).col v = b.indexOf v % n := Grid.new_col hn hb hv.2
  have r3 : (State.new b (Grid.new g) m).goal.row v = g.indexOf v / n := Grid.new_row hn hg hv.2
  have r4 : (State.new b (Grid.new g) m).goal.col v = g.indexOf v % n := Grid.new_col hn hg hv.2
  rw [r1, r2, r3, r4]

end Hw1

namespace Hw1

theorem map_getD_range' (b : List Nat) (i : Nat) :
    (List.range' i (b.length - i)).map (fun j => b.getD j 0) = b.drop i := by
  apply List.ext_getElem
  · simp
  · intro k h1 h2
    simp only [List.length_drop] at h2
    simp only [List.getElem_map, List.getElem_range', List.getElem_drop, one_mul]
    rw [List.getD_eq_getElem _ _ (by omega)]

theorem inner_foldl_eq (b : List Nat) (x : Nat) (l : List Nat) (acc : Nat) :
    l.foldl (fun inversions j =>
        if b.getD j 0 = 0 then inversions
        else if x > b.getD j 0 then inversions + 1
        else inversions) acc =
      acc + (l.map (fun j => b.getD j 0)).countP (fun y => decide (y ≠ 0 ∧ y < x)) := by
  induction l generalizing acc with
  | nil => simp
  | cons j js ih =>
    rw [List.foldl_cons, ih, List.map_cons, List.countP_cons]
    generalize b.getD j 0 = v
    generalize List.countP _ _ = c
    by_cases h0 : v = 0
    · simp [h0]
    · by_cases h1 : x > v
      · simp [h0, h1]; omega
      · simp [h0, h1]

/-- Blank-aware inversion count read off a board from the front. -/
theorem outer_foldl_eq (k : Nat) (t : Nat → Nat) (acc : Nat)
    (step : Nat → Nat → Nat) (hstep : ∀ a i, step a i = a + t i) :
    (List.range k).foldl step acc = acc + ((List.range k).map t).sum := by
  induction k with
  | zero => simp
  | succ k ih =>
    rw [List.range_succ, List.foldl_append, ih, List.map_append, List.sum_append]
    simp only [List.foldl_cons, List.foldl_nil, hstep, List.map_cons, List.map_nil,
      List.sum_cons, List.sum_nil]
    omega

theorem inversions_eq_sum (s : Grid) :
    s.inversions = ((List.range (s.board.length - 1)).map (fun i =>
      if s.board.getD i 0 = 0 then 0
      else (s.board.drop i).countP (fun y => decide (y ≠ 0 ∧ y < s.board.getD i 0)))).sum := by
  unfold Grid.inversions
  rw [outer_foldl_eq _ (fun i =>
      if s.board.getD i 0 = 0 then 0
      else (s.board.drop i).countP (fun y => decide (y ≠ 0 ∧ y < s.board.getD i 0))) 0]
  · simp
  · intro a i
    by_cases h0 : s.board.getD i 0 = 0
    · simp only [h0, if_true, add_zero]
    · simp only [h0, if_false]
      rw [inner_foldl_eq, map_getD_range']

theorem sum_terms_eq_inv_tiles (b : List Nat) :
    ((List.range (b.length - 1)).map (fun i =>
      if b.getD i 0 = 0 then 0
      else (b.drop i).countP (fun y => decide (y ≠ 0 ∧ y < b.getD i 0)))).sum = inv (tiles b) := by
  induction b with
  | nil => rfl
  | cons x xs ih =>
    cases xs with
    | nil =>
      by_cases hx : x = 0 <;> simp [tiles, inv, hx]
    | cons y ys =>
      have hlen : (x :: y :: ys).length - 1 = ((y :: ys).length - 1) + 1 := by simp
      rw [hlen, List.range_succ_eq_map, List.map_cons, List.sum_cons, List.map_map]
      have hrest : (List.map ((fun i =>
          if (x :: y :: ys).getD i 0 = 0 then 0
          else ((x :: y :: ys).drop i).countP
            (fun z => decide (z ≠ 0 ∧ z < (x :: y :: ys).getD i 0))) ∘ Nat.succ)
          (List.range ((y :: ys).length - 1))) =
          (List.map (fun i =>
          if (y :: ys).getD i 0 = 0 then 0
          else ((y :: ys).drop i).countP
            (fun z => decide (z ≠ 0 ∧ z < (y :: ys).getD i 0)))
          (List.range ((y :: ys).length - 1))) := by
        apply List.map_congr_left
        intro i _
        simp
      rw [hrest, ih]
      by_cases hx : x = 0
      · subst hx
        simp [tiles, List.filter_cons]
      · have ht : tiles (x :: y :: ys) = x :: tiles (y :: ys) := by
          simp [tiles, List.filter_cons, hx]
        rw [ht, inv]
        congr 1
        simp only [List.getD_cons_zero, hx, if_false, List.drop_zero]
        rw [List.countP_cons]
        simp only [lt_irrefl, and_false, decide_False, Bool.false_eq_true, if_false, add_zero]
        unfold tiles
        rw [List.countP_filter]
        apply List.countP_congr
        intro z _
        simp [and_comm]

/-- The loop of `inversions()` counts the inversions of the tile sequence. -/
theorem inversions_eq_inv_tiles (s : Grid) : s.inversions = inv (tiles s.board) := by
  rw [inversions_eq_sum, sum_terms_eq_inv_tiles]

end Hw1

namespace Hw1

theorem inv_append_singleton (l : List Nat) (y : Nat) :
    inv (l ++ [y]) = inv l + l.countP (fun x => decide (y < x)) := by
  induction l with
  | nil => simp [inv]
  | cons x xs ih =>
    simp only [List.cons_append, inv, ih, List.countP_append, List.countP_cons,
      List.countP_nil]
    by_cases h : y < x <;> simp [h] <;> omega

theorem countP_eq_card_range (l : List Nat) (p : Nat → Bool) :
    l.countP p = ((Finset.range l.length).filter (fun i => p (l.getD i 0) = true)).card := by
  induction l using List.reverseRecOn with
  | nil => simp
  | append_singleton l y ih =>
    rw [List.countP_append, ih, List.length_append, List.length_singleton,
      Finset.range_succ, Finset.filter_insert]
    have h1 : (Finset.range l.length).filter (fun i => p ((l ++ [y]).getD i 0) = true) =
        (Finset.range l.length).filter (fun i => p (l.getD i 0) = true) := by
      apply Finset.filter_congr
      intro i hi
      rw [Finset.mem_range] at hi
      rw [List.getD_append _ _ _ _ hi]
    have h2 : (l ++ [y]).getD l.length 0 = y := by
      rw [List.getD_append_right _ _ _ _ (le_refl _)]; simp
    rw [h1, h2]
    by_cases hy : p y = true
    · rw [if_pos hy, Finset.card_insert_of_not_mem (by simp)]
      simp [hy]
    · rw [if_neg hy]
      simp [hy]

theorem inversionPairs_append_singleton (l : List Nat) (y : Nat) :
    inversionPairs (l ++ [y]) = inversionPairs l +
      (if y = 0 then 0 else l.countP (fun x => decide (x ≠ 0 ∧ y < x))) := by
  unfold inversionPairs
  rw [List.length_append, List.length_singleton]
  set P : List Nat → Nat × Nat → Prop := fun b p =>
    p.1 < p.2 ∧ b.getD p.1 0 ≠ 0 ∧ b.getD p.2 0 ≠ 0 ∧ b.getD p.1 0 > b.getD p.2 0 with hP
  have split : (Finset.range (l.length + 1) ×ˢ Finset.range (l.length + 1)).filter (P (l ++ [y])) =
      ((Finset.range l.length ×ˢ Finset.range l.length).filter (P l)) ∪
      (((Finset.range l.length).filter (fun i => l.getD i 0 ≠ 0 ∧ y ≠ 0 ∧ l.getD i 0 > y)).image
        (fun i => (i, l.length))) := by
    ext ⟨i, j⟩
    simp only [Finset.mem_filter, Finset.mem_product, Finset.mem_range, Finset.mem_union,
      Finset.mem_image, Prod.mk.injEq, hP]
    have hy : (l ++ [y]).getD l.length 0 = y := by
      rw [List.getD_append_right _ _ _ _ (le_refl _)]; simp
    constructor
    · rintro ⟨⟨hi, hj⟩, hij, c1, c2, c3⟩
      by_cases hjl : j < l.length
      · left
        have hil : i < l.length := by omega
        rw [List.getD_append _ _ _ _ hil] at c1 c3
        rw [List.getD_append _ _ _ _ hjl] at c2 c3
        exact ⟨⟨hil, hjl⟩, hij, c1, c2, c3⟩
      · right
        have hje : j = l.length := by omega
        subst hje
        rw [hy] at c2 c3
        rw [List.getD_append _ _ _ _ hij] at c1 c3
        exact ⟨i, ⟨hij, c1, c2, c3⟩, rfl, rfl⟩
    · rintro (⟨⟨hi, hj⟩, hij, c1, c2, c3⟩ | ⟨a, ⟨ha, c1, c2, c3⟩, rfl, rfl⟩)
      · rw [List.getD_append _ _ _ _ hi, List.getD_append _ _ _ _ hj]
        exact ⟨⟨by omega, by omega⟩, hij, c1, c2, c3⟩
      · rw [hy, List.getD_append _ _ _ _ ha]
        exact ⟨⟨by omega, by omega⟩, ha, c1, c2, c3⟩
  have hdisj : Disjoint ((Finset.range l.length ×ˢ Finset.range l.length).filter (P l))
      (((Finset.range l.length).filter (fun i => l.getD i 0 ≠ 0 ∧ y ≠ 0 ∧ l.getD i 0 > y)).image
        (fun i => (i, l.length))) := by
    rw [Finset.disjoint_left]
    rintro ⟨i, j⟩ h1 h2
    simp only [Finset.mem_filter, Finset.mem_product, Finset.mem_range, Finset.mem_image,
      Prod.mk.injEq] at h1 h2
    obtain ⟨a, -, -, rfl⟩ := h2
    omega
  rw [split, Finset.card_union_of_disjoint hdisj, Finset.card_image_of_injective _
    (fun a b hab => by simpa using hab)]
  congr 1
  by_cases hy0 : y = 0
  · simp [hy0]
  · rw [if_neg hy0, countP_eq_card_range]
    congr 1
    apply Finset.filter_congr
    intro i _
    simp [hy0]

theorem inv_tiles_append_singleton (l : List Nat) (y : Nat) :
    inv (tiles (l ++ [y])) = inv (tiles l) +
      (if y = 0 then 0 else l.countP (fun x => decide (x ≠ 0 ∧ y < x))) := by
  unfold tiles
  rw [List.filter_append]
  by_cases hy0 : y = 0
  · simp [hy0]
  · have : List.filter (fun y => decide (y ≠ 0)) [y] = [y] := by simp [hy0]
    rw [this, inv_append_singleton, if_neg hy0, List.countP_filter]
    congr 1
    apply List.countP_congr
    intro x _
    simp [and_comm]

/-- The pair count of the spec equals the inversions of the tile sequence. -/
theorem inversionPairs_eq_inv_tiles (b : List Nat) : inversionPairs b = inv (tiles b) := by
  induction b using List.reverseRecOn with
  | nil => rfl
  | append_singleton l y ih =>
    rw [inversionPairs_append_singleton, inv_tiles_append_singleton, ih]

theorem inversions_eq_inversionPairs (s : Grid) : s.inversions = inversionPairs s.board := by
  rw [inversions_eq_inv_tiles, inversionPairs_eq_inv_tiles]

end Hw1

namespace Hw1

/-- State of the loop filling `goalBoard` after the first `k` iterations. -/
theorem goalBoard_loop (size : Nat) (I : Int) (k : Nat) (hk : k ≤ size) :
    (List.range k).foldl (fun (acc : List Nat × Nat) (i : Nat) =>
      if (i : Int) = I then (acc.1.set i 0, acc.2)
      else (acc.1.set i acc.2, acc.2 + 1)) (List.replicate size 0, 1) =
    ((List.range k).map (goalEntry I) ++ List.replicate (size - k) 0,
     if 0 ≤ I ∧ I < k then k else k + 1) := by
  induction k with
  | zero =>
    have : ¬ (0 ≤ I ∧ I < ((0 : Nat) : Int)) := by omega
    rw [if_neg this]
    simp
  | succ k ih =>
    rw [List.range_succ, List.foldl_append, ih (by omega)]
    simp only [List.foldl_cons, List.foldl_nil, List.map_append, List.map_cons, List.map_nil]
    have hrep : List.replicate (size - k) 0 = 0 :: List.replicate (size - (k + 1)) 0 := by
      rw [show size - k = (size - (k + 1)) + 1 by omega, List.replicate_succ]
    have hset : ∀ x : Nat,
        (List.map (goalEntry I) (List.range k) ++ List.replicate (size - k) 0).set k x =
        List.map (goalEntry I) (List.range k) ++ x :: List.replicate (size - (k + 1)) 0 := by
      intro x
      rw [List.set_append_right _ _ (by simp), hrep]
      simp
    by_cases h1 : (k : Int) = I
    · simp only [h1, if_true, hset]
      have : (0 ≤ I ∧ I < ((k + 1 : Nat) : Int)) := by omega
      have h2 : ¬ (0 ≤ I ∧ I < I) := by omega
      simp [this, h2, goalEntry, h1]
    · simp only [h1, if_false, hset]
      by_cases h2 : 0 ≤ I ∧ I < k
      · have h3 : (0 ≤ I ∧ I < ((k + 1 : Nat) : Int)) := by omega
        rw [if_pos h2, if_pos h3]
        simp [h2, goalEntry, h1]
      · have h3 : ¬ (0 ≤ I ∧ I < ((k + 1 : Nat) : Int)) := by omega
        rw [if_neg h2, if_neg h3]
        simp [h2, goalEntry, h1]

theorem goalBoard_eq_map (size : Nat) (I : Int) :
    goalBoard size I = (List.range size).map (goalEntry I) := by
  unfold goalBoard
  rw [goalBoard_loop size I size le_rfl]
  simp

theorem goalBoard_length (size : Nat) (I : Int) : (goalBoard size I).length = size := by
  rw [goalBoard_eq_map]; simp

theorem goalBoard_getD (size : Nat) (I : Int) (i : Nat) (hi : i < size) :
    (goalBoard size I).getD i 0 = goalEntry I i := by
  rw [goalBoard_eq_map, List.getD_eq_getElem _ _ (by simpa using hi)]
  simp

/-- The goal board with the blank at index `I`: tiles `1 .. I`, the blank,
tiles `I+1 .. size-1`. -/
theorem goalBoard_eq_append (size I : Nat) (hI : I < size) :
    goalBoard size (I : Int) = List.range' 1 I ++ 0 :: List.range' (I + 1) (size - 1 - I) := by
  apply List.ext_getElem
  · rw [goalBoard_length]; simp; omega
  · intro i h1 h2
    rw [goalBoard_length] at h1
    have := goalBoard_getD size I i h1
    rw [List.getD_eq_getElem _ _ (by rw [goalBoard_length]; exact h1)] at this
    rw [this]
    unfold goalEntry
    by_cases c1 : i < I
    · rw [List.getElem_append_left (by simpa using c1)]
      have : ¬ ((i : Int) = I) := by omega
      have h3 : ¬ (0 ≤ (I : Int) ∧ (I : Int) < i) := by omega
      simp only [this, h3, if_false, List.getElem_range']
      omega
    · rw [List.getElem_append_right (by simpa using c1)]
      by_cases c2 : i = I
      · subst c2; simp
      · have : ¬ ((i : Int) = I) := by omega
        have h3 : (0 ≤ (I : Int) ∧ (I : Int) < i) := by omega
        simp only [this, h3, if_false, and_self, if_true, List.length_range']
        rw [List.getElem_cons]
        have : ¬ (i - I = 0) := by omega
        simp only [this, dite_false, List.getElem_range']
        omega

theorem goalBoard_valid (n I : Nat) (hI : I < n * n) : ValidBoard n (goalBoard (n * n) I) := by
  apply validBoard_of_nodup (goalBoard_length _ _)
  · rw [goalBoard_eq_append _ _ hI]
    rw [List.nodup_append]
    refine ⟨List.nodup_range' _ _, ?_, ?_⟩
    · rw [List.nodup_cons]
      refine ⟨?_, List.nodup_range' _ _⟩
      rw [List.mem_range']
      rintro ⟨i, -, hi⟩
      omega
    · intro x hx hx2
      rw [List.mem_range'] at hx
      rw [List.mem_cons, List.mem_range'] at hx2
      omega
  · intro x hx
    rw [goalBoard_eq_append _ _ hI] at hx
    simp only [List.mem_append, List.mem_cons, List.mem_range'] at hx
    omega

theorem tiles_goalBoard (size I : Nat) (hI : I < size) :
    tiles (goalBoard size I) = List.range' 1 (size - 1) := by
  rw [goalBoard_eq_append _ _ hI]
  unfold tiles
  rw [List.filter_append, List.filter_cons]
  have f1 : ∀ a k, 1 ≤ a → List.filter (fun y => decide (y ≠ 0)) (List.range' a k) = List.range' a k := by
    intro a k ha
    rw [List.filter_eq_self]
    intro x hx
    rw [List.mem_range'] at hx
    simp; omega
  rw [f1 _ _ le_rfl, f1 _ _ (by omega)]
  simp only [ne_eq, not_true_eq_false, decide_False, Bool.false_eq_true, if_false]
  have e := List.range'_append_1 1 I (size - 1 - I)
  rw [show size - 1 - I + I = size - 1 by omega, Nat.add_comm 1 I] at e
  exact e

theorem inv_range' (a k : Nat) : inv (List.range' a k) = 0 := by
  induction k generalizing a with
  | zero => rfl
  | succ k ih =>
    rw [List.range'_succ, inv, ih, add_zero, List.countP_eq_zero]
    intro x hx
    rw [List.mem_range'] at hx
    simp; omega

end Hw1

namespace Hw1

theorem swapAt_indexOf {n : Nat} {b : List Nat} (h : ValidBoard n b) {z j : Nat}
    (hz : z < n * n) (hj : j < n * n) {v : Nat} (hv : v < n * n) :
    (swapAt b z j).indexOf v =
      if v = b.getD z 0 then j else if v = b.getD j 0 then z else b.indexOf v := by
  have hl := h.length_eq
  have hv' := swapAt_valid h hz hj
  have key : ∀ p, p < n * n → (swapAt b z j).getD p 0 = v → (swapAt b z j).indexOf v = p := by
    intro p hp he
    rw [← he]
    exact hv'.indexOf_getD hp
  have g := fun p => swapAt_getD b (a := z) (b := j) (by omega) (by omega) p
  by_cases c1 : v = b.getD z 0
  · rw [if_pos c1]
    apply key j hj
    rw [g j]; simp [c1]
  · rw [if_neg c1]
    by_cases c2 : v = b.getD j 0
    · rw [if_pos c2]
      apply key z hz
      rw [g z]
      by_cases hzj : z = j
      · subst hzj; simp [c2]
      · simp [hzj, c2]
    · rw [if_neg c2]
      apply key _ (h.indexOf_lt hv)
      rw [g]
      have e := h.getD_indexOf hv
      have n1 : b.indexOf v ≠ j := by
        intro hc; rw [hc] at e; exact c2 e.symm
      have n2 : b.indexOf v ≠ z := by
        intro hc; rw [hc] at e; exact c1 e.symm
      rw [if_neg n1, if_neg n2]
      exact e

theorem abs_succ_sub (a r : Int) :
    |a - r| ≤ |a + 1 - r| + 1 ∧ |a + 1 - r| ≤ |a - r| + 1 := by
  rcases abs_cases (a - r) with ⟨h1, _⟩ | ⟨h1, _⟩ <;>
  rcases abs_cases (a + 1 - r) with ⟨h2, _⟩ | ⟨h2, _⟩ <;>
  rw [h1, h2] <;> constructor <;> omega

theorem succ_div_mod {n a : Nat} (hn : 0 < n) (ha : a % n + 1 < n) :
    (a + 1) / n = a / n ∧ (a + 1) % n = a % n + 1 := by
  have h1 := Nat.div_add_mod a n
  have : a + 1 = n * (a / n) + (a % n + 1) := by omega
  constructor
  · rw [this, Nat.mul_add_div hn, Nat.div_eq_of_lt ha]; simp
  · rw [this, Nat.mul_add_mod, Nat.mod_eq_of_lt ha]

/-- Moving between neighbouring cells of the grid (row-major indices) changes
the distance to a fixed cell `(r, c)` by at most one. -/
theorem adj_dist {n z j : Nat} (r c : Int)
    (hadj : (j = z + n) ∨ (z = j + n) ∨ (j = z + 1 ∧ z % n + 1 < n) ∨ (z = j + 1 ∧ j % n + 1 < n)) :
    |((z / n : Nat) : Int) - r| + |((z % n : Nat) : Int) - c| ≤
      |((j / n : Nat) : Int) - r| + |((j % n : Nat) : Int) - c| + 1 := by
  have hn : 0 < n ∨ n = 0 := by omega
  rcases hn with hn | hn
  swap
  · subst hn
    rcases hadj with h | h | h | h
    · simp [h]
    · simp [h]
    · omega
    · omega
  rcases hadj with h | h | ⟨h, hc⟩ | ⟨h, hc⟩
  · subst h
    rw [Nat.add_div_right _ hn, Nat.add_mod_right, Nat.cast_add, Nat.cast_one]
    have := (abs_succ_sub ((z / n : Nat) : Int) r).1
    omega
  · subst h
    rw [Nat.add_div_right _ hn, Nat.add_mod_right, Nat.cast_add, Nat.cast_one]
    have := (abs_succ_sub ((j / n : Nat) : Int) r).2
    omega
  · subst h
    obtain ⟨e1, e2⟩ := succ_div_mod hn hc
    rw [e1, e2, Nat.cast_add, Nat.cast_one]
    have := (abs_succ_sub ((z % n : Nat) : Int) c).1
    omega
  · subst h
    obtain ⟨e1, e2⟩ := succ_div_mod hn hc
    rw [e1, e2, Nat.cast_add, Nat.cast_one]
    have := (abs_succ_sub ((j % n : Nat) : Int) c).2
    omega

end Hw1

namespace Hw1

theorem Adj.adj_symm {n z j : Nat} (h : Adj n z j) : Adj n j z := by
  unfold Adj at *
  omega

theorem Adj.ne {n z j : Nat} (hn : 1 ≤ n) (h : Adj n z j) : z ≠ j := by
  unfold Adj at h
  omega

theorem pred_mod {n z : Nat} (hn : 0 < n) (hz : 1 ≤ z % n) : (z - 1) % n + 1 = z % n := by
  have h1 := Nat.div_add_mod z n
  have hlt := Nat.mod_lt z hn
  have : z - 1 = n * (z / n) + (z % n - 1) := by omega
  rw [this, Nat.mul_add_mod, Nat.mod_eq_of_lt (by omega)]
  omega

theorem succ_lt_sq {n z : Nat} (hz : z < n * n) (hc : z % n + 1 < n) : z + 1 < n * n := by
  have hn : 0 < n := by omega
  have h1 := Nat.div_add_mod z n
  have hdiv : z / n < n := Nat.div_lt_of_lt_mul hz
  have : n * (z / n + 1) ≤ n * n := Nat.mul_le_mul_left n hdiv
  rw [Nat.mul_add, Nat.mul_one] at this
  omega

/-- The states returned by `successors()` on a valid board: the blank is
exchanged with a neighbouring cell. -/
theorem mem_successors {n : Nat} {b : List Nat} (hn : 1 ≤ n) (h : ValidBoard n b)
    (G : Grid) (m : String) (s : State) (hs : s ∈ (State.new b G m).successors) :
    ∃ j lbl, j < n * n ∧ Adj n (b.indexOf 0) j ∧ lbl ≠ "" ∧
      s = State.new (swapAt b (b.indexOf 0) j) G lbl := by
  have h0 : 0 < n * n := Nat.mul_pos hn hn
  have hz := h.indexOf_lt h0
  rw [successors_new hn h] at hs
  simp only [List.mem_append] at hs
  rcases hs with hs | hs | hs | hs
  · split_ifs at hs with c
    · rw [List.mem_singleton] at hs
      exact ⟨_, "up", c, Or.inl rfl, by decide, hs⟩
    · simp at hs
  · split_ifs at hs with c
    · rw [List.mem_singleton] at hs
      exact ⟨_, "down", by omega, Or.inr (Or.inl (by omega)), by decide, hs⟩
    · simp at hs
  · split_ifs at hs with c
    · rw [List.mem_singleton] at hs
      exact ⟨_, "left", succ_lt_sq hz c, Or.inr (Or.inr (Or.inl ⟨rfl, c⟩)), by decide, hs⟩
    · simp at hs
  · split_ifs at hs with c
    · rw [List.mem_singleton] at hs
      have := pred_mod (by omega : 0 < n) c
      have hlt := Nat.mod_lt (b.indexOf 0) (by omega : 0 < n)
      have hz1 : 1 ≤ b.indexOf 0 := by
        by_contra hc
        have : b.indexOf 0 = 0 := by omega
        rw [this] at c
        simp at c
      exact ⟨_, "right", by omega, Or.inr (Or.inr (Or.inr ⟨by omega, by omega⟩)), by decide, hs⟩
    · simp at hs

/-- Every neighbour of the blank yields a state of `successors()`. -/
theorem successors_of_adj {n : Nat} {b : List Nat} (hn : 1 ≤ n) (h : ValidBoard n b)
    (G : Grid) (m : String) {j : Nat} (hj : j < n * n) (hadj : Adj n (b.indexOf 0) j) :
    ∃ lbl, State.new (swapAt b (b.indexOf 0) j) G lbl ∈ (State.new b G m).successors := by
  rw [successors_new hn h]
  simp only [List.mem_append]
  rcases hadj with c | c | ⟨c, c'⟩ | ⟨c, c'⟩
  · refine ⟨"up", Or.inl ?_⟩
    subst c
    rw [if_pos hj]; exact List.mem_singleton.mpr rfl
  · refine ⟨"down", Or.inr (Or.inl ?_)⟩
    rw [if_pos (by omega), show b.indexOf 0 - n = j by omega]
    exact List.mem_singleton.mpr rfl
  · refine ⟨"left", Or.inr (Or.inr (Or.inl ?_))⟩
    subst c
    rw [if_pos c']; exact List.mem_singleton.mpr rfl
  · refine ⟨"right", Or.inr (Or.inr (Or.inr ?_))⟩
    have e := (succ_div_mod (by omega : 0 < n) c').2
    rw [← c] at e
    rw [if_pos (by omega), show b.indexOf 0 - 1 = j by omega]
    exact List.mem_singleton.mpr rfl

theorem step_iff {n : Nat} {b : List Nat} (hn : 1 ≤ n) (h : ValidBoard n b) (b' : List Nat) :
    Step b b' ↔ ∃ j, j < n * n ∧ Adj n (b.indexOf 0) j ∧ b' = swapAt b (b.indexOf 0) j := by
  constructor
  · rintro ⟨s, hs, rfl⟩
    obtain ⟨j, lbl, hj, hadj, -, rfl⟩ := mem_successors hn h _ _ s hs
    exact ⟨j, hj, hadj, rfl⟩
  · rintro ⟨j, hj, hadj, rfl⟩
    obtain ⟨lbl, hl⟩ := successors_of_adj hn h (Grid.new b) "" hj hadj
    exact ⟨_, hl, rfl⟩

theorem Step.step_valid {n : Nat} {b b' : List Nat} (hn : 1 ≤ n) (h : ValidBoard n b)
    (hs : Step b b') : ValidBoard n b' := by
  obtain ⟨j, hj, -, rfl⟩ := (step_iff hn h b').mp hs
  exact swapAt_valid h (h.indexOf_lt (Nat.mul_pos hn hn)) hj

theorem sum_le_of_one_diff {S : Finset Nat} {f f' : Nat → Int} {t : Nat} (ht : t ∈ S)
    (hne : ∀ v ∈ S, v ≠ t → f' v = f v) (hle : f' t ≤ f t + 1) :
    ∑ v in S, f' v ≤ ∑ v in S, f v + 1 := by
  rw [← Finset.add_sum_erase S f' ht, ← Finset.add_sum_erase S f ht]
  have : ∑ v in S.erase t, f' v = ∑ v in S.erase t, f v := by
    apply Finset.sum_congr rfl
    intro v hv
    rw [Finset.mem_erase] at hv
    exact hne v hv.2 hv.1
  rw [this]
  omega

/-- Consistency of the Manhattan sum: one blank move changes it by at most one. -/
theorem manhattan_swap_le {n : Nat} {b g : List Nat} (hn : 1 ≤ n) (h : ValidBoard n b)
    {j : Nat} (hj : j < n * n) (hadj : Adj n (b.indexOf 0) j) :
    manhattan n (swapAt b (b.indexOf 0) j) g ≤ manhattan n b g + 1 ∧
    manhattan n b g ≤ manhattan n (swapAt b (b.indexOf 0) j) g + 1 := by
  have h0 : 0 < n * n := Nat.mul_pos hn hn
  have hz := h.indexOf_lt h0
  have hbz : b.getD (b.indexOf 0) 0 = 0 := h.getD_indexOf h0
  have hne := hadj.ne hn
  have htj : b.getD j 0 ≠ 0 := by
    intro hc
    exact hne (h.getD_inj hz hj (by rw [hbz, hc]))
  have htlt : b.getD j 0 < n * n := h.getD_lt hj
  have hmem : b.getD j 0 ∈ Finset.Ico 1 (n * n) := by
    rw [Finset.mem_Ico]; omega
  have hidx : ∀ v ∈ Finset.Ico 1 (n * n), (swapAt b (b.indexOf 0) j).indexOf v =
      if v = b.getD j 0 then b.indexOf 0 else b.indexOf v := by
    intro v hv
    rw [Finset.mem_Ico] at hv
    rw [swapAt_indexOf h hz hj hv.2, hbz, if_neg (by omega)]
  have hother : ∀ v ∈ Finset.Ico 1 (n * n), v ≠ b.getD j 0 →
      (swapAt b (b.indexOf 0) j).indexOf v = b.indexOf v := by
    intro v hv hvt
    rw [hidx v hv, if_neg hvt]
  have hself : (swapAt b (b.indexOf 0) j).indexOf (b.getD j 0) = b.indexOf 0 := by
    rw [hidx _ hmem, if_pos rfl]
  have hold : b.indexOf (b.getD j 0) = j := h.indexOf_getD hj
  unfold manhattan
  constructor
  · apply sum_le_of_one_diff hmem
    · intro v hv hvt
      rw [hother v hv hvt]
    · rw [hself, hold]
      exact adj_dist _ _ hadj
  · apply sum_le_of_one_diff hmem
    · intro v hv hvt
      rw [hother v hv hvt]
    · rw [hself, hold]
      exact adj_dist _ _ hadj.adj_symm

theorem manhattan_nonneg (n : Nat) (b g : List Nat) : 0 ≤ manhattan n b g := by
  unfold manhattan
  apply Finset.sum_nonneg
  intro v _
  positivity

theorem manhattan_self (n : Nat) (b : List Nat) : manhattan n b b = 0 := by
  unfold manhattan
  simp

end Hw1

namespace Hw1

theorem State.h_nonneg (s : State) : 0 ≤ s.h := by
  rw [State.h_eq_foldl_sum]
  apply Finset.sum_nonneg
  intro v _
  positivity

theorem State.cost_eq (s : State) : s.cost = 1 := rfl

/-! ### Fuel -/

theorem searchLoop_mono (rec rec' : List State → Int → Option (Int × List State)) (g : Int)
    (hrec : ∀ p g1 r, rec p g1 = some r → rec' p g1 = some r) :
    ∀ (succs path : List State) (min : Int) (r : Int × List State),
      searchLoop rec g succs path min = some r → searchLoop rec' g succs path min = some r := by
  intro succs
  induction succs with
  | nil => intro path min r h; simpa [searchLoop] using h
  | cons succ rest ih =>
    intro path min r h
    unfold searchLoop at h ⊢
    by_cases hin : inPath path succ = true
    · rw [if_pos hin] at h ⊢
      exact ih _ _ _ h
    · rw [if_neg hin] at h ⊢
      cases hr : rec (path ++ [succ]) (g + succ.cost) with
      | none => rw [hr] at h; simp at h
      | some tp =>
        obtain ⟨t, path1⟩ := tp
        rw [hr] at h
        rw [hrec _ _ _ hr]
        simp only at h ⊢
        by_cases ht : t = FOUND
        · rw [if_pos ht] at h ⊢; exact h
        · rw [if_neg ht] at h ⊢
          exact ih _ _ _ h

theorem search_mono_succ : ∀ (fuel : Nat) (path : List State) (g bound : Int)
    (r : Int × List State), search fuel path g bound = some r →
    search (fuel + 1) path g bound = some r := by
  intro fuel
  induction fuel with
  | zero => intro path g bound r h; simp [search] at h
  | succ fuel ih =>
    intro path g bound r h
    rw [search] at h ⊢
    cases hl : path.getLast? with
    | none => rw [hl] at h; simp at h
    | some state =>
      rw [hl] at h
      simp only at h ⊢
      by_cases hf : g + state.h > bound
      · rw [if_pos hf] at h ⊢; exact h
      · rw [if_neg hf] at h ⊢
        by_cases hg : state.is_goal = true
        · rw [if_pos hg] at h ⊢; exact h
        · rw [if_neg hg] at h ⊢
          exact searchLoop_mono _ _ g (fun p g1 r hr => ih p g1 bound r hr) _ _ _ _ h

theorem search_mono {fuel fuel' : Nat} (hle : fuel ≤ fuel') {path : List State} {g bound : Int}
    {r : Int × List State} (h : search fuel path g bound = some r) :
    search fuel' path g bound = some r := by
  induction hle with
  | refl => exact h
  | step _ ih => exact search_mono_succ _ _ _ _ _ ih

theorem idaLoop_mono {sfuel sfuel' : Nat} (hs : sfuel ≤ sfuel') :
    ∀ (fuel fuel' : Nat), fuel ≤ fuel' → ∀ (path : List State) (bound : Int) (r : List State),
      idaLoop sfuel fuel path bound = some r → idaLoop sfuel' fuel' path bound = some r := by
  intro fuel
  induction fuel with
  | zero => intro fuel' _ path bound r h; simp [idaLoop] at h
  | succ fuel ih =>
    intro fuel' hle path bound r h
    obtain ⟨k, rfl⟩ : ∃ k, fuel' = k + 1 := ⟨fuel' - 1, by omega⟩
    rw [idaLoop] at h ⊢
    cases hr : search sfuel path 0 bound with
    | none => rw [hr] at h; simp at h
    | some tp =>
      obtain ⟨t, path1⟩ := tp
      rw [hr] at h
      rw [search_mono hs hr]
      simp only at h ⊢
      by_cases ht : t = FOUND
      · rw [if_pos ht] at h ⊢; exact h
      · rw [if_neg ht] at h ⊢
        by_cases hi : t = INF
        · rw [if_pos hi] at h ⊢; exact h
        · rw [if_neg hi] at h ⊢
          exact ih k (by omega) _ _ _ h

theorem ida_star_mono {fuel fuel' : Nat} (hle : fuel ≤ fuel') {root : State} {r : List State}
    (h : ida_star fuel root = some r) : ida_star fuel' root = some r :=
  idaLoop_mono hle fuel fuel' hle _ _ _ h

/-- The body of `solve` in terms of the root state it builds. -/
theorem solve_eq (fuel : Nat) (N I : Int) (board : List Nat) :
    solve fuel N I board =
      if (solveRoot N I board).is_solvable = false then some none
      else (ida_star fuel (solveRoot N I board)).map (fun path => some (pathMoves path)) := by
  unfold solve solveRoot solveGoal pathMoves
  simp only
  generalize (State.new board (Grid.new (goalBoard board.length (if I = -1 then N else I)))
    "") = root
  cases hs : root.is_solvable
  · simp
  · cases hr : ida_star fuel root <;> simp

theorem solve_mono {fuel fuel' : Nat} (hle : fuel ≤ fuel') {N I : Int} {board : List Nat}
    {r : Option (List String)} (h : solve fuel N I board = some r) :
    solve fuel' N I board = some r := by
  rw [solve_eq] at h ⊢
  by_cases hs : (solveRoot N I board).is_solvable = false
  · rw [if_pos hs] at h ⊢; exact h
  · rw [if_neg hs] at h ⊢
    cases hr : ida_star fuel (solveRoot N I board) with
    | none => rw [hr] at h; simp at h
    | some path =>
      rw [hr] at h
      rw [ida_star_mono hle hr]
      exact h

/-! ### Termination of `search` -/

theorem searchLoop_isSome (rec : List State → Int → Option (Int × List State)) (g : Int)
    (hrec : ∀ p (succ : State), p ≠ [] → (rec p (g + succ.cost)).isSome = true) :
    ∀ (succs path : List State) (min : Int), (searchLoop rec g succs path min).isSome = true := by
  intro succs
  induction succs with
  | nil => intro path min; simp [searchLoop]
  | cons succ rest ih =>
    intro path min
    unfold searchLoop
    by_cases hin : inPath path succ = true
    · rw [if_pos hin]; exact ih _ _
    · rw [if_neg hin]
      have := hrec (path ++ [succ]) succ (by simp)
      cases hr : rec (path ++ [succ]) (g + succ.cost) with
      | none => rw [hr] at this; simp at this
      | some tp =>
        obtain ⟨t, path1⟩ := tp
        simp only
        by_cases ht : t = FOUND
        · rw [if_pos ht]; rfl
        · rw [if_neg ht]; exact ih _ _

/-- Every call of `search` on a non-empty path returns: the recursion depth is
bounded by `bound + 1 - g`. -/
theorem search_isSome : ∀ (fuel : Nat) (path : List State) (g bound : Int),
    path ≠ [] → (bound + 1 - g).toNat + 1 ≤ fuel → (search fuel path g bound).isSome = true := by
  intro fuel
  induction fuel with
  | zero => intro path g bound _ h; omega
  | succ fuel ih =>
    intro path g bound hp hfuel
    rw [search]
    cases hl : path.getLast? with
    | none => rw [List.getLast?_eq_none_iff] at hl; exact absurd hl hp
    | some state =>
      simp only
      by_cases hf : g + state.h > bound
      · rw [if_pos hf]; rfl
      · rw [if_neg hf]
        by_cases hg : state.is_goal = true
        · rw [if_pos hg]; rfl
        · rw [if_neg hg]
          apply searchLoop_isSome
          intro p succ hp1
          have hh := state.h_nonneg
          apply ih p _ bound hp1
          rw [State.cost_eq]
          omega

end Hw1

namespace Hw1

theorem GoodState.eq_new {n : Nat} {gb : List Nat} {s : State} (h : GoodState n gb s) :
    s = State.new s.board (Grid.new gb) s.move := by
  obtain ⟨-, h2, h3⟩ := h
  cases s with
  | mk g goal move =>
    simp only at h2 h3
    simp only [State.new]
    rw [← h2, h3]

theorem GoodState.of_new {n : Nat} {gb b : List Nat} (h : ValidBoard n b) (m : String) :
    GoodState n gb (State.new b (Grid.new gb) m) :=
  ⟨h, rfl, rfl⟩

theorem GoodState.h_eq {n : Nat} {gb : List Nat} {s : State} (hn : 1 ≤ n)
    (hg : ValidBoard n gb) (h : GoodState n gb s) : s.h = manhattan n s.board gb := by
  rw [h.eq_new]
  exact h_new_eq hn h.1 hg _

theorem GoodState.is_goal_iff {n : Nat} {gb : List Nat} {s : State} (h : GoodState n gb s) :
    s.is_goal = true ↔ s.board = gb := by
  unfold State.is_goal
  rw [h.2.2]
  simp [Grid.new]

theorem GoodState.succ {n : Nat} {gb : List Nat} {s s' : State} (hn : 1 ≤ n)
    (h : GoodState n gb s) (hs : s' ∈ s.successors) :
    GoodState n gb s' ∧ s'.move ≠ "" ∧
      ∃ j, j < n * n ∧ Adj n (s.board.indexOf 0) j ∧
        s'.board = swapAt s.board (s.board.indexOf 0) j := by
  rw [h.eq_new] at hs
  obtain ⟨j, lbl, hj, hadj, hl, rfl⟩ := mem_successors hn h.1 _ _ s' hs
  refine ⟨GoodState.of_new (swapAt_valid h.1 (h.1.indexOf_lt (Nat.mul_pos hn hn)) hj) _, hl,
    j, hj, hadj, rfl⟩

theorem GoodState.h_succ_le {n : Nat} {gb : List Nat} {s s' : State} (hn : 1 ≤ n)
    (hg : ValidBoard n gb) (h : GoodState n gb s) (hs : s' ∈ s.successors) :
    s.h ≤ s'.h + 1 ∧ s'.h ≤ s.h + 1 := by
  obtain ⟨h', -, j, hj, hadj, hb⟩ := h.succ hn hs
  rw [h.h_eq hn hg, h'.h_eq hn hg, hb]
  have := manhattan_swap_le (g := gb) hn h.1 hj hadj
  exact ⟨this.2, this.1⟩

theorem GoodState.h_goal {n : Nat} {gb : List Nat} {s : State} (hn : 1 ≤ n)
    (hg : ValidBoard n gb) (h : GoodState n gb s) (hgoal : s.is_goal = true) : s.h = 0 := by
  rw [h.h_eq hn hg, h.is_goal_iff.mp hgoal, manhattan_self]

theorem PathInv.append_singleton {n : Nat} {gb : List Nat} {path : List State}
    {state succ : State} (hn : 1 ≤ n) (hp : PathInv n gb path)
    (hl : path.getLast? = some state) (hs : succ ∈ state.successors)
    (hin : inPath path succ = false) : PathInv n gb (path ++ [succ]) := by
  obtain ⟨h1, h2, h3⟩ := hp
  have hstate : state ∈ path := List.mem_of_getLast?_eq_some hl
  refine ⟨?_, ?_, ?_⟩
  · intro s hs'
    rw [List.mem_append, List.mem_singleton] at hs'
    rcases hs' with hs' | rfl
    · exact h1 s hs'
    · exact ((h1 state hstate).succ hn hs).1
  · rw [List.chain'_append]
    refine ⟨h2, List.chain'_singleton _, ?_⟩
    intro x hx y hy
    rw [hl] at hx
    simp only [Option.mem_def, Option.some.injEq] at hx
    simp only [List.head?_cons, Option.mem_def, Option.some.injEq] at hy
    subst hx hy
    exact hs
  · rw [List.map_append, List.nodup_append]
    refine ⟨h3, by simp, ?_⟩
    intro b hb hb'
    simp only [List.map_cons, List.map_nil, List.mem_singleton] at hb'
    subst hb'
    rw [List.mem_map] at hb
    obtain ⟨s, hs1, hs2⟩ := hb
    have : inPath path succ = true := by
      unfold inPath
      rw [List.any_eq_true]
      exact ⟨s, hs1, by simp [hs2]⟩
    rw [this] at hin
    exact Bool.noConfusion hin

theorem PathInv.head_of_ext {n : Nat} {gb : List Nat} {path e : List State} {state s1 : State}
    (hp : PathInv n gb (path ++ s1 :: e)) (hl : path.getLast? = some state) :
    s1 ∈ state.successors ∧ inPath path s1 = false := by
  obtain ⟨-, h2, h3⟩ := hp
  constructor
  · rw [List.chain'_append] at h2
    exact h2.2.2 state (by simp [hl]) s1 (by simp)
  · rw [List.map_append, List.nodup_append] at h3
    cases hc : inPath path s1 with
    | false => rfl
    | true =>
      exfalso
      unfold inPath at hc
      rw [List.any_eq_true] at hc
      obtain ⟨s, hs1, hs2⟩ := hc
      have hs2' : s.board = s1.board := by simpa using hs2
      exact h3.2.2 (List.mem_map.mpr ⟨s, hs1, rfl⟩) (by simp [hs2'])

/-- Manhattan admissibility along a path: the heuristic of a state is at most
the number of moves of any continuation that ends at the goal. -/
theorem admissible {n : Nat} {gb : List Nat} (hn : 1 ≤ n) (hg : ValidBoard n gb) :
    ∀ (e path : List State) (state : State), path.getLast? = some state →
      PathInv n gb (path ++ e) → EndsAtGoal (path ++ e) → state.h ≤ e.length := by
  intro e
  induction e with
  | nil =>
    intro path state hl hp hend
    rw [List.append_nil] at hp hend
    obtain ⟨s, hs1, hs2⟩ := hend
    rw [hl] at hs1
    simp only [Option.some.injEq] at hs1
    subst hs1
    have hgood := hp.1 state (List.mem_of_getLast?_eq_some hl)
    rw [hgood.h_goal hn hg hs2]
    simp
  | cons s1 e ih =>
    intro path state hl hp hend
    have hgood := hp.1 state (List.mem_append_left _ (List.mem_of_getLast?_eq_some hl))
    have hs1 := (hp.head_of_ext hl).1
    have hp' : PathInv n gb ((path ++ [s1]) ++ e) := by
      rw [List.append_assoc]; exact hp
    have hend' : EndsAtGoal ((path ++ [s1]) ++ e) := by
      rw [List.append_assoc]; exact hend
    have := ih (path ++ [s1]) s1 (by simp) hp' hend'
    have hc := (hgood.h_succ_le hn hg hs1).1
    simp only [List.length_cons, Nat.cast_add, Nat.cast_one]
    omega

theorem searchLoop_spec (rec : List State → Int → Option (Int × List State)) (g lo : Int)
    (path : List State) (Q : List State → Prop) (LB : State → Int → Prop)
    (hLB : ∀ s t t', LB s t → t' ≤ t → LB s t') :
    ∀ (succs : List State) (min t : Int) (p : List State),
      (∀ succ ∈ succs, inPath path succ = false → ∀ t1 p1,
        rec (path ++ [succ]) (g + succ.cost) = some (t1, p1) →
          (t1 = FOUND ∧ Q p1) ∨
          (0 ≤ t1 ∧ p1 = path ++ [succ] ∧ lo ≤ t1 ∧ LB succ t1)) →
      0 ≤ min → lo ≤ min →
      searchLoop rec g succs path min = some (t, p) →
      (t = FOUND ∧ Q p) ∨
      (0 ≤ t ∧ p = path ∧ lo ≤ t ∧ t ≤ min ∧
        ∀ succ ∈ succs, inPath path succ = false → LB succ t) := by
  intro succs
  induction succs with
  | nil =>
    intro min t p _ hmin hb h
    simp only [searchLoop, Option.some.injEq, Prod.mk.injEq] at h
    obtain ⟨rfl, rfl⟩ := h
    exact Or.inr ⟨hmin, rfl, hb, le_refl _, by simp⟩
  | cons succ rest ih =>
    intro min t p hrec hmin hb h
    unfold searchLoop at h
    by_cases hin : inPath path succ = true
    · rw [if_pos hin] at h
      rcases ih min t p (fun s hs => hrec s (List.mem_cons_of_mem _ hs)) hmin hb h with
        hF | ⟨h1, h2, h3, h4, h5⟩
      · exact Or.inl hF
      · refine Or.inr ⟨h1, h2, h3, h4, ?_⟩
        intro s hs hsin
        rw [List.mem_cons] at hs
        rcases hs with rfl | hs
        · rw [hin] at hsin; exact Bool.noConfusion hsin
        · exact h5 s hs hsin
    · rw [if_neg hin] at h
      have hin' : inPath path succ = false := by simpa using hin
      cases hr : rec (path ++ [succ]) (g + succ.cost) with
      | none => rw [hr] at h; simp at h
      | some tp =>
        obtain ⟨t1, p1⟩ := tp
        rw [hr] at h
        simp only at h
        rcases hrec succ (List.mem_cons_self _ _) hin' t1 p1 hr with
          ⟨hF, hQ⟩ | ⟨g1, g2, g3, g4⟩
        · rw [if_pos hF] at h
          simp only [Option.some.injEq, Prod.mk.injEq] at h
          obtain ⟨rfl, rfl⟩ := h
          exact Or.inl ⟨rfl, hQ⟩
        · have hnF : t1 ≠ FOUND := by unfold FOUND; omega
          rw [if_neg hnF, g2, List.dropLast_concat] at h
          have hmin' : 0 ≤ (if t1 < min then t1 else min) := by split_ifs <;> omega
          have hb' : lo ≤ (if t1 < min then t1 else min) := by
            split_ifs <;> omega
          rcases ih _ t p (fun s hs => hrec s (List.mem_cons_of_mem _ hs)) hmin' hb' h with
            hF | ⟨h1, h2, h3, h4, h5⟩
          · exact Or.inl hF
          · have hle : t ≤ min ∧ t ≤ t1 := by
              split_ifs at h4 <;> omega
            refine Or.inr ⟨h1, h2, h3, hle.1, ?_⟩
            intro s hs hsin
            rw [List.mem_cons] at hs
            rcases hs with rfl | hs
            · exact hLB _ _ _ g4 hle.2
            · exact h5 s hs hsin

/-- Frame and range of the value returned by `search`, for every call. -/
theorem search_frame : ∀ (fuel : Nat) (path : List State) (g bound t : Int) (p : List State),
    0 ≤ g → search fuel path g bound = some (t, p) →
    t = FOUND ∨ (0 ≤ t ∧ p = path ∧ min INF (bound + 1) ≤ t ∧
      (∀ s, path.getLast? = some s → g + s.h ≤ bound → t ≤ INF)) := by
  intro fuel
  induction fuel with
  | zero => intro path g bound t p _ h; simp [search] at h
  | succ fuel ih =>
    intro path g bound t p hg0 h
    rw [search] at h
    cases hl : path.getLast? with
    | none => rw [hl] at h; simp at h
    | some state =>
      rw [hl] at h
      simp only at h
      have hh := state.h_nonneg
      by_cases hf : g + state.h > bound
      · rw [if_pos hf] at h
        simp only [Option.some.injEq, Prod.mk.injEq] at h
        obtain ⟨rfl, rfl⟩ := h
        refine Or.inr ⟨by omega, rfl, ?_, ?_⟩
        · exact le_trans (min_le_right _ _) (by omega)
        · intro s hs hle
          simp only [Option.some.injEq] at hs
          subst hs
          omega
      · rw [if_neg hf] at h
        by_cases hgoal : state.is_goal = true
        · rw [if_pos hgoal] at h
          simp only [Option.some.injEq, Prod.mk.injEq] at h
          exact Or.inl h.1.symm
        · rw [if_neg hgoal] at h
          have key := searchLoop_spec (fun p g1 => search fuel p g1 bound) g
            (min INF (bound + 1)) path (fun _ => True) (fun _ _ => True)
            (fun _ _ _ _ _ => trivial)
            state.successors INF t p ?_ (by unfold INF; omega) (min_le_left _ _) h
          · rcases key with hF | ⟨h1, h2, h3, h4, -⟩
            · exact Or.inl hF.1
            · exact Or.inr ⟨h1, h2, h3, fun _ _ _ => h4⟩
          · intro succ _ _ t1 p1 hrec
            simp only [State.cost_eq] at hrec
            rcases ih (path ++ [succ]) (g + 1) bound t1 p1 (by omega) hrec with
              hF | ⟨h1, h2, h3, -⟩
            · exact Or.inl ⟨hF, trivial⟩
            · exact Or.inr ⟨h1, h2, h3, trivial⟩

end Hw1

namespace Hw1

/-- What `search` establishes on return, for every call on a well-formed path. -/
theorem search_spec {n : Nat} {gb : List Nat} (hn : 1 ≤ n) (hg : ValidBoard n gb) :
    ∀ (fuel : Nat) (path : List State) (g bound t : Int) (p : List State),
      PathInv n gb path → 0 ≤ g → search fuel path g bound = some (t, p) →
      SearchPost n gb bound path g t p := by
  intro fuel
  induction fuel with
  | zero => intro path g bound t p _ _ h; simp [search] at h
  | succ fuel ih =>
    intro path g bound t p hp hg0 h
    rw [search] at h
    cases hl : path.getLast? with
    | none => rw [hl] at h; simp at h
    | some state =>
      rw [hl] at h
      simp only at h
      have hstate : state ∈ path := List.mem_of_getLast?_eq_some hl
      have hgood := hp.1 state hstate
      have hh := state.h_nonneg
      by_cases hf : g + state.h > bound
      · rw [if_pos hf] at h
        simp only [Option.some.injEq, Prod.mk.injEq] at h
        obtain ⟨rfl, rfl⟩ := h
        refine Or.inr ⟨by omega, rfl, le_trans (min_le_right _ _) (by omega), ?_, ?_⟩
        · intro s hs hle
          rw [hl] at hs
          simp only [Option.some.injEq] at hs
          subst hs
          omega
        · intro e hpe hend
          have := admissible hn hg e path state hl hpe hend
          omega
      · rw [if_neg hf] at h
        by_cases hgoal : state.is_goal = true
        · rw [if_pos hgoal] at h
          simp only [Option.some.injEq, Prod.mk.injEq] at h
          obtain ⟨rfl, rfl⟩ := h
          refine Or.inl ⟨rfl, [], by simp, by simpa using hp, ?_, ?_⟩
          · rw [List.append_nil]; exact ⟨state, hl, hgoal⟩
          · simp only [List.length_nil, Nat.cast_zero, add_zero]; omega
        · rw [if_neg hgoal] at h
          have key := searchLoop_spec (fun p g1 => search fuel p g1 bound) g
            (min INF (bound + 1)) path
            (fun p => ∃ e, p = path ++ e ∧ PathInv n gb (path ++ e) ∧ EndsAtGoal (path ++ e) ∧
              g + e.length ≤ bound)
            (fun succ t => ∀ e, PathInv n gb (path ++ succ :: e) →
              EndsAtGoal (path ++ succ :: e) → t ≤ g + 1 + e.length)
            (fun s t t' hLB hle e h1 h2 => le_trans hle (hLB e h1 h2))
            state.successors INF t p ?_ (by unfold INF; omega) (min_le_left _ _) h
          · rcases key with hF | ⟨h1, h2, h3, h4, h5⟩
            · exact Or.inl hF
            · refine Or.inr ⟨h1, h2, h3, fun _ _ _ => h4, ?_⟩
              intro e hpe hend
              cases e with
              | nil =>
                exfalso
                rw [List.append_nil] at hend
                obtain ⟨s, hs1, hs2⟩ := hend
                rw [hl] at hs1
                simp only [Option.some.injEq] at hs1
                subst hs1
                exact hgoal hs2
              | cons s1 e =>
                obtain ⟨hs1, hin⟩ := hpe.head_of_ext hl
                have := h5 s1 hs1 hin e hpe hend
                simp only [List.length_cons, Nat.cast_add, Nat.cast_one]
                omega
          · intro succ hsucc hin t1 p1 hrec
            have hp1 := hp.append_singleton hn hl hsucc hin
            simp only [State.cost_eq] at hrec
            rcases ih (path ++ [succ]) (g + 1) bound t1 p1 hp1 (by omega) hrec with
              ⟨hF, e, he1, he2, he3, he4⟩ | ⟨h1, h2, h3, -, h4⟩
            · refine Or.inl ⟨hF, succ :: e, ?_, ?_, ?_, ?_⟩
              · rw [he1, List.append_assoc]; rfl
              · rw [List.append_assoc] at he2; exact he2
              · rw [List.append_assoc] at he3; exact he3
              · simp only [List.length_cons, Nat.cast_add, Nat.cast_one]; omega
            · refine Or.inr ⟨h1, h2, h3, ?_⟩
              intro e hpe hend
              have := h4 e (by rw [List.append_assoc]; exact hpe)
                (by rw [List.append_assoc]; exact hend)
              omega

end Hw1

namespace Hw1

/-- The outer loop of `ida_star` stops: the bounds strictly increase and stay
below `INF` until `search` returns `FOUND` or `INF`. -/
theorem idaLoop_isSome (sfuel : Nat) (root : State) :
    ∀ (fuel : Nat) (bound : Int), root.h ≤ bound → (max INF bound + 2).toNat ≤ sfuel →
      (INF - bound).toNat + 1 ≤ fuel → (idaLoop sfuel fuel [root] bound).isSome = true := by
  intro fuel
  induction fuel with
  | zero => intro bound _ _ h; omega
  | succ fuel ih =>
    intro bound hb hs hf
    have hh := root.h_nonneg
    have hINF : INF = 2147483647 := rfl
    rw [idaLoop]
    have hsome := search_isSome sfuel [root] 0 bound (by simp) (by
      have : 0 ≤ max INF bound := le_trans (by omega) (le_max_left _ _)
      have := le_max_right INF bound
      omega)
    cases hr : search sfuel [root] 0 bound with
    | none => rw [hr] at hsome; simp at hsome
    | some tp =>
      obtain ⟨t, p⟩ := tp
      simp only
      rcases search_frame sfuel [root] 0 bound t p (le_refl _) hr with hF | ⟨h1, h2, h3, h4⟩
      · rw [if_pos hF]; rfl
      · have hnF : t ≠ FOUND := by unfold FOUND; omega
        rw [if_neg hnF]
        by_cases hI : t = INF
        · rw [if_pos hI]; rfl
        · rw [if_neg hI, h2]
          have hle := h4 root (by simp) (by omega)
          have hlt : t < INF := lt_of_le_of_ne hle hI
          have hbt : bound + 1 ≤ t := by
            rcases min_choice INF (bound + 1) with hm | hm <;> rw [hm] at h3 <;> omega
          apply ih t (by omega)
          · have e1 : max INF t = INF := max_eq_left hle
            have := le_max_left INF bound
            rw [e1]; omega
          · omega

theorem ida_star_isSome (root : State) (fuel : Nat) (hf : (max INF root.h + 2).toNat ≤ fuel) :
    (ida_star fuel root).isSome = true := by
  unfold ida_star
  apply idaLoop_isSome fuel root fuel root.h (le_refl _) hf
  have hh := root.h_nonneg
  have hINF : INF = 2147483647 := rfl
  have := le_max_left INF root.h
  omega

/-- With enough fuel `solve` returns, whatever the input. -/
theorem solve_isSome (N I : Int) (board : List Nat) (fuel : Nat)
    (hf : (max INF (solveRoot N I board).h + 2).toNat ≤ fuel) :
    (solve fuel N I board).isSome = true := by
  rw [solve_eq]
  by_cases hs : (solveRoot N I board).is_solvable = false
  · rw [if_pos hs]; rfl
  · rw [if_neg hs, Option.isSome_map']
    exact ida_star_isSome _ fuel hf

/-- Result of the outer loop when the goal can be reached from the root along
a repetition-free path of fewer than `INF` moves: the returned path leads from
the root to the goal and is not longer than that path. -/
theorem idaLoop_spec {n : Nat} {gb : List Nat} (hn : 1 ≤ n) (hg : ValidBoard n gb)
    (sfuel : Nat) (root : State) (hroot : GoodState n gb root) (e0 : List State)
    (he0 : PathInv n gb ([root] ++ e0)) (hend0 : EndsAtGoal ([root] ++ e0))
    (hlt : (e0.length : Int) < INF) :
    ∀ (fuel : Nat) (bound : Int) (r : List State), bound ≤ e0.length →
      idaLoop sfuel fuel [root] bound = some r →
      ∃ e, r = [root] ++ e ∧ PathInv n gb ([root] ++ e) ∧ EndsAtGoal ([root] ++ e) ∧
        e.length ≤ e0.length := by
  intro fuel
  induction fuel with
  | zero => intro bound r _ h; simp [idaLoop] at h
  | succ fuel ih =>
    intro bound r hb h
    rw [idaLoop] at h
    cases hr : search sfuel [root] 0 bound with
    | none => rw [hr] at h; simp at h
    | some tp =>
      obtain ⟨t, p⟩ := tp
      rw [hr] at h
      simp only at h
      have hp0 : PathInv n gb [root] := by
        refine ⟨?_, List.chain'_singleton _, by simp⟩
        intro s hs
        rw [List.mem_singleton] at hs
        subst hs; exact hroot
      rcases search_spec hn hg sfuel [root] 0 bound t p hp0 (le_refl _) hr with
        ⟨hF, e, he1, he2, he3, he4⟩ | ⟨h1, h2, h3, h4, h5⟩
      · rw [if_pos hF] at h
        simp only [Option.some.injEq] at h
        subst h
        refine ⟨e, he1, he2, he3, ?_⟩
        have : (e.length : Int) ≤ e0.length := by omega
        exact_mod_cast this
      · have hnF : t ≠ FOUND := by unfold FOUND; omega
        rw [if_neg hnF] at h
        have hle := h5 e0 he0 hend0
        have hnI : t ≠ INF := by omega
        rw [if_neg hnI, h2] at h
        exact ih t r (by omega) h

end Hw1

namespace Hw1

theorem is_solvable_new {n : Nat} {b g : List Nat} (hn : 1 ≤ n) (hb : ValidBoard n b)
    (hg : ValidBoard n g) (m : String) :
    (State.new b (Grid.new g) m).is_solvable =
      if n % 2 = 1 then inv (tiles g) % 2 == inv (tiles b) % 2
      else inv (tiles g) % 2 == (inv (tiles b) + g.indexOf 0 / n + b.indexOf 0 / n) % 2 := by
  have h0 : 0 < n * n := Nat.mul_pos hn hn
  have e1 : (State.new b (Grid.new g) m).n = n := Grid.new_n hn hb
  have e2 : (State.new b (Grid.new g) m).goal.n = n := Grid.new_n hn hg
  have e3 : (State.new b (Grid.new g) m).inversions = inv (tiles b) :=
    inversions_eq_inv_tiles _
  have e4 : (State.new b (Grid.new g) m).goal.inversions = inv (tiles g) :=
    inversions_eq_inv_tiles _
  have e5 : (State.new b (Grid.new g) m).row 0 = b.indexOf 0 / n := Grid.new_row hn hb h0
  have e6 : (State.new b (Grid.new g) m).goal.row 0 = g.indexOf 0 / n := Grid.new_row hn hg h0
  unfold State.is_solvable
  simp only [e1, e2, e3, e4, e5, e6, ne_eq, not_true_eq_false, if_false]

theorem is_solvable_iff_parity {n : Nat} {b g : List Nat} (hn : 1 ≤ n) (hb : ValidBoard n b)
    (hg : ValidBoard n g) (m : String) :
    (State.new b (Grid.new g) m).is_solvable = true ↔ parity n b = parity n g := by
  rw [is_solvable_new hn hb hg]
  unfold parity
  by_cases hodd : n % 2 = 1
  · simp only [hodd, if_true, beq_iff_eq, add_zero]
    omega
  · simp only [hodd, if_false, beq_iff_eq]
    omega

theorem solveGoal_eq {n : Nat} {board : List Nat} (hb : ValidBoard n board) (N : Int)
    {I : Nat} : solveGoal N (I : Int) board = goalBoard (n * n) I := by
  unfold solveGoal
  rw [hb.length_eq, if_neg (by omega)]

theorem solveRoot_good {n : Nat} {board : List Nat} (hb : ValidBoard n board) (N I : Int) :
    GoodState n (solveGoal N I board) (solveRoot N I board) :=
  GoodState.of_new hb _

theorem pathInv_singleton {n : Nat} {gb : List Nat} {root : State}
    (h : GoodState n gb root) : PathInv n gb [root] := by
  refine ⟨?_, List.chain'_singleton _, by simp⟩
  intro s hs
  rw [List.mem_singleton] at hs
  subst hs; exact h

/-- On a root state that is already the goal, the first `search` call of
`ida_star` returns `FOUND` at bound `h = 0` with the path unchanged. -/
theorem ida_star_goal {n : Nat} {gb : List Nat} (hn : 1 ≤ n) (hg : ValidBoard n gb)
    (m : String) (fuel : Nat) :
    (State.new gb (Grid.new gb) m).h = 0 ∧
    search (fuel + 1) [State.new gb (Grid.new gb) m] 0 0 =
      some (FOUND, [State.new gb (Grid.new gb) m]) ∧
    ida_star (fuel + 1) (State.new gb (Grid.new gb) m) = some [State.new gb (Grid.new gb) m] := by
  have hgood : GoodState n gb (State.new gb (Grid.new gb) m) := GoodState.of_new hg m
  have hgoal : (State.new gb (Grid.new gb) m).is_goal = true := hgood.is_goal_iff.mpr rfl
  have hh : (State.new gb (Grid.new gb) m).h = 0 := hgood.h_goal hn hg hgoal
  have hs : search (fuel + 1) [State.new gb (Grid.new gb) m] 0 0 =
      some (FOUND, [State.new gb (Grid.new gb) m]) := by
    rw [search]
    simp only [List.getLast?_singleton, hh, add_zero, gt_iff_lt, lt_self_iff_false, if_false,
      hgoal, if_true]
  refine ⟨hh, hs, ?_⟩
  unfold ida_star
  rw [idaLoop, hh, hs]
  simp

end Hw1

namespace Hw1

theorem cross_nil_left (b : List Nat) : cross [] b = 0 := rfl

theorem cross_cons_left (x : Nat) (a b : List Nat) :
    cross (x :: a) b = b.countP (fun y => decide (y < x)) + cross a b := by
  simp [cross]

theorem cross_append_left (a a' b : List Nat) : cross (a ++ a') b = cross a b + cross a' b := by
  simp [cross]

theorem cross_append_right (a b b' : List Nat) : cross a (b ++ b') = cross a b + cross a b' := by
  induction a with
  | nil => rfl
  | cons x a ih =>
    rw [cross_cons_left, cross_cons_left, cross_cons_left, ih, List.countP_append]
    omega

theorem cross_singleton_right (a : List Nat) (x : Nat) :
    cross a [x] = a.countP (fun y => decide (x < y)) := by
  induction a with
  | nil => rfl
  | cons u a ih =>
    rw [cross_cons_left, ih, List.countP_cons]
    by_cases h : x < u <;> simp [h, List.countP_cons] <;> omega

theorem cross_cons_right (a : List Nat) (x : Nat) (b : List Nat) :
    cross a (x :: b) = a.countP (fun y => decide (x < y)) + cross a b := by
  rw [show x :: b = [x] ++ b from rfl, cross_append_right, cross_singleton_right]

theorem inv_append (a b : List Nat) : inv (a ++ b) = inv a + inv b + cross a b := by
  induction a with
  | nil => simp [inv, cross]
  | cons x a ih =>
    rw [List.cons_append, inv, inv, ih, cross_cons_left, List.countP_append]
    omega

theorem inv_cons (x : Nat) (l : List Nat) :
    inv (x :: l) = l.countP (fun y => decide (y < x)) + inv l := rfl

theorem countP_lt_add_gt (x : Nat) (m : List Nat) (hx : x ∉ m) :
    m.countP (fun y => decide (y < x)) + m.countP (fun y => decide (x < y)) = m.length := by
  induction m with
  | nil => rfl
  | cons u m ih =>
    rw [List.mem_cons, not_or] at hx
    have := ih hx.2
    rw [List.countP_cons, List.countP_cons, List.length_cons]
    have hne : x ≠ u := hx.1
    by_cases h : u < x
    · have h' : ¬ x < u := by omega
      simp only [h, h', decide_True, decide_False, if_true, Bool.false_eq_true, if_false]
      omega
    · have h' : x < u := by omega
      simp only [h, h', decide_True, decide_False, if_true, Bool.false_eq_true, if_false]
      omega

/-- Moving one entry past a block changes the inversion count by the entries
of the block smaller than it against those larger than it. -/
theorem inv_move_past (A M C : List Nat) (x : Nat) :
    inv (A ++ x :: (M ++ C)) + M.countP (fun y => decide (x < y)) =
      inv (A ++ (M ++ x :: C)) + M.countP (fun y => decide (y < x)) := by
  rw [inv_append, inv_append, inv_cons, inv_append, inv_append, inv_cons,
    cross_cons_right, cross_append_right, cross_append_right, cross_cons_right,
    cross_cons_right, List.countP_append]
  omega

theorem inv_move_past_parity (A M C : List Nat) (x : Nat) (hx : x ∉ M) :
    (inv (A ++ x :: (M ++ C)) + inv (A ++ (M ++ x :: C))) % 2 = M.length % 2 := by
  have h1 := inv_move_past A M C x
  have h2 := countP_lt_add_gt x M hx
  omega

/-- Exchanging two entries of a list without repetitions flips the parity of
its inversion count. -/
theorem inv_transpose_parity (A M C : List Nat) (x y : Nat) (hx : x ∉ M) (hy : y ∉ M)
    (hxy : x ≠ y) :
    (inv (A ++ x :: (M ++ y :: C)) + inv (A ++ y :: (M ++ x :: C))) % 2 = 1 := by
  have h1 := inv_move_past_parity A M (y :: C) x hx
  have h2 := inv_move_past_parity A M (x :: C) y hy
  have h3 := inv_move_past_parity (A ++ M) [y] C x (by simpa using hxy)
  simp only [List.append_assoc, List.singleton_append, List.length_singleton] at h3
  omega

end Hw1

namespace Hw1

theorem swapAt_comm (v : List Nat) {a b : Nat} (ha : a < v.length) (hb : b < v.length) :
    swapAt v a b = swapAt v b a := by
  apply List.ext_getElem
  · simp [swapAt_length]
  · intro k h1 h2
    have e1 := swapAt_getD v ha hb k
    have e2 := swapAt_getD v hb ha k
    rw [List.getD_eq_getElem _ _ h1] at e1
    rw [List.getD_eq_getElem _ _ h2] at e2
    rw [e1, e2]
    by_cases c1 : k = a <;> by_cases c2 : k = b
    · subst c1; subst c2; rfl
    · rw [if_neg c2, if_pos c1, if_pos c1]
    · rw [if_pos c2, if_neg c1, if_pos c2]
    · rw [if_neg c2, if_neg c1, if_neg c1, if_neg c2]

theorem swapAt_append (A M C : List Nat) (x y : Nat) :
    swapAt (A ++ x :: (M ++ y :: C)) A.length (A.length + 1 + M.length) =
      A ++ y :: (M ++ x :: C) := by
  apply List.ext_getElem
  · simp [swapAt_length]
  · intro k h1 h2
    have hl : (A ++ x :: (M ++ y :: C)).length = A.length + 1 + M.length + 1 + C.length := by
      simp; omega
    have e1 := swapAt_getD (A ++ x :: (M ++ y :: C)) (a := A.length)
      (b := A.length + 1 + M.length) (by omega) (by omega) k
    rw [List.getD_eq_getElem _ _ h1] at e1
    rw [e1]
    have gA : (A ++ x :: (M ++ y :: C)).getD A.length 0 = x := by
      rw [List.getD_append_right _ _ _ _ (le_refl _)]; simp
    have gB : (A ++ x :: (M ++ y :: C)).getD (A.length + 1 + M.length) 0 = y := by
      rw [List.getD_append_right _ _ _ _ (by omega)]
      rw [show A.length + 1 + M.length - A.length = M.length + 1 by omega]
      rw [List.getD_cons_succ, List.getD_append_right _ _ _ _ (le_refl _)]
      simp
    rw [gA, gB]
    rw [← List.getD_eq_getElem _ 0 h2]
    by_cases c1 : k = A.length + 1 + M.length
    · rw [if_pos c1, c1]
      rw [List.getD_append_right _ _ _ _ (by omega)]
      rw [show A.length + 1 + M.length - A.length = M.length + 1 by omega]
      rw [List.getD_cons_succ, List.getD_append_right _ _ _ _ (le_refl _)]
      simp
    · rw [if_neg c1]
      by_cases c2 : k = A.length
      · rw [if_pos c2, c2]
        rw [List.getD_append_right _ _ _ _ (le_refl _)]; simp
      · rw [if_neg c2]
        by_cases c3 : k < A.length
        · rw [List.getD_append _ _ _ _ c3, List.getD_append _ _ _ _ c3]
        · rw [List.getD_append_right _ _ _ _ (by omega),
            List.getD_append_right _ _ _ _ (by omega)]
          obtain ⟨k', hk'⟩ : ∃ k', k - A.length = k' + 1 := ⟨k - A.length - 1, by omega⟩
          rw [hk', List.getD_cons_succ, List.getD_cons_succ]
          by_cases c4 : k' < M.length
          · rw [List.getD_append _ _ _ _ c4, List.getD_append _ _ _ _ c4]
          · rw [List.getD_append_right _ _ _ _ (by omega),
              List.getD_append_right _ _ _ _ (by omega)]
            obtain ⟨k'', hk''⟩ : ∃ k'', k' - M.length = k'' + 1 :=
              ⟨k' - M.length - 1, by omega⟩
            rw [hk'', List.getD_cons_succ, List.getD_cons_succ]

/-- A list split at two positions `i < j`. -/
theorem split_at_two (b : List Nat) {i j : Nat} (hij : i < j) (hj : j < b.length) :
    ∃ A M C, b = A ++ b.getD i 0 :: (M ++ b.getD j 0 :: C) ∧ A.length = i ∧
      M.length = j - i - 1 := by
  refine ⟨b.take i, (b.drop (i + 1)).take (j - i - 1), b.drop (j + 1), ?_, ?_, ?_⟩
  · have e1 : b = b.take i ++ b.drop i := (List.take_append_drop i b).symm
    have e2 : b.drop i = b.getD i 0 :: b.drop (i + 1) := by
      rw [List.getD_eq_getElem _ _ (by omega)]
      exact List.drop_eq_getElem_cons (by omega)
    have e3 : b.drop (i + 1) = (b.drop (i + 1)).take (j - i - 1) ++
        (b.drop (i + 1)).drop (j - i - 1) := (List.take_append_drop _ _).symm
    have e4 : (b.drop (i + 1)).drop (j - i - 1) = b.drop j := by
      rw [List.drop_drop]; congr 1; omega
    have e5 : b.drop j = b.getD j 0 :: b.drop (j + 1) := by
      rw [List.getD_eq_getElem _ _ hj]
      exact List.drop_eq_getElem_cons hj
    rw [e4, e5] at e3
    rw [e3] at e2
    rw [e2] at e1
    exact e1
  · simp; omega
  · simp; omega

theorem swapAt_split (b : List Nat) {i j : Nat} (hij : i < j) (hj : j < b.length) :
    ∃ A M C, b = A ++ b.getD i 0 :: (M ++ b.getD j 0 :: C) ∧
      swapAt b i j = A ++ b.getD j 0 :: (M ++ b.getD i 0 :: C) ∧ A.length = i ∧
      M.length = j - i - 1 := by
  obtain ⟨A, M, C, h1, h2, h3⟩ := split_at_two b hij hj
  refine ⟨A, M, C, h1, ?_, h2, h3⟩
  have := swapAt_append A M C (b.getD i 0) (b.getD j 0)
  rw [← h1, h2, h3, show i + 1 + (j - i - 1) = j by omega] at this
  exact this

theorem tiles_append (a b : List Nat) : tiles (a ++ b) = tiles a ++ tiles b := by
  simp [tiles]

theorem tiles_cons_zero (a : List Nat) : tiles (0 :: a) = tiles a := by
  simp [tiles]

theorem tiles_cons_pos {x : Nat} (hx : x ≠ 0) (a : List Nat) : tiles (x :: a) = x :: tiles a := by
  simp [tiles, hx]

theorem tiles_eq_self {a : List Nat} (h : 0 ∉ a) : tiles a = a := by
  unfold tiles
  rw [List.filter_eq_self]
  intro x hx
  have : x ≠ 0 := fun hc => h (hc ▸ hx)
  simpa using this

theorem tiles_sublist (a : List Nat) : (tiles a).Sublist a := List.filter_sublist a

theorem mem_tiles {a : List Nat} {x : Nat} : x ∈ tiles a ↔ x ∈ a ∧ x ≠ 0 := by
  simp [tiles]

/-- Exchanging the blank with a tile `M.length + 1` places further on changes
the inversion parity of the tile sequence by the parity of `M.length`. -/
theorem inv_tiles_blank_move (A M C : List Nat) (t : Nat) (ht : t ≠ 0)
    (hnd : (A ++ 0 :: (M ++ t :: C)).Nodup) :
    (inv (tiles (A ++ 0 :: (M ++ t :: C))) + inv (tiles (A ++ t :: (M ++ 0 :: C)))) % 2 =
      M.length % 2 := by
  have h0M : 0 ∉ M := by
    intro hc
    rw [List.nodup_append] at hnd
    have := hnd.2.1
    rw [List.nodup_cons] at this
    exact this.1 (List.mem_append_left _ hc)
  have htM : t ∉ M := by
    intro hc
    rw [List.nodup_append] at hnd
    have := hnd.2.1
    rw [List.nodup_cons, List.nodup_append] at this
    exact this.2.2.2 hc (List.mem_cons_self _ _)
  simp only [tiles_append, tiles_cons_zero, tiles_cons_pos ht, tiles_eq_self h0M]
  have := inv_move_past_parity (tiles A) M (tiles C) t htM
  omega

theorem indexOf_append_cons {A : List Nat} {x : Nat} (h : x ∉ A) (rest : List Nat) :
    (A ++ x :: rest).indexOf x = A.length := by
  rw [List.indexOf_append_of_not_mem h]
  simp

end Hw1

namespace Hw1

theorem adj_lt_cases {n z j : Nat} (hn : 1 ≤ n) (hadj : Adj n z j) (hzj : z < j) :
    (j - z - 1 = n - 1 ∧ j / n = z / n + 1) ∨ (j - z - 1 = 0 ∧ j / n = z / n) := by
  unfold Adj at hadj
  rcases hadj with h | h | ⟨h, hc⟩ | ⟨h, hc⟩
  · left
    subst h
    refine ⟨by omega, ?_⟩
    rw [Nat.add_div_right _ (by omega)]
  · omega
  · right
    subst h
    exact ⟨by omega, (succ_div_mod (by omega) hc).1⟩
  · omega

/-- A legal blank move leaves the parity compared by `is_solvable()` unchanged. -/
theorem swap_blank_parity {n : Nat} {b : List Nat} (hn : 1 ≤ n) (h : ValidBoard n b)
    {j : Nat} (hj : j < n * n) (hadj : Adj n (b.indexOf 0) j) :
    parity n (swapAt b (b.indexOf 0) j) = parity n b := by
  have h0 : 0 < n * n := Nat.mul_pos hn hn
  have hz := h.indexOf_lt h0
  have hbz : b.getD (b.indexOf 0) 0 = 0 := h.getD_indexOf h0
  have hne := hadj.ne hn
  have hl := h.length_eq
  have htj : b.getD j 0 ≠ 0 := by
    intro hc
    exact hne (h.getD_inj hz hj (by rw [hbz, hc]))
  have hidx : (swapAt b (b.indexOf 0) j).indexOf 0 = j := by
    rw [swapAt_indexOf h hz hj h0, hbz, if_pos rfl]
  have hv' := swapAt_valid h hz hj
  unfold parity
  rw [hidx]
  rcases Nat.lt_or_gt_of_ne hne with hlt | hgt
  · obtain ⟨A, M, C, e1, e2, e3, e4⟩ := swapAt_split b hlt (by omega)
    rw [hbz] at e1 e2
    have key := inv_tiles_blank_move A M C _ htj (by rw [← e1]; exact h.nodup)
    rw [← e1, ← e2] at key
    rcases adj_lt_cases hn hadj hlt with ⟨c1, c2⟩ | ⟨c1, c2⟩
    · rw [c2]
      by_cases hodd : n % 2 = 1
      · simp only [hodd, if_true]; omega
      · simp only [hodd, if_false]; omega
    · rw [c2]
      by_cases hodd : n % 2 = 1
      · simp only [hodd, if_true]; omega
      · simp only [hodd, if_false]; omega
  · rw [swapAt_comm b (by omega) (by omega)] at hv' ⊢
    obtain ⟨A, M, C, e1, e2, e3, e4⟩ := swapAt_split b hgt (by omega)
    rw [hbz] at e1 e2
    have key := inv_tiles_blank_move A M C _ htj (by rw [← e2]; exact hv'.nodup)
    rw [← e1, ← e2] at key
    rcases adj_lt_cases hn hadj.adj_symm hgt with ⟨c1, c2⟩ | ⟨c1, c2⟩
    · rw [c2]
      by_cases hodd : n % 2 = 1
      · simp only [hodd, if_true]; omega
      · simp only [hodd, if_false]; omega
    · rw [c2]
      by_cases hodd : n % 2 = 1
      · simp only [hodd, if_true]; omega
      · simp only [hodd, if_false]; omega

theorem Step.step_parity {n : Nat} {b b' : List Nat} (hn : 1 ≤ n) (h : ValidBoard n b)
    (hs : Step b b') : parity n b' = parity n b := by
  obtain ⟨j, hj, hadj, rfl⟩ := (step_iff hn h b').mp hs
  exact swap_blank_parity hn h hj hadj

theorem parity_lt_two (n : Nat) (b : List Nat) : parity n b < 2 := by
  unfold parity; omega

/-- Exchanging two tiles (the blank staying in place) flips the parity compared
by `is_solvable()`. -/
theorem swap_tiles_parity {n : Nat} {b : List Nat} (hn : 1 ≤ n) (h : ValidBoard n b)
    {i j : Nat} (hi : i < n * n) (hj : j < n * n) (hij : i ≠ j)
    (hbi : b.getD i 0 ≠ 0) (hbj : b.getD j 0 ≠ 0) :
    parity n (swapAt b i j) ≠ parity n b := by
  have h0 : 0 < n * n := Nat.mul_pos hn hn
  have hl := h.length_eq
  have hidx : (swapAt b i j).indexOf 0 = b.indexOf 0 := by
    rw [swapAt_indexOf h hi hj h0, if_neg (Ne.symm hbi), if_neg (Ne.symm hbj)]
  have main : ∀ i j, i < j → j < n * n → b.getD i 0 ≠ 0 → b.getD j 0 ≠ 0 →
      (inv (tiles (swapAt b i j)) + inv (tiles b)) % 2 = 1 := by
    intro i j hlt hj hbi hbj
    obtain ⟨A, M, C, e1, e2, e3, e4⟩ := swapAt_split b hlt (by omega)
    have hnd := h.nodup
    rw [e1] at hnd
    have hxM : b.getD i 0 ∉ M := by
      intro hc
      rw [List.nodup_append] at hnd
      have := hnd.2.1
      rw [List.nodup_cons] at this
      exact this.1 (List.mem_append_left _ hc)
    have hyM : b.getD j 0 ∉ M := by
      intro hc
      rw [List.nodup_append] at hnd
      have := hnd.2.1
      rw [List.nodup_cons, List.nodup_append] at this
      exact this.2.2.2 hc (List.mem_cons_self _ _)
    have hxy : b.getD i 0 ≠ b.getD j 0 := by
      intro hc
      have := h.getD_inj (by omega) hj hc
      omega
    have key := inv_transpose_parity (tiles A) (tiles M) (tiles C) (b.getD i 0) (b.getD j 0)
      (fun hc => hxM (mem_tiles.mp hc).1) (fun hc => hyM (mem_tiles.mp hc).1) hxy
    have t1 : tiles b = tiles A ++ b.getD i 0 :: (tiles M ++ b.getD j 0 :: tiles C) := by
      conv_lhs => rw [e1]
      simp only [tiles_append, tiles_cons_pos hbi, tiles_cons_pos hbj]
    have t2 : tiles (swapAt b i j) =
        tiles A ++ b.getD j 0 :: (tiles M ++ b.getD i 0 :: tiles C) := by
      rw [e2]
      simp only [tiles_append, tiles_cons_pos hbi, tiles_cons_pos hbj]
    rw [t1, t2]
    omega
  have hmain : (inv (tiles (swapAt b i j)) + inv (tiles b)) % 2 = 1 := by
    rcases Nat.lt_or_gt_of_ne hij with hlt | hgt
    · exact main i j hlt hj hbi hbj
    · rw [swapAt_comm b (by omega) (by omega)]
      exact main j i hgt hi hbj hbi
  unfold parity
  rw [hidx]
  omega

end Hw1

namespace Hw1

theorem GoodState.step_of_succ {n : Nat} {gb : List Nat} {s s1 : State} (hn : 1 ≤ n)
    (h : GoodState n gb s) (hs : s1 ∈ s.successors) : Step s.board s1.board := by
  obtain ⟨-, -, j, hj, hadj, hb⟩ := h.succ hn hs
  exact (step_iff hn h.1 _).mpr ⟨j, hj, hadj, hb⟩

theorem GoodState.succ_of_step {n : Nat} {gb : List Nat} {s : State} {c : List Nat}
    (hn : 1 ≤ n) (h : GoodState n gb s) (hs : Step s.board c) :
    ∃ s1 ∈ s.successors, s1.board = c := by
  obtain ⟨j, hj, hadj, rfl⟩ := (step_iff hn h.1 _).mp hs
  obtain ⟨lbl, hl⟩ := successors_of_adj hn h.1 (Grid.new gb) s.move hj hadj
  rw [← h.eq_new] at hl
  exact ⟨_, hl, rfl⟩

theorem PathInv.path_tail {n : Nat} {gb : List Nat} {s : State} {e : List State}
    (h : PathInv n gb (s :: e)) : PathInv n gb e := by
  obtain ⟨h1, h2, h3⟩ := h
  refine ⟨fun x hx => h1 x (List.mem_cons_of_mem _ hx), h2.tail, ?_⟩
  rw [List.map_cons, List.nodup_cons] at h3
  exact h3.2

theorem EndsAtGoal.goal_tail {s s1 : State} {e : List State} (h : EndsAtGoal (s :: s1 :: e)) :
    EndsAtGoal (s1 :: e) := by
  obtain ⟨x, hx1, hx2⟩ := h
  refine ⟨x, ?_, hx2⟩
  rw [List.getLast?_cons_cons] at hx1
  exact hx1

theorem ReachIn.step_left {k : Nat} {b c d : List Nat} (hs : Step b c) (h : ReachIn k c d) :
    ReachIn (k + 1) b d := ⟨c, hs, h⟩

/-- A path of successor steps that ends at the goal is a sequence of legal
moves leading from its first board to the goal board. -/
theorem reach_of_path {n : Nat} {gb : List Nat} (hn : 1 ≤ n) :
    ∀ (e : List State) (s : State), PathInv n gb (s :: e) → EndsAtGoal (s :: e) →
      ReachIn e.length s.board gb := by
  intro e
  induction e with
  | nil =>
    intro s hp hend
    obtain ⟨x, hx1, hx2⟩ := hend
    simp only [List.getLast?_singleton, Option.some.injEq] at hx1
    subst hx1
    exact (hp.1 s (List.mem_singleton_self _)).is_goal_iff.mp hx2
  | cons s1 e ih =>
    intro s hp hend
    have hgood := hp.1 s (List.mem_cons_self _ _)
    have hs1 : s1 ∈ s.successors := by
      have := hp.2.1
      rw [List.chain'_cons] at this
      exact this.1
    exact ⟨s1.board, hgood.step_of_succ hn hs1, ih s1 hp.path_tail hend.goal_tail⟩

/-- A shortest sequence of legal moves to the goal is realised by a path of
successor states on which no board repeats. -/
theorem path_of_reach {n : Nat} {gb : List Nat} (hn : 1 ≤ n) :
    ∀ (k : Nat) (s : State), GoodState n gb s → ReachIn k s.board gb →
      (∀ k', k' < k → ¬ ReachIn k' s.board gb) →
      ∃ e, e.length = k ∧ PathInv n gb (s :: e) ∧ EndsAtGoal (s :: e) ∧
        ∀ x ∈ s :: e, ∃ j, j ≤ k ∧ ReachIn j x.board gb := by
  intro k
  induction k with
  | zero =>
    intro s hs hr _
    refine ⟨[], rfl, pathInv_singleton hs, ⟨s, by simp, hs.is_goal_iff.mpr hr⟩, ?_⟩
    intro x hx
    rw [List.mem_singleton] at hx
    subst hx
    exact ⟨0, le_refl _, hr⟩
  | succ k ih =>
    intro s hs hr hmin
    obtain ⟨c, hstep, hrc⟩ := hr
    obtain ⟨s1, hs1, rfl⟩ := hs.succ_of_step hn hstep
    have hgood1 := (hs.succ hn hs1).1
    have hmin1 : ∀ k', k' < k → ¬ ReachIn k' s1.board gb := by
      intro k' hk' hc
      exact hmin (k' + 1) (by omega) ⟨_, hstep, hc⟩
    obtain ⟨e, he1, he2, he3, he4⟩ := ih s1 hgood1 hrc hmin1
    refine ⟨s1 :: e, by simp [he1], ?_, ?_, ?_⟩
    · refine ⟨?_, ?_, ?_⟩
      · intro x hx
        rw [List.mem_cons] at hx
        rcases hx with rfl | hx
        · exact hs
        · exact he2.1 x hx
      · rw [List.chain'_cons]
        exact ⟨hs1, he2.2.1⟩
      · rw [List.map_cons, List.nodup_cons]
        refine ⟨?_, he2.2.2⟩
        intro hc
        rw [List.mem_map] at hc
        obtain ⟨x, hx1, hx2⟩ := hc
        obtain ⟨j, hj1, hj2⟩ := he4 x hx1
        rw [hx2] at hj2
        exact hmin j (by omega) hj2
    · obtain ⟨x, hx1, hx2⟩ := he3
      exact ⟨x, by rw [List.getLast?_cons_cons]; exact hx1, hx2⟩
    · intro x hx
      rw [List.mem_cons] at hx
      rcases hx with rfl | hx
      · exact ⟨k + 1, le_refl _, ⟨_, hstep, hrc⟩⟩
      · obtain ⟨j, hj1, hj2⟩ := he4 x hx
        exact ⟨j, by omega, hj2⟩

/-- Among the ways to reach the goal there is a shortest one. -/
theorem exists_min_reach {b gb : List Nat} {k : Nat} (h : ReachIn k b gb) :
    ∃ d, d ≤ k ∧ ReachIn d b gb ∧ ∀ k', k' < d → ¬ ReachIn k' b gb := by
  classical
  have hex : ∃ d, ReachIn d b gb := ⟨k, h⟩
  refine ⟨Nat.find hex, Nat.find_min' hex h, Nat.find_spec hex, ?_⟩
  intro k' hk'
  exact Nat.find_min hex hk'

end Hw1

namespace Hw1

set_option linter.unusedTactic false

/-- Each state of `successors()` is the one found under its own label. -/
theorem find_label {n : Nat} {b : List Nat} (hn : 1 ≤ n) (h : ValidBoard n b)
    (G : Grid) (m : String) (s1 : State) (hs : s1 ∈ (State.new b G m).successors) :
    (State.new b G "").successors.find? (fun s => s.move == s1.move) = some s1 := by
  rw [successors_new hn h] at hs ⊢
  simp only [List.mem_append] at hs
  by_cases d1 : b.indexOf 0 + n < n * n <;> by_cases d2 : n ≤ b.indexOf 0 <;>
    by_cases d3 : b.indexOf 0 % n + 1 < n <;> by_cases d4 : 1 ≤ b.indexOf 0 % n <;>
    simp only [d1, d2, d3, d4, if_true, if_false, List.mem_singleton, List.not_mem_nil,
      or_false, false_or] at hs ⊢ <;>
    (try rcases hs with hs | hs | hs | hs) <;>
    (try rcases hs with hs | hs | hs) <;>
    (try rcases hs with hs | hs) <;>
    (try subst hs) <;>
    simp [State.new_move, List.find?_cons]

theorem PathInv.moves_ne {n : Nat} {gb : List Nat} (hn : 1 ≤ n) :
    ∀ (e : List State) (s : State), PathInv n gb (s :: e) → ∀ x ∈ e, x.move ≠ "" := by
  intro e
  induction e with
  | nil => intro s _ x hx; simp at hx
  | cons s1 e ih =>
    intro s hp x hx
    rw [List.mem_cons] at hx
    rcases hx with rfl | hx
    · have hgood := hp.1 s (List.mem_cons_self _ _)
      have hs1 : x ∈ s.successors := by
        have := hp.2.1
        rw [List.chain'_cons] at this
        exact this.1
      exact (hgood.succ hn hs1).2.1
    · exact ih s1 hp.path_tail x hx

theorem pathMoves_eq {n : Nat} {gb : List Nat} (hn : 1 ≤ n) {s : State} {e : List State}
    (hp : PathInv n gb (s :: e)) (hs : s.move = "") :
    pathMoves (s :: e) = e.map (fun x => x.move) := by
  unfold pathMoves
  rw [List.filter_cons]
  simp only [hs, ne_eq, not_true_eq_false, decide_False, Bool.false_eq_true, if_false]
  rw [List.filter_eq_self.mpr]
  intro x hx
  simpa using hp.moves_ne hn e s x hx

/-- Applying the labels of a path of successor states that ends at the goal
leads from its first board to the goal board. -/
theorem applyMoves_path {n : Nat} {gb : List Nat} (hn : 1 ≤ n) :
    ∀ (e : List State) (s : State), PathInv n gb (s :: e) → EndsAtGoal (s :: e) →
      applyMoves (Grid.new gb) s.board (e.map (fun x => x.move)) = some gb := by
  intro e
  induction e with
  | nil =>
    intro s hp hend
    obtain ⟨x, hx1, hx2⟩ := hend
    simp only [List.getLast?_singleton, Option.some.injEq] at hx1
    subst hx1
    rw [List.map_nil, applyMoves, (hp.1 s (List.mem_singleton_self _)).is_goal_iff.mp hx2]
  | cons s1 e ih =>
    intro s hp hend
    have hgood := hp.1 s (List.mem_cons_self _ _)
    have hs1 : s1 ∈ s.successors := by
      have := hp.2.1
      rw [List.chain'_cons] at this
      exact this.1
    rw [hgood.eq_new] at hs1
    have := find_label hn hgood.1 _ _ s1 hs1
    rw [List.map_cons, applyMoves]
    unfold applyMove
    rw [this]
    simp only [Option.map_some']
    exact ih s1 hp.path_tail hend.goal_tail

/-- Correctness of `solve` on an instance whose goal is reachable in fewer than
`INF` moves: the returned move list is a shortest solution, and applying it
yields the goal board. -/
theorem solve_correct {n : Nat} {board : List Nat} (hn : 1 ≤ n) (hb : ValidBoard n board)
    {I : Nat} (hI : I < n * n) (N : Int) {k : Nat}
    (hreach : ReachIn k board (goalBoard (n * n) I)) (hk : (k : Int) < INF)
    {fuel : Nat} {ms : List String} (hsolve : solve fuel N I board = some (some ms)) :
    ReachIn ms.length board (goalBoard (n * n) I) ∧
    (∀ k', ReachIn k' board (goalBoard (n * n) I) → ms.length ≤ k') ∧
    applyMoves (Grid.new (goalBoard (n * n) I)) board ms = some (goalBoard (n * n) I) := by
  have hg : ValidBoard n (goalBoard (n * n) I) := goalBoard_valid n I hI
  have hgoal := solveGoal_eq hb N (I := I)
  have hroot : GoodState n (goalBoard (n * n) I) (solveRoot N I board) := by
    rw [← hgoal]; exact solveRoot_good hb N I
  have hrb : (solveRoot N I board).board = board := rfl
  have hrm : (solveRoot N I board).move = "" := rfl
  rw [solve_eq] at hsolve
  by_cases hs : (solveRoot N I board).is_solvable = false
  · rw [if_pos hs] at hsolve
    simp at hsolve
  · rw [if_neg hs] at hsolve
    cases hr : ida_star fuel (solveRoot N I board) with
    | none => rw [hr] at hsolve; simp at hsolve
    | some path =>
      rw [hr] at hsolve
      simp only [Option.map_some', Option.some.injEq] at hsolve
      obtain ⟨d, hd1, hd2, hd3⟩ := exists_min_reach hreach
      rw [← hrb] at hd2 hd3
      obtain ⟨e0, he1, he2, he3, -⟩ := path_of_reach hn d _ hroot hd2 hd3
      have hadm := admissible hn hg e0 [solveRoot N I board] (solveRoot N I board)
        (by simp) he2 he3
      unfold ida_star at hr
      obtain ⟨e, rfl, hp, hend, hlen⟩ := idaLoop_spec hn hg fuel _ hroot e0 he2 he3
        (by rw [he1]; omega) fuel _ path hadm hr
      have hreach' := reach_of_path hn e _ hp hend
      rw [hrb] at hreach' hd3
      have hms : ms = e.map (fun x => x.move) := by
        rw [← hsolve]
        exact pathMoves_eq hn hp hrm
      have hlen' : ms.length = e.length := by rw [hms, List.length_map]
      have hed : e.length = d := by
        by_contra hne
        exact hd3 e.length (by omega) hreach'
      refine ⟨by rw [hlen']; exact hreach', ?_, ?_⟩
      · intro k' hk'
        by_contra hlt
        exact hd3 k' (by omega) hk'
      · rw [hms]
        exact applyMoves_path hn e _ hp hend

end Hw1

/-! Sorting a list with rotations of three consecutive entries. -/

namespace Hw1

theorem exists_snoc2 (pre : List Nat) (h : 2 ≤ pre.length) :
    ∃ pre' a b, pre = pre' ++ [a, b] := by
  rcases List.eq_nil_or_concat pre with rfl | ⟨p1, b, rfl⟩
  · simp at h
  · rcases List.eq_nil_or_concat p1 with rfl | ⟨p2, a, rfl⟩
    · simp at h
    · exact ⟨p2, a, b, by simp⟩

/-- With rotations of three consecutive entries any entry of a list of at least
three entries can be brought to the front. -/
theorem bring_front (R : List Nat → List Nat → Prop) (hR : Equivalence R) (N : Nat)
    (hrot : ∀ A u v x C, A.length + 3 + C.length = N →
      R (A ++ u :: v :: x :: C) (A ++ x :: u :: v :: C)) :
    ∀ (k : Nat) (pre P : List Nat) (x : Nat) (rest : List Nat), pre.length = k →
      P.length + pre.length + 1 + rest.length = N → 3 ≤ pre.length + 1 + rest.length →
      ∃ s', (pre ++ x :: rest).Perm (x :: s') ∧ R (P ++ (pre ++ x :: rest)) (P ++ x :: s') := by
  intro k
  induction k using Nat.strong_induction_on with
  | _ k ih =>
    intro pre P x rest hk hN h3
    by_cases h2 : 2 ≤ pre.length
    · obtain ⟨pre', a, b, rfl⟩ := exists_snoc2 pre h2
      simp only [List.length_append, List.length_cons, List.length_nil] at hk hN h3
      have r1 := hrot (P ++ pre') a b x rest (by simp; omega)
      obtain ⟨s', hs1, hs2⟩ := ih pre'.length (by omega) pre' P x (a :: b :: rest) rfl
        (by simp; omega) (by simp; omega)
      refine ⟨s', ?_, ?_⟩
      · refine List.Perm.trans ?_ hs1
        rw [List.append_assoc]
        apply List.Perm.append_left
        exact (@List.perm_middle Nat x [a, b] rest)
      · refine hR.trans ?_ hs2
        simp only [List.append_assoc, List.cons_append, List.nil_append] at r1 ⊢
        exact r1
    · match pre, hk, h2 with
      | [], _, _ => exact ⟨rest, List.Perm.refl _, hR.refl _⟩
      | [a], _, _ =>
        match rest, hN, h3 with
        | [], _, h3 => simp at h3
        | c :: rest', hN, _ =>
          simp only [List.length_cons, List.length_nil] at hN
          have r1 := hrot P a x c rest' (by omega)
          have r2 := hrot P c a x rest' (by omega)
          refine ⟨c :: a :: rest', ?_, hR.trans r1 r2⟩
          exact (@List.perm_middle Nat a [x, c] rest').symm
      | _ :: _ :: _, _, h2 => simp at h2

/-- With rotations of three consecutive entries a list can be rearranged into
any permutation of itself, up to the order of the last two entries. -/
theorem sort_or_defect (R : List Nat → List Nat → Prop) (hR : Equivalence R) (N : Nat)
    (hrot : ∀ A u v x C, A.length + 3 + C.length = N →
      R (A ++ u :: v :: x :: C) (A ++ x :: u :: v :: C)) (a b : Nat) :
    ∀ (u0 P s : List Nat), s.Perm (u0 ++ [a, b]) → P.length + s.length = N →
      R (P ++ s) (P ++ (u0 ++ [a, b])) ∨ R (P ++ s) (P ++ (u0 ++ [b, a])) := by
  intro u0
  induction u0 with
  | nil =>
    intro P s hs _
    have hl := hs.length_eq
    match s, hl with
    | [c, d], _ =>
      have hc : c ∈ [a, b] := hs.subset (List.mem_cons_self _ _)
      have hd : d ∈ [a, b] := hs.subset (List.mem_cons_of_mem _ (List.mem_cons_self _ _))
      simp only [List.mem_cons, List.mem_singleton, List.not_mem_nil, or_false] at hc hd
      have ha : a ∈ [c, d] := hs.symm.subset (List.mem_cons_self _ _)
      have hb : b ∈ [c, d] := hs.symm.subset (List.mem_cons_of_mem _ (List.mem_cons_self _ _))
      simp only [List.mem_cons, List.mem_singleton, List.not_mem_nil, or_false] at ha hb
      rcases hc with rfl | rfl
      · rcases hd with rfl | rfl
        · rcases hb with rfl | rfl <;> exact Or.inl (hR.refl _)
        · exact Or.inl (hR.refl _)
      · rcases hd with rfl | rfl
        · exact Or.inr (hR.refl _)
        · rcases ha with rfl | rfl <;> exact Or.inl (hR.refl _)
  | cons x u0 ih =>
    intro P s hs hN
    have hl := hs.length_eq
    have hx : x ∈ s := hs.symm.subset (List.mem_cons_self _ _)
    obtain ⟨pre, rest, rfl⟩ := List.append_of_mem hx
    simp only [List.length_append, List.length_cons, List.length_nil] at hl hN
    obtain ⟨s', hs1, hs2⟩ := bring_front R hR N hrot pre.length pre P x rest rfl
      (by omega) (by omega)
    have hperm : s'.Perm (u0 ++ [a, b]) := by
      have := hs1.symm.trans hs
      exact List.Perm.cons_inv this
    have hl' := hs1.length_eq
    simp only [List.length_append, List.length_cons] at hl'
    have key := ih (P ++ [x]) s' hperm (by simp; omega)
    simp only [List.append_assoc, List.cons_append, List.nil_append] at key ⊢
    rcases key with key | key
    · exact Or.inl (hR.trans hs2 key)
    · exact Or.inr (hR.trans hs2 key)

end Hw1

namespace Hw1

/-- Rotating a window of `2n - 1` consecutive entries, given the rotation by
one position. -/
theorem window_rotate (R : List Nat → List Nat → Prop) (hR : Equivalence R) (n N : Nat)
    (W0 W1 : List Nat)
    (hg2 : ∀ M x, M.length = 2 * n - 2 → W0.length + M.length + 1 + W1.length = N →
      R (W0 ++ (M ++ x :: W1)) (W0 ++ x :: (M ++ W1))) :
    ∀ (V U : List Nat), U.length + V.length = 2 * n - 1 →
      W0.length + (2 * n - 1) + W1.length = N →
      R (W0 ++ (U ++ (V ++ W1))) (W0 ++ (V ++ (U ++ W1))) := by
  intro V
  induction V using List.reverseRecOn with
  | nil => intro U _ _; simpa using hR.refl _
  | append_singleton V y ih =>
    intro U hUV hN
    simp only [List.length_append, List.length_singleton] at hUV
    have r1 := hg2 (U ++ V) y (by simp; omega) (by simp; omega)
    have r2 := ih (y :: U) (by simp; omega) hN
    simp only [List.append_assoc, List.cons_append, List.nil_append] at r1 r2 ⊢
    exact hR.trans r1 r2

/-- From the two rotations that the vertical blank moves provide in each pair
of rows, every rotation of three consecutive entries. -/
theorem rot_of_gen (R : List Nat → List Nat → Prop) (hR : Equivalence R) (n N : Nat)
    (hn : 2 ≤ n) (hNn : N + 1 = n * n)
    (hg1 : ∀ r A u v x C, r + 1 < n → A.length = r * n + (n - 2) →
      A.length + 3 + C.length = N →
      R (A ++ u :: v :: x :: C) (A ++ x :: u :: v :: C))
    (hg2 : ∀ r A M x C, r + 1 < n → A.length = r * n → M.length = 2 * n - 2 →
      A.length + M.length + 1 + C.length = N →
      R (A ++ (M ++ x :: C)) (A ++ x :: (M ++ C))) :
    ∀ A u v x C, A.length + 3 + C.length = N →
      R (A ++ u :: v :: x :: C) (A ++ x :: u :: v :: C) := by
  intro A u v x C hN
  have hnn : n * n = (n - 2) * n + 2 * n := by
    have h := Nat.sub_add_cancel hn
    calc n * n = (n - 2 + 2) * n := by rw [h]
      _ = (n - 2) * n + 2 * n := Nat.add_mul _ _ _
  -- the pair of rows whose window contains the three entries
  obtain ⟨r, hr1, hr2, hr3⟩ : ∃ r, r + 1 < n ∧ r * n ≤ A.length ∧
      A.length + 3 ≤ r * n + (2 * n - 1) := by
    by_cases hc : A.length / n + 1 < n
    · refine ⟨A.length / n, hc, Nat.div_mul_le_self _ _, ?_⟩
      have h1 := Nat.div_add_mod A.length n
      have h2 := Nat.mod_lt A.length (by omega : 0 < n)
      have h3 : A.length / n * n = n * (A.length / n) := Nat.mul_comm _ _
      by_cases h4 : n = 2
      · subst h4
        have : A.length / 2 = 0 := by omega
        omega
      · omega
    · refine ⟨n - 2, by omega, ?_, by omega⟩
      have h1 := Nat.div_add_mod A.length n
      have h5 : n - 1 ≤ A.length / n := by omega
      have h6 : n * (n - 1) ≤ n * (A.length / n) := Nat.mul_le_mul_left n h5
      have h7 : n * (n - 1) = (n - 2) * n + n := by
        have : n - 1 = (n - 2) + 1 := by omega
        rw [this, Nat.mul_add, Nat.mul_one, Nat.mul_comm]
      omega
  have hrn : r * n + 2 * n ≤ n * n := by
    have := Nat.mul_le_mul_right n (show r + 2 ≤ n by omega)
    rw [Nat.add_mul] at this
    exact this
  -- split the list around the window
  obtain ⟨W0, P, rfl, hW0⟩ : ∃ W0 P, A = W0 ++ P ∧ W0.length = r * n :=
    ⟨A.take (r * n), A.drop (r * n), (List.take_append_drop _ _).symm, by simp; omega⟩
  simp only [List.length_append] at hN hr2 hr3
  obtain ⟨Q, W1, rfl, hQ⟩ : ∃ Q W1, C = Q ++ W1 ∧ Q.length = 2 * n - 1 - 3 - P.length :=
    ⟨C.take (2 * n - 1 - 3 - P.length), C.drop (2 * n - 1 - 3 - P.length),
      (List.take_append_drop _ _).symm, by simp; omega⟩
  simp only [List.length_append] at hN
  have hrot := window_rotate R hR n N W0 W1
    (fun M y hM hl => hg2 r W0 M y W1 hr1 hW0 hM hl)
  by_cases hP : P.length ≤ n - 2
  · obtain ⟨Q1, Q2, rfl, hQ1⟩ : ∃ Q1 Q2, Q = Q1 ++ Q2 ∧ Q1.length = n - 2 :=
      ⟨Q.take (n - 2), Q.drop (n - 2), (List.take_append_drop _ _).symm, by simp; omega⟩
    simp only [List.length_append] at hN hQ
    have s1 := hrot Q2 (P ++ u :: v :: x :: Q1) (by simp; omega) (by omega)
    have s2 := hg1 r (W0 ++ (Q2 ++ P)) u v x (Q1 ++ W1) hr1 (by simp; omega) (by simp; omega)
    have s3 := hrot (P ++ x :: u :: v :: Q1) Q2 (by simp; omega) (by omega)
    simp only [List.append_assoc, List.cons_append, List.nil_append] at s1 s2 s3 ⊢
    exact hR.trans s1 (hR.trans s2 s3)
  · obtain ⟨P1, P2, rfl, hP2⟩ : ∃ P1 P2, P = P1 ++ P2 ∧ P2.length = n - 2 :=
      ⟨P.take (P.length - (n - 2)), P.drop (P.length - (n - 2)),
        (List.take_append_drop _ _).symm, by simp; omega⟩
    simp only [List.length_append] at hN hQ hP hr3
    have s1 := hrot (P2 ++ u :: v :: x :: Q) P1 (by simp; omega) (by omega)
    have s2 := hg1 r (W0 ++ P2) u v x (Q ++ (P1 ++ W1)) hr1 (by simp; omega) (by simp; omega)
    have s3 := hrot P1 (P2 ++ x :: u :: v :: Q) (by simp; omega) (by omega)
    simp only [List.append_assoc, List.cons_append, List.nil_append] at s1 s2 s3 ⊢
    exact hR.trans s1 (hR.trans s2 s3)

end Hw1

namespace Hw1

theorem div_mod_of_lt {n c : Nat} (q : Nat) (hc : c < n) :
    (q * n + c) / n = q ∧ (q * n + c) % n = c := by
  have hn : 0 < n := by omega
  constructor
  · rw [Nat.add_comm, Nat.add_mul_div_right _ _ hn, Nat.div_eq_of_lt hc, Nat.zero_add]
  · rw [Nat.add_comm, Nat.add_mul_mod_self_right, Nat.mod_eq_of_lt hc]

theorem snake_col_lt {n : Nat} (hn : 1 ≤ n) (k : Nat) :
    (if (k / n) % 2 = 0 then k % n else n - 1 - k % n) < n := by
  have := Nat.mod_lt k (by omega : 0 < n)
  split_ifs <;> omega

theorem snake_div {n : Nat} (hn : 1 ≤ n) (k : Nat) : snake n k / n = k / n :=
  (div_mod_of_lt (k / n) (snake_col_lt hn k)).1

theorem snake_mod {n : Nat} (hn : 1 ≤ n) (k : Nat) :
    snake n k % n = if (k / n) % 2 = 0 then k % n else n - 1 - k % n :=
  (div_mod_of_lt (k / n) (snake_col_lt hn k)).2

theorem snake_snake {n : Nat} (hn : 1 ≤ n) (k : Nat) : snake n (snake n k) = k := by
  have h1 := snake_div hn k
  have h2 := snake_mod hn k
  have h3 := Nat.mod_lt k (by omega : 0 < n)
  have h4 := Nat.div_add_mod k n
  have h5 : k / n * n = n * (k / n) := Nat.mul_comm _ _
  have e : snake n (snake n k) = (snake n k / n) * n +
      (if (snake n k / n) % 2 = 0 then snake n k % n else n - 1 - snake n k % n) := rfl
  rw [e, h1, h2]
  by_cases hp : (k / n) % 2 = 0
  · simp only [hp, if_true]; omega
  · simp only [hp, if_false]; omega

theorem snake_lt {n : Nat} (hn : 1 ≤ n) {k : Nat} (hk : k < n * n) : snake n k < n * n := by
  have h1 := snake_col_lt hn k
  have h2 : k / n < n := Nat.div_lt_of_lt_mul hk
  have h3 : (k / n + 1) * n ≤ n * n := Nat.mul_le_mul_right n h2
  rw [Nat.add_mul, Nat.one_mul] at h3
  unfold snake
  omega

theorem snake_inj {n : Nat} (hn : 1 ≤ n) {a b : Nat} (h : snake n a = snake n b) : a = b := by
  rw [← snake_snake hn a, ← snake_snake hn b, h]

/-- Consecutive cells of the snake order are neighbours on the grid. -/
theorem snake_adj_succ {n : Nat} (hn : 1 ≤ n) (k : Nat) :
    Adj n (snake n k) (snake n (k + 1)) := by
  have hn0 : 0 < n := by omega
  have h3 := Nat.mod_lt k hn0
  have hm := snake_mod hn k
  unfold Adj
  by_cases hc : k % n + 1 < n
  · obtain ⟨e1, e2⟩ := succ_div_mod hn0 hc
    have hm' := snake_mod hn (k + 1)
    rw [e1, e2] at hm'
    have s1 : snake n k = (k / n) * n + (if (k / n) % 2 = 0 then k % n else n - 1 - k % n) := rfl
    have s2 : snake n (k + 1) = ((k + 1) / n) * n +
        (if ((k + 1) / n) % 2 = 0 then (k + 1) % n else n - 1 - (k + 1) % n) := rfl
    rw [e1, e2] at s2
    by_cases hp : (k / n) % 2 = 0
    · simp only [hp, if_true] at hm hm' s1 s2
      right; right; left
      exact ⟨by omega, by omega⟩
    · simp only [hp, if_false] at hm hm' s1 s2
      right; right; right
      exact ⟨by omega, by omega⟩
  · have hlast : k % n = n - 1 := by omega
    have h4 := Nat.div_add_mod k n
    have h5 : k + 1 = (k / n + 1) * n + 0 := by
      rw [Nat.add_mul, Nat.one_mul, Nat.mul_comm]; omega
    obtain ⟨e1, e2⟩ := div_mod_of_lt (k / n + 1) hn0
    rw [← h5] at e1 e2
    left
    unfold snake
    rw [e1, e2, hlast, Nat.add_mul, Nat.one_mul]
    by_cases hp : (k / n) % 2 = 0
    · have hp' : ¬ (k / n + 1) % 2 = 0 := by omega
      simp only [hp, hp', if_true, if_false]; omega
    · have hp' : (k / n + 1) % 2 = 0 := by omega
      simp only [hp, hp', if_true, if_false]; omega

/-- The cell below the `k`-th cell of the snake order. -/
theorem snake_below {n : Nat} (hn : 1 ≤ n) (k : Nat) :
    snake n ((k / n + 1) * n + (n - 1 - k % n)) = snake n k + n := by
  have hn0 : 0 < n := by omega
  have h3 := Nat.mod_lt k hn0
  obtain ⟨e1, e2⟩ := div_mod_of_lt (n := n) (c := n - 1 - k % n) (k / n + 1) (by omega)
  unfold snake
  rw [e1, e2, Nat.add_mul, Nat.one_mul]
  by_cases hp : (k / n) % 2 = 0
  · have hp' : ¬ (k / n + 1) % 2 = 0 := by omega
    simp only [hp, hp', if_true, if_false]; omega
  · have hp' : (k / n + 1) % 2 = 0 := by omega
    simp only [hp, hp', if_true, if_false]; omega

theorem snake_adj_below {n : Nat} (hn : 1 ≤ n) (k : Nat) :
    Adj n (snake n k) (snake n ((k / n + 1) * n + (n - 1 - k % n))) := by
  rw [snake_below hn]
  exact Or.inl rfl

end Hw1

namespace Hw1

/-! ### Reachability -/

theorem ReachIn.reachIn_valid {n : Nat} (hn : 1 ≤ n) : ∀ (k : Nat) {b b' : List Nat},
    ValidBoard n b → ReachIn k b b' → ValidBoard n b' := by
  intro k
  induction k with
  | zero => intro b b' hb h; exact h ▸ hb
  | succ k ih =>
    intro b b' hb h
    obtain ⟨c, hs, hr⟩ := h
    exact ih (hs.step_valid hn hb) hr

theorem ReachIn.reachIn_trans : ∀ (k : Nat) {m : Nat} {b c d : List Nat},
    ReachIn k b c → ReachIn m c d → ReachIn (k + m) b d := by
  intro k
  induction k with
  | zero => intro m b c d h1 h2; rw [Nat.zero_add]; exact h1 ▸ h2
  | succ k ih =>
    intro m b c d h1 h2
    obtain ⟨e, hs, hr⟩ := h1
    rw [Nat.add_right_comm]
    exact ⟨e, hs, ih hr h2⟩

theorem Reachable.reach_refl (b : List Nat) : Reachable b b := ⟨0, rfl⟩

theorem Reachable.reach_trans {b c d : List Nat} (h1 : Reachable b c) (h2 : Reachable c d) :
    Reachable b d := by
  obtain ⟨k, hk⟩ := h1
  obtain ⟨m, hm⟩ := h2
  exact ⟨k + m, hk.reachIn_trans k hm⟩

theorem Reachable.of_step {b c : List Nat} (h : Step b c) : Reachable b c := ⟨1, c, h, rfl⟩

theorem Reachable.reach_valid {n : Nat} (hn : 1 ≤ n) {b b' : List Nat} (hb : ValidBoard n b)
    (h : Reachable b b') : ValidBoard n b' := by
  obtain ⟨k, hk⟩ := h
  exact hk.reachIn_valid hn k hb

theorem swapAt_swapAt (v : List Nat) {a b : Nat} (ha : a < v.length) (hb : b < v.length) :
    swapAt (swapAt v a b) b a = v := by
  apply List.ext_getElem
  · simp [swapAt_length]
  · intro k h1 h2
    have e1 := swapAt_getD (swapAt v a b) (a := b) (b := a) (by rw [swapAt_length]; exact hb)
      (by rw [swapAt_length]; exact ha) k
    rw [List.getD_eq_getElem _ _ h1] at e1
    rw [e1, swapAt_getD v ha hb, swapAt_getD v ha hb, swapAt_getD v ha hb,
      ← List.getD_eq_getElem _ 0 h2]
    by_cases c1 : k = a
    · subst c1; simp
    · by_cases c2 : k = b
      · subst c2
        rw [if_neg c1, if_pos rfl, if_pos rfl]
        by_cases c3 : a = k
        · exact absurd c3.symm c1
        · rw [if_neg c3]
      · rw [if_neg c1, if_neg c2, if_neg c2, if_neg c1]

/-- Legal moves are reversible. -/
theorem Step.step_symm {n : Nat} {b b' : List Nat} (hn : 1 ≤ n) (h : ValidBoard n b)
    (hs : Step b b') : Step b' b := by
  have h0 : 0 < n * n := Nat.mul_pos hn hn
  have hz := h.indexOf_lt h0
  have hbz : b.getD (b.indexOf 0) 0 = 0 := h.getD_indexOf h0
  obtain ⟨j, hj, hadj, rfl⟩ := (step_iff hn h b').mp hs
  have hv' := swapAt_valid h hz hj
  have hidx : (swapAt b (b.indexOf 0) j).indexOf 0 = j := by
    rw [swapAt_indexOf h hz hj h0, hbz, if_pos rfl]
  rw [step_iff hn hv']
  refine ⟨b.indexOf 0, hz, ?_, ?_⟩
  · rw [hidx]; exact hadj.adj_symm
  · rw [hidx, swapAt_swapAt b (by rw [h.length_eq]; exact hz) (by rw [h.length_eq]; exact hj)]

theorem ReachIn.reachIn_symm {n : Nat} (hn : 1 ≤ n) : ∀ (k : Nat) {b b' : List Nat},
    ValidBoard n b → ReachIn k b b' → ReachIn k b' b := by
  intro k
  induction k with
  | zero => intro b b' _ h; exact Eq.symm (show b = b' from h)
  | succ k ih =>
    intro b b' hb h
    obtain ⟨c, hs, hr⟩ := h
    have hc := hs.step_valid hn hb
    have h1 := ih hc hr
    have h2 : ReachIn 1 c b := ⟨b, hs.step_symm hn hb, rfl⟩
    exact h1.reachIn_trans k h2

theorem Reachable.reach_symm {n : Nat} (hn : 1 ≤ n) {b b' : List Nat} (hb : ValidBoard n b)
    (h : Reachable b b') : Reachable b' b := by
  obtain ⟨k, hk⟩ := h
  exact ⟨k, hk.reachIn_symm hn k hb⟩

theorem Reachable.reach_parity {n : Nat} (hn : 1 ≤ n) {b b' : List Nat} (hb : ValidBoard n b)
    (h : Reachable b b') : parity n b' = parity n b := by
  obtain ⟨k, hk⟩ := h
  induction k generalizing b with
  | zero => rw [show b = b' from hk]
  | succ k ih =>
    obtain ⟨c, hs, hr⟩ := hk
    rw [ih (hs.step_valid hn hb) hr, hs.step_parity hn hb]

/-! ### Boards read in snake order -/

theorem unsnake_length (n : Nat) (s : List Nat) : (unsnake n s).length = n * n := by
  simp [unsnake]

theorem unsnake_getD (n : Nat) (s : List Nat) {i : Nat} (hi : i < n * n) :
    (unsnake n s).getD i 0 = s.getD (snake n i) 0 := by
  rw [List.getD_eq_getElem _ _ (by rw [unsnake_length]; exact hi)]
  simp [unsnake]

theorem unsnake_unsnake {n : Nat} (hn : 1 ≤ n) {s : List Nat} (hs : s.length = n * n) :
    unsnake n (unsnake n s) = s := by
  apply List.ext_getElem
  · rw [unsnake_length, hs]
  · intro i h1 h2
    rw [← List.getD_eq_getElem _ 0 h1, ← List.getD_eq_getElem _ 0 h2]
    rw [unsnake_length] at h1
    rw [unsnake_getD n _ h1, unsnake_getD n _ (snake_lt hn h1), snake_snake hn]

theorem unsnake_valid {n : Nat} (hn : 1 ≤ n) {s : List Nat} (hs : ValidBoard n s) :
    ValidBoard n (unsnake n s) := by
  apply validBoard_of_nodup (unsnake_length n s)
  · rw [List.nodup_iff_injective_getElem]
    intro ⟨p, hp⟩ ⟨q, hq⟩ hpq
    simp only at hpq
    rw [← List.getD_eq_getElem _ 0 hp, ← List.getD_eq_getElem _ 0 hq] at hpq
    rw [unsnake_length] at hp hq
    rw [unsnake_getD n _ hp, unsnake_getD n _ hq] at hpq
    have := hs.getD_inj (snake_lt hn hp) (snake_lt hn hq) hpq
    exact Fin.ext (snake_inj hn this)
  · intro x hx
    obtain ⟨p, hp, rfl⟩ := List.getElem_of_mem hx
    rw [← List.getD_eq_getElem _ 0 hp]
    rw [unsnake_length] at hp
    rw [unsnake_getD n _ hp]
    exact hs.getD_lt (snake_lt hn hp)

theorem unsnake_indexOf {n : Nat} (hn : 1 ≤ n) {s : List Nat} (hs : ValidBoard n s) {v : Nat}
    (hv : v < n * n) : (unsnake n s).indexOf v = snake n (s.indexOf v) := by
  have hp := hs.indexOf_lt hv
  have h1 : (unsnake n s).getD (snake n (s.indexOf v)) 0 = v := by
    rw [unsnake_getD n _ (snake_lt hn hp), snake_snake hn, hs.getD_indexOf hv]
  rw [← h1, (unsnake_valid hn hs).indexOf_getD (snake_lt hn hp), h1]

theorem unsnake_swapAt {n : Nat} (hn : 1 ≤ n) {s : List Nat} (hs : s.length = n * n)
    {p q : Nat} (hp : p < n * n) (hq : q < n * n) :
    unsnake n (swapAt s p q) = swapAt (unsnake n s) (snake n p) (snake n q) := by
  apply List.ext_getElem
  · rw [unsnake_length, swapAt_length, unsnake_length]
  · intro i h1 h2
    rw [← List.getD_eq_getElem _ 0 h1, ← List.getD_eq_getElem _ 0 h2]
    rw [unsnake_length] at h1
    rw [unsnake_getD n _ h1, swapAt_getD s (by omega) (by omega),
      swapAt_getD _ (by rw [unsnake_length]; exact snake_lt hn hp)
        (by rw [unsnake_length]; exact snake_lt hn hq),
      unsnake_getD n _ h1, unsnake_getD n _ (snake_lt hn hp),
      unsnake_getD n _ (snake_lt hn hq), snake_snake hn, snake_snake hn]
    have e1 : snake n i = q ↔ i = snake n q := by
      constructor
      · intro h; rw [← h, snake_snake hn]
      · intro h; rw [h, snake_snake hn]
    have e2 : snake n i = p ↔ i = snake n p := by
      constructor
      · intro h; rw [← h, snake_snake hn]
      · intro h; rw [h, snake_snake hn]
    simp only [e1, e2]

/-- A blank move between two cells of the snake order that are neighbours on
the grid is a legal move of the board. -/
theorem step_unsnake {n : Nat} (hn : 1 ≤ n) {s : List Nat} (hs : ValidBoard n s) {q : Nat}
    (hq : q < n * n) (hadj : Adj n (snake n (s.indexOf 0)) (snake n q)) :
    Step (unsnake n s) (unsnake n (swapAt s (s.indexOf 0) q)) := by
  have h0 : 0 < n * n := Nat.mul_pos hn hn
  rw [step_iff hn (unsnake_valid hn hs)]
  refine ⟨snake n q, snake_lt hn hq, ?_, ?_⟩
  · rw [unsnake_indexOf hn hs h0]; exact hadj
  · rw [unsnake_indexOf hn hs h0, unsnake_swapAt hn hs.length_eq (hs.indexOf_lt h0) hq]

end Hw1

namespace Hw1

theorem ValidBoard.of_perm {n : Nat} {s s' : List Nat} (h : ValidBoard n s) (hp : s.Perm s') :
    ValidBoard n s' := hp.symm.trans h

theorem not_mem_of_nodup_append {A rest : List Nat} {x : Nat} (h : (A ++ x :: rest).Nodup) :
    x ∉ A := by
  intro hc
  rw [List.nodup_append] at h
  exact h.2.2 hc (List.mem_cons_self _ _)

/-- Moving the blank between two cells of the snake order that are neighbours
on the grid. -/
theorem move_blank {n : Nat} (hn : 1 ≤ n) (A M C : List Nat) (x : Nat)
    (hv : ValidBoard n (A ++ 0 :: (M ++ x :: C)))
    (hadj : Adj n (snake n A.length) (snake n (A.length + 1 + M.length))) :
    Reachable (unsnake n (A ++ 0 :: (M ++ x :: C))) (unsnake n (A ++ x :: (M ++ 0 :: C))) := by
  have hidx : (A ++ 0 :: (M ++ x :: C)).indexOf 0 = A.length :=
    indexOf_append_cons (not_mem_of_nodup_append hv.nodup) _
  have hl := hv.length_eq
  simp only [List.length_append, List.length_cons] at hl
  have hq : A.length + 1 + M.length < n * n := by omega
  have := step_unsnake hn hv hq (by rw [hidx]; exact hadj)
  rw [hidx, swapAt_append] at this
  exact Reachable.of_step this

theorem blank_step_right {n : Nat} (hn : 1 ≤ n) (A C : List Nat) (x : Nat)
    (hv : ValidBoard n (A ++ 0 :: x :: C)) :
    Reachable (unsnake n (A ++ 0 :: x :: C)) (unsnake n (A ++ x :: 0 :: C)) :=
  move_blank hn A [] C x hv (snake_adj_succ hn _)

/-- The blank can be brought to the first cell of the snake order without
changing the order of the tiles. -/
theorem blank_to_front {n : Nat} (hn : 1 ≤ n) :
    ∀ (A C : List Nat), ValidBoard n (A ++ 0 :: C) →
      Reachable (unsnake n (A ++ 0 :: C)) (unsnake n (0 :: (A ++ C))) := by
  intro A
  induction A using List.reverseRecOn with
  | nil => intro C _; exact Reachable.reach_refl _
  | append_singleton A x ih =>
    intro C hv
    have hperm : (A ++ [x] ++ 0 :: C).Perm (A ++ 0 :: x :: C) := by
      rw [List.append_assoc]
      exact List.Perm.append_left _ (List.Perm.swap _ _ _)
    have hv' : ValidBoard n (A ++ 0 :: x :: C) := hv.of_perm hperm
    have h1 := blank_step_right hn A C x hv'
    have h2 := Reachable.reach_symm hn (unsnake_valid hn hv') h1
    have h3 := ih (x :: C) hv'
    simp only [List.append_assoc, List.cons_append, List.nil_append] at h2 h3 ⊢
    exact h2.reach_trans h3

theorem TileReach.tile_refl (n : Nat) (t : List Nat) : TileReach n t t :=
  ⟨List.Perm.refl _, fun _ => Reachable.reach_refl _⟩

theorem TileReach.tile_symm {n : Nat} (hn : 1 ≤ n) {t t' : List Nat} (h : TileReach n t t') :
    TileReach n t' t := by
  refine ⟨h.1.symm, fun hv => ?_⟩
  have hv0 : ValidBoard n (0 :: t) := hv.of_perm (List.Perm.cons 0 h.1.symm)
  exact Reachable.reach_symm hn (unsnake_valid hn hv0) (h.2 hv0)

theorem TileReach.tile_trans {n : Nat} {t t' t'' : List Nat} (h1 : TileReach n t t')
    (h2 : TileReach n t' t'') : TileReach n t t'' := by
  refine ⟨h1.1.trans h2.1, fun hv => ?_⟩
  exact (h1.2 hv).reach_trans (h2.2 (hv.of_perm (List.Perm.cons 0 h1.1)))

theorem TileReach.equivalence {n : Nat} (hn : 1 ≤ n) : Equivalence (TileReach n) :=
  ⟨TileReach.tile_refl n, fun h => h.tile_symm hn, fun h1 h2 => h1.tile_trans h2⟩

/-- The rearrangement of the tile sequence produced by a vertical blank move. -/
theorem TileReach.gen {n : Nat} (hn : 1 ≤ n) (A M C : List Nat) (x : Nat)
    (hM : M.length = 2 * (n - 1 - A.length % n)) :
    TileReach n (A ++ (M ++ x :: C)) (A ++ x :: (M ++ C)) := by
  refine ⟨List.Perm.append_left _ List.perm_middle, fun hv => ?_⟩
  have hv1 : ValidBoard n (A ++ 0 :: (M ++ x :: C)) :=
    hv.of_perm (@List.perm_middle Nat 0 A _).symm
  have s1 := Reachable.reach_symm hn (unsnake_valid hn hv1) (blank_to_front hn A (M ++ x :: C) hv1)
  have hmod := Nat.mod_lt A.length (by omega : 0 < n)
  have hq : A.length + 1 + M.length = (A.length / n + 1) * n + (n - 1 - A.length % n) := by
    have h1 := Nat.div_add_mod A.length n
    rw [Nat.add_mul, Nat.one_mul, Nat.mul_comm]
    omega
  have s2 := move_blank hn A M C x hv1 (by rw [hq]; exact snake_adj_below hn _)
  have hperm2 : (A ++ 0 :: (M ++ x :: C)).Perm ((A ++ x :: M) ++ 0 :: C) := by
    rw [List.append_assoc]
    apply List.Perm.append_left
    refine (@List.perm_middle Nat 0 [] _).trans ?_
    refine List.Perm.trans ?_ (@List.perm_middle Nat 0 (x :: M) _).symm
    apply List.Perm.cons
    simp only [List.nil_append, List.cons_append]
    exact List.perm_middle
  have hv2 : ValidBoard n ((A ++ x :: M) ++ 0 :: C) := hv1.of_perm hperm2
  have s3 := blank_to_front hn (A ++ x :: M) C hv2
  simp only [List.append_assoc, List.cons_append, List.nil_append] at s1 s2 s3 ⊢
  exact s1.reach_trans (s2.reach_trans s3)

/-- Every rotation of three consecutive tiles of the snake order can be
realised by legal moves. -/
theorem TileReach.rot {n : Nat} (hn : 2 ≤ n) (A : List Nat) (u v x : Nat) (C : List Nat)
    (hN : A.length + 3 + C.length = n * n - 1) :
    TileReach n (A ++ u :: v :: x :: C) (A ++ x :: u :: v :: C) := by
  have hn1 : 1 ≤ n := by omega
  have hpos : 0 < n * n := Nat.mul_pos (by omega) (by omega)
  apply rot_of_gen (TileReach n) (TileReach.equivalence hn1) n (n * n - 1) hn (by omega) ?_ ?_
    A u v x C hN
  · intro r A u v x C hr hA _
    have hdm := div_mod_of_lt (n := n) (c := n - 2) r (by omega)
    have := TileReach.gen hn1 A [u, v] C x (by rw [hA, hdm.2]; simp; omega)
    simpa using this
  · intro r A M x C hr hA hM _
    have hdm := div_mod_of_lt (n := n) (c := 0) r (by omega)
    rw [Nat.add_zero] at hdm
    exact TileReach.gen hn1 A M C x (by rw [hA, hdm.2, hM]; omega)

end Hw1

namespace Hw1

/-- A valid board, read in snake order, with the blank brought to the front. -/
theorem exists_front_form {n : Nat} (hn : 1 ≤ n) {b : List Nat} (hb : ValidBoard n b) :
    ∃ t, ValidBoard n (0 :: t) ∧ Reachable b (unsnake n (0 :: t)) := by
  have h0 : 0 < n * n := Nat.mul_pos hn hn
  have hs := unsnake_valid hn hb
  have hmem : 0 ∈ unsnake n b := (hs.mem_iff 0).mpr h0
  obtain ⟨A, C, hAC⟩ := List.append_of_mem hmem
  have hv : ValidBoard n (A ++ 0 :: C) := hAC ▸ hs
  have key := blank_to_front hn A C hv
  rw [← hAC, unsnake_unsnake hn hb.length_eq] at key
  exact ⟨A ++ C, hv.of_perm List.perm_middle, key⟩

/-- Sufficiency of the parity test: two valid boards with the same parity are
connected by legal moves. -/
theorem reachable_of_parity {n : Nat} (hn : 1 ≤ n) {b g : List Nat} (hb : ValidBoard n b)
    (hg : ValidBoard n g) (hp : parity n b = parity n g) : Reachable b g := by
  by_cases hn2 : 2 ≤ n
  swap
  · have hn1 : n = 1 := by omega
    subst hn1
    have e1 : b = [0] := by
      have := hb.length_eq
      have hm := (hb.mem_iff 0).mpr (by decide)
      match b, this with
      | [x], _ =>
        rw [List.mem_singleton] at hm
        rw [← hm]
    have e2 : g = [0] := by
      have := hg.length_eq
      have hm := (hg.mem_iff 0).mpr (by decide)
      match g, this with
      | [x], _ =>
        rw [List.mem_singleton] at hm
        rw [← hm]
    rw [e1, e2]
    exact Reachable.reach_refl _
  obtain ⟨tb, hvb, hrb⟩ := exists_front_form hn hb
  obtain ⟨tg, hvg, hrg⟩ := exists_front_form hn hg
  have hperm : tb.Perm tg := List.Perm.cons_inv (hvb.trans hvg.symm)
  have hlen : tg.length + 1 = n * n := by
    have := hvg.length_eq
    simpa using this
  have hnn : 4 ≤ n * n := Nat.mul_le_mul hn2 hn2
  obtain ⟨u0, a, c, rfl⟩ := exists_snoc2 tg (by omega)
  have hsort := sort_or_defect (TileReach n) (TileReach.equivalence hn) (n * n - 1)
    (fun A u v x C hN => TileReach.rot hn2 A u v x C hN) a c u0 [] tb hperm
    (by have := hperm.length_eq; simp only [List.length_nil, Nat.zero_add]; omega)
  simp only [List.nil_append] at hsort
  have hgv := unsnake_valid hn hvg
  rcases hsort with h | h
  · exact hrb.reach_trans ((h.2 hvb).reach_trans (Reachable.reach_symm hn hg hrg))
  · exfalso
    have hreach := hrb.reach_trans (h.2 hvb)
    have hpar1 := Reachable.reach_parity hn hb hreach
    have hpar2 := Reachable.reach_parity hn hg hrg
    have hl : (0 :: (u0 ++ [a, c])).length = n * n := hvg.length_eq
    simp only [List.length_cons, List.length_append, List.length_nil] at hl
    have hsw : 0 :: (u0 ++ [c, a]) =
        swapAt (0 :: (u0 ++ [a, c])) (u0.length + 1) (u0.length + 1 + 1) := by
      have := swapAt_append (0 :: u0) [] [] a c
      simp only [List.nil_append, List.length_cons, List.length_nil, Nat.add_zero,
        List.cons_append] at this
      rw [this]
    have hga : (0 :: (u0 ++ [a, c])).getD (u0.length + 1) 0 = a := by
      rw [List.getD_cons_succ, List.getD_append_right _ _ _ _ (le_refl _)]
      simp
    have hgc : (0 :: (u0 ++ [a, c])).getD (u0.length + 1 + 1) 0 = c := by
      rw [List.getD_cons_succ, List.getD_append_right _ _ _ _ (by omega)]
      simp
    have hnd := hvg.nodup
    rw [List.nodup_cons] at hnd
    have ha0 : a ≠ 0 := fun hc => hnd.1 (hc ▸ by simp)
    have hc0 : c ≠ 0 := fun hc => hnd.1 (hc ▸ by simp)
    have hp1 : u0.length + 1 < n * n := by omega
    have hp2 : u0.length + 1 + 1 < n * n := by omega
    have hflip := swap_tiles_parity hn hgv (snake_lt hn hp1) (snake_lt hn hp2)
      (fun hc => by have := snake_inj hn hc; omega)
      (by rw [unsnake_getD n _ (snake_lt hn hp1), snake_snake hn, hga]; exact ha0)
      (by rw [unsnake_getD n _ (snake_lt hn hp2), snake_snake hn, hgc]; exact hc0)
    rw [← unsnake_swapAt hn hvg.length_eq hp1 hp2, ← hsw] at hflip
    rw [hpar1, hp, ← hpar2] at hflip
    exact hflip rfl

/-- The parity test of `is_solvable()` is exact: a valid board passes it against
a valid goal board if and only if the goal is reachable by legal moves. -/
theorem reachable_iff_parity {n : Nat} (hn : 1 ≤ n) {b g : List Nat} (hb : ValidBoard n b)
    (hg : ValidBoard n g) : Reachable b g ↔ parity n b = parity n g :=
  ⟨fun h => (Reachable.reach_parity hn hb h).symm, reachable_of_parity hn hb hg⟩

end Hw1

namespace Hw1

/-! ## The claims -/

theorem solveRoot_solvable_iff {n : Nat} {board : List Nat} (hn : 1 ≤ n)
    (hb : ValidBoard n board) {I : Nat} (hI : I < n * n) (N : Int) :
    (solveRoot N I board).is_solvable = true ↔ Reachable board (goalBoard (n * n) I) := by
  have hg : ValidBoard n (goalBoard (n * n) I) := goalBoard_valid n I hI
  unfold solveRoot
  rw [solveGoal_eq hb N, is_solvable_iff_parity hn hb hg, reachable_iff_parity hn hb hg]

/-- Two legal moves lead from `[1,2,3,4,5,6,0,7,8]` to the goal with the blank last. -/
theorem reach_example : ReachIn 2 [1, 2, 3, 4, 5, 6, 0, 7, 8] (goalBoard (3 * 3) (8 : Nat)) :=
  ⟨[1, 2, 3, 4, 5, 6, 7, 0, 8], by unfold Step; decide,
    [1, 2, 3, 4, 5, 6, 7, 8, 0], by unfold Step; decide,
    by show [1, 2, 3, 4, 5, 6, 7, 8, 0] = goalBoard (3 * 3) (8 : Nat); decide⟩

/-- C2 (amended): on every valid board and blank target in range whose goal can
be reached in fewer than `INF` moves, applying the labels of a move list
returned by `solve` in order, each as the move that `successors()` attaches to
it, is legal at every step and yields exactly the goal board. -/
theorem solve_round_trip (n : Nat) (board : List Nat) (I : Nat) (N : Int) (k fuel : Nat)
    (ms : List String) (hn : 1 ≤ n) (hb : ValidBoard n board) (hI : I < n * n)
    (hreach : ReachIn k board (goalBoard (n * n) I)) (hk : (k : Int) < INF)
    (hsolve : solve fuel N I board = some (some ms)) :
    applyMoves (Grid.new (goalBoard (n * n) I)) board ms = some (goalBoard (n * n) I) :=
  (solve_correct hn hb hI N hreach hk hsolve).2.2

theorem solve_round_trip_witness :
    applyMoves (Grid.new (goalBoard (3 * 3) (8 : Nat))) [1, 2, 3, 4, 5, 6, 0, 7, 8]
      ["left", "left"] = some (goalBoard (3 * 3) (8 : Nat)) :=
  solve_round_trip 3 [1, 2, 3, 4, 5, 6, 0, 7, 8] 8 8 2 3 ["left", "left"] (by decide)
    (by decide) (by decide) reach_example (by decide) (by decide)

/-- C3: for every valid board and blank target in range, `solve` (given enough
fuel to finish) returns a move list exactly when the goal board is reachable
from the board by legal blank moves, and the empty optional otherwise. -/
theorem solve_solved_iff_reachable (n : Nat) (board : List Nat) (I : Nat) (N : Int)
    (hn : 1 ≤ n) (hb : ValidBoard n board) (hI : I < n * n) :
    ∃ fuel0, ∀ fuel, fuel0 ≤ fuel →
      (Reachable board (goalBoard (n * n) I) → ∃ ms, solve fuel N I board = some (some ms)) ∧
      (¬ Reachable board (goalBoard (n * n) I) → solve fuel N I board = some none) := by
  refine ⟨(max INF (solveRoot N I board).h + 2).toNat, fun fuel hf => ⟨?_, ?_⟩⟩
  · intro hr
    have hs := (solveRoot_solvable_iff hn hb hI N).mpr hr
    have hsome := ida_star_isSome (solveRoot N I board) fuel hf
    rw [solve_eq, if_neg (by rw [hs]; exact Bool.noConfusion)]
    cases hi : ida_star fuel (solveRoot N I board) with
    | none => rw [hi] at hsome; exact Bool.noConfusion hsome
    | some path => exact ⟨pathMoves path, rfl⟩
  · intro hr
    have hs : (solveRoot N I board).is_solvable = false := by
      cases hc : (solveRoot N I board).is_solvable with
      | false => rfl
      | true => exact absurd ((solveRoot_solvable_iff hn hb hI N).mp hc) hr
    rw [solve_eq, if_pos hs]

theorem solve_solved_iff_reachable_witness :
    ∃ fuel0, ∀ fuel, fuel0 ≤ fuel →
      (Reachable [1, 2, 3, 4, 5, 6, 0, 7, 8] (goalBoard (3 * 3) (8 : Nat)) →
        ∃ ms, solve fuel 8 (8 : Nat) [1, 2, 3, 4, 5, 6, 0, 7, 8] = some (some ms)) ∧
      (¬ Reachable [1, 2, 3, 4, 5, 6, 0, 7, 8] (goalBoard (3 * 3) (8 : Nat)) →
        solve fuel 8 (8 : Nat) [1, 2, 3, 4, 5, 6, 0, 7, 8] = some none) :=
  solve_solved_iff_reachable 3 [1, 2, 3, 4, 5, 6, 0, 7, 8] 8 8 (by decide) (by decide)
    (by decide)

/-- C5: `solve` returns the empty optional exactly when `is_solvable()` is false
on the root it builds, and then without any fuel (no call of `ida_star` or
`search` is made); when `is_solvable()` is true the result is a move list. -/
theorem solve_none_iff (N I : Int) (board : List Nat) :
    ((solveRoot N I board).is_solvable = false →
      ∀ fuel, solve fuel N I board = some none) ∧
    ((solveRoot N I board).is_solvable = true →
      (∀ fuel, solve fuel N I board ≠ some none) ∧
      ∃ fuel0, ∀ fuel, fuel0 ≤ fuel → ∃ ms, solve fuel N I board = some (some ms)) := by
  constructor
  · intro hs fuel
    rw [solve_eq, if_pos hs]
  · intro hs
    have hne : ¬ (solveRoot N I board).is_solvable = false := by rw [hs]; exact Bool.noConfusion
    constructor
    · intro fuel
      rw [solve_eq, if_neg hne]
      cases hi : ida_star fuel (solveRoot N I board) <;> simp
    · refine ⟨(max INF (solveRoot N I board).h + 2).toNat, fun fuel hf => ?_⟩
      have hsome := ida_star_isSome (solveRoot N I board) fuel hf
      rw [solve_eq, if_neg hne]
      cases hi : ida_star fuel (solveRoot N I board) with
      | none => rw [hi] at hsome; exact Bool.noConfusion hsome
      | some path => exact ⟨pathMoves path, rfl⟩

/-- On the exact inversion counts, `is_solvable()` is the parity formula: for
odd `n` the counts of start and goal agree modulo 2; for even `n` the goal's
count agrees modulo 2 with the start's count plus the two rows of the blank. -/
theorem is_solvable_formula (n : Nat) (b g : List Nat) (m : String) (hn : 1 ≤ n)
    (hb : ValidBoard n b) (hg : ValidBoard n g) :
    ((State.new b (Grid.new g) m).is_solvable = true ↔
      if n % 2 = 1 then inversionPairs b % 2 = inversionPairs g % 2
      else inversionPairs g % 2 = (inversionPairs b + g.indexOf 0 / n + b.indexOf 0 / n) % 2) ∧
    (State.new b (Grid.new g) m).inversions = inversionPairs b ∧
    (State.new b (Grid.new g) m).goal.inversions = inversionPairs g := by
  refine ⟨?_, inversions_eq_inversionPairs _, inversions_eq_inversionPairs _⟩
  rw [is_solvable_new hn hb hg, inversionPairs_eq_inv_tiles, inversionPairs_eq_inv_tiles]
  by_cases hodd : n % 2 = 1
  · simp only [hodd, if_true, beq_iff_eq]
    exact eq_comm
  · simp only [hodd, if_false, beq_iff_eq]

/-- C7: for every `n ≥ 2` and every goal board built by `solve` (blank target
`I` in range), the board obtained from the goal by exchanging the tiles at two
different non-blank cells is rejected: `is_solvable()` is false and `solve`
returns the empty optional, whatever the fuel. -/
theorem swapped_goal_unsolvable (n I p q : Nat) (N : Int) (fuel : Nat) (hn : 2 ≤ n)
    (hI : I < n * n) (hp : p < n * n) (hq : q < n * n) (hpq : p ≠ q) (hpI : p ≠ I)
    (hqI : q ≠ I) :
    (State.new (swapAt (goalBoard (n * n) I) p q) (Grid.new (goalBoard (n * n) I))
      "").is_solvable = false ∧
    solve fuel N I (swapAt (goalBoard (n * n) I) p q) = some none := by
  have hn1 : 1 ≤ n := by omega
  have hg : ValidBoard n (goalBoard (n * n) I) := goalBoard_valid n I hI
  have hb : ValidBoard n (swapAt (goalBoard (n * n) I) p q) := swapAt_valid hg hp hq
  have hne : ∀ r, r < n * n → r ≠ I → (goalBoard (n * n) I).getD r 0 ≠ 0 := by
    intro r hr hrI
    rw [goalBoard_getD _ _ _ hr]
    unfold goalEntry
    have : ¬ ((r : Int) = (I : Int)) := by omega
    rw [if_neg this]
    split_ifs <;> omega
  have hpar := swap_tiles_parity hn1 hg hp hq hpq (hne p hp hpI) (hne q hq hqI)
  have hs : (State.new (swapAt (goalBoard (n * n) I) p q) (Grid.new (goalBoard (n * n) I))
      "").is_solvable = false := by
    cases hc : (State.new (swapAt (goalBoard (n * n) I) p q)
        (Grid.new (goalBoard (n * n) I)) "").is_solvable with
    | false => rfl
    | true => exact absurd ((is_solvable_iff_parity hn1 hb hg "").mp hc) hpar
  refine ⟨hs, ?_⟩
  rw [solve_eq]
  unfold solveRoot
  rw [solveGoal_eq hb N, if_pos hs]

theorem swapped_goal_unsolvable_witness :
    ((State.new [1, 2, 3, 4, 5, 6, 8, 7, 0] (Grid.new (goalBoard (3 * 3) (8 : Nat)))
        "").is_solvable = false ∧
      solve 0 8 (8 : Nat) [1, 2, 3, 4, 5, 6, 8, 7, 0] = some none) ∧
    ((State.new [1, 2, 3, 4, 5, 6, 7, 8, 9, 10, 11, 12, 13, 15, 14, 0]
        (Grid.new (goalBoard (4 * 4) (15 : Nat))) "").is_solvable = false ∧
      solve 0 15 (15 : Nat) [1, 2, 3, 4, 5, 6, 7, 8, 9, 10, 11, 12, 13, 15, 14, 0] =
        some none) :=
  ⟨swapped_goal_unsolvable 3 8 6 7 8 0 (by decide) (by decide) (by decide) (by decide)
      (by decide) (by decide) (by decide),
   swapped_goal_unsolvable 4 15 13 14 15 0 (by decide) (by decide) (by decide) (by decide)
      (by decide) (by decide) (by decide)⟩

/-- C8: for every `n ≥ 1` and every blank target `I` in range, `solve` called on
the goal board itself returns the empty move list: `h` of the root is 0, the
first `search` call returns `FOUND` at bound 0 with the path `[root]`. -/
theorem solve_goal_board (n I : Nat) (N : Int) (fuel : Nat) (hn : 1 ≤ n) (hI : I < n * n) :
    solve (fuel + 1) N I (goalBoard (n * n) I) = some (some []) ∧
    (solveRoot N I (goalBoard (n * n) I)).h = 0 ∧
    search (fuel + 1) [solveRoot N I (goalBoard (n * n) I)] 0 0 =
      some (FOUND, [solveRoot N I (goalBoard (n * n) I)]) := by
  have hg : ValidBoard n (goalBoard (n * n) I) := goalBoard_valid n I hI
  have hroot : solveRoot N I (goalBoard (n * n) I) =
      State.new (goalBoard (n * n) I) (Grid.new (goalBoard (n * n) I)) "" := by
    unfold solveRoot
    rw [solveGoal_eq hg N]
  have key := ida_star_goal hn hg "" fuel
  rw [hroot]
  refine ⟨?_, key.1, key.2.1⟩
  have hs : (State.new (goalBoard (n * n) I) (Grid.new (goalBoard (n * n) I))
      "").is_solvable = true := (is_solvable_iff_parity hn hg hg "").mpr rfl
  rw [solve_eq, hroot, if_neg (by rw [hs]; exact Bool.noConfusion), key.2.2]
  rfl

theorem solve_goal_board_witness :
    solve (0 + 1) 8 (8 : Nat) [1, 2, 3, 4, 5, 6, 7, 8, 0] = some (some []) ∧
    (solveRoot 8 (8 : Nat) [1, 2, 3, 4, 5, 6, 7, 8, 0]).h = 0 ∧
    search (0 + 1) [solveRoot 8 (8 : Nat) [1, 2, 3, 4, 5, 6, 7, 8, 0]] 0 0 =
      some (FOUND, [solveRoot 8 (8 : Nat) [1, 2, 3, 4, 5, 6, 7, 8, 0]]) :=
  solve_goal_board 3 8 8 0 (by decide) (by decide)

/-- C9: on the board `[1,2,3,4,5,6,0,7,8]`, `solve(8, -1, board)` and the call
with blank target index 8 return the same list of exactly 2 moves, and applying
the two moves in order to the board yields `[1,2,3,4,5,6,7,8,0]`. -/
theorem solve_two_moves (fuel : Nat) :
    solve (fuel + 3) 8 (-1) [1, 2, 3, 4, 5, 6, 0, 7, 8] = some (some ["left", "left"]) ∧
    solve (fuel + 3) 8 8 [1, 2, 3, 4, 5, 6, 0, 7, 8] = some (some ["left", "left"]) ∧
    ["left", "left"].length = 2 ∧
    applyMoves (Grid.new (goalBoard 9 8)) [1, 2, 3, 4, 5, 6, 0, 7, 8] ["left", "left"] =
      some [1, 2, 3, 4, 5, 6, 7, 8, 0] ∧
    goalBoard 9 8 = [1, 2, 3, 4, 5, 6, 7, 8, 0] :=
  ⟨solve_mono (Nat.le_add_left 3 fuel) (by decide),
   solve_mono (Nat.le_add_left 3 fuel) (by decide), rfl, by decide, by decide⟩

/-- For valid state and goal boards the exact sum of `h()` is the Manhattan
distance sum over the tile values `1 .. n*n-1`. -/
theorem h_eq_manhattan (n : Nat) (b g : List Nat) (m : String) (hn : 1 ≤ n)
    (hb : ValidBoard n b) (hg : ValidBoard n g) :
    (State.new b (Grid.new g) m).h =
      ∑ v in Finset.Ico 1 (n * n),
        (|((b.indexOf v / n : Nat) : Int) - ((g.indexOf v / n : Nat) : Int)| +
         |((b.indexOf v % n : Nat) : Int) - ((g.indexOf v % n : Nat) : Int)|) :=
  h_new_eq hn hb hg m

end Hw1

namespace Hw1

/-! ### Exact change of the Manhattan sum under exchanges -/

theorem manhattan_eq_sum_cellDist (n : Nat) (b g : List Nat) :
    manhattan n b g = ∑ v in Finset.Ico 1 (n * n), cellDist n (b.indexOf v) (g.indexOf v) := rfl

theorem cellDist_self (n p : Nat) : cellDist n p p = 0 := by simp [cellDist]

theorem cellDist_comm (n p q : Nat) : cellDist n p q = cellDist n q p := by
  unfold cellDist
  rw [abs_sub_comm, abs_sub_comm ((p % n : Nat) : Int)]

theorem sum_eq_of_one_diff {S : Finset Nat} {f f' : Nat → Int} {t : Nat} (ht : t ∈ S)
    (hne : ∀ v ∈ S, v ≠ t → f' v = f v) :
    ∑ v in S, f' v = ∑ v in S, f v + (f' t - f t) := by
  rw [← Finset.add_sum_erase S f' ht, ← Finset.add_sum_erase S f ht]
  have : ∑ v in S.erase t, f' v = ∑ v in S.erase t, f v := by
    apply Finset.sum_congr rfl
    intro v hv
    rw [Finset.mem_erase] at hv
    exact hne v hv.2 hv.1
  rw [this]
  ring

theorem sum_eq_of_two_diff {S : Finset Nat} {f f' : Nat → Int} {t u : Nat} (ht : t ∈ S)
    (hu : u ∈ S) (htu : t ≠ u) (hne : ∀ v ∈ S, v ≠ t → v ≠ u → f' v = f v) :
    ∑ v in S, f' v = ∑ v in S, f v + (f' t - f t) + (f' u - f u) := by
  have hu' : u ∈ S.erase t := Finset.mem_erase.mpr ⟨Ne.symm htu, hu⟩
  rw [← Finset.add_sum_erase S f' ht, ← Finset.add_sum_erase S f ht,
    ← Finset.add_sum_erase (S.erase t) f' hu', ← Finset.add_sum_erase (S.erase t) f hu']
  have : ∑ v in (S.erase t).erase u, f' v = ∑ v in (S.erase t).erase u, f v := by
    apply Finset.sum_congr rfl
    intro v hv
    rw [Finset.mem_erase, Finset.mem_erase] at hv
    exact hne v hv.2.2 hv.2.1 hv.1
  rw [this]
  ring

/-- Exact change of the Manhattan sum when the blank is exchanged with the
tile at cell `j`. -/
theorem manhattan_blank_swap {n : Nat} {b : List Nat} (g : List Nat) (hn : 1 ≤ n)
    (h : ValidBoard n b) {j : Nat} (hj : j < n * n) (hne : b.indexOf 0 ≠ j) :
    manhattan n (swapAt b (b.indexOf 0) j) g = manhattan n b g +
      (cellDist n (b.indexOf 0) (g.indexOf (b.getD j 0)) -
        cellDist n j (g.indexOf (b.getD j 0))) := by
  have h0 : 0 < n * n := Nat.mul_pos hn hn
  have hz := h.indexOf_lt h0
  have hbz : b.getD (b.indexOf 0) 0 = 0 := h.getD_indexOf h0
  have htj : b.getD j 0 ≠ 0 := by
    intro hc
    exact hne (h.getD_inj hz hj (by rw [hbz, hc]))
  have htlt : b.getD j 0 < n * n := h.getD_lt hj
  have hmem : b.getD j 0 ∈ Finset.Ico 1 (n * n) := by
    rw [Finset.mem_Ico]; omega
  have hidx : ∀ v ∈ Finset.Ico 1 (n * n), (swapAt b (b.indexOf 0) j).indexOf v =
      if v = b.getD j 0 then b.indexOf 0 else b.indexOf v := by
    intro v hv
    rw [Finset.mem_Ico] at hv
    rw [swapAt_indexOf h hz hj hv.2, hbz, if_neg (by omega)]
  rw [manhattan_eq_sum_cellDist, manhattan_eq_sum_cellDist,
    sum_eq_of_one_diff (f := fun v => cellDist n (b.indexOf v) (g.indexOf v)) hmem]
  · rw [hidx _ hmem, if_pos rfl, h.indexOf_getD hj]
  · intro v hv hvt
    rw [hidx v hv, if_neg hvt]

/-- Exact change of the Manhattan sum when the tiles at two cells are exchanged. -/
theorem manhattan_tile_swap {n : Nat} {b : List Nat} (g : List Nat)
    (h : ValidBoard n b) {p q : Nat} (hp : p < n * n) (hq : q < n * n) (hpq : p ≠ q)
    (hbp : b.getD p 0 ≠ 0) (hbq : b.getD q 0 ≠ 0) :
    manhattan n (swapAt b p q) g = manhattan n b g +
      (cellDist n q (g.indexOf (b.getD p 0)) - cellDist n p (g.indexOf (b.getD p 0))) +
      (cellDist n p (g.indexOf (b.getD q 0)) - cellDist n q (g.indexOf (b.getD q 0))) := by
  have hu : b.getD p 0 ∈ Finset.Ico 1 (n * n) := by
    rw [Finset.mem_Ico]; have := h.getD_lt hp; omega
  have hw : b.getD q 0 ∈ Finset.Ico 1 (n * n) := by
    rw [Finset.mem_Ico]; have := h.getD_lt hq; omega
  have huw : b.getD p 0 ≠ b.getD q 0 := fun hc => hpq (h.getD_inj hp hq hc)
  have hidx : ∀ v ∈ Finset.Ico 1 (n * n), (swapAt b p q).indexOf v =
      if v = b.getD p 0 then q else if v = b.getD q 0 then p else b.indexOf v := by
    intro v hv
    rw [Finset.mem_Ico] at hv
    exact swapAt_indexOf h hp hq hv.2
  rw [manhattan_eq_sum_cellDist, manhattan_eq_sum_cellDist,
    sum_eq_of_two_diff (f := fun v => cellDist n (b.indexOf v) (g.indexOf v)) hu hw huw]
  · rw [hidx _ hu, if_pos rfl, hidx _ hw, if_neg (Ne.symm huw), if_pos rfl,
      h.indexOf_getD hp, h.indexOf_getD hq]
  · intro v hv hvu hvw
    rw [hidx v hv, if_neg hvu, if_neg hvw]

end Hw1

namespace Hw1

theorem parity_flip {n : Nat} {b b' : List Nat} (h : parity n b' ≠ parity n b) :
    parity n b' = (parity n b + 1) % 2 := by
  have h1 := parity_lt_two n b
  have h2 := parity_lt_two n b'
  omega

/-- Exchanging tiles at pairwise disjoint pairs of cells, each tile being on
its goal cell beforehand: the Manhattan sum grows by twice the distance of each
pair, the parity flips once per pair, and all other cells are unchanged. -/
theorem applySwaps_spec {n : Nat} {g : List Nat} (hn : 1 ≤ n) (hg : ValidBoard n g) :
    ∀ (ps : List (Nat × Nat)) (b : List Nat), ValidBoard n b → ps.Pairwise DisjointPair →
      (∀ p ∈ ps, p.1 ≠ p.2 ∧ p.1 < n * n ∧ p.2 < n * n ∧
        b.getD p.1 0 = g.getD p.1 0 ∧ b.getD p.2 0 = g.getD p.2 0 ∧
        g.getD p.1 0 ≠ 0 ∧ g.getD p.2 0 ≠ 0) →
      ValidBoard n (applySwaps ps b) ∧
      manhattan n (applySwaps ps b) g =
        manhattan n b g + 2 * (ps.map (fun p => cellDist n p.1 p.2)).sum ∧
      parity n (applySwaps ps b) = (parity n b + ps.length) % 2 ∧
      (∀ x, x < n * n → (∀ p ∈ ps, x ≠ p.1 ∧ x ≠ p.2) →
        (applySwaps ps b).getD x 0 = b.getD x 0) := by
  intro ps
  induction ps with
  | nil =>
    intro b hb _ _
    refine ⟨hb, by simp [applySwaps], ?_, fun _ _ _ => rfl⟩
    have := parity_lt_two n b
    simp only [applySwaps, List.foldl_nil, List.length_nil, Nat.add_zero]
    omega
  | cons p ps ih =>
    intro b hb hpw hall
    rw [List.pairwise_cons] at hpw
    obtain ⟨hp1, hp2, hp3, hp4, hp5, hp6, hp7⟩ := hall p (List.mem_cons_self _ _)
    have hl := hb.length_eq
    have hb' : ValidBoard n (swapAt b p.1 p.2) := swapAt_valid hb hp2 hp3
    have hget := fun x => swapAt_getD b (a := p.1) (b := p.2) (by omega) (by omega) x
    have hall' : ∀ q ∈ ps, q.1 ≠ q.2 ∧ q.1 < n * n ∧ q.2 < n * n ∧
        (swapAt b p.1 p.2).getD q.1 0 = g.getD q.1 0 ∧
        (swapAt b p.1 p.2).getD q.2 0 = g.getD q.2 0 ∧
        g.getD q.1 0 ≠ 0 ∧ g.getD q.2 0 ≠ 0 := by
      intro q hq
      obtain ⟨c1, c2, c3, c4, c5, c6, c7⟩ := hall q (List.mem_cons_of_mem _ hq)
      obtain ⟨d1, d2, d3, d4⟩ := hpw.1 q hq
      refine ⟨c1, c2, c3, ?_, ?_, c6, c7⟩
      · rw [hget, if_neg (Ne.symm d3), if_neg (Ne.symm d1)]; exact c4
      · rw [hget, if_neg (Ne.symm d4), if_neg (Ne.symm d2)]; exact c5
    obtain ⟨r1, r2, r3, r4⟩ := ih (swapAt b p.1 p.2) hb' hpw.2 hall'
    have happ : applySwaps (p :: ps) b = applySwaps ps (swapAt b p.1 p.2) := rfl
    rw [happ]
    refine ⟨r1, ?_, ?_, ?_⟩
    · rw [r2, manhattan_tile_swap g hb hp2 hp3 hp1 (by rw [hp4]; exact hp6)
        (by rw [hp5]; exact hp7), hp4, hp5, hg.indexOf_getD hp2, hg.indexOf_getD hp3,
        cellDist_self, cellDist_self, cellDist_comm n p.2 p.1, List.map_cons, List.sum_cons]
      ring
    · rw [r3, parity_flip (swap_tiles_parity hn hb hp2 hp3 hp1 (by rw [hp4]; exact hp6)
        (by rw [hp5]; exact hp7)), List.length_cons]
      omega
    · intro x hx hxp
      rw [r4 x hx (fun q hq => hxp q (List.mem_cons_of_mem _ hq)), hget]
      obtain ⟨e1, e2⟩ := hxp p (List.mem_cons_self _ _)
      rw [if_neg e2, if_neg e1]

theorem indexOf_eq_of_getD {n : Nat} {r : List Nat} (hr : ValidBoard n r) {x v : Nat}
    (hx : x < n * n) (hv : r.getD x 0 = v) : r.indexOf v = x := by
  rw [← hv, hr.indexOf_getD hx]

end Hw1

namespace Hw1

theorem bigGoal_valid : ValidBoard 2048 bigGoal := goalBoard_valid 2048 4194303 (by decide)

theorem bigGoal_getD {x : Nat} (hx : x < 4194303) : bigGoal.getD x 0 = x + 1 := by
  unfold bigGoal
  rw [goalBoard_getD _ _ _ (by omega)]
  unfold goalEntry
  rw [if_neg (by omega), if_neg (by omega)]

theorem bigGoal_getD_last : bigGoal.getD 4194303 0 = 0 := by
  unfold bigGoal
  rw [goalBoard_getD _ _ _ (by decide)]
  unfold goalEntry
  rw [if_pos rfl]

theorem mem_farPairs {p : Nat × Nat} (hp : p ∈ farPairs) :
    ∃ k, k < 1048574 ∧ p.1 = (k / 1024) * 2048 + k % 1024 ∧ p.2 = p.1 + 1024 := by
  unfold farPairs at hp
  rw [List.mem_map] at hp
  obtain ⟨k, hk, rfl⟩ := hp
  exact ⟨k, List.mem_range.mp hk, rfl, rfl⟩

theorem mem_nearPairs {p : Nat × Nat} (hp : p ∈ nearPairs) :
    ∃ k, k < 2045 ∧ p.1 = 2109440 + 2 * k ∧ p.2 = p.1 + 1 := by
  unfold nearPairs at hp
  rw [List.mem_map] at hp
  obtain ⟨k, hk, rfl⟩ := hp
  exact ⟨k, List.mem_range.mp hk, rfl, rfl⟩

theorem farPairs_lt {p : Nat × Nat} (hp : p ∈ farPairs) : p.1 < 2097152 ∧ p.2 < 2097152 := by
  obtain ⟨k, hk, h1, h2⟩ := mem_farPairs hp
  omega

theorem nearPairs_range {p : Nat × Nat} (hp : p ∈ nearPairs) :
    2109440 ≤ p.1 ∧ p.2 < 2113536 := by
  obtain ⟨k, hk, h1, h2⟩ := mem_nearPairs hp
  omega

theorem farPairs_cellDist {p : Nat × Nat} (hp : p ∈ farPairs) : cellDist 2048 p.1 p.2 = 1024 := by
  obtain ⟨k, hk, h1, h2⟩ := mem_farPairs hp
  have e1 : p.2 / 2048 = p.1 / 2048 := by omega
  have e2 : p.2 % 2048 = p.1 % 2048 + 1024 := by omega
  unfold cellDist
  rw [e1, e2, Nat.cast_add, sub_self, abs_zero, zero_add]
  rw [show ((p.1 % 2048 : Nat) : Int) - (((p.1 % 2048 : Nat) : Int) + ((1024 : Nat) : Int)) =
    -(1024 : Int) by push_cast; ring]
  rfl

theorem nearPairs_cellDist {p : Nat × Nat} (hp : p ∈ nearPairs) : cellDist 2048 p.1 p.2 = 1 := by
  obtain ⟨k, hk, h1, h2⟩ := mem_nearPairs hp
  have e1 : p.2 / 2048 = p.1 / 2048 := by omega
  have e2 : p.2 % 2048 = p.1 % 2048 + 1 := by omega
  unfold cellDist
  rw [e1, e2, Nat.cast_add, sub_self, abs_zero, zero_add]
  rw [show ((p.1 % 2048 : Nat) : Int) - (((p.1 % 2048 : Nat) : Int) + ((1 : Nat) : Int)) =
    -(1 : Int) by push_cast; ring]
  rfl

theorem sum_map_const {α : Type} (l : List α) (f : α → Int) (c : Int)
    (h : ∀ x ∈ l, f x = c) : (l.map f).sum = l.length * c := by
  induction l with
  | nil => simp
  | cons x xs ih =>
    rw [List.map_cons, List.sum_cons, h x (List.mem_cons_self _ _),
      ih (fun y hy => h y (List.mem_cons_of_mem _ hy)), List.length_cons]
    push_cast
    ring

theorem pairs_dist_sum :
    ((farPairs ++ nearPairs).map (fun p => cellDist 2048 p.1 p.2)).sum = 1073741821 := by
  rw [List.map_append, List.sum_append,
    sum_map_const farPairs _ 1024 (fun p hp => farPairs_cellDist hp),
    sum_map_const nearPairs _ 1 (fun p hp => nearPairs_cellDist hp)]
  have l1 : farPairs.length = 1048574 := by simp [farPairs]
  have l2 : nearPairs.length = 2045 := by simp [nearPairs]
  rw [l1, l2]
  norm_num

theorem pairs_length : (farPairs ++ nearPairs).length = 1050619 := by
  simp [farPairs, nearPairs]

theorem pairs_disjoint : (farPairs ++ nearPairs).Pairwise DisjointPair := by
  rw [List.pairwise_append]
  refine ⟨?_, ?_, ?_⟩
  · unfold farPairs
    rw [List.pairwise_map]
    apply List.Pairwise.imp_of_mem _ (List.pairwise_lt_range 1048574)
    intro i j hi hj hij
    rw [List.mem_range] at hi hj
    unfold DisjointPair
    simp only
    omega
  · unfold nearPairs
    rw [List.pairwise_map]
    apply List.Pairwise.imp_of_mem _ (List.pairwise_lt_range 2045)
    intro i j hi hj hij
    rw [List.mem_range] at hi hj
    unfold DisjointPair
    simp only
    omega
  · intro p hp q hq
    have h1 := farPairs_lt hp
    have h2 := nearPairs_range hq
    obtain ⟨k, hk, h3, h4⟩ := mem_nearPairs hq
    unfold DisjointPair
    omega

theorem pairs_facts {p : Nat × Nat} (hp : p ∈ farPairs ++ nearPairs) :
    p.1 ≠ p.2 ∧ p.1 < 2113536 ∧ p.2 < 2113536 := by
  rw [List.mem_append] at hp
  rcases hp with hp | hp
  · obtain ⟨k, hk, h1, h2⟩ := mem_farPairs hp
    have := farPairs_lt hp
    omega
  · obtain ⟨k, hk, h1, h2⟩ := mem_nearPairs hp
    have := nearPairs_range hp
    omega

end Hw1

namespace Hw1

theorem bigBase_spec :
    ValidBoard 2048 bigBase ∧
    manhattan 2048 bigBase bigGoal = 2147483642 ∧
    parity 2048 bigBase = (parity 2048 bigGoal + 1) % 2 ∧
    (∀ x, 2113536 ≤ x → x < 2048 * 2048 → bigBase.getD x 0 = bigGoal.getD x 0) := by
  have key := applySwaps_spec (by decide : 1 ≤ 2048) bigGoal_valid (farPairs ++ nearPairs)
    bigGoal bigGoal_valid pairs_disjoint (by
      intro p hp
      obtain ⟨h1, h2, h3⟩ := pairs_facts hp
      refine ⟨h1, by omega, by omega, rfl, rfl, ?_, ?_⟩
      · rw [bigGoal_getD (by omega)]; omega
      · rw [bigGoal_getD (by omega)]; omega)
  obtain ⟨k1, k2, k3, k4⟩ := key
  refine ⟨k1, ?_, ?_, ?_⟩
  · rw [show bigBase = applySwaps (farPairs ++ nearPairs) bigGoal from rfl, k2, manhattan_self,
      pairs_dist_sum]
    norm_num
  · rw [show bigBase = applySwaps (farPairs ++ nearPairs) bigGoal from rfl, k3, pairs_length]
    have := parity_lt_two 2048 bigGoal
    omega
  · intro x hx hxl
    apply k4 x hxl
    intro p hp
    have := pairs_facts hp
    omega

theorem bigBase_valid : ValidBoard 2048 bigBase := bigBase_spec.1

theorem bigBase_getD {x : Nat} (h1 : 2113536 ≤ x) (h2 : x < 4194303) :
    bigBase.getD x 0 = x + 1 := by
  rw [bigBase_spec.2.2.2 x h1 (by omega), bigGoal_getD h2]

theorem bigBase_getD_last : bigBase.getD 4194303 0 = 0 := by
  rw [bigBase_spec.2.2.2 4194303 (by omega) (by omega), bigGoal_getD_last]

theorem bigGoal_indexOf {x : Nat} (hx : x < 4194303) : bigGoal.indexOf (x + 1) = x :=
  indexOf_eq_of_getD bigGoal_valid (by omega) (bigGoal_getD hx)

theorem cellDist_eval (p q : Nat) (d : Nat)
    (h : (if p / 2048 ≤ q / 2048 then q / 2048 - p / 2048 else p / 2048 - q / 2048) +
      (if p % 2048 ≤ q % 2048 then q % 2048 - p % 2048 else p % 2048 - q % 2048) = d) :
    cellDist 2048 p q = d := by
  unfold cellDist
  rw [← h]
  split_ifs <;> push_cast [Nat.cast_sub, *] <;>
    first
    | (rw [abs_of_nonpos (by omega), abs_of_nonpos (by omega)]; omega)
    | (rw [abs_of_nonpos (by omega), abs_of_nonneg (by omega)]; omega)
    | (rw [abs_of_nonneg (by omega), abs_of_nonpos (by omega)]; omega)
    | (rw [abs_of_nonneg (by omega), abs_of_nonneg (by omega)]; omega)

end Hw1

namespace Hw1

theorem bigMid_spec :
    ValidBoard 2048 (swapAt bigBase 4192255 4194302) ∧
    manhattan 2048 (swapAt bigBase 4192255 4194302) bigGoal = 2147483646 ∧
    parity 2048 (swapAt bigBase 4192255 4194302) = parity 2048 bigGoal ∧
    (swapAt bigBase 4192255 4194302).indexOf 0 = 4194303 ∧
    (swapAt bigBase 4192255 4194302).getD 4194302 0 = 4192256 ∧
    (swapAt bigBase 4192255 4194302).getD 4194301 0 = 4194302 ∧
    (swapAt bigBase 4192255 4194302).getD 4192254 0 = 4192255 := by
  have hv := bigBase_valid
  have hl : bigBase.length = 4194304 := hv.length_eq
  have hp : bigBase.getD 4192255 0 = 4192256 := bigBase_getD (by omega) (by omega)
  have hq : bigBase.getD 4194302 0 = 4194303 := bigBase_getD (by omega) (by omega)
  have hvm : ValidBoard 2048 (swapAt bigBase 4192255 4194302) :=
    swapAt_valid hv (by omega) (by omega)
  have hget : ∀ x, (swapAt bigBase 4192255 4194302).getD x 0 =
      if x = 4194302 then bigBase.getD 4192255 0 else if x = 4192255 then bigBase.getD 4194302 0
      else bigBase.getD x 0 := fun x => swapAt_getD bigBase (by omega) (by omega) x
  refine ⟨hvm, ?_, ?_, ?_, ?_, ?_, ?_⟩
  · rw [manhattan_tile_swap bigGoal hv (by omega) (by omega) (by omega) (by omega) (by omega),
      hp, hq, bigGoal_indexOf (by omega : 4192255 < 4194303),
      bigGoal_indexOf (by omega : 4194302 < 4194303), cellDist_self, cellDist_self,
      cellDist_eval 4194302 4192255 2 (by decide), cellDist_eval 4192255 4194302 2 (by decide),
      bigBase_spec.2.1]
    norm_num
  · have h1 := parity_flip (swap_tiles_parity (by decide : 1 ≤ 2048) hv
      (by omega : 4192255 < 2048 * 2048) (by omega : 4194302 < 2048 * 2048) (by omega)
      (by omega) (by omega))
    rw [h1, bigBase_spec.2.2.1]
    have := parity_lt_two 2048 bigGoal
    omega
  · apply indexOf_eq_of_getD hvm (by omega)
    rw [hget, if_neg (by omega), if_neg (by omega), bigBase_getD_last]
  · rw [hget, if_pos rfl, hp]
  · rw [hget, if_neg (by omega), if_neg (by omega), bigBase_getD (by omega) (by omega)]
  · rw [hget, if_neg (by omega), if_neg (by omega), bigBase_getD (by omega) (by omega)]

theorem bigBoard_eq :
    bigBoard = swapAt (swapAt bigBase 4192255 4194302)
      ((swapAt bigBase 4192255 4194302).indexOf 0) 4194302 := by
  rw [bigMid_spec.2.2.2.1]
  rfl

theorem bigBoard_valid : ValidBoard 2048 bigBoard :=
  swapAt_valid bigMid_spec.1 (by omega) (by omega)

theorem bigBoard_getD (x : Nat) : bigBoard.getD x 0 =
    if x = 4194302 then 0 else if x = 4194303 then 4192256
    else (swapAt bigBase 4192255 4194302).getD x 0 := by
  have hl : (swapAt bigBase 4192255 4194302).length = 4194304 := bigMid_spec.1.length_eq
  have h0 : (swapAt bigBase 4192255 4194302).getD 4194303 0 = 0 := by
    have := bigMid_spec.1.getD_indexOf (by omega : 0 < 2048 * 2048)
    rwa [bigMid_spec.2.2.2.1] at this
  rw [show bigBoard = swapAt (swapAt bigBase 4192255 4194302) 4194303 4194302 from rfl,
    swapAt_getD _ (by omega) (by omega), h0, bigMid_spec.2.2.2.2.1]

theorem bigBoard_indexOf_zero : bigBoard.indexOf 0 = 4194302 := by
  apply indexOf_eq_of_getD bigBoard_valid (by omega)
  rw [bigBoard_getD, if_pos rfl]

theorem bigBoard_manhattan : manhattan 2048 bigBoard bigGoal = 2147483645 := by
  rw [bigBoard_eq, manhattan_blank_swap bigGoal (by decide) bigMid_spec.1 (by omega)
    (by rw [bigMid_spec.2.2.2.1]; omega), bigMid_spec.2.2.2.1, bigMid_spec.2.2.2.2.1,
    bigGoal_indexOf (by omega : 4192255 < 4194303), bigMid_spec.2.1,
    cellDist_eval 4194303 4192255 1 (by decide), cellDist_eval 4194302 4192255 2 (by decide)]
  norm_num

theorem bigBoard_parity : parity 2048 bigBoard = parity 2048 bigGoal := by
  rw [bigBoard_eq, swap_blank_parity (by decide) bigMid_spec.1 (by omega)
    (by rw [bigMid_spec.2.2.2.1]; unfold Adj; omega), bigMid_spec.2.2.1]

/-- Every blank move on `bigBoard` increases the Manhattan sum by one. -/
theorem bigBoard_child {j : Nat} (hj : j < 2048 * 2048) (hadj : Adj 2048 4194302 j) :
    manhattan 2048 (swapAt bigBoard (bigBoard.indexOf 0) j) bigGoal = 2147483646 := by
  have hcases : j = 4192254 ∨ j = 4194303 ∨ j = 4194301 := by
    unfold Adj at hadj
    omega
  rw [manhattan_blank_swap bigGoal (by decide) bigBoard_valid hj
    (by rw [bigBoard_indexOf_zero]; omega), bigBoard_indexOf_zero, bigBoard_manhattan]
  rcases hcases with rfl | rfl | rfl
  · rw [bigBoard_getD, if_neg (by omega), if_neg (by omega), bigMid_spec.2.2.2.2.2.2,
      bigGoal_indexOf (by omega : 4192254 < 4194303), cellDist_self,
      cellDist_eval 4194302 4192254 1 (by decide)]
    norm_num
  · rw [bigBoard_getD, if_neg (by omega), if_pos rfl,
      bigGoal_indexOf (by omega : 4192255 < 4194303),
      cellDist_eval 4194302 4192255 2 (by decide), cellDist_eval 4194303 4192255 1 (by decide)]
    norm_num
  · rw [bigBoard_getD, if_neg (by omega), if_neg (by omega), bigMid_spec.2.2.2.2.2.1,
      bigGoal_indexOf (by omega : 4194301 < 4194303), cellDist_self,
      cellDist_eval 4194302 4194301 1 (by decide)]
    norm_num

end Hw1

namespace Hw1

/-- The loop of `search` when every successor is new on the path and its
recursive call returns `INF`: the loop returns `INF` and the path unchanged. -/
theorem searchLoop_all_inf (rec : List State → Int → Option (Int × List State)) (g : Int)
    (path : List State) :
    ∀ succs : List State,
      (∀ s ∈ succs, inPath path s = false ∧
        rec (path ++ [s]) (g + s.cost) = some (INF, path ++ [s])) →
      searchLoop rec g succs path INF = some (INF, path) := by
  intro succs
  induction succs with
  | nil => intro _; rfl
  | cons s rest ih =>
    intro h
    obtain ⟨h1, h2⟩ := h s (List.mem_cons_self _ _)
    unfold searchLoop
    rw [h1, h2]
    simp only [Bool.false_eq_true, if_false, List.dropLast_concat, lt_self_iff_false]
    rw [if_neg (by decide)]
    exact ih (fun s hs => h s (List.mem_cons_of_mem _ hs))

theorem bigGoal_indexOf_zero : bigGoal.indexOf 0 = 4194303 :=
  indexOf_eq_of_getD bigGoal_valid (by omega) bigGoal_getD_last

theorem bigBoard_ne_goal : bigBoard ≠ bigGoal := by
  intro h
  have h1 := bigBoard_indexOf_zero
  rw [h, bigGoal_indexOf_zero] at h1
  omega

theorem Grid.new_board_eq (b : List Nat) : (Grid.new b).board = b := rfl

theorem search_leaf (fuel : Nat) (path : List State) (g bound : Int) (state : State)
    (h1 : path.getLast? = some state) (h2 : g + state.h > bound) :
    search (fuel + 1) path g bound = some (g + state.h, path) := by
  unfold search
  rw [h1]
  simp only
  rw [if_pos h2]

theorem search_expand (fuel : Nat) (path : List State) (g bound : Int) (state : State)
    (h1 : path.getLast? = some state) (h2 : ¬ g + state.h > bound)
    (h3 : state.is_goal = false) :
    search (fuel + 1) path g bound =
      searchLoop (fun p g1 => search fuel p g1 bound) g state.successors path INF := by
  rw [search]
  rw [h1]
  simp only
  rw [if_neg h2, h3, if_neg (by decide)]

theorem idaLoop_exhausted (sfuel fuel : Nat) (path p1 : List State) (bound : Int)
    (h : search sfuel path 0 bound = some (INF, p1)) :
    idaLoop sfuel (fuel + 1) path bound = some [] := by
  unfold idaLoop
  rw [h]
  simp only
  rw [if_neg (by decide), if_pos trivial]

theorem bigRoot_eq (N : Int) :
    solveRoot N ((4194303 : Nat) : Int) bigBoard = State.new bigBoard (Grid.new bigGoal) "" := by
  unfold solveRoot
  rw [solveGoal_eq bigBoard_valid N]
  unfold bigGoal
  rfl

theorem bigRoot_h (N : Int) : (solveRoot N ((4194303 : Nat) : Int) bigBoard).h = INF - 2 := by
  rw [bigRoot_eq, h_new_eq (by decide) bigBoard_valid bigGoal_valid, bigBoard_manhattan]
  decide

theorem bigRoot_solvable (N : Int) :
    (solveRoot N ((4194303 : Nat) : Int) bigBoard).is_solvable = true := by
  rw [bigRoot_eq, is_solvable_iff_parity (by decide) bigBoard_valid bigGoal_valid]
  exact bigBoard_parity

theorem bigRoot_succ (N : Int) {s : State}
    (hs : s ∈ (solveRoot N ((4194303 : Nat) : Int) bigBoard).successors) :
    s.h = INF - 1 ∧ s.board ≠ bigBoard := by
  rw [bigRoot_eq] at hs
  obtain ⟨j, lbl, hj, hadj, _, rfl⟩ :=
    mem_successors (by decide) bigBoard_valid (Grid.new bigGoal) "" s hs
  have hm : manhattan 2048 (swapAt bigBoard (bigBoard.indexOf 0) j) bigGoal = 2147483646 :=
    bigBoard_child hj (by rw [bigBoard_indexOf_zero] at hadj; exact hadj)
  have hz : bigBoard.indexOf 0 < 2048 * 2048 := by
    have := bigBoard_indexOf_zero
    omega
  constructor
  · rw [h_new_eq (by decide) (swapAt_valid bigBoard_valid hz hj) bigGoal_valid, hm]
    decide
  · rw [State.new_board]
    intro he
    rw [he, bigBoard_manhattan] at hm
    omega

theorem bigRoot_search (fuel : Nat) (N : Int) :
    search (fuel + 2) [solveRoot N ((4194303 : Nat) : Int) bigBoard] 0 (INF - 2) =
      some (INF, [solveRoot N ((4194303 : Nat) : Int) bigBoard]) := by
  have hgoal : (solveRoot N ((4194303 : Nat) : Int) bigBoard).is_goal = false := by
    rw [bigRoot_eq]
    unfold State.is_goal
    rw [beq_eq_false_iff_ne, State.new_board, State.new_goal, Grid.new_board_eq]
    exact bigBoard_ne_goal
  have hb : (solveRoot N ((4194303 : Nat) : Int) bigBoard).board = bigBoard := by
    rw [bigRoot_eq, State.new_board]
  have hh := bigRoot_h N
  have hsucc : ∀ s ∈ (solveRoot N ((4194303 : Nat) : Int) bigBoard).successors,
      s.h = INF - 1 ∧ s.board ≠ bigBoard := fun s hs => bigRoot_succ N hs
  generalize solveRoot N ((4194303 : Nat) : Int) bigBoard = root at hgoal hb hh hsucc
  rw [search_expand (fuel + 1) [root] 0 (INF - 2) root (List.getLast?_singleton _)
    (by rw [hh]; decide) hgoal]
  apply searchLoop_all_inf
  intro s hs
  obtain ⟨h1, h2⟩ := hsucc s hs
  constructor
  · unfold inPath
    simp only [List.any_cons, List.any_nil, Bool.or_false, hb]
    rw [beq_eq_false_iff_ne]
    exact Ne.symm h2
  · have hl : ([root] ++ [s]).getLast? = some s := by simp
    rw [search_leaf fuel ([root] ++ [s]) (0 + s.cost) (INF - 2) s hl
      (by rw [h1, State.cost_eq]; decide), h1, State.cost_eq]
    rfl

theorem bigRoot_ida_star (fuel : Nat) (N : Int) :
    ida_star (fuel + 2) (solveRoot N ((4194303 : Nat) : Int) bigBoard) = some [] := by
  unfold ida_star
  rw [bigRoot_h]
  exact idaLoop_exhausted (fuel + 2) (fuel + 1) _ _ _ (bigRoot_search fuel N)

theorem bigBoard_solve (fuel : Nat) (N : Int) :
    solve (fuel + 2) N ((4194303 : Nat) : Int) bigBoard = some (some []) := by
  rw [solve_eq, bigRoot_solvable, if_neg (by decide), bigRoot_ida_star]
  rfl

end Hw1

namespace Hw1

theorem applyMoves_nil (G : Grid) (b : List Nat) : applyMoves G b [] = some b := rfl

/-- C2 as stated fails: on the valid, solvable board `bigBoard` the call
`solve` returns the empty move list, and applying no move leaves `bigBoard`,
which is not the goal board. -/
theorem solve_round_trip_counterexample :
    ValidBoard 2048 bigBoard ∧ (4194303 : Nat) < 2048 * 2048 ∧
    solve 2 4194303 ((4194303 : Nat) : Int) bigBoard = some (some []) ∧
    applyMoves (Grid.new (goalBoard (2048 * 2048) ((4194303 : Nat) : Int))) bigBoard [] ≠
      some (goalBoard (2048 * 2048) ((4194303 : Nat) : Int)) := by
  refine ⟨bigBoard_valid, by decide, bigBoard_solve 0 4194303, ?_⟩
  rw [applyMoves_nil]
  intro h
  exact bigBoard_ne_goal (Option.some.inj h)

end Hw1

namespace Hw1

/-! ### Admissibility and consistency of `h()` -/

theorem manhattan_reach_le {n : Nat} (hn : 1 ≤ n) (g : List Nat) :
    ∀ (k : Nat) (a b : List Nat), ValidBoard n a → ReachIn k a b →
      manhattan n b g ≤ manhattan n a g + k := by
  intro k
  induction k with
  | zero =>
    intro a b _ h
    have hab : a = b := h
    rw [hab]
    simp
  | succ k ih =>
    intro a b ha h
    obtain ⟨c, hstep, hrest⟩ := h
    have hc : ValidBoard n c := hstep.step_valid hn ha
    obtain ⟨j, hj, hadj, rfl⟩ := (step_iff hn ha c).mp hstep
    have h1 := (manhattan_swap_le (g := g) hn ha hj hadj).1
    have h2 := ih _ b hc hrest
    push_cast
    omega

/-- The value of `h()` on a state built from a valid board, for any goal
object: the sum over the tile values of the row and column distance between
the tile's cell in the board and the cell the goal object reports for it. -/
theorem h_new_sum {n : Nat} {b : List Nat} (hn : 1 ≤ n) (hb : ValidBoard n b) (G : Grid)
    (m : String) :
    (State.new b G m).h = ∑ v in Finset.Ico 1 (n * n),
      (|((b.indexOf v / n : Nat) : Int) - ((G.row v : Nat) : Int)| +
       |((b.indexOf v % n : Nat) : Int) - ((G.col v : Nat) : Int)|) := by
  rw [State.h_eq_foldl_sum]
  have hnn : (State.new b G m).n = n := Grid.new_n hn hb
  have h0 : 0 < n * n := Nat.mul_pos hn hn
  rw [hnn, show 1 + (n * n - 1) = n * n by omega]
  apply Finset.sum_congr rfl
  intro v hv
  rw [Finset.mem_Ico] at hv
  have r1 : (State.new b G m).row v = b.indexOf v / n := Grid.new_row hn hb hv.2
  have r2 : (State.new b G m).col v = b.indexOf v % n := Grid.new_col hn hb hv.2
  rw [r1, r2, State.new_goal]

/-- One blank move changes `h()` by at most one, whatever the goal object. -/
theorem h_swap_le {n : Nat} {b : List Nat} (hn : 1 ≤ n) (h : ValidBoard n b) (G : Grid)
    (m lbl : String) {j : Nat} (hj : j < n * n) (hadj : Adj n (b.indexOf 0) j) :
    (State.new (swapAt b (b.indexOf 0) j) G lbl).h ≤ (State.new b G m).h + 1 ∧
    (State.new b G m).h ≤ (State.new (swapAt b (b.indexOf 0) j) G lbl).h + 1 := by
  have h0 : 0 < n * n := Nat.mul_pos hn hn
  have hz := h.indexOf_lt h0
  have hbz : b.getD (b.indexOf 0) 0 = 0 := h.getD_indexOf h0
  have hne := hadj.ne hn
  have htj : b.getD j 0 ≠ 0 := by
    intro hc
    exact hne (h.getD_inj hz hj (by rw [hbz, hc]))
  have htlt : b.getD j 0 < n * n := h.getD_lt hj
  have hmem : b.getD j 0 ∈ Finset.Ico 1 (n * n) := by
    rw [Finset.mem_Ico]; omega
  have hother : ∀ v ∈ Finset.Ico 1 (n * n), v ≠ b.getD j 0 →
      (swapAt b (b.indexOf 0) j).indexOf v = b.indexOf v := by
    intro v hv hvt
    rw [Finset.mem_Ico] at hv
    rw [swapAt_indexOf h hz hj hv.2, hbz, if_neg (by omega), if_neg hvt]
  have hself : (swapAt b (b.indexOf 0) j).indexOf (b.getD j 0) = b.indexOf 0 := by
    rw [swapAt_indexOf h hz hj htlt, hbz, if_neg htj, if_pos rfl]
  have hold : b.indexOf (b.getD j 0) = j := h.indexOf_getD hj
  rw [h_new_sum hn (swapAt_valid h hz hj), h_new_sum hn h]
  constructor
  · apply sum_le_of_one_diff hmem
    · intro v hv hvt
      rw [hother v hv hvt]
    · rw [hself, hold]
      exact adj_dist _ _ hadj
  · apply sum_le_of_one_diff hmem
    · intro v hv hvt
      rw [hother v hv hvt]
    · rw [hself, hold]
      exact adj_dist _ _ hadj.adj_symm

/-- C11 (admissibility): for every valid goal board `G` and every board `B`
reached from `G` by `k` legal blank moves, `h()` of the state holding `B` with
goal `G` is at most `k`. -/
theorem h_admissible (n : Nat) (G B : List Nat) (k : Nat) (m : String) (hn : 1 ≤ n)
    (hG : ValidBoard n G) (hreach : ReachIn k G B) :
    (State.new B (Grid.new G) m).h ≤ k := by
  have hB : ValidBoard n B := ReachIn.reachIn_valid hn k hG hreach
  have h1 := manhattan_reach_le hn G k G B hG hreach
  rw [manhattan_self] at h1
  rw [h_new_eq hn hB hG]
  omega

theorem h_admissible_witness :
    (State.new [1, 2, 3, 4, 5, 6, 0, 7, 8] (Grid.new [1, 2, 3, 4, 5, 6, 7, 8, 0]) "").h ≤
      (2 : Nat) :=
  h_admissible 3 [1, 2, 3, 4, 5, 6, 7, 8, 0] [1, 2, 3, 4, 5, 6, 0, 7, 8] 2 "" (by decide)
    (by decide)
    ⟨[1, 2, 3, 4, 5, 6, 7, 0, 8], by unfold Step; decide,
      [1, 2, 3, 4, 5, 6, 0, 7, 8], by unfold Step; decide, rfl⟩

/-- The exact sum of `h()` changes by at most one under a blank move. -/
theorem h_consistent (n : Nat) (B : List Nat) (G : Grid) (m : String) (hn : 1 ≤ n)
    (hB : ValidBoard n B) :
    ∀ s ∈ (State.new B G m).successors,
      (State.new B G m).h ≤ s.h + 1 ∧ s.h ≤ (State.new B G m).h + 1 := by
  intro s hs
  obtain ⟨j, lbl, hj, hadj, -, rfl⟩ := mem_successors hn hB G m s hs
  have key := h_swap_le hn hB G m lbl hj hadj
  exact ⟨key.2, key.1⟩

end Hw1

namespace Hw1

/-! ### The path returned by `ida_star` -/

/-- Whatever the outer loop returns is the empty path or a repetition-free
chain of successors from the root to the goal. -/
theorem idaLoop_path {n : Nat} {gb : List Nat} (hn : 1 ≤ n) (hg : ValidBoard n gb)
    (sfuel : Nat) (root : State) (hroot : GoodState n gb root) :
    ∀ (fuel : Nat) (bound : Int) (r : List State),
      idaLoop sfuel fuel [root] bound = some r →
      r = [] ∨ ∃ e, r = [root] ++ e ∧ PathInv n gb ([root] ++ e) ∧ EndsAtGoal ([root] ++ e) := by
  intro fuel
  induction fuel with
  | zero => intro bound r h; simp [idaLoop] at h
  | succ fuel ih =>
    intro bound r h
    rw [idaLoop] at h
    cases hr : search sfuel [root] 0 bound with
    | none => rw [hr] at h; simp at h
    | some tp =>
      obtain ⟨t, p⟩ := tp
      rw [hr] at h
      simp only at h
      rcases search_spec hn hg sfuel [root] 0 bound t p (pathInv_singleton hroot) (le_refl _) hr
        with ⟨hF, e, he1, he2, he3, -⟩ | ⟨h1, h2, -, -, -⟩
      · rw [if_pos hF] at h
        simp only [Option.some.injEq] at h
        subst h
        exact Or.inr ⟨e, he1, he2, he3⟩
      · have hnF : t ≠ FOUND := by unfold FOUND; omega
        rw [if_neg hnF] at h
        by_cases hI : t = INF
        · rw [if_pos hI] at h
          simp only [Option.some.injEq] at h
          exact Or.inl h.symm
        · rw [if_neg hI, h2] at h
          exact ih t r h

/-- When the goal can be reached from the root along a repetition-free path of
fewer than `INF` moves, no top-level call of `search` returns `INF`. -/
theorem idaTrace_spec {n : Nat} {gb : List Nat} (hn : 1 ≤ n) (hg : ValidBoard n gb)
    (sfuel : Nat) (root : State) (hroot : GoodState n gb root) (e0 : List State)
    (he0 : PathInv n gb ([root] ++ e0)) (hend0 : EndsAtGoal ([root] ++ e0))
    (hlt : (e0.length : Int) < INF) :
    ∀ (fuel : Nat) (bound : Int), INF ∉ idaTrace sfuel fuel [root] bound := by
  intro fuel
  induction fuel with
  | zero => intro bound; simp [idaTrace]
  | succ fuel ih =>
    intro bound
    rw [idaTrace]
    cases hr : search sfuel [root] 0 bound with
    | none => simp
    | some tp =>
      obtain ⟨t, p⟩ := tp
      simp only
      rcases search_spec hn hg sfuel [root] 0 bound t p (pathInv_singleton hroot) (le_refl _) hr
        with ⟨hF, -⟩ | ⟨h1, h2, -, -, h5⟩
      · rw [if_pos hF, hF]
        simp only [List.mem_singleton]
        decide
      · have hnF : t ≠ FOUND := by unfold FOUND; omega
        have hle := h5 e0 he0 hend0
        have hnI : t ≠ INF := by omega
        rw [if_neg hnF, if_neg hnI, h2, List.mem_cons]
        rintro (hc | hc)
        · exact hnI hc.symm
        · exact ih t hc

/-- On a root from which the goal is reachable in fewer than `INF` moves,
`ida_star` returns a non-empty path (given the fuel to return at all). -/
theorem ida_star_reach {n : Nat} {board : List Nat} (hn : 1 ≤ n) (hb : ValidBoard n board)
    {I : Nat} (hI : I < n * n) (N : Int) {k : Nat}
    (hreach : ReachIn k board (goalBoard (n * n) I)) (hk : (k : Int) < INF) :
    (∀ fuel, INF ∉ idaTrace fuel fuel [solveRoot N I board] (solveRoot N I board).h) ∧
    (∀ fuel path, ida_star fuel (solveRoot N I board) = some path → path ≠ []) := by
  have hg : ValidBoard n (goalBoard (n * n) I) := goalBoard_valid n I hI
  have hgoal := solveGoal_eq hb N (I := I)
  have hroot : GoodState n (goalBoard (n * n) I) (solveRoot N I board) := by
    rw [← hgoal]; exact solveRoot_good hb N I
  have hrb : (solveRoot N I board).board = board := rfl
  obtain ⟨d, hd1, hd2, hd3⟩ := exists_min_reach hreach
  rw [← hrb] at hd2 hd3
  obtain ⟨e0, he1, he2, he3, -⟩ := path_of_reach hn d _ hroot hd2 hd3
  have hadm := admissible hn hg e0 [solveRoot N I board] (solveRoot N I board)
    (by simp) he2 he3
  have hlt : (e0.length : Int) < INF := by rw [he1]; omega
  constructor
  · intro fuel
    exact idaTrace_spec hn hg fuel _ hroot e0 he2 he3 hlt fuel _
  · intro fuel path hr
    unfold ida_star at hr
    obtain ⟨e, rfl, -⟩ := idaLoop_spec hn hg fuel _ hroot e0 he2 he3 hlt fuel _ path hadm hr
    simp

end Hw1

namespace Hw1

/-- The exact count of `inversions()` is the number of index pairs `(i, j)`
with `i < j`, both entries nonzero and `board[i] > board[j]`. -/
theorem inversions_count (b : List Nat) (G : Grid) (m : String) (_hb : b ≠ []) :
    (State.new b G m).inversions =
      ((Finset.range b.length ×ˢ Finset.range b.length).filter (fun p =>
        p.1 < p.2 ∧ b.getD p.1 0 ≠ 0 ∧ b.getD p.2 0 ≠ 0 ∧ b.getD p.1 0 > b.getD p.2 0)).card :=
  inversions_eq_inversionPairs _

/-- C14 (no cycle): for every valid board and blank target in range, a path
returned by `ida_star` holds no board twice: the boards along it are pairwise
different, position by position. -/
theorem ida_star_no_repeat (n : Nat) (board : List Nat) (I : Nat) (N : Int) (fuel : Nat)
    (path : List State) (hn : 1 ≤ n) (hb : ValidBoard n board) (hI : I < n * n)
    (hida : ida_star fuel (solveRoot N I board) = some path) :
    (path.map (fun s => s.board)).Nodup ∧
    ∀ i j : Fin path.length, i ≠ j → (path.get i).board ≠ (path.get j).board := by
  have hg : ValidBoard n (goalBoard (n * n) I) := goalBoard_valid n I hI
  have hroot : GoodState n (goalBoard (n * n) I) (solveRoot N I board) := by
    rw [← solveGoal_eq hb N (I := I)]; exact solveRoot_good hb N I
  have hnd : (path.map (fun s => s.board)).Nodup := by
    unfold ida_star at hida
    rcases idaLoop_path hn hg fuel _ hroot fuel _ path hida with rfl | ⟨e, rfl, hp, -⟩
    · exact List.nodup_nil
    · exact hp.2.2
  refine ⟨hnd, fun i j hij heq => hij ?_⟩
  have hinj := List.inj_on_of_nodup_map hnd (List.get_mem path i.1 i.2)
    (List.get_mem path j.1 j.2) heq
  exact (List.Nodup.get_inj_iff (List.Nodup.of_map _ hnd)).mp hinj

theorem ida_star_no_repeat_witness :
    ([State.new [1, 2, 3, 4, 5, 6, 0, 7, 8] (Grid.new [1, 2, 3, 4, 5, 6, 7, 8, 0]) "",
      State.new [1, 2, 3, 4, 5, 6, 7, 0, 8] (Grid.new [1, 2, 3, 4, 5, 6, 7, 8, 0]) "left",
      State.new [1, 2, 3, 4, 5, 6, 7, 8, 0] (Grid.new [1, 2, 3, 4, 5, 6, 7, 8, 0]) "left"].map
        (fun s => s.board)).Nodup ∧
    ∀ i j : Fin
        [State.new [1, 2, 3, 4, 5, 6, 0, 7, 8] (Grid.new [1, 2, 3, 4, 5, 6, 7, 8, 0]) "",
          State.new [1, 2, 3, 4, 5, 6, 7, 0, 8] (Grid.new [1, 2, 3, 4, 5, 6, 7, 8, 0]) "left",
          State.new [1, 2, 3, 4, 5, 6, 7, 8, 0] (Grid.new [1, 2, 3, 4, 5, 6, 7, 8, 0])
            "left"].length,
      i ≠ j →
        ([State.new [1, 2, 3, 4, 5, 6, 0, 7, 8] (Grid.new [1, 2, 3, 4, 5, 6, 7, 8, 0]) "",
          State.new [1, 2, 3, 4, 5, 6, 7, 0, 8] (Grid.new [1, 2, 3, 4, 5, 6, 7, 8, 0]) "left",
          State.new [1, 2, 3, 4, 5, 6, 7, 8, 0] (Grid.new [1, 2, 3, 4, 5, 6, 7, 8, 0])
            "left"].get i).board ≠
        ([State.new [1, 2, 3, 4, 5, 6, 0, 7, 8] (Grid.new [1, 2, 3, 4, 5, 6, 7, 8, 0]) "",
          State.new [1, 2, 3, 4, 5, 6, 7, 0, 8] (Grid.new [1, 2, 3, 4, 5, 6, 7, 8, 0]) "left",
          State.new [1, 2, 3, 4, 5, 6, 7, 8, 0] (Grid.new [1, 2, 3, 4, 5, 6, 7, 8, 0])
            "left"].get j).board :=
  ida_star_no_repeat 3 [1, 2, 3, 4, 5, 6, 0, 7, 8] 8 8 3 _ (by decide) (by decide)
    (by decide) rfl

theorem range'_perm_range (I L : Nat) (hI : I < L) :
    List.Perm (List.range' 1 I ++ 0 :: List.range' (I + 1) (L - 1 - I)) (List.range L) := by
  have h1 : List.Perm (List.range' 1 I ++ 0 :: List.range' (I + 1) (L - 1 - I))
      (0 :: (List.range' 1 I ++ List.range' (I + 1) (L - 1 - I))) := List.perm_middle
  have h2 : List.range' 1 I ++ List.range' (I + 1) (L - 1 - I) = List.range' 1 (L - 1) := by
    rw [show I + 1 = 1 + I by omega, List.range'_append_1]
    congr 1
    omega
  have h3 : 0 :: List.range' 1 (L - 1) = List.range L := by
    rw [List.range_eq_range', show L = (L - 1) + 1 by omega, List.range'_succ]
    simp
  rw [h2, h3] at h1
  exact h1

/-- C17 (goal construction): for every board of length `L` and blank target
`I < L`, the goal board that `solve` builds is `1, …, I`, then `0` at index
`I`, then `I+1, …, L-1`: the values `1 .. L-1` in increasing order at the
indices other than `I`; it has length `L` and is a permutation of `0 .. L-1`. -/
theorem goal_construction (L I : Nat) (N : Int) (board : List Nat) (hL : board.length = L)
    (hI : I < L) :
    solveGoal N (I : Int) board = List.range' 1 I ++ 0 :: List.range' (I + 1) (L - 1 - I) ∧
    (solveGoal N (I : Int) board).length = L ∧
    (solveGoal N (I : Int) board).getD I 0 = 0 ∧
    (∀ i, i < I → (solveGoal N (I : Int) board).getD i 0 = i + 1) ∧
    (∀ i, I < i → i < L → (solveGoal N (I : Int) board).getD i 0 = i) ∧
    List.Perm (solveGoal N (I : Int) board) (List.range L) := by
  have hgoal : solveGoal N (I : Int) board = goalBoard L I := by
    unfold solveGoal
    rw [hL, if_neg (by omega)]
  have hget : ∀ i, i < L → (goalBoard L I).getD i 0 = goalEntry I i :=
    fun i hi => goalBoard_getD L I i hi
  rw [hgoal]
  refine ⟨goalBoard_eq_append L I hI, goalBoard_length _ _, ?_, ?_, ?_, ?_⟩
  · rw [hget I hI]
    unfold goalEntry
    rw [if_pos rfl]
  · intro i hi
    rw [hget i (by omega)]
    unfold goalEntry
    rw [if_neg (by omega), if_neg (by omega)]
  · intro i hi hiL
    rw [hget i hiL]
    unfold goalEntry
    rw [if_neg (by omega), if_pos (by omega)]
  · rw [goalBoard_eq_append L I hI]
    exact range'_perm_range I L hI

theorem goal_construction_witness :
    solveGoal 8 ((4 : Nat) : Int) [1, 2, 3, 4, 5, 6, 0, 7, 8] =
      List.range' 1 4 ++ 0 :: List.range' (4 + 1) (9 - 1 - 4) ∧
    (solveGoal 8 ((4 : Nat) : Int) [1, 2, 3, 4, 5, 6, 0, 7, 8]).length = 9 ∧
    (solveGoal 8 ((4 : Nat) : Int) [1, 2, 3, 4, 5, 6, 0, 7, 8]).getD 4 0 = 0 ∧
    (∀ i, i < 4 → (solveGoal 8 ((4 : Nat) : Int) [1, 2, 3, 4, 5, 6, 0, 7, 8]).getD i 0 =
      i + 1) ∧
    (∀ i, 4 < i → i < 9 →
      (solveGoal 8 ((4 : Nat) : Int) [1, 2, 3, 4, 5, 6, 0, 7, 8]).getD i 0 = i) ∧
    List.Perm (solveGoal 8 ((4 : Nat) : Int) [1, 2, 3, 4, 5, 6, 0, 7, 8]) (List.range 9) :=
  goal_construction 9 4 8 [1, 2, 3, 4, 5, 6, 0, 7, 8] (by decide) (by decide)

end Hw1

namespace Hw1

/-- C18 as stated fails: with the grid size `n = 2` as first argument and the
blank target unspecified, `solve(2, -1, [1,2,3,0])` builds the goal
`[1,2,0,3]`, whose blank is at index 2 (the first argument), not at the last
index 3, and returns the move `right` that leads to it; towards the goal with
the blank last the same board needs no move. -/
theorem solve_default_target_counterexample :
    solveGoal 2 (-1) [1, 2, 3, 0] = [1, 2, 0, 3] ∧
    solveGoal 2 (-1) [1, 2, 3, 0] ≠ goalBoard (2 * 2) ((2 * 2 - 1 : Nat) : Int) ∧
    solve 2 2 (-1) [1, 2, 3, 0] = some (some ["right"]) ∧
    solve 2 2 ((2 * 2 - 1 : Nat) : Int) [1, 2, 3, 0] = some (some []) := by
  decide

/-- C18 (amended): with the blank target unspecified, `solve(N, -1, board)`
puts the goal's blank at index `N`, the first argument; when the first argument
is the number of tiles `n * n - 1` of a board of length `n * n` (as `main`
passes it), the goal is `1, …, n*n-1` followed by the blank at the last index,
and the call is the same as the one with blank target `n * n - 1`. -/
theorem solve_default_target (n : Nat) (board : List Nat) (fuel : Nat) (hn : 1 ≤ n)
    (hlen : board.length = n * n) :
    (∀ N : Nat, solveGoal (N : Int) (-1) board = goalBoard (n * n) (N : Int)) ∧
    solveGoal ((n * n - 1 : Nat) : Int) (-1) board = List.range' 1 (n * n - 1) ++ [0] ∧
    solve fuel ((n * n - 1 : Nat) : Int) (-1) board =
      solve fuel ((n * n - 1 : Nat) : Int) ((n * n - 1 : Nat) : Int) board := by
  have h0 : 0 < n * n := Nat.mul_pos hn hn
  have hgoal : ∀ N : Nat, solveGoal (N : Int) (-1) board = goalBoard (n * n) (N : Int) := by
    intro N
    unfold solveGoal
    rw [hlen, if_pos rfl]
  refine ⟨hgoal, ?_, ?_⟩
  · rw [hgoal, goalBoard_eq_append _ _ (by omega),
      show n * n - 1 - (n * n - 1) = 0 by omega]
    rfl
  · have hsame : solveGoal ((n * n - 1 : Nat) : Int) ((n * n - 1 : Nat) : Int) board =
        solveGoal ((n * n - 1 : Nat) : Int) (-1) board := by
      unfold solveGoal
      rw [if_pos rfl, if_neg (by omega)]
    rw [solve_eq, solve_eq]
    unfold solveRoot
    rw [hsame]

theorem solve_default_target_witness :
    (∀ N : Nat, solveGoal (N : Int) (-1) [1, 2, 3, 4, 5, 6, 0, 7, 8] =
      goalBoard (3 * 3) (N : Int)) ∧
    solveGoal ((3 * 3 - 1 : Nat) : Int) (-1) [1, 2, 3, 4, 5, 6, 0, 7, 8] =
      List.range' 1 (3 * 3 - 1) ++ [0] ∧
    solve 3 ((3 * 3 - 1 : Nat) : Int) (-1) [1, 2, 3, 4, 5, 6, 0, 7, 8] =
      solve 3 ((3 * 3 - 1 : Nat) : Int) ((3 * 3 - 1 : Nat) : Int)
        [1, 2, 3, 4, 5, 6, 0, 7, 8] :=
  solve_default_target 3 [1, 2, 3, 4, 5, 6, 0, 7, 8] 3 (by decide) (by decide)

/-- C19 as stated fails: on the valid 2048 × 2048 board `bigBoard` with the
blank target at the last index, `is_solvable()` is true, the first top-level
call `search([root], 0, h(root))` returns `INF` (the root has `h = INF - 2` and
every successor `f = INF`), and `ida_star` returns the empty path. -/
theorem ida_star_exhausted_counterexample :
    ValidBoard 2048 bigBoard ∧ (4194303 : Nat) < 2048 * 2048 ∧
    (solveRoot 4194303 ((4194303 : Nat) : Int) bigBoard).is_solvable = true ∧
    search 2 [solveRoot 4194303 ((4194303 : Nat) : Int) bigBoard] 0
        (solveRoot 4194303 ((4194303 : Nat) : Int) bigBoard).h =
      some (INF, [solveRoot 4194303 ((4194303 : Nat) : Int) bigBoard]) ∧
    ida_star 2 (solveRoot 4194303 ((4194303 : Nat) : Int) bigBoard) = some [] := by
  refine ⟨bigBoard_valid, by decide, bigRoot_solvable _, ?_, bigRoot_ida_star 0 _⟩
  rw [bigRoot_h]
  exact bigRoot_search 0 _

/-- C19 (amended): for every valid board and blank target in range for which
`is_solvable()` is true and whose goal is reachable in fewer than `INF` moves,
no top-level call of `search` made by `ida_star` returns `INF`, `ida_star`
never returns the empty path, and with enough fuel it returns a non-empty path. -/
theorem ida_star_not_exhausted (n : Nat) (board : List Nat) (I : Nat) (N : Int) (k : Nat)
    (hn : 1 ≤ n) (hb : ValidBoard n board) (hI : I < n * n)
    (_hs : (solveRoot N I board).is_solvable = true)
    (hreach : ReachIn k board (goalBoard (n * n) I)) (hk : (k : Int) < INF) :
    (∀ fuel, INF ∉ idaTrace fuel fuel [solveRoot N I board] (solveRoot N I board).h) ∧
    (∀ fuel, ida_star fuel (solveRoot N I board) ≠ some []) ∧
    (∃ fuel0, ∀ fuel, fuel0 ≤ fuel →
      ∃ path, ida_star fuel (solveRoot N I board) = some path ∧ path ≠ []) := by
  have key := ida_star_reach hn hb hI N hreach hk
  refine ⟨key.1, fun fuel hc => key.2 fuel [] hc rfl, ?_⟩
  refine ⟨(max INF (solveRoot N I board).h + 2).toNat, fun fuel hf => ?_⟩
  have hsome := ida_star_isSome (solveRoot N I board) fuel hf
  cases hi : ida_star fuel (solveRoot N I board) with
  | none => rw [hi] at hsome; exact Bool.noConfusion hsome
  | some path => exact ⟨path, rfl, key.2 fuel path hi⟩

theorem ida_star_not_exhausted_witness :
    (∀ fuel, INF ∉ idaTrace fuel fuel [solveRoot 8 (8 : Nat) [1, 2, 3, 4, 5, 6, 0, 7, 8]]
      (solveRoot 8 (8 : Nat) [1, 2, 3, 4, 5, 6, 0, 7, 8]).h) ∧
    (∀ fuel, ida_star fuel (solveRoot 8 (8 : Nat) [1, 2, 3, 4, 5, 6, 0, 7, 8]) ≠ some []) ∧
    (∃ fuel0, ∀ fuel, fuel0 ≤ fuel →
      ∃ path, ida_star fuel (solveRoot 8 (8 : Nat) [1, 2, 3, 4, 5, 6, 0, 7, 8]) = some path ∧
        path ≠ []) :=
  ida_star_not_exhausted 3 [1, 2, 3, 4, 5, 6, 0, 7, 8] 8 8 2 (by decide) (by decide)
    (by decide) (by decide) reach_example (by decide)

/-- C20: the code does not surface exhaustion.  Whenever `is_solvable()` is true
and `ida_star` returns the empty path (a top-level `search` returned `INF`),
`solve` returns the empty move list, the same value it returns for a board that
is already the goal, and not the empty optional. -/
theorem solve_on_exhaustion (fuel : Nat) (N I : Int) (board : List Nat)
    (hs : (solveRoot N I board).is_solvable = true)
    (hx : ida_star fuel (solveRoot N I board) = some []) :
    solve fuel N I board = some (some []) ∧ solve fuel N I board ≠ some none := by
  have h : solve fuel N I board = some (some []) := by
    rw [solve_eq, hs, if_neg (by decide), hx]
    rfl
  rw [h]
  exact ⟨rfl, by simp⟩

theorem solve_on_exhaustion_witness :
    ([1, 1, 3, 2] ≠ solveGoal 3 3 [1, 1, 3, 2] ∧
      idaTrace 3 3 [solveRoot 3 3 [1, 1, 3, 2]] (solveRoot 3 3 [1, 1, 3, 2]).h =
        [4, 6, INF] ∧
      solve 1 3 3 [1, 2, 3, 0] = some (some [])) ∧
    (solve 3 3 3 [1, 1, 3, 2] = some (some []) ∧ solve 3 3 3 [1, 1, 3, 2] ≠ some none) :=
  ⟨by decide, solve_on_exhaustion 3 3 3 [1, 1, 3, 2] (by decide) rfl⟩

end Hw1

namespace Hw1

/-! ### Move generation -/

/-- The list `successors()` on a state built from a valid board, in terms of
the cell `(r, c) = (z / n, z % n)` of the blank's index `z`. -/
theorem successors_spec {n : Nat} {b : List Nat} (hn : 1 ≤ n) (h : ValidBoard n b)
    (G : Grid) (m : String) :
    (State.new b G m).successors = moves.filterMap (fun mv =>
      if 0 ≤ ((b.indexOf 0 / n : Nat) : Int) + mv.row ∧
          ((b.indexOf 0 / n : Nat) : Int) + mv.row < n ∧
          0 ≤ ((b.indexOf 0 % n : Nat) : Int) + mv.col ∧
          ((b.indexOf 0 % n : Nat) : Int) + mv.col < n then
        some (State.new (swapAt b (b.indexOf 0)
          ((((b.indexOf 0 / n : Nat) : Int) + mv.row) * n +
            (((b.indexOf 0 % n : Nat) : Int) + mv.col)).toNat) G mv.move)
      else none) := by
  have h0 : 0 < n * n := Nat.mul_pos hn hn
  have hrow : (State.new b G m).row 0 = b.indexOf 0 / n := Grid.new_row hn h h0
  have hcol : (State.new b G m).col 0 = b.indexOf 0 % n := Grid.new_col hn h h0
  have hidx : (State.new b G m).idx 0 = b.indexOf 0 := Grid.new_idx h h0
  have hnn : (State.new b G m).n = n := Grid.new_n hn h
  unfold State.successors
  simp only [hrow, hcol, hidx, hnn, Grid.idx2, State.new_goal, State.new_board, ge_iff_le]

/-- The row-major index of a cell `(r, c)` on the grid, and back. -/
theorem cell_index {n : Nat} (r c : Int) (h : 0 ≤ r ∧ r < n ∧ 0 ≤ c ∧ c < n) :
    (r * n + c).toNat < n * n ∧ (((r * n + c).toNat / n : Nat) : Int) = r ∧
    (((r * n + c).toNat % n : Nat) : Int) = c := by
  obtain ⟨h1, h2, h3, h4⟩ := h
  obtain ⟨a, rfl⟩ := Int.eq_ofNat_of_zero_le h1
  obtain ⟨d, rfl⟩ := Int.eq_ofNat_of_zero_le h3
  have ha : a < n := by exact_mod_cast h2
  have hd : d < n := by exact_mod_cast h4
  have hq : ((a : Int) * n + d).toNat = a * n + d := by
    have : ((a : Int) * n + d) = ((a * n + d : Nat) : Int) := by push_cast; ring
    rw [this, Int.toNat_ofNat]
  rw [hq]
  have hn : 0 < n := by omega
  have e1 : (a * n + d) / n = a := by
    rw [Nat.add_comm, Nat.add_mul_div_right _ _ hn, Nat.div_eq_of_lt hd, Nat.zero_add]
  have e2 : (a * n + d) % n = d := by
    rw [Nat.add_comm, Nat.add_mul_mod_self_right, Nat.mod_eq_of_lt hd]
  have e3 : (a + 1) * n ≤ n * n := Nat.mul_le_mul_right n ha
  rw [e1, e2]
  refine ⟨?_, rfl, rfl⟩
  rw [Nat.add_mul, Nat.one_mul] at e3
  omega

theorem blank_after {n : Nat} {b : List Nat} (hn : 1 ≤ n) (h : ValidBoard n b) {j : Nat}
    (hj : j < n * n) : (swapAt b (b.indexOf 0) j).indexOf 0 = j := by
  have h0 : 0 < n * n := Nat.mul_pos hn hn
  rw [swapAt_indexOf h (h.indexOf_lt h0) hj h0, h.getD_indexOf h0, if_pos rfl]

theorem moves_label_inj {mv mv1 : Move} (h : mv ∈ moves) (h1 : mv1 ∈ moves)
    (he : mv.move = mv1.move) : mv = mv1 := by
  unfold moves at h h1
  simp only [List.mem_cons, List.mem_singleton, List.mem_nil_iff, or_false] at h h1
  rcases h with rfl | rfl | rfl | rfl <;> rcases h1 with rfl | rfl | rfl | rfl <;>
    first
    | rfl
    | exact absurd he (by decide)

end Hw1

namespace Hw1

/-- C15 (move generation): on a valid board with the blank at index `z`, cell
`(r, c) = (z / n, z % n)`: for each entry `(dr, dc, label)` of `moves`,
`successors()` holds a successor with that label exactly when
`0 ≤ r+dr < n` and `0 ≤ c+dc < n`; its board is the current board with the
entries at `(r, c)` and `(r+dr, c+dc)` exchanged and all other entries
unchanged; every successor arises in this way; the state's own board is
unchanged. -/
theorem successors_move_generation (n : Nat) (B : List Nat) (G : Grid) (m : String)
    (hn : 1 ≤ n) (hB : ValidBoard n B) :
    B.getD (B.indexOf 0 / n * n + B.indexOf 0 % n) 0 = 0 ∧
    (∀ mv ∈ moves,
      ((∃ t ∈ (State.new B G m).successors, t.move = mv.move) ↔
        (0 ≤ ((B.indexOf 0 / n : Nat) : Int) + mv.row ∧
          ((B.indexOf 0 / n : Nat) : Int) + mv.row < n ∧
          0 ≤ ((B.indexOf 0 % n : Nat) : Int) + mv.col ∧
          ((B.indexOf 0 % n : Nat) : Int) + mv.col < n))) ∧
    (∀ t ∈ (State.new B G m).successors, ∃ mv ∈ moves, ∃ q : Nat,
      t.move = mv.move ∧ q < n * n ∧
      ((q / n : Nat) : Int) = ((B.indexOf 0 / n : Nat) : Int) + mv.row ∧
      ((q % n : Nat) : Int) = ((B.indexOf 0 % n : Nat) : Int) + mv.col ∧
      t.board.length = B.length ∧
      t.board.getD (B.indexOf 0) 0 = B.getD q 0 ∧
      t.board.getD q 0 = B.getD (B.indexOf 0) 0 ∧
      (∀ x, x ≠ B.indexOf 0 → x ≠ q → t.board.getD x 0 = B.getD x 0)) ∧
    (State.new B G m).board = B := by
  have h0 : 0 < n * n := Nat.mul_pos hn hn
  have hz := hB.indexOf_lt h0
  have hl := hB.length_eq
  have hmem : ∀ t, t ∈ (State.new B G m).successors ↔ ∃ mv ∈ moves,
      (0 ≤ ((B.indexOf 0 / n : Nat) : Int) + mv.row ∧
        ((B.indexOf 0 / n : Nat) : Int) + mv.row < n ∧
        0 ≤ ((B.indexOf 0 % n : Nat) : Int) + mv.col ∧
        ((B.indexOf 0 % n : Nat) : Int) + mv.col < n) ∧
      t = State.new (swapAt B (B.indexOf 0)
          ((((B.indexOf 0 / n : Nat) : Int) + mv.row) * n +
            (((B.indexOf 0 % n : Nat) : Int) + mv.col)).toNat) G mv.move := by
    intro t
    rw [successors_spec hn hB, List.mem_filterMap]
    constructor
    · rintro ⟨mv, hmv, ht⟩
      split_ifs at ht with hc
      exact ⟨mv, hmv, hc, (Option.some.inj ht).symm⟩
    · rintro ⟨mv, hmv, hc, rfl⟩
      exact ⟨mv, hmv, by rw [if_pos hc]⟩
  refine ⟨?_, ?_, ?_, rfl⟩
  · rw [Nat.mul_comm, Nat.div_add_mod]
    exact hB.getD_indexOf h0
  · intro mv hmv
    constructor
    · rintro ⟨t, ht, hlab⟩
      obtain ⟨mv1, hmv1, hc, rfl⟩ := (hmem t).mp ht
      rw [State.new_move] at hlab
      rw [← moves_label_inj hmv1 hmv hlab]
      exact hc
    · intro hc
      exact ⟨_, (hmem _).mpr ⟨mv, hmv, hc, rfl⟩, State.new_move _ _ _⟩
  · intro t ht
    obtain ⟨mv, hmv, hc, rfl⟩ := (hmem t).mp ht
    obtain ⟨q1, q2, q3⟩ := cell_index _ _ hc
    refine ⟨mv, hmv, _, State.new_move _ _ _, q1, q2, q3, ?_, ?_, ?_, ?_⟩
    · rw [State.new_board, swapAt_length]
    · rw [State.new_board, swapAt_getD B (by omega) (by omega)]
      by_cases h1 : B.indexOf 0 = ((((B.indexOf 0 / n : Nat) : Int) + mv.row) * n +
          (((B.indexOf 0 % n : Nat) : Int) + mv.col)).toNat
      · rw [if_pos h1, ← h1]
      · rw [if_neg h1, if_pos rfl]
    · rw [State.new_board, swapAt_getD B (by omega) (by omega), if_pos rfl]
    · intro x hx1 hx2
      rw [State.new_board, swapAt_getD B (by omega) (by omega), if_neg hx2, if_neg hx1]

theorem successors_move_generation_witness :
    [1, 2, 3, 4, 0, 6, 7, 5, 8].getD
      ([1, 2, 3, 4, 0, 6, 7, 5, 8].indexOf 0 / 3 * 3 + [1, 2, 3, 4, 0, 6, 7, 5, 8].indexOf 0 % 3)
      0 = 0 ∧
    (∀ mv ∈ moves,
      ((∃ t ∈ (State.new [1, 2, 3, 4, 0, 6, 7, 5, 8] (Grid.new [1, 2, 3, 4, 5, 6, 7, 8, 0])
          "").successors, t.move = mv.move) ↔
        (0 ≤ (([1, 2, 3, 4, 0, 6, 7, 5, 8].indexOf 0 / 3 : Nat) : Int) + mv.row ∧
          (([1, 2, 3, 4, 0, 6, 7, 5, 8].indexOf 0 / 3 : Nat) : Int) + mv.row < (3 : Nat) ∧
          0 ≤ (([1, 2, 3, 4, 0, 6, 7, 5, 8].indexOf 0 % 3 : Nat) : Int) + mv.col ∧
          (([1, 2, 3, 4, 0, 6, 7, 5, 8].indexOf 0 % 3 : Nat) : Int) + mv.col < (3 : Nat)))) ∧
    (∀ t ∈ (State.new [1, 2, 3, 4, 0, 6, 7, 5, 8] (Grid.new [1, 2, 3, 4, 5, 6, 7, 8, 0])
        "").successors, ∃ mv ∈ moves, ∃ q : Nat,
      t.move = mv.move ∧ q < 3 * 3 ∧
      ((q / 3 : Nat) : Int) =
        (([1, 2, 3, 4, 0, 6, 7, 5, 8].indexOf 0 / 3 : Nat) : Int) + mv.row ∧
      ((q % 3 : Nat) : Int) =
        (([1, 2, 3, 4, 0, 6, 7, 5, 8].indexOf 0 % 3 : Nat) : Int) + mv.col ∧
      t.board.length = [1, 2, 3, 4, 0, 6, 7, 5, 8].length ∧
      t.board.getD ([1, 2, 3, 4, 0, 6, 7, 5, 8].indexOf 0) 0 =
        [1, 2, 3, 4, 0, 6, 7, 5, 8].getD q 0 ∧
      t.board.getD q 0 =
        [1, 2, 3, 4, 0, 6, 7, 5, 8].getD ([1, 2, 3, 4, 0, 6, 7, 5, 8].indexOf 0) 0 ∧
      (∀ x, x ≠ [1, 2, 3, 4, 0, 6, 7, 5, 8].indexOf 0 → x ≠ q →
        t.board.getD x 0 = [1, 2, 3, 4, 0, 6, 7, 5, 8].getD x 0)) ∧
    (State.new [1, 2, 3, 4, 0, 6, 7, 5, 8] (Grid.new [1, 2, 3, 4, 5, 6, 7, 8, 0]) "").board =
      [1, 2, 3, 4, 0, 6, 7, 5, 8] :=
  successors_move_generation 3 [1, 2, 3, 4, 0, 6, 7, 5, 8] (Grid.new [1, 2, 3, 4, 5, 6, 7, 8, 0])
    "" (by decide) (by decide)

theorem filterMap_ite {α β : Type} (l : List α) (p : α → Prop) [DecidablePred p]
    (g : α → β) :
    l.filterMap (fun x => if p x then some (g x) else none) =
      (l.filter (fun x => decide (p x))).map g := by
  induction l with
  | nil => rfl
  | cons x xs ih =>
    by_cases hp : p x
    · rw [List.filterMap_cons_some (by rw [if_pos hp]), List.filter_cons_of_pos (by simpa using hp),
        List.map_cons, ih]
    · rw [List.filterMap_cons_none (by rw [if_neg hp]), List.filter_cons_of_neg (by simpa using hp),
        ih]

/-- C16 (fixed order and labels): on a valid board, the list of successors of
`successors()`, each taken as its label together with the row and the column
difference between the blank's cell in the successor and in the current board,
is the sublist of `[up (+1,0), down (-1,0), left (0,+1), right (0,-1)]` of the
directions that stay on the grid, in that order. -/
theorem successors_order (n : Nat) (B : List Nat) (G : Grid) (m : String)
    (hn : 1 ≤ n) (hB : ValidBoard n B) :
    (State.new B G m).successors.map (fun t =>
      (t.move,
        ((t.board.indexOf 0 / n : Nat) : Int) - ((B.indexOf 0 / n : Nat) : Int),
        ((t.board.indexOf 0 % n : Nat) : Int) - ((B.indexOf 0 % n : Nat) : Int))) =
    [("up", (1 : Int), (0 : Int)), ("down", -1, 0), ("left", 0, 1), ("right", 0, -1)].filter
      (fun d => decide (0 ≤ ((B.indexOf 0 / n : Nat) : Int) + d.2.1 ∧
        ((B.indexOf 0 / n : Nat) : Int) + d.2.1 < n ∧
        0 ≤ ((B.indexOf 0 % n : Nat) : Int) + d.2.2 ∧
        ((B.indexOf 0 % n : Nat) : Int) + d.2.2 < n)) := by
  have key : ∀ mv : Move,
      ((if 0 ≤ ((B.indexOf 0 / n : Nat) : Int) + mv.row ∧
          ((B.indexOf 0 / n : Nat) : Int) + mv.row < n ∧
          0 ≤ ((B.indexOf 0 % n : Nat) : Int) + mv.col ∧
          ((B.indexOf 0 % n : Nat) : Int) + mv.col < n then
        some (State.new (swapAt B (B.indexOf 0)
          ((((B.indexOf 0 / n : Nat) : Int) + mv.row) * n +
            (((B.indexOf 0 % n : Nat) : Int) + mv.col)).toNat) G mv.move)
      else none).map (fun t =>
        (t.move,
          ((t.board.indexOf 0 / n : Nat) : Int) - ((B.indexOf 0 / n : Nat) : Int),
          ((t.board.indexOf 0 % n : Nat) : Int) - ((B.indexOf 0 % n : Nat) : Int)))) =
      if 0 ≤ ((B.indexOf 0 / n : Nat) : Int) + mv.row ∧
          ((B.indexOf 0 / n : Nat) : Int) + mv.row < n ∧
          0 ≤ ((B.indexOf 0 % n : Nat) : Int) + mv.col ∧
          ((B.indexOf 0 % n : Nat) : Int) + mv.col < n then
        some (mv.move, mv.row, mv.col) else none := by
    intro mv
    split_ifs with hc
    · obtain ⟨q1, q2, q3⟩ := cell_index _ _ hc
      simp only [Option.map_some', State.new_move, State.new_board]
      rw [blank_after hn hB q1, q2, q3]
      simp
    · rfl
  rw [successors_spec hn hB, List.map_filterMap]
  simp only [key]
  rw [filterMap_ite moves (fun mv => 0 ≤ ((B.indexOf 0 / n : Nat) : Int) + mv.row ∧
      ((B.indexOf 0 / n : Nat) : Int) + mv.row < n ∧
      0 ≤ ((B.indexOf 0 % n : Nat) : Int) + mv.col ∧
      ((B.indexOf 0 % n : Nat) : Int) + mv.col < n) (fun mv => (mv.move, mv.row, mv.col))]
  show _ = (moves.map (fun mv => (mv.move, mv.row, mv.col))).filter _
  rw [List.filter_map]
  rfl

theorem successors_order_witness :
    (State.new [1, 2, 3, 4, 5, 6, 0, 7, 8] (Grid.new [1, 2, 3, 4, 5, 6, 7, 8, 0])
        "").successors.map (fun t =>
      (t.move,
        ((t.board.indexOf 0 / 3 : Nat) : Int) -
          (([1, 2, 3, 4, 5, 6, 0, 7, 8].indexOf 0 / 3 : Nat) : Int),
        ((t.board.indexOf 0 % 3 : Nat) : Int) -
          (([1, 2, 3, 4, 5, 6, 0, 7, 8].indexOf 0 % 3 : Nat) : Int))) =
    [("up", (1 : Int), (0 : Int)), ("down", -1, 0), ("left", 0, 1), ("right", 0, -1)].filter
      (fun d => decide (0 ≤ (([1, 2, 3, 4, 5, 6, 0, 7, 8].indexOf 0 / 3 : Nat) : Int) + d.2.1 ∧
        (([1, 2, 3, 4, 5, 6, 0, 7, 8].indexOf 0 / 3 : Nat) : Int) + d.2.1 < (3 : Nat) ∧
        0 ≤ (([1, 2, 3, 4, 5, 6, 0, 7, 8].indexOf 0 % 3 : Nat) : Int) + d.2.2 ∧
        (([1, 2, 3, 4, 5, 6, 0, 7, 8].indexOf 0 % 3 : Nat) : Int) + d.2.2 < (3 : Nat))) :=
  successors_order 3 [1, 2, 3, 4, 5, 6, 0, 7, 8] (Grid.new [1, 2, 3, 4, 5, 6, 7, 8, 0]) ""
    (by decide) (by decide)

end Hw1

namespace Hw1

/-! ### Solvability test, inverse index and grid size -/

/-- C21 as stated fails: the 2 × 2 start board `[1,1,3,2]` holds no blank (all its
entries are in range, so every access of the code is within bounds), its
derived `n` equals that of the goal `[1,2,3,0]`, and `is_solvable()` returns
true. -/
theorem is_solvable_no_blank_counterexample :
    (∀ x ∈ [1, 1, 3, 2], x ≠ 0) ∧
    (State.new [1, 1, 3, 2] (Grid.new [1, 2, 3, 0]) "").n =
      (State.new [1, 1, 3, 2] (Grid.new [1, 2, 3, 0]) "").goal.n ∧
    (State.new [1, 1, 3, 2] (Grid.new [1, 2, 3, 0]) "").is_solvable = true := by
  decide

/-- C21 (amended): for every start and goal, if the two boards have different
derived `n`, `is_solvable()` returns false. -/
theorem is_solvable_size_mismatch (b g : List Nat) (m : String)
    (h : (State.new b (Grid.new g) m).n ≠ (Grid.new g).n) :
    (State.new b (Grid.new g) m).is_solvable = false := by
  unfold State.is_solvable
  rw [State.new_goal, if_pos h]

theorem is_solvable_size_mismatch_witness :
    ((State.new [0] (Grid.new [1, 2, 3, 0]) "").n = 1 ∧ (Grid.new [1, 2, 3, 0]).n = 2) ∧
    (State.new [0] (Grid.new [1, 2, 3, 0]) "").is_solvable = false :=
  ⟨by decide, is_solvable_size_mismatch [0] [1, 2, 3, 0] "" (by decide)⟩

theorem perm_range_facts {L : Nat} {b : List Nat} (hb : List.Perm b (List.range L)) :
    b.length = L ∧ b.Nodup ∧ ∀ x ∈ b, x < b.length := by
  have hl : b.length = L := by simpa using hb.length_eq
  refine ⟨hl, (List.Perm.nodup_iff hb).mpr (List.nodup_range _), ?_⟩
  intro x hx
  rw [hl]
  exact List.mem_range.mp (hb.subset hx)

/-- C22 (inverse index round trip): for every board that is a permutation of
`0 .. L-1`, the inverse index `board_swp` built by the constructor satisfies
`board[board_swp[v]] = v` for every `v < L` and `board_swp[board[i]] = i` for
every index `i < L`; `idx(v)` is the position of `v`, and
`row(v) * n + col(v) = idx(v)`. -/
theorem swap_indices_round_trip (L : Nat) (b : List Nat) (G : Grid) (m : String)
    (hb : List.Perm b (List.range L)) :
    (State.new b G m).board_swp = swap_indices b ∧
    (State.new b G m).board_swp.length = L ∧
    (∀ v, v < L → b.getD ((State.new b G m).board_swp.getD v 0) 0 = v) ∧
    (∀ i, i < L → (State.new b G m).board_swp.getD (b.getD i 0) 0 = i) ∧
    (∀ v, v < L → (State.new b G m).idx v = b.indexOf v ∧ (State.new b G m).idx v < L) ∧
    (1 ≤ (State.new b G m).n → ∀ v, v < L →
      (State.new b G m).row v * (State.new b G m).n + (State.new b G m).col v =
        (State.new b G m).idx v) := by
  obtain ⟨hl, hnd, hlt⟩ := perm_range_facts hb
  have hswp : (State.new b G m).board_swp = swap_indices b := rfl
  have hinv : ∀ i, i < L → (swap_indices b).getD (b.getD i 0) 0 = i :=
    fun i hi => swap_indices_getD b hnd hlt i (by omega)
  have hmem : ∀ v, v < L → v ∈ b := fun v hv => hb.symm.subset (List.mem_range.mpr hv)
  have hpos : ∀ v, v < L → b.indexOf v < L ∧ b.getD (b.indexOf v) 0 = v := by
    intro v hv
    have h1 : b.indexOf v < b.length := List.indexOf_lt_length.mpr (hmem v hv)
    refine ⟨by omega, ?_⟩
    rw [List.getD_eq_getElem _ _ h1]
    exact List.getElem_indexOf h1
  have hidx : ∀ v, v < L → (swap_indices b).getD v 0 = b.indexOf v := by
    intro v hv
    obtain ⟨h1, h2⟩ := hpos v hv
    have := hinv (b.indexOf v) h1
    rwa [h2] at this
  refine ⟨hswp, by rw [hswp, swap_indices_length, hl], ?_, ?_, ?_, ?_⟩
  · intro v hv
    rw [hswp, hidx v hv]
    exact (hpos v hv).2
  · intro i hi
    rw [hswp]
    exact hinv i hi
  · intro v hv
    have : (State.new b G m).idx v = (swap_indices b).getD v 0 := rfl
    rw [this, hidx v hv]
    exact ⟨rfl, (hpos v hv).1⟩
  · intro _ v _
    show (swap_indices b).getD v 0 / (State.new b G m).n * (State.new b G m).n +
      (swap_indices b).getD v 0 % (State.new b G m).n = (swap_indices b).getD v 0
    exact Nat.div_add_mod' _ _

theorem swap_indices_round_trip_witness :
    (State.new [2, 0, 3, 1] (Grid.new [1, 2, 3, 0]) "").board_swp = swap_indices [2, 0, 3, 1] ∧
    (State.new [2, 0, 3, 1] (Grid.new [1, 2, 3, 0]) "").board_swp.length = 4 ∧
    (∀ v, v < 4 → [2, 0, 3, 1].getD
      ((State.new [2, 0, 3, 1] (Grid.new [1, 2, 3, 0]) "").board_swp.getD v 0) 0 = v) ∧
    (∀ i, i < 4 → (State.new [2, 0, 3, 1] (Grid.new [1, 2, 3, 0]) "").board_swp.getD
      ([2, 0, 3, 1].getD i 0) 0 = i) ∧
    (∀ v, v < 4 →
      (State.new [2, 0, 3, 1] (Grid.new [1, 2, 3, 0]) "").idx v = [2, 0, 3, 1].indexOf v ∧
      (State.new [2, 0, 3, 1] (Grid.new [1, 2, 3, 0]) "").idx v < 4) ∧
    (1 ≤ (State.new [2, 0, 3, 1] (Grid.new [1, 2, 3, 0]) "").n → ∀ v, v < 4 →
      (State.new [2, 0, 3, 1] (Grid.new [1, 2, 3, 0]) "").row v *
          (State.new [2, 0, 3, 1] (Grid.new [1, 2, 3, 0]) "").n +
        (State.new [2, 0, 3, 1] (Grid.new [1, 2, 3, 0]) "").col v =
        (State.new [2, 0, 3, 1] (Grid.new [1, 2, 3, 0]) "").idx v) :=
  swap_indices_round_trip 4 [2, 0, 3, 1] (Grid.new [1, 2, 3, 0]) "" (by decide)

/-- On the exact inversion counts, `is_solvable()` gives a successor the
verdict of the board it comes from. -/
theorem is_solvable_invariant (n : Nat) (B G : List Nat) (m : String) (hn : 1 ≤ n)
    (hB : ValidBoard n B) (hG : ValidBoard n G) :
    ∀ s ∈ (State.new B (Grid.new G) m).successors,
      s.is_solvable = (State.new B (Grid.new G) m).is_solvable := by
  intro s hs
  obtain ⟨j, lbl, hj, hadj, -, rfl⟩ := mem_successors hn hB (Grid.new G) m s hs
  have hz := hB.indexOf_lt (Nat.mul_pos hn hn)
  have hB1 : ValidBoard n (swapAt B (B.indexOf 0) j) := swapAt_valid hB hz hj
  rw [Bool.eq_iff_iff, is_solvable_iff_parity hn hB1 hG, is_solvable_iff_parity hn hB hG,
    swap_blank_parity hn hB hj hadj]

/-- C29 (grid size): for every `k ≥ 1` and every board with exactly `k * k`
elements, the `n` that the constructor computes, the truncated square root of
`board.size() + 1`, equals `k`. -/
theorem grid_size (k : Nat) (b : List Nat) (G : Grid) (m : String) (hk : 1 ≤ k)
    (hlen : b.length = k * k) :
    (State.new b G m).n = k ∧ (Grid.new b).n = k ∧ isqrt (b.length + 1) = k := by
  have h : isqrt (b.length + 1) = k := by rw [hlen]; exact isqrt_sq_add_one k hk
  exact ⟨h, h, h⟩

theorem grid_size_witness :
    (State.new [1, 2, 3, 4, 5, 6, 0, 7, 8] (Grid.new [1, 2, 3, 4, 5, 6, 7, 8, 0]) "").n = 3 ∧
    (Grid.new [1, 2, 3, 4, 5, 6, 0, 7, 8]).n = 3 ∧
    isqrt ([1, 2, 3, 4, 5, 6, 0, 7, 8].length + 1) = 3 :=
  grid_size 3 [1, 2, 3, 4, 5, 6, 0, 7, 8] (Grid.new [1, 2, 3, 4, 5, 6, 7, 8, 0]) ""
    (by decide) (by decide)

theorem validBoard_iff_count (n : Nat) (b : List Nat) :
    ValidBoard n b ↔ b.length = n * n ∧ ∀ v, v < n * n → b.count v = 1 := by
  constructor
  · intro h
    refine ⟨h.length_eq, fun v hv => ?_⟩
    rw [List.Perm.count_eq h, List.count_eq_one_of_mem (List.nodup_range _)
      (List.mem_range.mpr hv)]
  · rintro ⟨hl, hc⟩
    have hsub : List.Subperm (List.range (n * n)) b := by
      apply List.subperm_of_subset (List.nodup_range _)
      intro v hv
      rw [List.mem_range] at hv
      exact List.count_pos_iff.mp (by rw [hc v hv]; omega)
    exact (hsub.perm_of_length_le (by simp [hl])).symm

end Hw1

namespace Hw1

/-! ### What `search` returns, for every call -/

theorem append_cons_eq {α : Type} (path : List α) (s : α) (e : List α) :
    path ++ s :: e = path ++ [s] ++ e := by simp

theorem getLast?_unique {α : Type} {l : List α} {a b : α} (ha : l.getLast? = some a)
    (hb : l.getLast? = some b) : a = b := by
  rw [ha] at hb
  exact Option.some.inj hb

/-- The loop of `search` over the successors still to be tried. -/
theorem searchLoop_out (rec : List State → Int → Option (Int × List State)) (g bound : Int)
    (path : List State) (state : State) (hl : path.getLast? = some state)
    (hf : g + state.h ≤ bound) (hgoal : state.is_goal = false)
    (hrec : ∀ s t1 p1, rec (path ++ [s]) (g + s.cost) = some (t1, p1) →
      SearchOut bound (path ++ [s]) (g + s.cost) t1 p1) :
    ∀ (succs : List State) (min t : Int) (p : List State),
      (∀ s ∈ succs, s ∈ state.successors) → min ≠ FOUND → min ≤ INF →
      searchLoop rec g succs path min = some (t, p) →
      (t = FOUND ∧ FoundOut bound path g p) ∨
      (t ≠ FOUND ∧ p = path ∧ t ≤ min ∧
        (Min.min INF (bound + 1) ≤ min → Min.min INF (bound + 1) ≤ t) ∧
        (∀ s ∈ succs, inPath path s = false → ∀ e last,
          Branch bound (path ++ [s]) (g + s.cost) e →
          (path ++ [s] ++ e).getLast? = some last →
          bound < g + s.cost + (e.length : Int) + last.h →
          t ≤ g + s.cost + (e.length : Int) + last.h) ∧
        (t = min ∨ ∃ s ∈ succs, inPath path s = false ∧ ∃ e last,
          Branch bound (path ++ [s]) (g + s.cost) e ∧
          (path ++ [s] ++ e).getLast? = some last ∧
          bound < g + s.cost + (e.length : Int) + last.h ∧
          t = g + s.cost + (e.length : Int) + last.h)) := by
  intro succs
  induction succs with
  | nil =>
    intro min t p _ hmin _ h
    simp only [searchLoop, Option.some.injEq, Prod.mk.injEq] at h
    obtain ⟨rfl, rfl⟩ := h
    exact Or.inr ⟨hmin, rfl, le_refl _, fun h => h, by simp, Or.inl rfl⟩
  | cons s rest ih =>
    intro min t p hsub hmin hmax h
    have hrest : ∀ x ∈ rest, x ∈ state.successors :=
      fun x hx => hsub x (List.mem_cons_of_mem _ hx)
    unfold searchLoop at h
    by_cases hin : inPath path s = true
    · rw [if_pos hin] at h
      rcases ih min t p hrest hmin hmax h with hA | ⟨h1, h2, h3, h4, h5, h6⟩
      · exact Or.inl hA
      · refine Or.inr ⟨h1, h2, h3, h4, ?_, ?_⟩
        · intro x hx hxin
          rw [List.mem_cons] at hx
          rcases hx with rfl | hx
          · rw [hin] at hxin; exact Bool.noConfusion hxin
          · exact h5 x hx hxin
        · rcases h6 with h6 | ⟨x, hx, h6⟩
          · exact Or.inl h6
          · exact Or.inr ⟨x, List.mem_cons_of_mem _ hx, h6⟩
    · rw [if_neg hin] at h
      have hin' : inPath path s = false := by simpa using hin
      cases hr : rec (path ++ [s]) (g + s.cost) with
      | none => rw [hr] at h; simp at h
      | some tp =>
        obtain ⟨t1, p1⟩ := tp
        rw [hr] at h
        simp only at h
        rcases hrec s t1 p1 hr with ⟨hF, e, last, c1, c2, c3, c4⟩ | ⟨b1, b2, b3, b4, b5⟩
        · rw [if_pos hF] at h
          simp only [Option.some.injEq, Prod.mk.injEq] at h
          obtain ⟨rfl, rfl⟩ := h
          refine Or.inl ⟨rfl, s :: e, last, ?_, ?_, ?_, ?_⟩
          · rw [c1]; simp
          · exact ⟨state, hl, hf, hgoal, hsub s (List.mem_cons_self _ _), hin', c2⟩
          · rw [append_cons_eq]; exact c3
          · simp only [List.length_cons, Nat.cast_add, Nat.cast_one, State.cost_eq] at c4 ⊢
            rcases c4 with c4 | c4
            · exact Or.inl ⟨by omega, c4.2⟩
            · exact Or.inr ⟨by omega, by omega⟩
        · rw [if_neg b1, b2, List.dropLast_concat] at h
          have hmin' : (if t1 < min then t1 else min) ≠ FOUND := by
            split_ifs
            · exact b1
            · exact hmin
          have hmax' : (if t1 < min then t1 else min) ≤ INF := by
            split_ifs <;> omega
          have hle1 : (if t1 < min then t1 else min) ≤ t1 := by
            split_ifs <;> omega
          have hle2 : (if t1 < min then t1 else min) ≤ min := by
            split_ifs <;> omega
          rcases ih _ t p hrest hmin' hmax' h with hA | ⟨h1, h2, h3, h4, h5, h6⟩
          · exact Or.inl hA
          · refine Or.inr ⟨h1, h2, le_trans h3 hle2, ?_, ?_, ?_⟩
            · intro hlo
              apply h4
              split_ifs
              · exact b3
              · exact hlo
            · intro x hx hxin
              rw [List.mem_cons] at hx
              rcases hx with rfl | hx
              · intro e last he1 he2 he3
                exact le_trans (le_trans h3 hle1) (b4 e last he1 he2 he3)
              · exact h5 x hx hxin
            · rcases h6 with h6 | ⟨x, hx, h6⟩
              · by_cases hlt : t1 < min
                · rw [if_pos hlt] at h6
                  rcases b5 with b5 | ⟨e, last, d1, d2, d3, d4⟩
                  · omega
                  · exact Or.inr ⟨s, List.mem_cons_self _ _, hin', e, last, d1, d2, d3,
                      by rw [h6]; exact d4⟩
                · rw [if_neg hlt] at h6
                  exact Or.inl h6
              · exact Or.inr ⟨x, List.mem_cons_of_mem _ hx, h6⟩

/-- The value and the path that `search` returns, for every call. -/
theorem search_out : ∀ (fuel : Nat) (path : List State) (g bound t : Int) (p : List State),
    search fuel path g bound = some (t, p) → SearchOut bound path g t p := by
  intro fuel
  induction fuel with
  | zero => intro path g bound t p h; simp [search] at h
  | succ fuel ih =>
    intro path g bound t p h
    rw [search] at h
    cases hl : path.getLast? with
    | none => rw [hl] at h; simp at h
    | some state =>
      rw [hl] at h
      simp only at h
      by_cases hf : g + state.h > bound
      · rw [if_pos hf] at h
        simp only [Option.some.injEq, Prod.mk.injEq] at h
        obtain ⟨rfl, rfl⟩ := h
        have hleaf : (path ++ ([] : List State)).getLast? = some state := by
          rw [List.append_nil]; exact hl
        by_cases hF : g + state.h = FOUND
        · refine Or.inl ⟨hF, [], state, (List.append_nil _).symm, trivial, hleaf, Or.inr ?_⟩
          simp only [List.length_nil, Nat.cast_zero, add_zero]
          exact ⟨hf, hF⟩
        · refine Or.inr ⟨hF, rfl, ?_, ?_, Or.inr ⟨[], state, trivial, hleaf, ?_, ?_⟩⟩
          · exact le_trans (min_le_right _ _) (by omega)
          · intro e last he1 he2 _
            cases e with
            | nil =>
              rw [List.append_nil] at he2
              rw [getLast?_unique he2 hl]
              simp
            | cons s e =>
              obtain ⟨last1, k1, k2, -⟩ := he1
              rw [getLast?_unique k1 hl] at k2
              omega
          · simp only [List.length_nil, Nat.cast_zero, add_zero]
            exact hf
          · simp
      · rw [if_neg hf] at h
        by_cases hgoal : state.is_goal = true
        · rw [if_pos hgoal] at h
          simp only [Option.some.injEq, Prod.mk.injEq] at h
          obtain ⟨rfl, rfl⟩ := h
          refine Or.inl ⟨rfl, [], state, (List.append_nil _).symm, trivial, ?_, Or.inl ?_⟩
          · rw [List.append_nil]; exact hl
          · simp only [List.length_nil, Nat.cast_zero, add_zero]
            exact ⟨by omega, hgoal⟩
        · rw [if_neg hgoal] at h
          have hgoal' : state.is_goal = false := by simpa using hgoal
          have hf' : g + state.h ≤ bound := by omega
          rcases searchLoop_out (fun p g1 => search fuel p g1 bound) g bound path state hl hf'
            hgoal' (fun s t1 p1 hr => ih _ _ _ _ _ hr) state.successors INF t p
            (fun _ hs => hs) (by decide) (le_refl _) h with hA | ⟨h1, h2, h3, h4, h5, h6⟩
          · exact Or.inl hA
          · refine Or.inr ⟨h1, h2, h4 (min_le_left _ _), ?_, ?_⟩
            · intro e last he1 he2 he3
              cases e with
              | nil =>
                rw [List.append_nil] at he2
                rw [getLast?_unique he2 hl] at he3
                simp only [List.length_nil, Nat.cast_zero, add_zero] at he3
                omega
              | cons s e =>
                obtain ⟨last1, k1, k2, k3, k4, k5, k6⟩ := he1
                rw [getLast?_unique k1 hl] at k4
                rw [append_cons_eq] at he2
                have := h5 s k4 k5 e last k6 he2
                  (by simp only [List.length_cons, Nat.cast_add, Nat.cast_one, State.cost_eq]
                        at he3 ⊢
                      omega)
                simp only [List.length_cons, Nat.cast_add, Nat.cast_one, State.cost_eq]
                  at this ⊢
                omega
            · rcases h6 with h6 | ⟨s, hs, hsin, e, last, d1, d2, d3, d4⟩
              · exact Or.inl h6
              · refine Or.inr ⟨s :: e, last, ⟨state, hl, hf', hgoal', hs, hsin, d1⟩, ?_, ?_, ?_⟩
                · rw [append_cons_eq]; exact d2
                · simp only [List.length_cons, Nat.cast_add, Nat.cast_one, State.cost_eq]
                    at d3 ⊢
                  omega
                · simp only [List.length_cons, Nat.cast_add, Nat.cast_one, State.cost_eq]
                    at d4 ⊢
                  omega

end Hw1

namespace Hw1

/-! ### Bounds, backtracking and the path on success -/

theorem search_gt_bound {fuel : Nat} {path : List State} {g bound t : Int} {p : List State}
    (h : search fuel path g bound = some (t, p)) (ht : t ≠ FOUND) :
    p = path ∧ (bound < INF → bound < t) ∧ (t ≠ INF → bound < t) := by
  rcases search_out fuel path g bound t p h with ⟨hF, -⟩ | ⟨-, h2, h3, -, h5⟩
  · exact absurd hF ht
  · refine ⟨h2, fun hb => ?_, fun hI => ?_⟩
    · have : bound + 1 ≤ Min.min INF (bound + 1) := le_min (by omega) (le_refl _)
      omega
    · rcases h5 with h5 | ⟨e, last, -, -, d3, d4⟩
      · exact absurd h5 hI
      · omega

theorem idaBounds_chain (sfuel : Nat) : ∀ (fuel : Nat) (path : List State) (bound : Int),
    (idaBounds sfuel (fuel + 1) path bound).head? = some bound ∧
    List.Chain' (fun a b : Int => a < b) (idaBounds sfuel (fuel + 1) path bound) := by
  intro fuel
  induction fuel with
  | zero =>
    intro path bound
    rw [idaBounds]
    cases hr : search sfuel path 0 bound with
    | none => simp
    | some tp =>
      obtain ⟨t, p⟩ := tp
      simp only
      split_ifs <;> simp [idaBounds]
  | succ fuel ih =>
    intro path bound
    rw [idaBounds]
    cases hr : search sfuel path 0 bound with
    | none => simp
    | some tp =>
      obtain ⟨t, p⟩ := tp
      simp only
      by_cases hF : t = FOUND
      · rw [if_pos hF]; simp
      · rw [if_neg hF]
        by_cases hI : t = INF
        · rw [if_pos hI]; simp
        · rw [if_neg hI]
          obtain ⟨i1, i2⟩ := ih p t
          refine ⟨rfl, ?_⟩
          rw [List.chain'_cons']
          refine ⟨?_, i2⟩
          intro b hb
          rw [i1] at hb
          have hbt : b = t := (Option.some.inj (Option.mem_def.mp hb)).symm
          rw [hbt]
          exact (search_gt_bound hr hF).2.2 hI

/-- C24: for every path, `g` and `bound < INF`, a value `t ≠ FOUND` returned
by `search(path, g, bound)` is greater than `bound`; the bounds that `ida_star`
uses start at `h(root)` and form a strictly increasing sequence. -/
theorem bounds_increase :
    (∀ (fuel : Nat) (path : List State) (g bound t : Int) (p : List State),
      path ≠ [] → bound < INF → search fuel path g bound = some (t, p) → t ≠ FOUND →
      bound < t) ∧
    (∀ (fuel : Nat) (root : State),
      (idaBounds (fuel + 1) (fuel + 1) [root] root.h).head? = some root.h ∧
      List.Chain' (fun a b : Int => a < b) (idaBounds (fuel + 1) (fuel + 1) [root] root.h)) :=
  ⟨fun _ _ _ _ _ _ _ hb h ht => (search_gt_bound h ht).2.1 hb,
   fun fuel root => idaBounds_chain (fuel + 1) fuel [root] root.h⟩

/-- C26 (full backtracking): for every path, `g` and `bound`, when `search`
returns a value other than `FOUND`, the path on return is the path on entry. -/
theorem search_backtracks (fuel : Nat) (path : List State) (g bound t : Int)
    (p : List State) (h : search fuel path g bound = some (t, p)) (ht : t ≠ FOUND) :
    p = path :=
  (search_gt_bound h ht).1

theorem search_backtracks_witness :
    [State.new [2, 1, 3, 4, 5, 6, 7, 8, 0] (Grid.new [1, 2, 3, 4, 5, 6, 7, 8, 0]) ""] =
      [State.new [2, 1, 3, 4, 5, 6, 7, 8, 0] (Grid.new [1, 2, 3, 4, 5, 6, 7, 8, 0]) ""] ∧
    search 3 [State.new [2, 1, 3, 4, 5, 6, 7, 8, 0] (Grid.new [1, 2, 3, 4, 5, 6, 7, 8, 0]) ""]
      0 2 = some (4,
        [State.new [2, 1, 3, 4, 5, 6, 7, 8, 0] (Grid.new [1, 2, 3, 4, 5, 6, 7, 8, 0]) ""]) :=
  ⟨search_backtracks 3
      [State.new [2, 1, 3, 4, 5, 6, 7, 8, 0] (Grid.new [1, 2, 3, 4, 5, 6, 7, 8, 0]) ""] 0 2 4 _
      rfl (by decide), rfl⟩

theorem branch_chain (bound : Int) : ∀ (e path : List State) (g : Int) (l : State),
    Branch bound path g e → path.getLast? = some l →
    List.Chain (fun a b => b ∈ a.successors) l e := by
  intro e
  induction e with
  | nil => intro _ _ _ _ _; exact List.Chain.nil
  | cons s e ih =>
    intro path g l hb hl
    obtain ⟨last, k1, -, -, k4, -, k6⟩ := hb
    rw [getLast?_unique k1 hl] at k4
    exact List.Chain.cons k4 (ih (path ++ [s]) _ s k6 (by simp))

/-- A successor is built by the constructor from the board with the blank's cell
and the target cell exchanged, the goal pointer of its parent, and the label of
the move. -/
theorem mem_successors_label {a b : State} (h : b ∈ a.successors) :
    ∃ mv ∈ moves,
      b = State.new (swapAt a.board (a.idx 0)
        (a.idx2 ((a.row 0 : Int) + mv.row) ((a.col 0 : Int) + mv.col)).toNat) a.goal mv.move ∧
      b.move = mv.move := by
  unfold State.successors at h
  rw [List.mem_filterMap] at h
  obtain ⟨mv, hmv, hb⟩ := h
  simp only at hb
  split_ifs at hb
  have hb' := (Option.some.inj hb).symm
  exact ⟨mv, hmv, hb', by rw [hb']; rfl⟩

/-- The path that `search` returns with `FOUND`, for `g ≥ 0`. -/
theorem search_found {fuel : Nat} {path : List State} {g bound : Int} {p : List State}
    (hg : 0 ≤ g) (h : search fuel path g bound = some (FOUND, p)) :
    ∃ e l last, p = path ++ e ∧ path.getLast? = some l ∧ p.getLast? = some last ∧
      last.is_goal = true ∧ List.Chain (fun a b => b ∈ a.successors) l e ∧
      Branch bound path g e := by
  rcases search_out fuel path g bound FOUND p h with
    ⟨-, e, last, c1, c2, c3, c4⟩ | ⟨hne, -⟩
  · have hl : ∃ l, path.getLast? = some l := by
      cases hp : path.getLast? with
      | none =>
        cases fuel with
        | zero => simp [search] at h
        | succ fuel => rw [search, hp] at h; simp at h
      | some l => exact ⟨l, rfl⟩
    obtain ⟨l, hl⟩ := hl
    refine ⟨e, l, last, c1, hl, by rw [c1]; exact c3, ?_, branch_chain bound e path g l c2 hl, c2⟩
    rcases c4 with c4 | c4
    · exact c4.2
    · have hh := last.h_nonneg
      have : (0 : Int) ≤ (e.length : Int) := Int.natCast_nonneg _
      have hF : FOUND = -1 := rfl
      omega
  · exact absurd rfl hne

end Hw1

namespace Hw1

theorem idaLoop_chain (sfuel : Nat) (root : State) :
    ∀ (k : Nat) (bound : Int) (r : List State),
      idaLoop sfuel k [root] bound = some r → r ≠ [] →
      r.head? = some root ∧ (∃ last, r.getLast? = some last ∧ last.is_goal = true) ∧
      List.Chain' (fun a b => b ∈ a.successors) r := by
  intro k
  induction k with
  | zero => intro bound r h; simp [idaLoop] at h
  | succ k ih =>
    intro bound r h hne
    rw [idaLoop] at h
    cases hr : search sfuel [root] 0 bound with
    | none => rw [hr] at h; simp at h
    | some tp =>
      obtain ⟨t, p⟩ := tp
      rw [hr] at h
      simp only at h
      by_cases hF : t = FOUND
      · rw [if_pos hF] at h
        simp only [Option.some.injEq] at h
        subst h
        subst hF
        obtain ⟨e, l, last, h1, h2, h3, h4, h5, -⟩ := search_found (le_refl 0) hr
        have hl : l = root := by
          simp only [List.getLast?_singleton, Option.some.injEq] at h2
          exact h2.symm
        subst hl
        subst h1
        exact ⟨rfl, ⟨last, h3, h4⟩, h5⟩
      · rw [if_neg hF] at h
        by_cases hI : t = INF
        · rw [if_pos hI] at h
          simp only [Option.some.injEq] at h
          exact absurd h.symm hne
        · rw [if_neg hI, (search_gt_bound hr hF).1] at h
          exact ih t r h hne

/-- On exact integers: whenever `search(path, g, bound)` with `g ≥ 0` returns
`FOUND`, the path on return is the path on entry followed by states `e`, its
last state is the goal, and every state of `e` is a successor of the state
immediately before it; a non-empty path returned by `ida_star` starts at the
root, ends at the goal and is a chain of successors. -/
theorem search_found_path (fuel : Nat) (path : List State) (g bound : Int) (p : List State)
    (hg : 0 ≤ g) (h : search fuel path g bound = some (FOUND, p)) :
    (∃ e l last, p = path ++ e ∧ path.getLast? = some l ∧ p.getLast? = some last ∧
      last.is_goal = true ∧ List.Chain (fun a b => b ∈ a.successors) l e) ∧
    (∀ a b : State, b ∈ a.successors → ∃ mv ∈ moves,
      b = State.new (swapAt a.board (a.idx 0)
        (a.idx2 ((a.row 0 : Int) + mv.row) ((a.col 0 : Int) + mv.col)).toNat) a.goal mv.move ∧
      b.move = mv.move) ∧
    (∀ (ifuel : Nat) (root : State) (r : List State), ida_star ifuel root = some r → r ≠ [] →
      r.head? = some root ∧ (∃ last, r.getLast? = some last ∧ last.is_goal = true) ∧
      List.Chain' (fun a b => b ∈ a.successors) r) ∧
    (∀ (N I : Int) (board : List Nat), (solveRoot N I board).move = "") := by
  refine ⟨?_, fun a b hb => mem_successors_label hb, ?_, fun _ _ _ => rfl⟩
  · obtain ⟨e, l, last, h1, h2, h3, h4, h5, -⟩ := search_found hg h
    exact ⟨e, l, last, h1, h2, h3, h4, h5⟩
  · intro ifuel root r hr hne
    unfold ida_star at hr
    exact idaLoop_chain ifuel root ifuel _ r hr hne

end Hw1

namespace Hw1

/-! ### States on the path -/

theorem built_eq_new {s : State} (hb : s.toGrid = Grid.new s.board) :
    s = State.new s.board s.goal s.move := by
  cases s with
  | mk g goal move =>
    simp only at hb
    simp only [State.new]
    rw [← hb]

theorem built_succ {n : Nat} (hn : 1 ≤ n) {s s1 : State} (hv : ValidBoard n s.board)
    (hb : s.toGrid = Grid.new s.board) (hs : s1 ∈ s.successors) :
    ValidBoard n s1.board ∧ s1.toGrid = Grid.new s1.board := by
  rw [built_eq_new hb] at hs
  obtain ⟨j, lbl, hj, -, -, rfl⟩ := mem_successors hn hv _ _ s1 hs
  exact ⟨swapAt_valid hv (hv.indexOf_lt (Nat.mul_pos hn hn)) hj, rfl⟩

theorem branch_built {n : Nat} (hn : 1 ≤ n) (bound : Int) :
    ∀ (e path : List State) (g : Int), Branch bound path g e →
      (∀ s ∈ path, ValidBoard n s.board ∧ s.toGrid = Grid.new s.board) →
      ∀ s ∈ path ++ e, ValidBoard n s.board ∧ s.toGrid = Grid.new s.board := by
  intro e
  induction e with
  | nil => intro path g _ hp s hs; rw [List.append_nil] at hs; exact hp s hs
  | cons x e ih =>
    intro path g hb hp s hs
    obtain ⟨last, k1, -, -, k4, -, k6⟩ := hb
    have hlast := hp last (List.mem_of_getLast?_eq_some k1)
    have hx := built_succ hn hlast.1 hlast.2 k4
    rw [append_cons_eq] at hs
    apply ih (path ++ [x]) _ k6 _ s hs
    intro y hy
    rw [List.mem_append, List.mem_singleton] at hy
    rcases hy with hy | rfl
    · exact hp y hy
    · exact hx

theorem search_built {n : Nat} (hn : 1 ≤ n) {fuel : Nat} {path : List State} {g bound t : Int}
    {p : List State} (h : search fuel path g bound = some (t, p))
    (hp : ∀ s ∈ path, ValidBoard n s.board ∧ s.toGrid = Grid.new s.board) :
    ∀ s ∈ p, ValidBoard n s.board ∧ s.toGrid = Grid.new s.board := by
  rcases search_out fuel path g bound t p h with ⟨-, e, last, c1, c2, -⟩ | ⟨-, h2, -⟩
  · rw [c1]
    exact branch_built hn bound e path g c2 hp
  · rw [h2]
    exact hp

/-- C28: for every `n ≥ 1` and every board of length `n * n` in which each
value of `0 .. n*n-1` occurs exactly once, every state of `successors()` has a
board of the same length in which each value of `0 .. n*n-1` occurs exactly
once, and so has every state on a path that `search` returns when started on
the one-state path of such a board. -/
theorem successors_preserve_permutation (n : Nat) (B : List Nat) (G : Grid) (m : String)
    (hn : 1 ≤ n) (hlen : B.length = n * n) (hcount : ∀ v, v < n * n → B.count v = 1) :
    (∀ s ∈ (State.new B G m).successors,
      s.board.length = n * n ∧ ∀ v, v < n * n → s.board.count v = 1) ∧
    (∀ (fuel : Nat) (g bound t : Int) (p : List State),
      search fuel [State.new B G m] g bound = some (t, p) →
      ∀ s ∈ p, s.board.length = n * n ∧ ∀ v, v < n * n → s.board.count v = 1) := by
  have hB : ValidBoard n B := (validBoard_iff_count n B).mpr ⟨hlen, hcount⟩
  constructor
  · intro s hs
    exact (validBoard_iff_count n s.board).mp (built_succ hn hB rfl hs).1
  · intro fuel g bound t p h s hs
    apply (validBoard_iff_count n s.board).mp
    refine (search_built hn h ?_ s hs).1
    intro x hx
    rw [List.mem_singleton] at hx
    subst hx
    exact ⟨hB, rfl⟩

theorem successors_preserve_permutation_witness :
    ([1, 2, 3, 4, 0, 6, 7, 5, 8].length = 3 * 3 ∧
      ∀ v, v < 3 * 3 → [1, 2, 3, 4, 0, 6, 7, 5, 8].count v = 1) ∧
    ((∀ s ∈ (State.new [1, 2, 3, 4, 0, 6, 7, 5, 8] (Grid.new [1, 2, 3, 4, 5, 6, 7, 8, 0])
        "").successors,
      s.board.length = 3 * 3 ∧ ∀ v, v < 3 * 3 → s.board.count v = 1) ∧
    (∀ (fuel : Nat) (g bound t : Int) (p : List State),
      search fuel [State.new [1, 2, 3, 4, 0, 6, 7, 5, 8] (Grid.new [1, 2, 3, 4, 5, 6, 7, 8, 0])
        ""] g bound = some (t, p) →
      ∀ s ∈ p, s.board.length = 3 * 3 ∧ ∀ v, v < 3 * 3 → s.board.count v = 1)) :=
  ⟨⟨by decide, by decide⟩,
    successors_preserve_permutation 3 [1, 2, 3, 4, 0, 6, 7, 5, 8]
      (Grid.new [1, 2, 3, 4, 5, 6, 7, 8, 0]) "" (by decide) (by decide) (by decide)⟩

/-! ### The value returned by a top-level call -/

theorem bigRoot_not_goal (N : Int) :
    (solveRoot N ((4194303 : Nat) : Int) bigBoard).is_goal = false := by
  rw [bigRoot_eq]
  unfold State.is_goal
  rw [beq_eq_false_iff_ne, State.new_board, State.new_goal, Grid.new_board_eq]
  exact bigBoard_ne_goal

theorem bigRoot_left (N : Int) :
    ∃ s, s ∈ (solveRoot N ((4194303 : Nat) : Int) bigBoard).successors ∧ s.h = INF - 1 ∧
      inPath [solveRoot N ((4194303 : Nat) : Int) bigBoard] s = false := by
  have hadj : Adj 2048 (bigBoard.indexOf 0) 4194303 := by
    rw [bigBoard_indexOf_zero]
    unfold Adj
    omega
  obtain ⟨lbl, hl⟩ := successors_of_adj (by decide) bigBoard_valid (Grid.new bigGoal) ""
    (by omega : 4194303 < 2048 * 2048) hadj
  rw [← bigRoot_eq N] at hl
  obtain ⟨h1, h2⟩ := bigRoot_succ N hl
  refine ⟨_, hl, h1, ?_⟩
  unfold inPath
  simp only [List.any_cons, List.any_nil, Bool.or_false]
  rw [beq_eq_false_iff_ne, bigRoot_eq, State.new_board]
  exact Ne.symm h2

/-- C25 as stated fails: on the valid solvable board `bigBoard` the top-level
call `search([root], 0, INF - 2)` returns `INF`, although it visits a state
whose `g + h` exceeds the bound: a successor `s` of the root, with
`g + h = 1 + (INF - 1)`. -/
theorem min_overshoot_counterexample :
    search 2 [solveRoot 4194303 ((4194303 : Nat) : Int) bigBoard] 0 (INF - 2) =
      some (INF, [solveRoot 4194303 ((4194303 : Nat) : Int) bigBoard]) ∧
    ∃ s, Branch (INF - 2) [solveRoot 4194303 ((4194303 : Nat) : Int) bigBoard] 0 [s] ∧
      INF - 2 < 0 + 1 + s.h := by
  refine ⟨bigRoot_search 0 _, ?_⟩
  obtain ⟨s, hs1, hs2, hs3⟩ := bigRoot_left 4194303
  refine ⟨s, ⟨_, List.getLast?_singleton _, ?_, bigRoot_not_goal _, hs1, hs3, trivial⟩, ?_⟩
  · rw [bigRoot_h]; decide
  · rw [hs2]; decide

/-- C25 (amended): whenever the top-level call `search([root], 0, bound)`
returns `t ≠ FOUND`: `t` is at most `g + h` of every state with `g + h > bound`
that the call visits (a state reached from the root along pushed successors,
all proper ancestors being non-goal with `g + h ≤ bound` and no board repeated);
when `t ≠ INF`, `t` is `g + h` of such a state, hence the minimum; and when no
such state exists, `t = INF`. -/
theorem min_overshoot (fuel : Nat) (root : State) (bound t : Int) (p : List State)
    (h : search fuel [root] 0 bound = some (t, p)) (ht : t ≠ FOUND) :
    (∀ e last, Branch bound [root] 0 e → ([root] ++ e).getLast? = some last →
      bound < (e.length : Int) + last.h → t ≤ (e.length : Int) + last.h) ∧
    (t ≠ INF → ∃ e last, Branch bound [root] 0 e ∧ ([root] ++ e).getLast? = some last ∧
      bound < (e.length : Int) + last.h ∧ t = (e.length : Int) + last.h) ∧
    ((¬ ∃ e last, Branch bound [root] 0 e ∧ ([root] ++ e).getLast? = some last ∧
      bound < (e.length : Int) + last.h) → t = INF) := by
  rcases search_out fuel [root] 0 bound t p h with ⟨hF, -⟩ | ⟨-, -, -, h4, h5⟩
  · exact absurd hF ht
  · simp only [zero_add] at h4 h5
    refine ⟨h4, fun hI => ?_, fun hno => ?_⟩
    · rcases h5 with h5 | h5
      · exact absurd h5 hI
      · exact h5
    · rcases h5 with h5 | ⟨e, last, d1, d2, d3, -⟩
      · exact h5
      · exact absurd ⟨e, last, d1, d2, d3⟩ hno

theorem min_overshoot_witness :
    search 3 [State.new [2, 1, 3, 4, 5, 6, 7, 8, 0] (Grid.new [1, 2, 3, 4, 5, 6, 7, 8, 0]) ""] 0 2 =
      some (4, [State.new [2, 1, 3, 4, 5, 6, 7, 8, 0] (Grid.new [1, 2, 3, 4, 5, 6, 7, 8, 0]) ""]) ∧
    ((∀ e last,
      Branch 2 [State.new [2, 1, 3, 4, 5, 6, 7, 8, 0] (Grid.new [1, 2, 3, 4, 5, 6, 7, 8, 0]) ""] 0 e →
      ([State.new [2, 1, 3, 4, 5, 6, 7, 8, 0] (Grid.new [1, 2, 3, 4, 5, 6, 7, 8, 0]) ""] ++ e).getLast? =
        some last →
      2 < (e.length : Int) + last.h → 4 ≤ (e.length : Int) + last.h) ∧
    ((4 : Int) ≠ INF → ∃ e last,
      Branch 2 [State.new [2, 1, 3, 4, 5, 6, 7, 8, 0] (Grid.new [1, 2, 3, 4, 5, 6, 7, 8, 0]) ""] 0 e ∧
      ([State.new [2, 1, 3, 4, 5, 6, 7, 8, 0] (Grid.new [1, 2, 3, 4, 5, 6, 7, 8, 0]) ""] ++ e).getLast? =
        some last ∧
      2 < (e.length : Int) + last.h ∧ 4 = (e.length : Int) + last.h) ∧
    ((¬ ∃ e last,
      Branch 2 [State.new [2, 1, 3, 4, 5, 6, 7, 8, 0] (Grid.new [1, 2, 3, 4, 5, 6, 7, 8, 0]) ""] 0 e ∧
      ([State.new [2, 1, 3, 4, 5, 6, 7, 8, 0] (Grid.new [1, 2, 3, 4, 5, 6, 7, 8, 0]) ""] ++ e).getLast? =
        some last ∧
      2 < (e.length : Int) + last.h) → (4 : Int) = INF)) :=
  ⟨rfl,
    min_overshoot 3 (State.new [2, 1, 3, 4, 5, 6, 7, 8, 0] (Grid.new [1, 2, 3, 4, 5, 6, 7, 8, 0]) "") 2 4
      [State.new [2, 1, 3, 4, 5, 6, 7, 8, 0] (Grid.new [1, 2, 3, 4, 5, 6, 7, 8, 0]) ""] rfl
      (by decide)⟩

end Hw1

namespace Hw1

/-! ### The checked functions agree with the unchecked ones on valid boards -/

theorem foldlC_eq {α β : Type} (f : β → α → Option β) (f1 : β → α → β) (P : β → Prop)
    (l : List α) (hstep : ∀ b a, a ∈ l → P b → f b a = some (f1 b a) ∧ P (f1 b a)) :
    ∀ b, P b → foldlC f b l = some (l.foldl f1 b) := by
  induction l with
  | nil => intro b _; rfl
  | cons a l ih =>
    intro b hb
    obtain ⟨h1, h2⟩ := hstep b a (List.mem_cons_self _ _) hb
    rw [foldlC, h1]
    exact ih (fun b x hx hP => hstep b x (List.mem_cons_of_mem _ hx) hP) _ h2

theorem getElem?_eq_getD {v : List Nat} {i : Nat} (hi : i < v.length) :
    v[i]? = some (v.getD i 0) := by
  rw [List.getElem?_eq_getElem hi, List.getD_eq_getElem _ _ hi]

theorem swap_indicesC_eq (v : List Nat) (hlt : ∀ x ∈ v, x < v.length) :
    swap_indicesC v = some (swap_indices v) := by
  unfold swap_indicesC swap_indices
  apply foldlC_eq _ _ (fun vnew => vnew.length = v.length)
  · intro vnew i hi hP
    rw [List.mem_range] at hi
    have hx : v.getD i 0 < vnew.length := by
      rw [hP]
      apply hlt
      rw [List.getD_eq_getElem _ _ hi]
      exact List.getElem_mem _
    rw [getElem?_eq_getD hi]
    refine ⟨?_, ?_⟩
    · simp only [Option.some_bind, setC, if_pos hx]
    · rw [List.length_set]; exact hP
  · simp

theorem ValidBoard.lt_len {n : Nat} {b : List Nat} (h : ValidBoard n b) :
    ∀ x ∈ b, x < b.length := by
  intro x hx
  rw [h.length_eq]
  exact (h.mem_iff x).mp hx

theorem Grid.newC_eq (b : List Nat) (hlt : ∀ x ∈ b, x < b.length) :
    Grid.newC b = some (Grid.new b) := by
  unfold Grid.newC
  rw [swap_indicesC_eq b hlt]
  rfl

theorem State.newC_some (b : List Nat) (G : Grid) (m : String) (hlt : ∀ x ∈ b, x < b.length) :
    State.newC b G m = some (State.new b G m) := by
  unfold State.newC
  rw [Grid.newC_eq b hlt]
  rfl

theorem Grid.rowC_eq (s : Grid) (val : Nat) (h : val < s.board_swp.length) :
    s.rowC val = some (s.row val) ∧ s.colC val = some (s.col val) ∧
    s.idxC val = some (s.idx val) := by
  unfold Grid.rowC Grid.colC Grid.idxC Grid.row Grid.col Grid.idx
  rw [getElem?_eq_getD h]
  exact ⟨rfl, rfl, rfl⟩

theorem State.hC_eq (s : State) (h1 : s.n * s.n ≤ s.board_swp.length)
    (h2 : s.n * s.n ≤ s.goal.board_swp.length) : s.hC = some s.h := by
  unfold State.hC State.h
  apply foldlC_eq _ _ (fun _ => True)
  · intro d i hi _
    rw [List.mem_range'_1] at hi
    have hi1 : i < s.board_swp.length := by omega
    have hi2 : i < s.goal.board_swp.length := by omega
    obtain ⟨r1, r2, -⟩ := s.toGrid.rowC_eq i hi1
    obtain ⟨g1, g2, -⟩ := s.goal.rowC_eq i hi2
    rw [r1, g1, r2, g2]
    exact ⟨rfl, trivial⟩
  · trivial

theorem Grid.inversionsC_eq (s : Grid) : s.inversionsC = some s.inversions := by
  unfold Grid.inversionsC Grid.inversions
  apply foldlC_eq _ _ (fun _ => True)
  · intro inv0 i hi _
    rw [List.mem_range] at hi
    have hi1 : i < s.board.length := by omega
    rw [getElem?_eq_getD hi1]
    simp only [Option.some_bind]
    refine ⟨?_, trivial⟩
    by_cases h0 : s.board.getD i 0 = 0
    · rw [if_pos h0, if_pos h0]
    · rw [if_neg h0, if_neg h0]
      apply foldlC_eq _ _ (fun _ => True)
      · intro inv1 j hj _
        rw [List.mem_range'_1] at hj
        have hj1 : j < s.board.length := by omega
        rw [getElem?_eq_getD hj1]
        simp only [Option.some_bind]
        refine ⟨?_, trivial⟩
        split_ifs <;> rfl
      · trivial
  · trivial

end Hw1

namespace Hw1

theorem GoodState.swp_length {n : Nat} {gb : List Nat} {s : State} (h : GoodState n gb s)
    (hg : ValidBoard n gb) :
    s.board_swp.length = n * n ∧ s.goal.board_swp.length = n * n := by
  obtain ⟨h1, h2, h3⟩ := h
  have e1 : s.board_swp = swap_indices s.board := by
    have := congrArg Grid.board_swp h2
    exact this
  have e2 : s.goal.board_swp = swap_indices gb := by
    rw [h3]; rfl
  rw [e1, e2, swap_indices_length, swap_indices_length, h1.length_eq, hg.length_eq]
  exact ⟨rfl, rfl⟩

theorem GoodState.n_eq {n : Nat} {gb : List Nat} {s : State} (hn : 1 ≤ n)
    (h : GoodState n gb s) : s.n = n := by
  rw [h.eq_new]
  exact Grid.new_n hn h.1

theorem GoodState.hC_some {n : Nat} {gb : List Nat} {s : State} (hn : 1 ≤ n)
    (hg : ValidBoard n gb) (h : GoodState n gb s) : s.hC = some s.h := by
  obtain ⟨l1, l2⟩ := h.swp_length hg
  apply State.hC_eq
  · rw [h.n_eq hn, l1]
  · rw [h.n_eq hn, l2]

theorem GoodState.is_solvableC_eq {n : Nat} {gb : List Nat} {s : State} (hn : 1 ≤ n)
    (hg : ValidBoard n gb) (h : GoodState n gb s) : s.is_solvableC = some s.is_solvable := by
  obtain ⟨l1, l2⟩ := h.swp_length hg
  have h0 : 0 < n * n := Nat.mul_pos hn hn
  obtain ⟨r1, -, -⟩ := s.toGrid.rowC_eq 0 (by omega)
  obtain ⟨g1, -, -⟩ := s.goal.rowC_eq 0 (by omega)
  unfold State.is_solvableC State.is_solvable
  rw [Grid.inversionsC_eq, Grid.inversionsC_eq, r1, g1]
  simp only [Option.some_bind]
  split_ifs <;> rfl

theorem swapAtC_eq (v : List Nat) {a : Nat} {b : Int} (ha : a < v.length) (hb0 : 0 ≤ b)
    (hb : b.toNat < v.length) : swapAtC v a b = some (swapAt v a b.toNat) := by
  unfold swapAtC swapAt
  rw [if_pos hb0, getElem?_eq_getD ha, getElem?_eq_getD hb]
  rfl

theorem successorsLoopC_eq {n : Nat} {b : List Nat} (hn : 1 ≤ n) (h : ValidBoard n b)
    (G : Grid) (m : String) :
    ∀ mvs : List Move, successorsLoopC (State.new b G m) mvs =
      some (mvs.filterMap (fun move =>
        let rn : Int := ((State.new b G m).row 0 : Int) + move.row
        let cn : Int := ((State.new b G m).col 0 : Int) + move.col
        if rn ≥ 0 ∧ rn < (State.new b G m).n ∧ cn ≥ 0 ∧ cn < (State.new b G m).n then
          some (State.new (swapAt (State.new b G m).board ((State.new b G m).idx 0)
            ((State.new b G m).idx2 rn cn).toNat) (State.new b G m).goal move.move)
        else none)) := by
  have h0 : 0 < n * n := Nat.mul_pos hn hn
  have hl : (State.new b G m).board_swp.length = n * n := by
    show (swap_indices b).length = n * n
    rw [swap_indices_length, h.length_eq]
  obtain ⟨r1, r2, r3⟩ := (State.new b G m).toGrid.rowC_eq 0 (by omega)
  have hnn : (State.new b G m).n = n := Grid.new_n hn h
  have hidx : (State.new b G m).idx 0 = b.indexOf 0 := Grid.new_idx h h0
  have hrow : (State.new b G m).row 0 = b.indexOf 0 / n := Grid.new_row hn h h0
  have hcol : (State.new b G m).col 0 = b.indexOf 0 % n := Grid.new_col hn h h0
  have hz := h.indexOf_lt h0
  intro mvs
  induction mvs with
  | nil => rfl
  | cons mv rest ih =>
    rw [successorsLoopC, r1, r2, r3, ih]
    simp only [Option.some_bind, List.filterMap_cons]
    by_cases hc : ((State.new b G m).row 0 : Int) + mv.row ≥ 0 ∧
        ((State.new b G m).row 0 : Int) + mv.row < (State.new b G m).n ∧
        ((State.new b G m).col 0 : Int) + mv.col ≥ 0 ∧
        ((State.new b G m).col 0 : Int) + mv.col < (State.new b G m).n
    · rw [if_pos hc, if_pos hc]
      have hc' := hc
      rw [hrow, hcol, hnn] at hc'
      obtain ⟨q1, -, -⟩ := cell_index _ _ hc'
      have hq0 : 0 ≤ (State.new b G m).idx2 (((State.new b G m).row 0 : Int) + mv.row)
          (((State.new b G m).col 0 : Int) + mv.col) := by
        unfold Grid.idx2
        rw [hrow, hcol, hnn]
        have := mul_nonneg hc'.1 (Int.natCast_nonneg n)
        omega
      have hq : ((State.new b G m).idx2 (((State.new b G m).row 0 : Int) + mv.row)
          (((State.new b G m).col 0 : Int) + mv.col)).toNat < (State.new b G m).board.length := by
        unfold Grid.idx2
        rw [hrow, hcol, hnn, State.new_board, h.length_eq]
        exact q1
      have hzl : (State.new b G m).idx 0 < (State.new b G m).board.length := by
        rw [hidx, State.new_board, h.length_eq]; exact hz
      rw [swapAtC_eq _ hzl hq0 hq]
      simp only [Option.some_bind]
      have hvalid : ValidBoard n (swapAt (State.new b G m).board ((State.new b G m).idx 0)
          ((State.new b G m).idx2 (((State.new b G m).row 0 : Int) + mv.row)
            (((State.new b G m).col 0 : Int) + mv.col)).toNat) := by
        rw [State.new_board, h.length_eq] at hq hzl
        exact swapAt_valid h hzl hq
      rw [State.newC_some _ _ _ hvalid.lt_len]
      rfl
    · rw [if_neg hc, if_neg hc]

theorem GoodState.successorsC_eq {n : Nat} {gb : List Nat} {s : State} (hn : 1 ≤ n)
    (h : GoodState n gb s) : s.successorsC = some s.successors := by
  rw [h.eq_new]
  unfold State.successorsC State.successors
  exact successorsLoopC_eq hn h.1 _ _ moves

end Hw1

namespace Hw1

theorem searchLoopC_eq (rec : List State → Int → Option (Int × List State))
    (recC : List State → Int → Option (Option (Int × List State))) (g : Int)
    (path : List State)
    (hframe : ∀ s t1 p1, rec (path ++ [s]) (g + s.cost) = some (t1, p1) → t1 ≠ FOUND →
      p1 = path ++ [s]) :
    ∀ (succs : List State) (min : Int),
      (∀ s ∈ succs, recC (path ++ [s]) (g + s.cost) =
        (rec (path ++ [s]) (g + s.cost)).map some) →
      searchLoopC recC g succs path min = (searchLoop rec g succs path min).map some := by
  intro succs
  induction succs with
  | nil => intro min _; rfl
  | cons s rest ih =>
    intro min hrec
    have hrest : ∀ x ∈ rest, recC (path ++ [x]) (g + x.cost) =
        (rec (path ++ [x]) (g + x.cost)).map some :=
      fun x hx => hrec x (List.mem_cons_of_mem _ hx)
    unfold searchLoopC searchLoop
    by_cases hin : inPath path s = true
    · rw [if_pos hin, if_pos hin]
      exact ih min hrest
    · rw [if_neg hin, if_neg hin, hrec s (List.mem_cons_self _ _)]
      cases hr : rec (path ++ [s]) (g + s.cost) with
      | none => rfl
      | some tp =>
        obtain ⟨t1, p1⟩ := tp
        simp only [Option.map_some']
        by_cases hF : t1 = FOUND
        · rw [if_pos hF, if_pos hF]
          rfl
        · rw [if_neg hF, if_neg hF, hframe s t1 p1 hr hF, List.dropLast_concat]
          exact ih _ hrest

theorem searchC_eq {n : Nat} {gb : List Nat} (hn : 1 ≤ n) (hg : ValidBoard n gb) :
    ∀ (fuel : Nat) (path : List State) (g bound : Int), path ≠ [] →
      (∀ s ∈ path, GoodState n gb s) →
      searchC fuel path g bound = (search fuel path g bound).map some := by
  intro fuel
  induction fuel with
  | zero => intro path g bound _ _; rfl
  | succ fuel ih =>
    intro path g bound hne hgood
    rw [searchC, search]
    cases hl : path.getLast? with
    | none => exact absurd (List.getLast?_eq_none_iff.mp hl) hne
    | some state =>
      have hstate : GoodState n gb state := hgood state (List.mem_of_getLast?_eq_some hl)
      simp only
      rw [hstate.hC_some hn hg]
      simp only
      by_cases hf : g + state.h > bound
      · rw [if_pos hf, if_pos hf]; rfl
      · rw [if_neg hf, if_neg hf]
        by_cases hgoal : state.is_goal = true
        · rw [if_pos hgoal, if_pos hgoal]; rfl
        · rw [if_neg hgoal, if_neg hgoal, hstate.successorsC_eq hn]
          simp only
          apply searchLoopC_eq
          · intro s t1 p1 hr ht
            exact (search_gt_bound hr ht).1
          · intro s hs
            apply ih _ _ _ (by simp)
            intro x hx
            rw [List.mem_append, List.mem_singleton] at hx
            rcases hx with hx | rfl
            · exact hgood x hx
            · exact (hstate.succ hn hs).1

theorem idaLoopC_eq {n : Nat} {gb : List Nat} (hn : 1 ≤ n) (hg : ValidBoard n gb)
    (sfuel : Nat) (root : State) (hroot : GoodState n gb root) :
    ∀ (k : Nat) (bound : Int),
      idaLoopC sfuel k [root] bound = (idaLoop sfuel k [root] bound).map some := by
  have hgood : ∀ s ∈ [root], GoodState n gb s := by
    intro s hs
    rw [List.mem_singleton] at hs
    subst hs
    exact hroot
  intro k
  induction k with
  | zero => intro bound; rfl
  | succ k ih =>
    intro bound
    rw [idaLoopC, idaLoop, searchC_eq hn hg sfuel [root] 0 bound (by simp) hgood]
    cases hr : search sfuel [root] 0 bound with
    | none => rfl
    | some tp =>
      obtain ⟨t, p⟩ := tp
      simp only [Option.map_some']
      by_cases hF : t = FOUND
      · rw [if_pos hF, if_pos hF]; rfl
      · rw [if_neg hF, if_neg hF]
        by_cases hI : t = INF
        · rw [if_pos hI, if_pos hI]; rfl
        · rw [if_neg hI, if_neg hI, (search_gt_bound hr hF).1]
          exact ih t

theorem ida_starC_eq {n : Nat} {gb : List Nat} (hn : 1 ≤ n) (hg : ValidBoard n gb)
    (fuel : Nat) (root : State) (hroot : GoodState n gb root) :
    ida_starC fuel root = (ida_star fuel root).map some := by
  unfold ida_starC ida_star
  rw [hroot.hC_some hn hg]
  exact idaLoopC_eq hn hg fuel root hroot fuel _

theorem goalBoardC_eq (size : Nat) (I : Int) : goalBoardC size I = some (goalBoard size I) := by
  unfold goalBoardC goalBoard
  rw [foldlC_eq _ (fun (acc : List Nat × Nat) (i : Nat) =>
      if (i : Int) = I then (acc.1.set i 0, acc.2)
      else (acc.1.set i acc.2, acc.2 + 1)) (fun acc => acc.1.length = size)]
  · rfl
  · intro acc i hi hP
    rw [List.mem_range] at hi
    have hlt : i < acc.1.length := by omega
    by_cases hc : (i : Int) = I
    · rw [if_pos hc, if_pos hc]
      simp only [setC, if_pos hlt, Option.map_some', List.length_set]
      exact ⟨trivial, hP⟩
    · rw [if_neg hc, if_neg hc]
      simp only [setC, if_pos hlt, Option.map_some', List.length_set]
      exact ⟨trivial, hP⟩
  · simp

theorem solveC_eq {n : Nat} {board : List Nat} (hn : 1 ≤ n) (hb : ValidBoard n board)
    {I : Nat} (hI : I < n * n) (N : Int) (fuel : Nat) :
    solveC fuel N I board = (solve fuel N I board).map some := by
  have hg : ValidBoard n (goalBoard (n * n) I) := goalBoard_valid n I hI
  have hgoal := solveGoal_eq hb N (I := I)
  have hroot : GoodState n (goalBoard (n * n) I) (solveRoot N I board) := by
    rw [← hgoal]; exact solveRoot_good hb N I
  have hI1 : (if (I : Int) = -1 then N else (I : Int)) = I := by
    rw [if_neg (by omega)]
  have hroot_eq : solveRoot N I board =
      State.new board (Grid.new (goalBoard (n * n) I)) "" := by
    unfold solveRoot
    rw [hgoal]
  unfold solveC
  simp only [hI1, goalBoardC_eq, hb.length_eq]
  rw [Grid.newC_eq _ hg.lt_len]
  simp only
  rw [State.newC_some _ _ _ hb.lt_len]
  simp only
  rw [← hroot_eq, hroot.is_solvableC_eq hn hg, solve_eq]
  cases hs : (solveRoot N I board).is_solvable with
  | false => simp
  | true =>
    simp only [Bool.true_eq_false, if_false]
    rw [ida_starC_eq hn hg fuel _ hroot]
    cases hr : ida_star fuel (solveRoot N I board) with
    | none => rfl
    | some path => rfl

end Hw1

namespace Hw1

/-- C30 (index safety): for every `n ≥ 1`, valid board and blank target in
range, the run of `solve` with every array access checked (`swap_indices`,
`row`/`col`/`idx`, `inversions`, the swap in `successors`, `path.back()`, the
writes to `goalBoard`) never reports an access out of bounds: it returns what
the unchecked `solve` returns, and with enough fuel it returns a result.  On
the root state each checked method returns the value of the unchecked one. -/
theorem solve_index_safe (n : Nat) (board : List Nat) (I : Nat) (N : Int)
    (hn : 1 ≤ n) (hb : ValidBoard n board) (hI : I < n * n) :
    (∀ fuel, solveC fuel N I board = (solve fuel N I board).map some ∧
      solveC fuel N I board ≠ some none) ∧
    (∃ fuel0, ∀ fuel, fuel0 ≤ fuel → ∃ r, solveC fuel N I board = some (some r)) ∧
    swap_indicesC board = some (swap_indices board) ∧
    (∀ val, val < n * n →
      (solveRoot N I board).rowC val = some ((solveRoot N I board).row val) ∧
      (solveRoot N I board).colC val = some ((solveRoot N I board).col val) ∧
      (solveRoot N I board).idxC val = some ((solveRoot N I board).idx val) ∧
      (solveRoot N I board).goal.rowC val = some ((solveRoot N I board).goal.row val) ∧
      (solveRoot N I board).goal.colC val = some ((solveRoot N I board).goal.col val)) ∧
    (solveRoot N I board).hC = some (solveRoot N I board).h ∧
    (solveRoot N I board).inversionsC = some (solveRoot N I board).inversions ∧
    (solveRoot N I board).successorsC = some (solveRoot N I board).successors ∧
    (∀ (fuel : Nat) (g bound : Int),
      searchC fuel [solveRoot N I board] g bound =
        (search fuel [solveRoot N I board] g bound).map some) := by
  have hg : ValidBoard n (goalBoard (n * n) I) := goalBoard_valid n I hI
  have hroot : GoodState n (goalBoard (n * n) I) (solveRoot N I board) := by
    rw [← solveGoal_eq hb N (I := I)]; exact solveRoot_good hb N I
  obtain ⟨l1, l2⟩ := hroot.swp_length hg
  have heq : ∀ fuel, solveC fuel N I board = (solve fuel N I board).map some :=
    fun fuel => solveC_eq hn hb hI N fuel
  refine ⟨fun fuel => ⟨heq fuel, ?_⟩, ?_, swap_indicesC_eq board hb.lt_len, ?_,
    hroot.hC_some hn hg, Grid.inversionsC_eq _, hroot.successorsC_eq hn, ?_⟩
  · rw [heq fuel]
    cases solve fuel N I board <;> simp
  · refine ⟨(max INF (solveRoot N I board).h + 2).toNat, fun fuel hf => ?_⟩
    have hsome := solve_isSome N I board fuel hf
    rw [heq fuel]
    cases hs : solve fuel N I board with
    | none => rw [hs] at hsome; exact Bool.noConfusion hsome
    | some r => exact ⟨r, rfl⟩
  · intro val hval
    obtain ⟨r1, r2, r3⟩ := (solveRoot N I board).toGrid.rowC_eq val (by omega)
    obtain ⟨g1, g2, -⟩ := (solveRoot N I board).goal.rowC_eq val (by omega)
    exact ⟨r1, r2, r3, g1, g2⟩
  · intro fuel g bound
    apply searchC_eq hn hg fuel _ g bound (by simp)
    intro s hs
    rw [List.mem_singleton] at hs
    subst hs
    exact hroot

theorem solve_index_safe_witness :
    (solveC 3 8 (8 : Nat) [1, 2, 3, 4, 5, 6, 0, 7, 8] = some (some (some ["left", "left"])) ∧
      solveC 3 3 3 [1, 2, 3, 4] = some none) ∧
    ((∀ fuel, solveC fuel 8 (8 : Nat) [1, 2, 3, 4, 5, 6, 0, 7, 8] =
        (solve fuel 8 (8 : Nat) [1, 2, 3, 4, 5, 6, 0, 7, 8]).map some ∧
      solveC fuel 8 (8 : Nat) [1, 2, 3, 4, 5, 6, 0, 7, 8] ≠ some none) ∧
    (∃ fuel0, ∀ fuel, fuel0 ≤ fuel →
      ∃ r, solveC fuel 8 (8 : Nat) [1, 2, 3, 4, 5, 6, 0, 7, 8] = some (some r)) ∧
    swap_indicesC [1, 2, 3, 4, 5, 6, 0, 7, 8] = some (swap_indices [1, 2, 3, 4, 5, 6, 0, 7, 8]) ∧
    (∀ val, val < 3 * 3 →
      (solveRoot 8 (8 : Nat) [1, 2, 3, 4, 5, 6, 0, 7, 8]).rowC val =
        some ((solveRoot 8 (8 : Nat) [1, 2, 3, 4, 5, 6, 0, 7, 8]).row val) ∧
      (solveRoot 8 (8 : Nat) [1, 2, 3, 4, 5, 6, 0, 7, 8]).colC val =
        some ((solveRoot 8 (8 : Nat) [1, 2, 3, 4, 5, 6, 0, 7, 8]).col val) ∧
      (solveRoot 8 (8 : Nat) [1, 2, 3, 4, 5, 6, 0, 7, 8]).idxC val =
        some ((solveRoot 8 (8 : Nat) [1, 2, 3, 4, 5, 6, 0, 7, 8]).idx val) ∧
      (solveRoot 8 (8 : Nat) [1, 2, 3, 4, 5, 6, 0, 7, 8]).goal.rowC val =
        some ((solveRoot 8 (8 : Nat) [1, 2, 3, 4, 5, 6, 0, 7, 8]).goal.row val) ∧
      (solveRoot 8 (8 : Nat) [1, 2, 3, 4, 5, 6, 0, 7, 8]).goal.colC val =
        some ((solveRoot 8 (8 : Nat) [1, 2, 3, 4, 5, 6, 0, 7, 8]).goal.col val)) ∧
    (solveRoot 8 (8 : Nat) [1, 2, 3, 4, 5, 6, 0, 7, 8]).hC =
      some (solveRoot 8 (8 : Nat) [1, 2, 3, 4, 5, 6, 0, 7, 8]).h ∧
    (solveRoot 8 (8 : Nat) [1, 2, 3, 4, 5, 6, 0, 7, 8]).inversionsC =
      some (solveRoot 8 (8 : Nat) [1, 2, 3, 4, 5, 6, 0, 7, 8]).inversions ∧
    (solveRoot 8 (8 : Nat) [1, 2, 3, 4, 5, 6, 0, 7, 8]).successorsC =
      some (solveRoot 8 (8 : Nat) [1, 2, 3, 4, 5, 6, 0, 7, 8]).successors ∧
    (∀ (fuel : Nat) (g bound : Int),
      searchC fuel [solveRoot 8 (8 : Nat) [1, 2, 3, 4, 5, 6, 0, 7, 8]] g bound =
        (search fuel [solveRoot 8 (8 : Nat) [1, 2, 3, 4, 5, 6, 0, 7, 8]] g bound).map some)) :=
  ⟨by decide, solve_index_safe 3 [1, 2, 3, 4, 5, 6, 0, 7, 8] 8 8 (by decide) (by decide)
    (by decide)⟩

end Hw1

namespace Hw1

/-! ### Heuristic zero and reversibility of moves -/

theorem manhattan_eq_zero {n : Nat} {b g : List Nat} (hn : 1 ≤ n) (hb : ValidBoard n b)
    (hg : ValidBoard n g) (h : manhattan n b g = 0) : b = g := by
  have h0 : 0 < n * n := Nat.mul_pos hn hn
  have hterm : ∀ v ∈ Finset.Ico 1 (n * n),
      (|((b.indexOf v / n : Nat) : Int) - ((g.indexOf v / n : Nat) : Int)| +
       |((b.indexOf v % n : Nat) : Int) - ((g.indexOf v % n : Nat) : Int)|) = 0 := by
    apply (Finset.sum_eq_zero_iff_of_nonneg (fun v _ => by positivity)).mp
    exact h
  have hidx : ∀ v, 1 ≤ v → v < n * n → b.indexOf v = g.indexOf v := by
    intro v h1 h2
    have ht := hterm v (Finset.mem_Ico.mpr ⟨h1, h2⟩)
    have a1 := abs_nonneg (((b.indexOf v / n : Nat) : Int) - ((g.indexOf v / n : Nat) : Int))
    have a2 := abs_nonneg (((b.indexOf v % n : Nat) : Int) - ((g.indexOf v % n : Nat) : Int))
    have e1 : |((b.indexOf v / n : Nat) : Int) - ((g.indexOf v / n : Nat) : Int)| = 0 := by
      omega
    have e2 : |((b.indexOf v % n : Nat) : Int) - ((g.indexOf v % n : Nat) : Int)| = 0 := by
      omega
    rw [abs_eq_zero, sub_eq_zero] at e1 e2
    have d1 : b.indexOf v / n = g.indexOf v / n := by exact_mod_cast e1
    have d2 : b.indexOf v % n = g.indexOf v % n := by exact_mod_cast e2
    rw [← Nat.div_add_mod (b.indexOf v) n, ← Nat.div_add_mod (g.indexOf v) n, d1, d2]
  have hget : ∀ p, p < n * n → b.getD p 0 = g.getD p 0 := by
    intro p hp
    by_cases hz : g.getD p 0 = 0
    · by_contra hne
      have hw : b.getD p 0 ≠ 0 := fun hc => hne (by rw [hc, hz])
      have hwlt := hb.getD_lt hp
      have e := hidx (b.getD p 0) (by omega) hwlt
      rw [hb.indexOf_getD hp] at e
      have := hg.getD_indexOf hwlt
      rw [← e] at this
      exact hne this.symm
    · have hvlt := hg.getD_lt hp
      have e := hidx (g.getD p 0) (by omega) hvlt
      rw [hg.indexOf_getD hp] at e
      have := hb.getD_indexOf hvlt
      rw [e] at this
      exact this
  apply List.ext_getElem
  · rw [hb.length_eq, hg.length_eq]
  · intro k h1 h2
    have := hget k (by rw [← hb.length_eq]; exact h1)
    rwa [List.getD_eq_getElem _ _ h1, List.getD_eq_getElem _ _ h2] at this

/-- For valid boards the exact sum of `h()` is 0 exactly when `is_goal()` is
true, that is when the board equals the goal board. -/
theorem h_zero_iff_goal (n : Nat) (b g : List Nat) (m : String) (hb : ValidBoard n b)
    (hg : ValidBoard n g) :
    ((State.new b (Grid.new g) m).h = 0 ↔ (State.new b (Grid.new g) m).is_goal = true) ∧
    ((State.new b (Grid.new g) m).is_goal = true ↔ b = g) := by
  have hgood : GoodState n g (State.new b (Grid.new g) m) := GoodState.of_new hb m
  have hiff : (State.new b (Grid.new g) m).is_goal = true ↔ b = g := hgood.is_goal_iff
  refine ⟨?_, hiff⟩
  rcases Nat.eq_zero_or_pos n with h0 | hpos
  · subst h0
    have e1 : b = [] := List.length_eq_zero.mp hb.length_eq
    have e2 : g = [] := List.length_eq_zero.mp hg.length_eq
    subst e1 e2
    exact ⟨fun _ => rfl, fun _ => rfl⟩
  · have hn : 1 ≤ n := hpos
    constructor
    · intro h
      rw [h_new_eq hn hb hg] at h
      exact hiff.mpr (manhattan_eq_zero hn hb hg h)
    · intro h
      exact hgood.h_goal hn hg h

end Hw1

namespace Hw1

theorem back_move {n : Nat} {B : List Nat} (hn : 1 ≤ n) (hB : ValidBoard n B) (G : Grid)
    {j : Nat} (hj : j < n * n) (lbl back : String)
    (hmem : ∀ B1 : List Nat, ValidBoard n B1 → B1.indexOf 0 = j →
      State.new (swapAt B1 j (B.indexOf 0)) G back ∈ (State.new B1 G lbl).successors) :
    ∃ s1 ∈ (State.new (swapAt B (B.indexOf 0) j) G lbl).successors,
      s1.board = B ∧ s1.move = back := by
  have h0 : 0 < n * n := Nat.mul_pos hn hn
  have hz := hB.indexOf_lt h0
  have hB1 : ValidBoard n (swapAt B (B.indexOf 0) j) := swapAt_valid hB hz hj
  refine ⟨_, hmem _ hB1 (blank_after hn hB hj), ?_, rfl⟩
  rw [State.new_board]
  exact swapAt_swapAt B (by rw [hB.length_eq]; exact hz) (by rw [hB.length_eq]; exact hj)

/-- C32 (moves are reversible): for every valid board `B` and every successor
`B'` of `B` with label `m`, the successors of `B'` hold a state whose board is
`B` and whose label is the opposite one (`up`/`down`, `left`/`right`); hence
reachability between boards is symmetric. -/
theorem moves_reversible (n : Nat) (B : List Nat) (G : Grid) (m : String) (hn : 1 ≤ n)
    (hB : ValidBoard n B) :
    (∀ s ∈ (State.new B G m).successors,
      ∃ s1 ∈ s.successors, s1.board = B ∧ s1.move = opposite s.move) ∧
    (∀ B1, Reachable B B1 → Reachable B1 B) := by
  have h0 : 0 < n * n := Nat.mul_pos hn hn
  have hz := hB.indexOf_lt h0
  have hmod : B.indexOf 0 % n < n := Nat.mod_lt _ hn
  refine ⟨?_, fun B1 h => Reachable.reach_symm hn hB h⟩
  intro s hs
  rw [successors_new hn hB] at hs
  simp only [List.mem_append] at hs
  rcases hs with hs | hs | hs | hs
  · split_ifs at hs with hc
    · rw [List.mem_singleton] at hs
      subst hs
      apply back_move hn hB G hc "up" "down"
      intro B1 hB1 hj
      rw [successors_new hn hB1, hj]
      simp only [List.mem_append]
      refine Or.inr (Or.inl ?_)
      rw [if_pos (by omega), Nat.add_sub_cancel]
      exact List.mem_singleton.mpr rfl
    · exact absurd hs (List.not_mem_nil _)
  · split_ifs at hs with hc
    · rw [List.mem_singleton] at hs
      subst hs
      apply back_move hn hB G (by omega : B.indexOf 0 - n < n * n) "down" "up"
      intro B1 hB1 hj
      rw [successors_new hn hB1, hj]
      simp only [List.mem_append]
      refine Or.inl ?_
      rw [if_pos (by omega), Nat.sub_add_cancel hc]
      exact List.mem_singleton.mpr rfl
    · exact absurd hs (List.not_mem_nil _)
  · split_ifs at hs with hc
    · rw [List.mem_singleton] at hs
      subst hs
      have hsd := succ_div_mod hn hc
      apply back_move hn hB G (succ_lt_sq hz hc) "left" "right"
      intro B1 hB1 hj
      rw [successors_new hn hB1, hj]
      simp only [List.mem_append]
      refine Or.inr (Or.inr (Or.inr ?_))
      rw [if_pos (by omega), Nat.add_sub_cancel]
      exact List.mem_singleton.mpr rfl
    · exact absurd hs (List.not_mem_nil _)
  · split_ifs at hs with hc
    · rw [List.mem_singleton] at hs
      subst hs
      have hpm := pred_mod hn hc
      have hz1 : 1 ≤ B.indexOf 0 := by
        rcases Nat.eq_zero_or_pos (B.indexOf 0) with h | h
        · rw [h, Nat.zero_mod] at hc; omega
        · exact h
      apply back_move hn hB G (by omega : B.indexOf 0 - 1 < n * n) "right" "left"
      intro B1 hB1 hj
      rw [successors_new hn hB1, hj]
      simp only [List.mem_append]
      refine Or.inr (Or.inr (Or.inl ?_))
      rw [if_pos (by omega), Nat.sub_add_cancel hz1]
      exact List.mem_singleton.mpr rfl
    · exact absurd hs (List.not_mem_nil _)

theorem moves_reversible_witness :
    ValidBoard 3 [1, 2, 3, 4, 0, 6, 7, 5, 8] ∧
    ((∀ s ∈ (State.new [1, 2, 3, 4, 0, 6, 7, 5, 8] (Grid.new [1, 2, 3, 4, 5, 6, 7, 8, 0])
        "").successors,
      ∃ s1 ∈ s.successors, s1.board = [1, 2, 3, 4, 0, 6, 7, 5, 8] ∧
        s1.move = opposite s.move) ∧
    (∀ B1, Reachable [1, 2, 3, 4, 0, 6, 7, 5, 8] B1 →
      Reachable B1 [1, 2, 3, 4, 0, 6, 7, 5, 8])) :=
  ⟨by decide,
    moves_reversible 3 [1, 2, 3, 4, 0, 6, 7, 5, 8] (Grid.new [1, 2, 3, 4, 5, 6, 7, 8, 0]) ""
      (by decide) (by decide)⟩

end Hw1

namespace Bonus1

/-! ### The frog puzzle: `solve_dfs` -/

theorem swapChars_length (v : List Char) (a b : Nat) : (swapChars v a b).length = v.length := by
  simp [swapChars]

theorem swapChars_getD (v : List Char) {a b : Nat} (ha : a < v.length) (hb : b < v.length)
    (p : Nat) : (swapChars v a b).getD p ' ' =
      if p = b then v.getD a ' ' else if p = a then v.getD b ' ' else v.getD p ' ' := by
  unfold swapChars
  simp only [List.getD_eq_getElem?_getD, List.getElem?_set, List.length_set]
  by_cases h1 : b = p
  · subst h1; simp [hb]
  · by_cases h2 : a = p
    · subst h2; simp [h1, ha, Ne.symm h1]
    · simp [h1, h2, Ne.symm h1, Ne.symm h2]

theorem swapChars_back (v : List Char) {a b : Nat} (ha : a < v.length) (hb : b < v.length) :
    swapChars (swapChars v a b) b a = v := by
  apply List.ext_getElem
  · simp [swapChars_length]
  · intro k h1 h2
    have e1 := swapChars_getD (swapChars v a b) (a := b) (b := a)
      (by rw [swapChars_length]; exact hb) (by rw [swapChars_length]; exact ha) k
    rw [List.getD_eq_getElem _ _ h1] at e1
    rw [e1, swapChars_getD v ha hb, swapChars_getD v ha hb, swapChars_getD v ha hb,
      ← List.getD_eq_getElem _ ' ' h2]
    by_cases c1 : k = a
    · subst c1; simp
    · by_cases c2 : k = b
      · subst c2
        rw [if_neg c1, if_pos rfl, if_pos rfl]
        by_cases c3 : a = k
        · exact absurd c3.symm c1
        · rw [if_neg c3]
      · rw [if_neg c1, if_neg c2, if_neg c2, if_neg c1]

/-- A loop that writes `c` to consecutive cells, starting behind `pre`. -/
theorem fill_loop (c : Char) : ∀ (xs : List Nat) (pre mid post : List Char),
    mid.length = xs.length →
    xs.foldl (fun (acc : List Char × Nat) (_ : Nat) => (acc.1.set acc.2 c, acc.2 + 1))
      (pre ++ mid ++ post, pre.length) =
    (pre ++ List.replicate xs.length c ++ post, pre.length + xs.length) := by
  intro xs
  induction xs with
  | nil =>
    intro pre mid post h
    have : mid = [] := List.length_eq_zero.mp h
    subst this
    simp
  | cons x xs ih =>
    intro pre mid post h
    cases mid with
    | nil => simp at h
    | cons a mid =>
      have hl : mid.length = xs.length := by simpa using h
      have hset : (pre ++ a :: mid ++ post).set pre.length c = (pre ++ [c]) ++ mid ++ post := by
        simp
      rw [List.foldl_cons]
      simp only
      rw [hset]
      have := ih (pre ++ [c]) mid post hl
      simp only [List.length_append, List.length_singleton] at this
      rw [this]
      simp [List.replicate_succ, Nat.add_assoc, Nat.add_comm 1]

theorem new_eq (N : Nat) :
    State.new N = State.mk N N (List.replicate N '>' ++ '_' :: List.replicate N '<') := by
  have f1 : (List.range N).foldl
      (fun (acc : List Char × Nat) (_ : Nat) => (acc.1.set acc.2 '>', acc.2 + 1))
      (List.replicate (2 * N + 1) (Char.ofNat 0), 0) =
      (List.replicate N '>' ++ List.replicate (N + 1) (Char.ofNat 0), N) := by
    have h1 := fill_loop '>' (List.range N) [] (List.replicate N (Char.ofNat 0))
      (List.replicate (N + 1) (Char.ofNat 0)) (by simp)
    simp only [List.length_range, List.length_nil, Nat.zero_add, List.nil_append] at h1
    rw [← h1, show 2 * N + 1 = N + (N + 1) by omega, List.replicate_add]
  have s2 : (List.replicate N '>' ++ List.replicate (N + 1) (Char.ofNat 0)).set N '_' =
      List.replicate N '>' ++ '_' :: List.replicate N (Char.ofNat 0) := by
    simp [List.replicate_succ]
  have f2 : (List.range N).foldl
      (fun (acc : List Char × Nat) (_ : Nat) => (acc.1.set acc.2 '<', acc.2 + 1))
      (List.replicate N '>' ++ '_' :: List.replicate N (Char.ofNat 0), N + 1) =
      (List.replicate N '>' ++ '_' :: List.replicate N '<', N + 1 + N) := by
    have h2 := fill_loop '<' (List.range N) (List.replicate N '>' ++ ['_'])
      (List.replicate N (Char.ofNat 0)) [] (by simp)
    simp only [List.length_range, List.length_append, List.length_replicate,
      List.length_singleton, List.append_nil, List.append_assoc, List.singleton_append] at h2
    exact h2
  unfold State.new
  simp only [f1, s2, f2]

end Bonus1

namespace Bonus1

theorem mem_ite_nil {α : Type} {c : Prop} [Decidable c] {l : List α} {m : α} :
    m ∈ (if c then l else []) ↔ c ∧ m ∈ l := by
  split_ifs with h <;> simp [h]

/-- The offsets that `moves()` lists and the board cells they lead to. -/
theorem mem_moves {s : State} {m : Int} (hlt : s.iEmpty < s.board.length) (h : m ∈ s.moves) :
    ∃ j : Nat, ((s.iEmpty : Int) + m).toNat = j ∧ (j : Int) = (s.iEmpty : Int) + m ∧
      j < s.board.length ∧ s.iEmpty < s.board.length ∧
      (((j + 1 = s.iEmpty ∨ j + 2 = s.iEmpty) ∧ s.board.getD j ' ' = '>') ∨
       ((j = s.iEmpty + 1 ∨ j = s.iEmpty + 2) ∧ s.board.getD j ' ' = '<')) := by
  unfold State.moves at h
  simp only [List.mem_append, mem_ite_nil, List.mem_singleton] at h
  rcases h with ⟨c1, ⟨c2, rfl⟩ | ⟨c2, rfl⟩⟩ | ⟨c1, ⟨c2, rfl⟩ | ⟨c2, rfl⟩⟩
  · exact ⟨s.iEmpty - 1, by omega, by omega, by omega, by omega, Or.inl ⟨by omega, c2⟩⟩
  · exact ⟨s.iEmpty - 2, by omega, by omega, by omega, by omega, Or.inl ⟨by omega, c2.2⟩⟩
  · exact ⟨s.iEmpty + 1, by omega, by omega, by omega, by omega, Or.inr ⟨by omega, c2⟩⟩
  · exact ⟨s.iEmpty + 2, by omega, by omega, by omega, by omega, Or.inr ⟨by omega, c2.2⟩⟩

theorem applyMove_wf {s : State} {m : Int} (hw : s.Wf) (h : m ∈ s.moves) :
    (s.applyMove m).Wf ∧ (s.applyMove m).N = s.N ∧ (s.applyMove m).undoMove m = s := by
  obtain ⟨w1, w2, w3⟩ := hw
  obtain ⟨j, h1, h2, h3, h4, -⟩ := mem_moves w2 h
  have hback : (((s.applyMove m).iEmpty : Int) - m).toNat = s.iEmpty := by
    show ((((s.iEmpty : Int) + m).toNat : Int) - m).toNat = s.iEmpty
    rw [h1]
    omega
  refine ⟨⟨?_, ?_, ?_⟩, rfl, ?_⟩
  · show (swapChars s.board s.iEmpty ((s.iEmpty : Int) + m).toNat).length = 2 * s.N + 1
    rw [swapChars_length]; exact w1
  · show ((s.iEmpty : Int) + m).toNat <
      (swapChars s.board s.iEmpty ((s.iEmpty : Int) + m).toNat).length
    rw [swapChars_length, h1]; exact h3
  · show (swapChars s.board s.iEmpty ((s.iEmpty : Int) + m).toNat).getD
      ((s.iEmpty : Int) + m).toNat ' ' = '_'
    rw [h1, swapChars_getD _ h4 h3, if_pos rfl]
    exact w3
  · unfold State.undoMove
    rw [hback]
    show State.mk s.N s.iEmpty
      (swapChars (swapChars s.board s.iEmpty ((s.iEmpty : Int) + m).toNat)
        ((s.iEmpty : Int) + m).toNat s.iEmpty) = s
    rw [h1, swapChars_back _ h4 h3]

/-- The loop of `solve_dfs` over the moves still to be tried. -/
theorem solveLoop_spec (rec : State → List String → Option (Bool × State × List String))
    (st : State) (hw : st.Wf)
    (hrec : ∀ (s : State) (path : List String) (r : Bool) (s1 : State) (p1 : List String),
      s.Wf → rec s path = some (r, s1, p1) →
      s1 = s ∧ (r = false → p1 = path) ∧
      (r = true → ∃ states last, p1 = (s :: states).map State.toString ++ path ∧
        List.Chain Move s states ∧ (s :: states).getLast? = some last ∧
        last.isGoalState = true)) :
    ∀ (ms : List Int) (path : List String) (r : Bool) (s1 : State) (p1 : List String),
      (∀ m ∈ ms, m ∈ st.moves) → solveLoop rec ms st path = some (r, s1, p1) →
      s1 = st ∧ (r = false → p1 = path) ∧
      (r = true → ∃ states last, p1 = (st :: states).map State.toString ++ path ∧
        List.Chain Move st states ∧ (st :: states).getLast? = some last ∧
        last.isGoalState = true ∧ states ≠ []) := by
  intro ms
  induction ms with
  | nil =>
    intro path r s1 p1 _ h
    simp only [solveLoop, Option.some.injEq, Prod.mk.injEq] at h
    obtain ⟨rfl, rfl, rfl⟩ := h
    exact ⟨rfl, fun _ => rfl, fun h => Bool.noConfusion h⟩
  | cons m rest ih =>
    intro path r s1 p1 hsub h
    have hm : m ∈ st.moves := hsub m (List.mem_cons_self _ _)
    obtain ⟨a1, -, a3⟩ := applyMove_wf hw hm
    unfold solveLoop at h
    cases hr : rec (st.applyMove m) path with
    | none => rw [hr] at h; simp at h
    | some res =>
      obtain ⟨solved, st1, path1⟩ := res
      rw [hr] at h
      simp only at h
      obtain ⟨b1, b2, b3⟩ := hrec _ _ _ _ _ a1 hr
      rw [b1, a3] at h
      cases solved with
      | true =>
        simp only [if_true, Option.some.injEq, Prod.mk.injEq] at h
        obtain ⟨rfl, rfl, rfl⟩ := h
        obtain ⟨states, last, c1, c2, c3, c4⟩ := b3 rfl
        refine ⟨rfl, fun h => Bool.noConfusion h, fun _ => ?_⟩
        refine ⟨st.applyMove m :: states, last, ?_, List.Chain.cons ⟨m, hm, rfl⟩ c2, ?_, c4,
          by simp⟩
        · rw [c1]; rfl
        · rw [List.getLast?_cons_cons]; exact c3
      | false =>
        simp only [Bool.false_eq_true, if_false] at h
        rw [b2 rfl] at h
        exact ih path r s1 p1 (fun x hx => hsub x (List.mem_cons_of_mem _ hx)) h

theorem solve_dfs_spec : ∀ (fuel : Nat) (s : State) (path : List String) (r : Bool)
    (s1 : State) (p1 : List String), s.Wf → solve_dfs fuel s path = some (r, s1, p1) →
    s1 = s ∧ (r = false → p1 = path) ∧
    (r = true → ∃ states last, p1 = (s :: states).map State.toString ++ path ∧
      List.Chain Move s states ∧ (s :: states).getLast? = some last ∧
      last.isGoalState = true) := by
  intro fuel
  induction fuel with
  | zero => intro s path r s1 p1 _ h; simp [solve_dfs] at h
  | succ fuel ih =>
    intro s path r s1 p1 hw h
    rw [solve_dfs] at h
    by_cases hg : s.isGoalState = true
    · rw [if_pos hg] at h
      simp only [Option.some.injEq, Prod.mk.injEq] at h
      obtain ⟨rfl, rfl, rfl⟩ := h
      exact ⟨rfl, fun h => Bool.noConfusion h,
        fun _ => ⟨[], s, rfl, List.Chain.nil, rfl, hg⟩⟩
    · rw [if_neg hg] at h
      obtain ⟨k1, k2, k3⟩ := solveLoop_spec (fun s p => solve_dfs fuel s p) s hw
        (fun s path r s1 p1 hs hr => ih s path r s1 p1 hs hr) s.moves path r s1 p1
        (fun _ hm => hm) h
      refine ⟨k1, k2, fun hr => ?_⟩
      obtain ⟨states, last, c1, c2, c3, c4, -⟩ := k3 hr
      exact ⟨states, last, c1, c2, c3, c4⟩

end Bonus1

namespace Bonus1

theorem new_wf (N : Nat) : (State.new N).Wf ∧ (State.new N).N = N := by
  rw [new_eq]
  refine ⟨⟨?_, ?_, ?_⟩, rfl⟩
  · simp only [List.length_append, List.length_replicate, List.length_cons]
    omega
  · simp only [List.length_append, List.length_replicate, List.length_cons]
    omega
  · show (List.replicate N '>' ++ '_' :: List.replicate N '<').getD N ' ' = '_'
    rw [List.getD_append_right _ _ _ _ (by simp)]
    simp

theorem chain_wf (N : Nat) : ∀ (states : List State) (s : State), s.Wf → s.N = N →
    List.Chain Move s states → ∀ t ∈ s :: states, t.Wf ∧ t.N = N := by
  intro states
  induction states with
  | nil =>
    intro s hw hN _ t ht
    rw [List.mem_singleton] at ht
    subst ht
    exact ⟨hw, hN⟩
  | cons x xs ih =>
    intro s hw hN hc t ht
    rw [List.chain_cons] at hc
    obtain ⟨⟨m, hm, rfl⟩, hc2⟩ := hc
    obtain ⟨a1, a2, -⟩ := applyMove_wf hw hm
    rw [List.mem_cons] at ht
    rcases ht with rfl | ht
    · exact ⟨hw, hN⟩
    · exact ih _ a1 (by rw [a2, hN]) hc2 t ht

theorem goal_board {s : State} (hw : s.Wf) (hg : s.isGoalState = true) :
    s.board = List.replicate s.N '<' ++ '_' :: List.replicate s.N '>' := by
  obtain ⟨w1, w2, w3⟩ := hw
  unfold State.isGoalState at hg
  by_cases hi : s.iEmpty ≠ s.N
  · rw [if_pos hi] at hg; exact Bool.noConfusion hg
  · rw [if_neg hi] at hg
    have hi' : s.iEmpty = s.N := by
      by_contra hc; exact hi hc
    rw [hi'] at w3
    rw [List.all_eq_true] at hg
    have hcells : ∀ i, i < s.N → s.board.getD i ' ' = '<' ∧ s.board.getD (s.N + 1 + i) ' ' = '>' := by
      intro i hlt
      have := hg i (List.mem_range.mpr hlt)
      simpa using this
    apply List.ext_getElem
    · simp only [List.length_append, List.length_replicate, List.length_cons]
      omega
    · intro k h1 h2
      rw [← List.getD_eq_getElem _ ' ' h1]
      by_cases c1 : k < s.N
      · rw [(hcells k c1).1, List.getElem_append_left (by simpa using c1)]
        simp
      · rw [List.getElem_append_right (by simpa using c1)]
        simp only [List.length_replicate]
        by_cases c2 : k = s.N
        · subst c2
          rw [w3]
          simp
        · have hk : k = s.N + 1 + (k - s.N - 1) := by omega
          have hlt : k - s.N - 1 < s.N := by omega
          have hc := (hcells (k - s.N - 1) hlt).2
          rw [← hk] at hc
          rw [hc, List.getElem_cons]
          have : ¬ (k - s.N = 0) := by omega
          simp [this]

/-- What a move listed by `moves()` does: the blank is exchanged with a `'>'`
one or two cells to its left, or with a `'<'` one or two cells to its right. -/
theorem move_shape {s t : State} (hlt : s.iEmpty < s.board.length) (h : Move s t) :
    ∃ j : Nat, t.board = swapChars s.board s.iEmpty j ∧ t.iEmpty = j ∧ t.N = s.N ∧
      j < s.board.length ∧
      (((j + 1 = s.iEmpty ∨ j + 2 = s.iEmpty) ∧ s.board.getD j ' ' = '>') ∨
       ((j = s.iEmpty + 1 ∨ j = s.iEmpty + 2) ∧ s.board.getD j ' ' = '<')) := by
  obtain ⟨m, hm, rfl⟩ := h
  obtain ⟨j, h1, -, h3, -, h5⟩ := mem_moves hlt hm
  refine ⟨j, ?_, h1, rfl, h3, h5⟩
  show swapChars s.board s.iEmpty ((s.iEmpty : Int) + m).toNat = _
  rw [h1]

theorem getLast?_map_some {α β : Type} (f : α → β) {l : List α} {a : α}
    (h : l.getLast? = some a) : (l.map f).getLast? = some (f a) := by
  rw [List.getLast?_eq_some_iff] at h ⊢
  obtain ⟨ys, rfl⟩ := h
  exact ⟨ys.map f, by simp⟩

/-- C35 (frog puzzle): when `solve_dfs` called on the initial `State(N)` with an
empty stack returns true, the stack read from the top down is the list of the
strings of states that starts with the initial board (`N` times `'>'`, `'_'`,
`N` times `'<'`), ends with the goal board (`N` times `'<'`, `'_'`, `N` times
`'>'`), and in which each state follows from the one before it by one move
listed by `moves()`; the state on return is the state on entry, for every
call of `solve_dfs` on a well-formed state. -/
theorem frog_path_valid (N fuel : Nat) (st1 : State) (path : List String)
    (h : solve_dfs fuel (State.new N) [] = some (true, st1, path)) :
    st1 = State.new N ∧
    (∃ states, path = (State.new N :: states).map State.toString ∧
      List.Chain Move (State.new N) states ∧
      (∀ s ∈ State.new N :: states, s.Wf ∧ s.N = N)) ∧
    path.head? = some (String.mk (List.replicate N '>' ++ '_' :: List.replicate N '<')) ∧
    path.getLast? = some (String.mk (List.replicate N '<' ++ '_' :: List.replicate N '>')) ∧
    (∀ s t : State, s.iEmpty < s.board.length → Move s t →
      ∃ j : Nat, t.board = swapChars s.board s.iEmpty j ∧ t.iEmpty = j ∧ t.N = s.N ∧
        j < s.board.length ∧
        (((j + 1 = s.iEmpty ∨ j + 2 = s.iEmpty) ∧ s.board.getD j ' ' = '>') ∨
         ((j = s.iEmpty + 1 ∨ j = s.iEmpty + 2) ∧ s.board.getD j ' ' = '<'))) ∧
    (∀ (k : Nat) (s : State) (p : List String) (r : Bool) (s1 : State) (p1 : List String),
      s.Wf → solve_dfs k s p = some (r, s1, p1) → s1 = s) := by
  obtain ⟨hw, hN⟩ := new_wf N
  obtain ⟨k1, -, k3⟩ := solve_dfs_spec fuel _ _ _ _ _ hw h
  obtain ⟨states, last, c1, c2, c3, c4⟩ := k3 rfl
  rw [List.append_nil] at c1
  have hall := chain_wf N states _ hw hN c2
  have hlast := hall last (List.mem_of_getLast?_eq_some c3)
  refine ⟨k1, ⟨states, c1, c2, hall⟩, ?_, ?_, fun s t hlt hm => move_shape hlt hm,
    fun k s p r s1 p1 hs hr => (solve_dfs_spec k s p r s1 p1 hs hr).1⟩
  · rw [c1]
    show some (State.new N).toString = _
    rw [new_eq]
    rfl
  · rw [c1, getLast?_map_some State.toString c3]
    unfold State.toString
    rw [goal_board hlast.1 c4, hlast.2]

theorem frog_path_valid_witness :
    solve_dfs 4 (State.new 1) [] = some (true, State.new 1, [">_<", "_><", "<>_", "<_>"]) ∧
    (State.new 1 = State.new 1 ∧
    (∃ states, [">_<", "_><", "<>_", "<_>"] = (State.new 1 :: states).map State.toString ∧
      List.Chain Move (State.new 1) states ∧
      (∀ s ∈ State.new 1 :: states, s.Wf ∧ s.N = 1)) ∧
    [">_<", "_><", "<>_", "<_>"].head? =
      some (String.mk (List.replicate 1 '>' ++ '_' :: List.replicate 1 '<')) ∧
    [">_<", "_><", "<>_", "<_>"].getLast? =
      some (String.mk (List.replicate 1 '<' ++ '_' :: List.replicate 1 '>')) ∧
    (∀ s t : State, s.iEmpty < s.board.length → Move s t →
      ∃ j : Nat, t.board = swapChars s.board s.iEmpty j ∧ t.iEmpty = j ∧ t.N = s.N ∧
        j < s.board.length ∧
        (((j + 1 = s.iEmpty ∨ j + 2 = s.iEmpty) ∧ s.board.getD j ' ' = '>') ∨
         ((j = s.iEmpty + 1 ∨ j = s.iEmpty + 2) ∧ s.board.getD j ' ' = '<'))) ∧
    (∀ (k : Nat) (s : State) (p : List String) (r : Bool) (s1 : State) (p1 : List String),
      s.Wf → solve_dfs k s p = some (r, s1, p1) → s1 = s)) :=
  ⟨rfl, frog_path_valid 1 4 (State.new 1) [">_<", "_><", "<>_", "<_>"] rfl⟩

end Bonus1

namespace Hw4

theorem minimaxMinLoop_le (recP : Board → Option Int) :
    ∀ (l : List Board) (m V : Int), minimaxMinLoop recP l m = some V → V ≤ m := by
  intro l
  induction l with
  | nil =>
    intro m V h
    simp only [minimaxMinLoop, Option.some.injEq] at h
    omega
  | cons s rest ih =>
    intro m V h
    simp only [minimaxMinLoop] at h
    cases hs : recP s with
    | none => rw [hs] at h; exact Option.noConfusion h
    | some v =>
      rw [hs] at h
      have := ih _ _ h
      have := min_le_left m v
      omega

theorem minimaxMaxLoop_ge (recP : Board → Option Int) :
    ∀ (l : List Board) (m V : Int), minimaxMaxLoop recP l m = some V → m ≤ V := by
  intro l
  induction l with
  | nil =>
    intro m V h
    simp only [minimaxMaxLoop, Option.some.injEq] at h
    omega
  | cons s rest ih =>
    intro m V h
    simp only [minimaxMaxLoop] at h
    cases hs : recP s with
    | none => rw [hs] at h; exact Option.noConfusion h
    | some v =>
      rw [hs] at h
      have := ih _ _ h
      have := le_max_left m v
      omega

theorem minLoop_spec (recA : Board → Int → Int → Option Int) (recP : Board → Option Int)
    (alpha beta : Int) :
    ∀ (l : List Board),
    (∀ s ∈ l, ∀ b1, alpha < b1 → b1 ≤ MAX → ∀ v, recP s = some v →
      ∃ r, recA s alpha b1 = some r ∧ FailSoft v r alpha b1) →
    ∀ (B m : Int), alpha < beta → beta ≤ MAX → alpha < B → B ≤ MAX → B ≤ m →
      (B < beta → m = B) →
    ∀ V, minimaxMinLoop recP l m = some V →
      ∃ R, minLoop recA l B alpha (min beta B) = some R ∧ FailSoft V R alpha beta := by
  intro l
  induction l with
  | nil =>
    intro _ B m hab hb hB hBM hBm hex V h
    simp only [minimaxMinLoop, Option.some.injEq] at h
    subst h
    refine ⟨B, rfl, ?_, ?_, ?_⟩
    · intro h1; omega
    · intro _ h2; exact hex h2
    · intro _; exact hBm
  | cons s rest ih =>
    intro hrec B m hab hb hB hBM hBm hex V h
    simp only [minimaxMinLoop] at h
    cases hs : recP s with
    | none => rw [hs] at h; exact Option.noConfusion h
    | some v =>
      rw [hs] at h
      have hb1 : alpha < min beta B := lt_min hab hB
      have hb1M : min beta B ≤ MAX := le_trans (min_le_left _ _) hb
      obtain ⟨r, hr, f1, f2, f3⟩ := hrec s (List.mem_cons_self _ _) _ hb1 hb1M v hs
      have hV := minimaxMinLoop_le recP rest _ _ h
      simp only [minLoop, hr]
      by_cases hc : min B r ≤ alpha
      · rw [if_pos hc]
        refine ⟨_, rfl, ?_, ?_, ?_⟩
        · intro _
          rcases le_total B r with h1 | h1
          · rw [min_eq_left h1] at hc; omega
          · rw [min_eq_right h1] at hc ⊢
            have := f1 hc
            have := min_le_right m v
            omega
        · intro h1; omega
        · intro h1; omega
      · rw [if_neg hc]
        have hc1 : alpha < min B r := by omega
        have hrB : alpha < r := lt_of_lt_of_le hc1 (min_le_right _ _)
        have hrv : r ≤ v := by
          by_cases h2 : r < min beta B
          · have := f2 hrB h2; omega
          · exact f3 (by omega)
        have e1 : min (min beta B) (min B r) = min beta (min B r) := by
          rw [min_assoc, ← min_assoc B B r, min_self]
        rw [e1]
        apply ih (fun s1 hs1 => hrec s1 (List.mem_cons_of_mem _ hs1)) _ _ hab hb hc1
          (le_trans (min_le_left _ _) hBM) _ _ V h
        · exact le_min (le_trans (min_le_left _ _) hBm) (le_trans (min_le_right _ _) hrv)
        · intro h3
          rcases le_or_lt B r with h1 | h1
          · rw [min_eq_left h1] at h3 ⊢
            have := hex h3
            rw [this]
            exact min_eq_left (by omega)
          · rw [min_eq_right (le_of_lt h1)] at h3 ⊢
            have h4 : r < min beta B := lt_min h3 h1
            have := f2 hrB h4
            rw [this]
            exact min_eq_right (by omega)

theorem maxLoop_spec (recA : Board → Int → Int → Option Int) (recP : Board → Option Int)
    (alpha beta : Int) :
    ∀ (l : List Board),
    (∀ s ∈ l, ∀ a1, MIN ≤ a1 → a1 < beta → ∀ v, recP s = some v →
      ∃ r, recA s a1 beta = some r ∧ FailSoft v r a1 beta) →
    ∀ (B m : Int), alpha < beta → MIN ≤ alpha → B < beta → MIN ≤ B → m ≤ B →
      (alpha < B → m = B) →
    ∀ V, minimaxMaxLoop recP l m = some V →
      ∃ R, maxLoop recA l B (max alpha B) beta = some R ∧ FailSoft V R alpha beta := by
  intro l
  induction l with
  | nil =>
    intro _ B m hab ha hB hBM hBm hex V h
    simp only [minimaxMaxLoop, Option.some.injEq] at h
    subst h
    refine ⟨B, rfl, ?_, ?_, ?_⟩
    · intro _; exact hBm
    · intro h2 _; exact hex h2
    · intro h1; omega
  | cons s rest ih =>
    intro hrec B m hab ha hB hBM hBm hex V h
    simp only [minimaxMaxLoop] at h
    cases hs : recP s with
    | none => rw [hs] at h; exact Option.noConfusion h
    | some v =>
      rw [hs] at h
      have ha1 : max alpha B < beta := max_lt hab hB
      have ha1M : MIN ≤ max alpha B := le_trans ha (le_max_left _ _)
      obtain ⟨r, hr, f1, f2, f3⟩ := hrec s (List.mem_cons_self _ _) _ ha1M ha1 v hs
      have hV := minimaxMaxLoop_ge recP rest _ _ h
      simp only [maxLoop, hr]
      by_cases hc : max B r ≥ beta
      · rw [if_pos hc]
        refine ⟨_, rfl, ?_, ?_, ?_⟩
        · intro h1; omega
        · intro _ h1; omega
        · intro _
          rcases le_total B r with h1 | h1
          · rw [max_eq_right h1] at hc ⊢
            have := f3 hc
            have := le_max_right m v
            omega
          · rw [max_eq_left h1] at hc; omega
      · rw [if_neg hc]
        have hc1 : max B r < beta := by omega
        have hrB : r < beta := lt_of_le_of_lt (le_max_right _ _) hc1
        have hrv : v ≤ r := by
          by_cases h2 : max alpha B < r
          · have := f2 h2 hrB; omega
          · exact f1 (by omega)
        have e1 : max (max alpha B) (max B r) = max alpha (max B r) := by
          rw [max_assoc, ← max_assoc B B r, max_self]
        rw [e1]
        apply ih (fun s1 hs1 => hrec s1 (List.mem_cons_of_mem _ hs1)) _ _ hab ha hc1
          (le_trans hBM (le_max_left _ _)) _ _ V h
        · exact max_le (le_trans hBm (le_max_left _ _)) (le_trans hrv (le_max_right _ _))
        · intro h3
          rcases le_or_lt r B with h1 | h1
          · rw [max_eq_left h1] at h3 ⊢
            have := hex h3
            rw [this]
            exact max_eq_left (by omega)
          · rw [max_eq_right (le_of_lt h1)] at h3 ⊢
            have h4 : max alpha B < r := max_lt h3 h1
            have := f2 h4 hrB
            rw [this]
            exact max_eq_right (by omega)

theorem alphabeta_spec (g : Game) : ∀ (fuel : Nat) (b : Board) (alpha beta : Int),
    MIN ≤ alpha → alpha < beta → beta ≤ MAX →
    (∀ v, minimaxMin g fuel b = some v →
      ∃ r, Game.min g fuel b alpha beta = some r ∧ FailSoft v r alpha beta) ∧
    (∀ v, minimaxMax g fuel b = some v →
      ∃ r, Game.max g fuel b alpha beta = some r ∧ FailSoft v r alpha beta) := by
  intro fuel
  induction fuel with
  | zero =>
    intro b alpha beta _ _ _
    constructor
    · intro v h
      simp only [minimaxMin] at h
      exact Option.noConfusion h
    · intro v h
      simp only [minimaxMax] at h
      exact Option.noConfusion h
  | succ fuel ih =>
    intro b alpha beta ha hab hb
    have hMM : MIN < MAX := by decide
    constructor
    · intro v h
      simp only [minimaxMin] at h
      simp only [Game.min]
      by_cases hf : b.isFinal = true
      · rw [if_pos hf] at h ⊢
        simp only [Option.some.injEq] at h
        subst h
        exact ⟨_, rfl, fun _ => le_refl _, fun _ _ => rfl, fun _ => le_refl _⟩
      · rw [if_neg hf] at h ⊢
        have := minLoop_spec (fun b a be => Game.max g fuel b a be) (minimaxMax g fuel)
          alpha beta (b.successors g.playerCh)
          (fun s _ b1 h1 h2 v hv => (ih s alpha b1 ha h1 h2).2 v hv)
          MAX MAX hab hb (lt_of_lt_of_le hab hb) (le_refl _) (le_refl _)
          (fun h1 => absurd h1 (not_lt.mpr hb)) v h
        rw [min_eq_left hb] at this
        exact this
    · intro v h
      simp only [minimaxMax] at h
      simp only [Game.max]
      by_cases hf : b.isFinal = true
      · rw [if_pos hf] at h ⊢
        simp only [Option.some.injEq] at h
        subst h
        exact ⟨_, rfl, fun _ => le_refl _, fun _ _ => rfl, fun _ => le_refl _⟩
      · rw [if_neg hf] at h ⊢
        have := maxLoop_spec (fun b a be => Game.min g fuel b a be) (minimaxMin g fuel)
          alpha beta (b.successors g.computerCh)
          (fun s _ a1 h1 h2 v hv => (ih s a1 beta h1 h2 hb).1 v hv)
          MIN MIN hab ha (lt_of_le_of_lt ha hab) (le_refl _) (le_refl _)
          (fun h1 => absurd h1 (not_lt.mpr ha)) v h
        rw [max_eq_left ha] at this
        exact this

end Hw4

namespace Hw4

theorem toInt32_range (x : Int) : MIN ≤ toInt32 x ∧ toInt32 x ≤ MAX := by
  unfold toInt32 MIN MAX
  omega

theorem toInt32_id (x : Int) (h1 : -2147483648 ≤ x) (h2 : x ≤ 2147483647) : toInt32 x = x := by
  unfold toInt32
  omega

theorem finalScore_range (g : Game) (b : Board) :
    MIN ≤ g.finalScore b ∧ g.finalScore b ≤ MAX := by
  unfold Game.finalScore
  split_ifs
  · exact toInt32_range _
  · exact toInt32_range _
  · constructor <;> decide

theorem finalScore_eq (g : Game) (b : Board) (h : b.emptyCount < 2147483647) :
    g.finalScore b =
      if b.isWinner g.computerCh then 1 + (b.emptyCount : Int)
      else if b.isWinner g.playerCh then -1 - (b.emptyCount : Int)
      else 0 := by
  unfold Game.finalScore
  split_ifs
  · rw [toInt32_id _ (by omega) (by omega)]
    omega
  · have e : (-1 - (b.emptyCount : Int)) % 18446744073709551616
        = 18446744073709551616 + (-1 - (b.emptyCount : Int)) := by omega
    rw [e]
    unfold toInt32
    omega
  · rfl

theorem minimaxMinLoop_range (recP : Board → Option Int) :
    ∀ (l : List Board), (∀ s ∈ l, ∀ v, recP s = some v → MIN ≤ v ∧ v ≤ MAX) →
    ∀ (m V : Int), MIN ≤ m → m ≤ MAX → minimaxMinLoop recP l m = some V →
      MIN ≤ V ∧ V ≤ MAX := by
  intro l
  induction l with
  | nil =>
    intro _ m V h1 h2 h
    simp only [minimaxMinLoop, Option.some.injEq] at h
    subst h
    exact ⟨h1, h2⟩
  | cons s rest ih =>
    intro hrec m V h1 h2 h
    simp only [minimaxMinLoop] at h
    cases hs : recP s with
    | none => rw [hs] at h; exact Option.noConfusion h
    | some v =>
      rw [hs] at h
      obtain ⟨r1, r2⟩ := hrec s (List.mem_cons_self _ _) v hs
      exact ih (fun s1 hs1 => hrec s1 (List.mem_cons_of_mem _ hs1)) _ _
        (le_min h1 r1) (le_trans (min_le_left _ _) h2) h

theorem minimaxMaxLoop_range (recP : Board → Option Int) :
    ∀ (l : List Board), (∀ s ∈ l, ∀ v, recP s = some v → MIN ≤ v ∧ v ≤ MAX) →
    ∀ (m V : Int), MIN ≤ m → m ≤ MAX → minimaxMaxLoop recP l m = some V →
      MIN ≤ V ∧ V ≤ MAX := by
  intro l
  induction l with
  | nil =>
    intro _ m V h1 h2 h
    simp only [minimaxMaxLoop, Option.some.injEq] at h
    subst h
    exact ⟨h1, h2⟩
  | cons s rest ih =>
    intro hrec m V h1 h2 h
    simp only [minimaxMaxLoop] at h
    cases hs : recP s with
    | none => rw [hs] at h; exact Option.noConfusion h
    | some v =>
      rw [hs] at h
      obtain ⟨r1, r2⟩ := hrec s (List.mem_cons_self _ _) v hs
      exact ih (fun s1 hs1 => hrec s1 (List.mem_cons_of_mem _ hs1)) _ _
        (le_trans h1 (le_max_left _ _)) (max_le h2 r2) h

theorem minimax_range (g : Game) : ∀ (fuel : Nat) (b : Board),
    (∀ v, minimaxMin g fuel b = some v → MIN ≤ v ∧ v ≤ MAX) ∧
    (∀ v, minimaxMax g fuel b = some v → MIN ≤ v ∧ v ≤ MAX) := by
  intro fuel
  induction fuel with
  | zero =>
    intro b
    constructor
    · intro v h
      simp only [minimaxMin] at h
      exact Option.noConfusion h
    · intro v h
      simp only [minimaxMax] at h
      exact Option.noConfusion h
  | succ fuel ih =>
    intro b
    constructor
    · intro v h
      simp only [minimaxMin] at h
      by_cases hf : b.isFinal = true
      · rw [if_pos hf] at h
        simp only [Option.some.injEq] at h
        subst h
        exact finalScore_range g b
      · rw [if_neg hf] at h
        exact minimaxMinLoop_range _ _ (fun s _ v hv => (ih s).2 v hv) MAX v
          (by decide) (le_refl _) h
    · intro v h
      simp only [minimaxMax] at h
      by_cases hf : b.isFinal = true
      · rw [if_pos hf] at h
        simp only [Option.some.injEq] at h
        subst h
        exact finalScore_range g b
      · rw [if_neg hf] at h
        exact minimaxMaxLoop_range _ _ (fun s _ v hv => (ih s).1 v hv) MIN v
          (le_refl _) (by decide) h

/-- At the root window the value that the search returns is the plain minimax
value. -/
theorem failSoft_root {v r : Int} (h : FailSoft v r MIN MAX) (h1 : MIN ≤ v) (h2 : v ≤ MAX) :
    r = v := by
  obtain ⟨f1, f2, f3⟩ := h
  by_cases c1 : r ≤ MIN
  · have := f1 c1; omega
  · by_cases c2 : r < MAX
    · exact (f2 (by omega) c2).symm
    · have := f3 (by omega); omega

theorem count_set_lt (a ch : Char) (hne : ch ≠ a) : ∀ (l : List Char) (i : Nat),
    l.getD i ' ' = a → a ≠ ' ' → (l.set i ch).count a + 1 = l.count a := by
  intro l
  induction l with
  | nil =>
    intro i h ha
    simp at h
    exact absurd h.symm ha
  | cons x xs ih =>
    intro i h ha
    cases i with
    | zero =>
      simp only [List.getD_cons_zero] at h
      subst h
      simp only [List.set_cons_zero]
      rw [List.count_cons_of_ne (Ne.symm hne), List.count_cons_self]
    | succ i =>
      simp only [List.getD_cons_succ] at h
      simp only [List.set_cons_succ, List.count_cons]
      have := ih i h ha
      omega

theorem mem_successors_cell {b s : Board} {ch : Char} (h : s ∈ b.successors ch) :
    ∃ r c, r < SIZE ∧ c < SIZE ∧ b.cell r c = EMPTY ∧
      s.board = b.board.set (SIZE * r + c) ch := by
  unfold Board.successors at h
  simp only [List.mem_flatMap, List.mem_filterMap, List.mem_range] at h
  obtain ⟨r, hr, c, hc, h⟩ := h
  refine ⟨r, c, hr, hc, ?_⟩
  unfold Board.move at h
  by_cases hg : (r ≥ SIZE || c ≥ SIZE || b.cell r c != EMPTY) = true
  · rw [if_pos hg] at h
    simp at h
  · rw [if_neg hg] at h
    simp only [if_true, Option.some.injEq] at h
    subst h
    simp only [Bool.or_eq_true, decide_eq_true_eq, bne_iff_ne, ne_eq] at hg
    push_neg at hg
    exact ⟨hg.2, rfl⟩

theorem successors_countEmpty {b s : Board} {ch : Char} (hne : ch ≠ EMPTY)
    (h : s ∈ b.successors ch) : s.countEmpty + 1 = b.countEmpty := by
  obtain ⟨r, c, _, _, h1, h2⟩ := mem_successors_cell h
  unfold Board.countEmpty
  rw [h2]
  exact count_set_lt EMPTY ch hne _ _ h1 (by decide)

end Hw4

namespace Hw4

theorem minimaxMinLoop_total (recP : Board → Option Int) :
    ∀ (l : List Board), (∀ s ∈ l, ∃ v, recP s = some v) →
    ∀ m : Int, ∃ V, minimaxMinLoop recP l m = some V := by
  intro l
  induction l with
  | nil => intro _ m; exact ⟨m, rfl⟩
  | cons s rest ih =>
    intro hrec m
    obtain ⟨v, hv⟩ := hrec s (List.mem_cons_self _ _)
    simp only [minimaxMinLoop, hv]
    exact ih (fun s1 hs1 => hrec s1 (List.mem_cons_of_mem _ hs1)) _

theorem minimaxMaxLoop_total (recP : Board → Option Int) :
    ∀ (l : List Board), (∀ s ∈ l, ∃ v, recP s = some v) →
    ∀ m : Int, ∃ V, minimaxMaxLoop recP l m = some V := by
  intro l
  induction l with
  | nil => intro _ m; exact ⟨m, rfl⟩
  | cons s rest ih =>
    intro hrec m
    obtain ⟨v, hv⟩ := hrec s (List.mem_cons_self _ _)
    simp only [minimaxMaxLoop, hv]
    exact ih (fun s1 hs1 => hrec s1 (List.mem_cons_of_mem _ hs1)) _

theorem minimax_total (g : Game) (hp : g.playerCh ≠ EMPTY) (hc : g.computerCh ≠ EMPTY) :
    ∀ (fuel : Nat) (b : Board), b.countEmpty < fuel →
    (∃ v, minimaxMin g fuel b = some v) ∧ (∃ v, minimaxMax g fuel b = some v) := by
  intro fuel
  induction fuel with
  | zero => intro b h; omega
  | succ fuel ih =>
    intro b h
    constructor
    · simp only [minimaxMin]
      by_cases hf : b.isFinal = true
      · rw [if_pos hf]; exact ⟨_, rfl⟩
      · rw [if_neg hf]
        apply minimaxMinLoop_total
        intro s hs
        have := successors_countEmpty hp hs
        exact (ih s (by omega)).2
    · simp only [minimaxMax]
      by_cases hf : b.isFinal = true
      · rw [if_pos hf]; exact ⟨_, rfl⟩
      · rw [if_neg hf]
        apply minimaxMaxLoop_total
        intro s hs
        have := successors_countEmpty hc hs
        exact (ih s (by omega)).1

theorem minimaxMinLoop_congr (recP recQ : Board → Option Int) :
    ∀ (l : List Board), (∀ s ∈ l, ∀ v, recP s = some v → recQ s = some v) →
    ∀ (m V : Int), minimaxMinLoop recP l m = some V → minimaxMinLoop recQ l m = some V := by
  intro l
  induction l with
  | nil => intro _ m V h; exact h
  | cons s rest ih =>
    intro hrec m V h
    simp only [minimaxMinLoop] at h ⊢
    cases hs : recP s with
    | none => rw [hs] at h; exact Option.noConfusion h
    | some v =>
      rw [hs] at h
      rw [hrec s (List.mem_cons_self _ _) v hs]
      exact ih (fun s1 hs1 => hrec s1 (List.mem_cons_of_mem _ hs1)) _ _ h

theorem minimaxMaxLoop_congr (recP recQ : Board → Option Int) :
    ∀ (l : List Board), (∀ s ∈ l, ∀ v, recP s = some v → recQ s = some v) →
    ∀ (m V : Int), minimaxMaxLoop recP l m = some V → minimaxMaxLoop recQ l m = some V := by
  intro l
  induction l with
  | nil => intro _ m V h; exact h
  | cons s rest ih =>
    intro hrec m V h
    simp only [minimaxMaxLoop] at h ⊢
    cases hs : recP s with
    | none => rw [hs] at h; exact Option.noConfusion h
    | some v =>
      rw [hs] at h
      rw [hrec s (List.mem_cons_self _ _) v hs]
      exact ih (fun s1 hs1 => hrec s1 (List.mem_cons_of_mem _ hs1)) _ _ h

theorem minimax_fuel_succ (g : Game) : ∀ (fuel : Nat) (b : Board),
    (∀ v, minimaxMin g fuel b = some v → minimaxMin g (fuel + 1) b = some v) ∧
    (∀ v, minimaxMax g fuel b = some v → minimaxMax g (fuel + 1) b = some v) := by
  intro fuel
  induction fuel with
  | zero =>
    intro b
    constructor
    · intro v h
      simp only [minimaxMin] at h
      exact Option.noConfusion h
    · intro v h
      simp only [minimaxMax] at h
      exact Option.noConfusion h
  | succ fuel ih =>
    intro b
    constructor
    · intro v h
      rw [minimaxMin] at h ⊢
      by_cases hf : b.isFinal = true
      · rw [if_pos hf] at h ⊢; exact h
      · rw [if_neg hf] at h ⊢
        exact minimaxMinLoop_congr _ _ _ (fun s _ v hv => (ih s).2 v hv) _ _ h
    · intro v h
      rw [minimaxMax] at h ⊢
      by_cases hf : b.isFinal = true
      · rw [if_pos hf] at h ⊢; exact h
      · rw [if_neg hf] at h ⊢
        exact minimaxMaxLoop_congr _ _ _ (fun s _ v hv => (ih s).1 v hv) _ _ h

theorem minimax_fuel_add (g : Game) (fuel : Nat) (b : Board) : ∀ k : Nat,
    (∀ v, minimaxMin g fuel b = some v → minimaxMin g (fuel + k) b = some v) ∧
    (∀ v, minimaxMax g fuel b = some v → minimaxMax g (fuel + k) b = some v) := by
  intro k
  induction k with
  | zero => exact ⟨fun v h => h, fun v h => h⟩
  | succ k ih =>
    exact ⟨fun v h => (minimax_fuel_succ g (fuel + k) b).1 v (ih.1 v h),
      fun v h => (minimax_fuel_succ g (fuel + k) b).2 v (ih.2 v h)⟩

theorem new_chars (isComputerFirst : Bool) :
    (Game.new isComputerFirst).playerCh ≠ EMPTY ∧
    (Game.new isComputerFirst).computerCh ≠ EMPTY := by
  cases isComputerFirst <;> exact ⟨by decide, by decide⟩

/-- C34 (alpha-beta equals minimax): for every board and either choice of who
plays first there are values `v` and `w` such that, with any fuel above the
number of empty cells, the plain minimax with the player to move (minimising,
final boards scored by `finalScore`) gives `v` and `Game::min(board, MIN, MAX)`
returns `v`, and the plain minimax with the computer to move (maximising)
gives `w` and `Game::max(board, MIN, MAX)` returns `w`; on a board whose
`emptyCount` is below `2^31 - 1` the `finalScore` is `1 + emptyCount` for a
computer win, `-1 - emptyCount` for a player win, and `0` otherwise. -/
theorem alphabeta_eq_minimax (isComputerFirst : Bool) (b : Board) :
    (∃ v w : Int, ∀ k : Nat,
      minimaxMin (Game.new isComputerFirst) (b.countEmpty + 1 + k) b = some v ∧
      Game.min (Game.new isComputerFirst) (b.countEmpty + 1 + k) b MIN MAX = some v ∧
      minimaxMax (Game.new isComputerFirst) (b.countEmpty + 1 + k) b = some w ∧
      Game.max (Game.new isComputerFirst) (b.countEmpty + 1 + k) b MIN MAX = some w) ∧
    (b.emptyCount < 2147483647 →
      (Game.new isComputerFirst).finalScore b =
        if b.isWinner (Game.new isComputerFirst).computerCh then 1 + (b.emptyCount : Int)
        else if b.isWinner (Game.new isComputerFirst).playerCh then -1 - (b.emptyCount : Int)
        else 0) := by
  refine ⟨?_, finalScore_eq _ b⟩
  obtain ⟨hp, hc⟩ := new_chars isComputerFirst
  obtain ⟨⟨v, hv⟩, ⟨w, hw⟩⟩ :=
    minimax_total (Game.new isComputerFirst) hp hc (b.countEmpty + 1) b (by omega)
  refine ⟨v, w, fun k => ?_⟩
  have hvk := (minimax_fuel_add _ _ b k).1 v hv
  have hwk := (minimax_fuel_add _ _ b k).2 w hw
  have hMM : MIN < MAX := by decide
  obtain ⟨r1, e1, f1⟩ := (alphabeta_spec _ _ b MIN MAX (le_refl _) hMM (le_refl _)).1 v hvk
  obtain ⟨r2, e2, f2⟩ := (alphabeta_spec _ _ b MIN MAX (le_refl _) hMM (le_refl _)).2 w hwk
  obtain ⟨a1, a2⟩ := (minimax_range _ _ b).1 v hvk
  obtain ⟨a3, a4⟩ := (minimax_range _ _ b).2 w hwk
  rw [failSoft_root f1 a1 a2] at e1
  rw [failSoft_root f2 a3 a4] at e2
  exact ⟨hvk, e1, hwk, e2⟩

theorem alphabeta_eq_minimax_witness :
    ((∃ v w : Int, ∀ k : Nat,
      minimaxMin (Game.new true) (Board.countEmpty ⟨['X', 'X', 'O', 'O', 'O', 'X', 'X', '_', '_'], 2⟩ + 1 + k)
        ⟨['X', 'X', 'O', 'O', 'O', 'X', 'X', '_', '_'], 2⟩ = some v ∧
      Game.min (Game.new true) (Board.countEmpty ⟨['X', 'X', 'O', 'O', 'O', 'X', 'X', '_', '_'], 2⟩ + 1 + k)
        ⟨['X', 'X', 'O', 'O', 'O', 'X', 'X', '_', '_'], 2⟩ MIN MAX = some v ∧
      minimaxMax (Game.new true) (Board.countEmpty ⟨['X', 'X', 'O', 'O', 'O', 'X', 'X', '_', '_'], 2⟩ + 1 + k)
        ⟨['X', 'X', 'O', 'O', 'O', 'X', 'X', '_', '_'], 2⟩ = some w ∧
      Game.max (Game.new true) (Board.countEmpty ⟨['X', 'X', 'O', 'O', 'O', 'X', 'X', '_', '_'], 2⟩ + 1 + k)
        ⟨['X', 'X', 'O', 'O', 'O', 'X', 'X', '_', '_'], 2⟩ MIN MAX = some w) ∧
    ((2 : Nat) < 2147483647 →
      (Game.new true).finalScore ⟨['X', 'X', 'O', 'O', 'O', 'X', 'X', '_', '_'], 2⟩ =
        if Board.isWinner ⟨['X', 'X', 'O', 'O', 'O', 'X', 'X', '_', '_'], 2⟩ (Game.new true).computerCh
          then 1 + ((2 : Nat) : Int)
        else if Board.isWinner ⟨['X', 'X', 'O', 'O', 'O', 'X', 'X', '_', '_'], 2⟩ (Game.new true).playerCh
          then -1 - ((2 : Nat) : Int)
        else 0)) ∧
    Game.min (Game.new true) 3 ⟨['X', 'X', 'O', 'O', 'O', 'X', 'X', '_', '_'], 2⟩ MIN MAX = some 0 ∧
    (2 : Nat) < 2147483647 :=
  ⟨alphabeta_eq_minimax true ⟨['X', 'X', 'O', 'O', 'O', 'X', 'X', '_', '_'], 2⟩, by decide,
    by decide⟩

end Hw4

namespace Hw2

theorem getD_set_ite {α : Type} (l : List α) (i j : Nat) (v d : α) :
    (l.set i v).getD j d = if i = j ∧ i < l.length then v else l.getD j d := by
  simp only [List.getD_eq_getElem?_getD, List.getElem?_set]
  by_cases h : i = j
  · subst h
    by_cases h2 : i < l.length
    · simp [h2]
    · simp [h2, List.getElem?_eq_none (show l.length ≤ i by omega)]
  · simp [h]

/-- Adding one to the counter of the key of a new column keeps the counters
equal to the counts. -/
theorem counter_add (L : List Int) (key key1 : Nat → Nat) (cols : List Nat) (col i : Nat)
    (h : ∀ d, L.getD d 0 = (cols.countP fun c => key c = d : Nat))
    (hi : i < L.length) (hk : key1 col = i) (hc : ∀ c ∈ cols, key1 c = key c) :
    ∀ d, (L.set i (L.getD i 0 + 1)).getD d 0
      = ((col :: cols).countP fun c => key1 c = d : Nat) := by
  intro d
  have e : (cols.countP fun c => decide (key1 c = d)) = cols.countP fun c => decide (key c = d) := by
    apply List.countP_congr
    intro c hcm
    rw [hc c hcm]
  rw [getD_set_ite, List.countP_cons, e, hk]
  by_cases hd : i = d
  · subst hd
    rw [if_pos ⟨rfl, hi⟩, h i]
    simp
  · rw [if_neg (fun hh => hd hh.1), h d]
    simp [hd]

/-- Subtracting one from the counter of the key of a column that is taken out
keeps the counters equal to the counts. -/
theorem counter_remove (L : List Int) (key : Nat → Nat) (cols : List Nat) (col : Nat)
    (h : ∀ d, L.getD d 0 = ((col :: cols).countP fun c => key c = d : Nat))
    (hi : key col < L.length) :
    ∀ d, (L.set (key col) (L.getD (key col) 0 + (-1))).getD d 0
      = (cols.countP fun c => key c = d : Nat) := by
  intro d
  rw [getD_set_ite]
  have h1 := h d
  have h2 := h (key col)
  rw [List.countP_cons] at h1 h2
  by_cases hd : key col = d
  · subst hd
    rw [if_pos ⟨rfl, hi⟩, h2]
    simp
  · rw [if_neg (fun hh => hd hh.1), h1]
    simp [hd]

theorem Counted.perm {cols cols1 : List Nat} {s : Solver} (hp : List.Perm cols cols1)
    (h : Counted cols s) : Counted cols1 s := by
  obtain ⟨h1, h2, h3, h4, h5, h6, h7, h8⟩ := h
  refine ⟨h1, h2, h3, h4, fun c hc => h5 c (hp.mem_iff.mpr hc), ?_, ?_, ?_⟩
  · intro r; rw [h6 r, hp.countP_eq]
  · intro d; rw [h7 d, hp.countP_eq]
  · intro d; rw [h8 d, hp.countP_eq]

theorem Counted.draws {cols : List Nat} {s : Solver} (k : Nat) (h : Counted cols s) :
    Counted cols { s with draws := k } := h

theorem Counted.iter {cols : List Nat} {s : Solver} (k : Int) (h : Counted cols s) :
    Counted cols { s with iter := k } := h

end Hw2

namespace Hw2

theorem Counted.place {cols : List Nat} {s : Solver} {col row : Nat} (h : Counted cols s)
    (hn : col ∉ cols) (hc : col < s.N) (hr : row < s.N) :
    Counted (col :: cols) (s.placeQueen col row) ∧ (s.placeQueen col row).N = s.N ∧
      (s.placeQueen col row).iter = s.iter ∧ (s.placeQueen col row).max_iter = s.max_iter := by
  obtain ⟨h1, h2, h3, h4, h5, h6, h7, h8⟩ := h
  refine ⟨?_, rfl, rfl, rfl⟩
  have hq : ∀ c ∈ cols, (s.queens.set col row).getD c 0 = s.queens.getD c 0 := by
    intro c hcm
    rw [getD_set_ite, if_neg]
    intro hh
    exact hn (hh.1 ▸ hcm)
  have hq0 : (s.queens.set col row).getD col 0 = row := by
    rw [getD_set_ite, if_pos ⟨rfl, by omega⟩]
  unfold Solver.placeQueen Solver.updateConflicts Counted
  simp only [Solver.DLI, Solver.DRI, List.length_set]
  refine ⟨h1, h2, h3, h4, ?_, ?_, ?_, ?_⟩
  · intro c hcm
    rw [List.mem_cons] at hcm
    rcases hcm with rfl | hcm
    · rw [hq0]; exact ⟨hc, hr⟩
    · rw [hq c hcm]; exact h5 c hcm
  · exact counter_add _ (fun c => s.queens.getD c 0)
      (fun c => (s.queens.set col row).getD c 0) cols col row h6 (by omega) hq0 hq
  · exact counter_add _ (fun c => ((s.queens.getD c 0 : Int) - c + s.N - 1).toNat)
      (fun c => (((s.queens.set col row).getD c 0 : Int) - c + s.N - 1).toNat) cols col _ h7
      (by omega) (by show _ = _; simp only [hq0]) (fun c hcm => by show _ = _; simp only [hq c hcm])
  · exact counter_add _ (fun c => ((s.queens.getD c 0 : Int) + c).toNat)
      (fun c => (((s.queens.set col row).getD c 0 : Int) + c).toNat) cols col _ h8
      (by omega) (by show _ = _; simp only [hq0]) (fun c hcm => by show _ = _; simp only [hq c hcm])

theorem Counted.remove {cols : List Nat} {s : Solver} {col : Nat}
    (h : Counted (col :: cols) s) :
    Counted cols (s.updateConflicts (s.queens.getD col 0) col (-1)) := by
  obtain ⟨h1, h2, h3, h4, h5, h6, h7, h8⟩ := h
  obtain ⟨hc, hr⟩ := h5 col (List.mem_cons_self _ _)
  unfold Solver.updateConflicts Counted
  simp only [Solver.DLI, Solver.DRI, List.length_set]
  refine ⟨h1, h2, h3, h4, fun c hcm => h5 c (List.mem_cons_of_mem _ hcm), ?_, ?_, ?_⟩
  · exact counter_remove _ (fun c => s.queens.getD c 0) cols col h6 (by simp only []; omega)
  · exact counter_remove _ (fun c => ((s.queens.getD c 0 : Int) - c + s.N - 1).toNat)
      cols col h7 (by simp only []; omega)
  · exact counter_remove _ (fun c => ((s.queens.getD c 0 : Int) + c).toNat)
      cols col h8 (by simp only []; omega)

theorem Counted.move {s : Solver} {col row : Nat} (h : Counted (List.range s.N) s)
    (hc : col < s.N) (hr : row < s.N) :
    Counted (List.range s.N) (s.moveQueen col row) ∧ (s.moveQueen col row).N = s.N ∧
      (s.moveQueen col row).iter = s.iter ∧ (s.moveQueen col row).max_iter = s.max_iter := by
  have hp : List.Perm (List.range s.N) (col :: (List.range s.N).erase col) :=
    List.perm_cons_erase (List.mem_range.mpr hc)
  have h1 := (h.perm hp).remove
  have hn : col ∉ (List.range s.N).erase col :=
    fun hm => (List.Nodup.mem_erase_iff (List.nodup_range _)).mp hm |>.1 rfl
  have h2 := h1.place hn (show col < (s.updateConflicts (s.queens.getD col 0) col (-1)).N from hc)
    (show row < (s.updateConflicts (s.queens.getD col 0) col (-1)).N from hr)
  exact ⟨h2.1.perm hp.symm, rfl, rfl, rfl⟩

theorem horseWalkLoop_counted : ∀ (l cs : List Nat) (row : Nat) (s : Solver),
    Counted cs s → (l ++ cs).Nodup → (∀ c ∈ l, c < s.N) → 0 < s.N →
    Counted (l.reverse ++ cs) (horseWalkLoop l row s) ∧ (horseWalkLoop l row s).N = s.N ∧
      (horseWalkLoop l row s).iter = s.iter ∧
      (horseWalkLoop l row s).max_iter = s.max_iter := by
  intro l
  induction l with
  | nil => intro cs row s h _ _ _; exact ⟨h, rfl, rfl, rfl⟩
  | cons col rest ih =>
    intro cs row s h hnd hlt hN
    rw [List.cons_append, List.nodup_cons] at hnd
    have hrow : (if row ≥ s.N then 0 else row) < s.N := by
      split_ifs <;> omega
    obtain ⟨p1, p2, p3, p4⟩ := h.place (fun hm => hnd.1 (List.mem_append_right _ hm))
      (hlt col (List.mem_cons_self _ _)) hrow
    have hnd2 : (rest ++ col :: cs).Nodup := by
      have : List.Perm (rest ++ col :: cs) (col :: (rest ++ cs)) := List.perm_middle
      exact this.nodup_iff.mpr (List.nodup_cons.mpr hnd)
    obtain ⟨q1, q2, q3, q4⟩ := ih (col :: cs) ((if row ≥ s.N then 0 else row) + 2) _ p1 hnd2
      (fun c hcm => by rw [p2]; exact hlt c (List.mem_cons_of_mem _ hcm)) (by rw [p2]; exact hN)
    simp only [horseWalkLoop, List.reverse_cons, List.append_assoc, List.singleton_append]
    exact ⟨q1, by rw [q2, p2], by rw [q3, p3], by rw [q4, p4]⟩

theorem init_counted (rnd : Nat → Nat) {s : Solver} (h : Counted [] s) (hN : 0 < s.N) :
    Counted (List.range s.N) (s.init rnd) ∧ (s.init rnd).N = s.N ∧
      (s.init rnd).iter = s.iter ∧ (s.init rnd).max_iter = s.max_iter := by
  unfold Solver.init Solver.init_horseWalk
  obtain ⟨q1, q2, q3, q4⟩ := horseWalkLoop_counted (List.range s.N) [] (randint rnd s.draws 0 s.N)
    { s with draws := s.draws + 1 } (h.draws _)
    (by rw [List.append_nil]; exact List.nodup_range _)
    (fun c hc => List.mem_range.mp hc) hN
  rw [List.append_nil] at q1
  exact ⟨q1.perm (List.reverse_perm _), q2, q3, q4⟩

end Hw2

namespace Hw2

theorem findExtremaLoop_spec (arr : List Int) (dir : Int) (n : Nat) :
    ∀ (rest : List Nat) (extrema : Int) (indices : List Nat),
    indices ≠ [] → (∀ i ∈ indices, i < n) → (∀ i ∈ rest, i < n) →
    findExtremaLoop arr dir rest extrema indices ≠ [] ∧
      ∀ i ∈ findExtremaLoop arr dir rest extrema indices, i < n := by
  intro rest
  induction rest with
  | nil => intro extrema indices h1 h2 _; exact ⟨h1, h2⟩
  | cons i rest ih =>
    intro extrema indices h1 h2 h3
    have hi := h3 i (List.mem_cons_self _ _)
    have hr : ∀ j ∈ rest, j < n := fun j hj => h3 j (List.mem_cons_of_mem _ hj)
    simp only [findExtremaLoop]
    split_ifs
    · exact ih _ [i] (by simp) (by simpa using hi) hr
    · refine ih _ (indices ++ [i]) (by simp) ?_ hr
      intro j hj
      rw [List.mem_append, List.mem_singleton] at hj
      rcases hj with hj | rfl
      · exact h2 j hj
      · exact hi
    · exact ih _ indices h1 h2 hr

theorem findExtremaIndices_spec (arr : List Int) (dir : Int) (h : arr ≠ []) :
    findExtremaIndices arr dir ≠ [] ∧ ∀ i ∈ findExtremaIndices arr dir, i < arr.length := by
  have hl : 0 < arr.length := List.length_pos.mpr h
  unfold findExtremaIndices
  rw [if_neg (by simpa using h)]
  apply findExtremaLoop_spec
  · simp
  · intro i hi
    rw [List.mem_singleton] at hi
    omega
  · intro i hi
    rw [List.mem_range'_1] at hi
    omega

theorem getRandomEl_mem (rnd : Nat → Nat) (k : Nat) (arr : List Nat) (h : arr ≠ []) :
    getRandomEl rnd k arr ∈ arr := by
  have hl : 0 < arr.length := List.length_pos.mpr h
  unfold getRandomEl randint
  have hlt : 0 + rnd k % (arr.length - 0) < arr.length := by
    have := Nat.mod_lt (rnd k) hl
    simpa using this
  rw [List.getD_eq_getElem _ _ hlt]
  exact List.getElem_mem _

theorem getCol_lt (rnd : Nat → Nat) (s : Solver) (hN : 0 < s.N) :
    (s.getColWithQueenWithMaxConf rnd).1 < s.N := by
  unfold Solver.getColWithQueenWithMaxConf findMaxIndices
  have hne : (List.range s.N).map (fun col => s.countConflicts (s.queens.getD col 0) col) ≠ [] := by
    intro hh
    have := congrArg List.length hh
    simp at this
    omega
  obtain ⟨h1, h2⟩ := findExtremaIndices_spec _ 1 hne
  have := h2 _ (getRandomEl_mem rnd s.draws _ h1)
  simpa using this

theorem getRow_lt (rnd : Nat → Nat) (s : Solver) (col : Nat) (hN : 0 < s.N) :
    (s.getRowWithMinConflict rnd col).1 < s.N := by
  unfold Solver.getRowWithMinConflict findMinIndices
  have hne : (List.range s.N).map (fun row => s.countConflicts row col) ≠ [] := by
    intro hh
    have := congrArg List.length hh
    simp at this
    omega
  obtain ⟨h1, h2⟩ := findExtremaIndices_spec _ (-1) hne
  have := h2 _ (getRandomEl_mem rnd s.draws _ h1)
  simpa using this

theorem getD_replicate_zero (n r : Nat) : (List.replicate n (0 : Int)).getD r 0 = 0 := by
  by_cases h : r < n
  · rw [List.getD_eq_getElem _ _ (by simpa using h)]
    simp
  · rw [List.getD_eq_default _ _ (by simpa using h)]

theorem reset_counted (s : Solver) (h1 : s.queens.length = s.N)
    (h2 : s.queensPerRow.length = s.N) (h3 : s.queensPerDL.length = 2 * s.N - 1)
    (h4 : s.queensPerDR.length = 2 * s.N - 1) : Counted [] s.reset := by
  unfold Solver.reset Solver.resetConflicts Counted
  simp only [List.length_replicate, List.countP_nil, Nat.cast_zero, getD_replicate_zero]
  exact ⟨h1, h2, h3, h4, fun c hc => absurd hc (List.not_mem_nil _), fun _ => trivial,
    fun _ => trivial, fun _ => trivial⟩

theorem reset_hasConflicts (s : Solver) (hN : 0 < s.N) : s.reset.hasConflicts = true := by
  unfold Solver.hasConflicts
  rw [List.any_eq_true]
  refine ⟨0, List.mem_range.mpr hN, ?_⟩
  unfold Solver.countConflicts Solver.reset Solver.resetConflicts
  simp only [getD_replicate_zero, if_true]
  decide

end Hw2

namespace Hw2

theorem new_loopInv (N : Nat) : LoopInv N (Solver.new N) := by
  refine ⟨rfl, le_refl _, ?_⟩
  rw [if_pos (show (Solver.new N).iter = 0 from rfl)]
  unfold Counted Solver.new
  simp only [List.length_replicate, List.countP_nil, Nat.cast_zero, getD_replicate_zero]
  exact ⟨trivial, trivial, trivial, trivial, fun c hc => absurd hc (List.not_mem_nil _),
    fun _ => trivial, fun _ => trivial, fun _ => trivial⟩

theorem step_inv (rnd : Nat → Nat) (N : Nat) (s : Solver) (hN : 0 < N) (h : LoopInv N s) :
    LoopInv N (s.step rnd) ∧
      ((s.step rnd).hasConflicts = false → Counted (List.range N) (s.step rnd)) := by
  obtain ⟨hsN, hit, hc⟩ := h
  subst hsN
  -- the state after the optional `init()`
  have h1 : ∃ s1, (if s.iter = 0 then s.init rnd else s) = s1 ∧
      Counted (List.range s.N) s1 ∧ s1.N = s.N ∧ 0 ≤ s1.iter := by
    by_cases h0 : s.iter = 0
    · rw [if_pos h0] at hc ⊢
      obtain ⟨q1, q2, q3, _⟩ := init_counted rnd hc hN
      exact ⟨_, rfl, q1, q2, by rw [q3]; exact hit⟩
    · rw [if_neg h0] at hc ⊢
      exact ⟨_, rfl, hc, rfl, hit⟩
  obtain ⟨s1, e1, c1, n1, i1⟩ := h1
  unfold Solver.step
  simp only [e1]
  have hcol : (s1.getColWithQueenWithMaxConf rnd).1 < s1.N := getCol_lt rnd s1 (by omega)
  generalize (s1.getColWithQueenWithMaxConf rnd).1 = col at hcol ⊢
  have e2 : (s1.getColWithQueenWithMaxConf rnd).2 = { s1 with draws := s1.draws + 1 } := rfl
  rw [e2]
  have hrow : (Solver.getRowWithMinConflict rnd { s1 with draws := s1.draws + 1 } col).1 < s1.N :=
    getRow_lt rnd { s1 with draws := s1.draws + 1 } col (by show 0 < s1.N; omega)
  generalize (Solver.getRowWithMinConflict rnd { s1 with draws := s1.draws + 1 } col).1 = row
    at hrow ⊢
  have e3 : (Solver.getRowWithMinConflict rnd { s1 with draws := s1.draws + 1 } col).2
      = { s1 with draws := s1.draws + 1 + 1 } := rfl
  rw [e3]
  have c3 : Counted (List.range (Solver.N { s1 with draws := s1.draws + 1 + 1 }))
      { s1 with draws := s1.draws + 1 + 1 } := by
    rw [← n1] at c1
    exact c1.draws _
  obtain ⟨m1, m2, m3, m4⟩ := @Counted.move _ col row c3 hcol hrow
  generalize Solver.moveQueen { s1 with draws := s1.draws + 1 + 1 } col row = s4 at m1 m2 m3 m4 ⊢
  have m2a : s4.N = s.N := by rw [m2]; exact n1
  have m3a : 0 ≤ s4.iter := by rw [m3]; exact i1
  have m1a : Counted (List.range s.N) s4 := by
    have : Solver.N { s1 with draws := s1.draws + 1 + 1 } = s.N := n1
    rw [this] at m1
    exact m1
  by_cases hr : (Solver.iter { s4 with iter := s4.iter + 1 }) ≥ Solver.max_iter { s4 with iter := s4.iter + 1 }
  · rw [if_pos hr]
    have hcz : Counted [] (Solver.reset { s4 with iter := s4.iter + 1 }) :=
      reset_counted _ m1a.1 m1a.2.1 m1a.2.2.1 m1a.2.2.2.1
    have hhc := reset_hasConflicts { s4 with iter := s4.iter + 1 } (by show 0 < s4.N; omega)
    refine ⟨⟨m2a, le_refl _, ?_⟩, ?_⟩
    · rw [if_pos (show (Solver.reset { s4 with iter := s4.iter + 1 }).iter = 0 from rfl)]
      exact hcz
    · intro hf
      rw [hhc] at hf
      exact Bool.noConfusion hf
  · rw [if_neg hr]
    have hi5 : (Solver.iter { s4 with iter := s4.iter + 1 }) ≠ 0 := by
      show s4.iter + 1 ≠ 0
      omega
    refine ⟨⟨m2a, by show 0 ≤ s4.iter + 1; omega, ?_⟩, fun _ => m1a.iter _⟩
    rw [if_neg hi5]
    exact m1a.iter _

theorem solveLoop_inv (rnd : Nat → Nat) (N : Nat) (hN : 0 < N) : ∀ (fuel : Nat) (s s1 : Solver),
    LoopInv N s → solveLoop rnd fuel s = some s1 →
    Counted (List.range N) s1 ∧ s1.hasConflicts = false ∧ s1.N = N := by
  intro fuel
  induction fuel with
  | zero => intro s s1 _ h; exact Option.noConfusion h
  | succ fuel ih =>
    intro s s1 hinv h
    obtain ⟨i1, i2⟩ := step_inv rnd N s hN hinv
    simp only [solveLoop] at h
    by_cases hc : (s.step rnd).hasConflicts = true
    · rw [if_pos hc] at h
      exact ih _ _ i1 h
    · rw [if_neg hc] at h
      simp only [Option.some.injEq] at h
      subst h
      have hf : (s.step rnd).hasConflicts = false := by
        cases hh : (s.step rnd).hasConflicts
        · rfl
        · exact absurd hh hc
      exact ⟨i2 hf, hf, i1.1⟩

theorem countP_one_unique {l : List Nat} {p : Nat → Bool} {a b : Nat} (h : l.countP p = 1)
    (ha : a ∈ l) (hb : b ∈ l) (pa : p a = true) (pb : p b = true) : a = b := by
  rw [List.countP_eq_length_filter, List.length_eq_one] at h
  obtain ⟨x, hx⟩ := h
  have h1 : a ∈ l.filter p := List.mem_filter.mpr ⟨ha, pa⟩
  have h2 : b ∈ l.filter p := List.mem_filter.mpr ⟨hb, pb⟩
  rw [hx, List.mem_singleton] at h1 h2
  rw [h1, h2]

/-- In a state whose counters count the queens of all the columns and in
which `hasConflicts()` is false, no two queens attack each other. -/
theorem counted_valid {s : Solver} (hc : Counted (List.range s.N) s)
    (hf : s.hasConflicts = false) :
    s.queens.length = s.N ∧ (∀ c < s.N, s.queens.getD c 0 < s.N) ∧
    ∀ c1 c2, c1 < s.N → c2 < s.N → c1 ≠ c2 →
      s.queens.getD c1 0 ≠ s.queens.getD c2 0 ∧
      ((s.queens.getD c1 0 : Int) - s.queens.getD c2 0).natAbs ≠ ((c1 : Int) - c2).natAbs := by
  obtain ⟨h1, h2, h3, h4, h5, h6, h7, h8⟩ := hc
  have hq : ∀ c < s.N, s.queens.getD c 0 < s.N := fun c hc => (h5 c (List.mem_range.mpr hc)).2
  refine ⟨h1, hq, ?_⟩
  intro c1 c2 l1 l2 hne
  have m1 := List.mem_range.mpr l1
  have m2 := List.mem_range.mpr l2
  have q1 := hq c1 l1
  have q2 := hq c2 l2
  -- the three counters of the queen of column `c1` are all 1
  unfold Solver.hasConflicts at hf
  have hz := (List.any_eq_false.mp hf) c1 m1
  simp only [bne_iff_ne, ne_eq, not_not, Solver.countConflicts, if_true] at hz
  have k1 := h6 (s.queens.getD c1 0)
  have k2 := h7 (s.DLI (s.queens.getD c1 0) c1).toNat
  have k3 := h8 (s.DRI (s.queens.getD c1 0) c1).toNat
  have p1 : 0 < (List.range s.N).countP (fun c => decide (s.queens.getD c 0 = s.queens.getD c1 0)) :=
    List.countP_pos_iff.mpr ⟨c1, m1, by simp⟩
  have p2 : 0 < (List.range s.N).countP (fun c => decide ((s.DLI (s.queens.getD c 0) c).toNat
      = (s.DLI (s.queens.getD c1 0) c1).toNat)) :=
    List.countP_pos_iff.mpr ⟨c1, m1, by simp⟩
  have p3 : 0 < (List.range s.N).countP (fun c => decide ((s.DRI (s.queens.getD c 0) c).toNat
      = (s.DRI (s.queens.getD c1 0) c1).toNat)) :=
    List.countP_pos_iff.mpr ⟨c1, m1, by simp⟩
  rw [k1, k2, k3] at hz
  have o1 : (List.range s.N).countP (fun c => decide (s.queens.getD c 0 = s.queens.getD c1 0)) = 1 := by
    omega
  have o2 : (List.range s.N).countP (fun c => decide ((s.DLI (s.queens.getD c 0) c).toNat
      = (s.DLI (s.queens.getD c1 0) c1).toNat)) = 1 := by omega
  have o3 : (List.range s.N).countP (fun c => decide ((s.DRI (s.queens.getD c 0) c).toNat
      = (s.DRI (s.queens.getD c1 0) c1).toNat)) = 1 := by omega
  constructor
  · intro he
    exact hne (countP_one_unique o1 m1 m2 (by simp) (by simp only [decide_eq_true_eq]; exact he.symm))
  · intro he
    have hd : (s.queens.getD c1 0 : Int) - s.queens.getD c2 0 = (c1 : Int) - c2 ∨
        (s.queens.getD c1 0 : Int) - s.queens.getD c2 0 = -((c1 : Int) - c2) := by
      omega
    rcases hd with hd | hd
    · refine hne (countP_one_unique o2 m1 m2 (by simp) ?_)
      simp only [Solver.DLI, decide_eq_true_eq]
      omega
    · refine hne (countP_one_unique o3 m1 m2 (by simp) ?_)
      simp only [Solver.DRI, decide_eq_true_eq]
      omega

end Hw2

namespace Hw2

/-- C33 (N-queens result validity): for every `N ≥ 4` and every sequence `rnd`
of outcomes of the random choices, if `solve(N)` returns the vector `q`, then
`q` has length `N`, every entry is below `N`, and no two different columns have
their queens in the same row or on the same diagonal; a state that `reset()`
has just left always has conflicts, so that the loop does not exit there; and
`solve` returns `[0]` for `N = 1` and the empty vector for `N = 2` and
`N = 3`. -/
theorem solve_valid (rnd : Nat → Nat) (fuel N : Nat) (q : List Nat) (hN : 4 ≤ N)
    (h : solve rnd fuel N = some q) :
    (q.length = N ∧ (∀ c < N, q.getD c 0 < N) ∧
      ∀ c1 c2, c1 < N → c2 < N → c1 ≠ c2 →
        q.getD c1 0 ≠ q.getD c2 0 ∧
        ((q.getD c1 0 : Int) - q.getD c2 0).natAbs ≠ ((c1 : Int) - c2).natAbs) ∧
    (∀ s : Solver, 0 < s.N → s.reset.hasConflicts = true) ∧
    solve rnd fuel 1 = some [0] ∧ solve rnd fuel 2 = some [] ∧ solve rnd fuel 3 = some [] := by
  refine ⟨?_, reset_hasConflicts, rfl, rfl, rfl⟩
  unfold solve Solver.solve at h
  have e : (Solver.new N).N = N := rfl
  rw [e, if_neg (by omega), if_neg (by omega)] at h
  cases hl : solveLoop rnd fuel (Solver.new N) with
  | none => rw [hl] at h; exact Option.noConfusion h
  | some s1 =>
    rw [hl] at h
    have h : some s1.queens = some q := h
    simp only [Option.some.injEq] at h
    subst h
    obtain ⟨c, f, n⟩ := solveLoop_inv rnd N (by omega) fuel _ s1 (new_loopInv N) hl
    rw [← n] at c
    have := counted_valid c f
    rw [n] at this
    exact this

theorem solve_valid_witness :
    solve (fun _ => 1) 1 4 = some [1, 3, 0, 2] ∧
    (([1, 3, 0, 2] : List Nat).length = 4 ∧ (∀ c < 4, ([1, 3, 0, 2] : List Nat).getD c 0 < 4) ∧
      ∀ c1 c2, c1 < 4 → c2 < 4 → c1 ≠ c2 →
        ([1, 3, 0, 2] : List Nat).getD c1 0 ≠ ([1, 3, 0, 2] : List Nat).getD c2 0 ∧
        ((([1, 3, 0, 2] : List Nat).getD c1 0 : Int) - ([1, 3, 0, 2] : List Nat).getD c2 0).natAbs
          ≠ ((c1 : Int) - c2).natAbs) ∧
    (∀ s : Solver, 0 < s.N → s.reset.hasConflicts = true) ∧
    solve (fun _ => 1) 1 1 = some [0] ∧ solve (fun _ => 1) 1 2 = some [] ∧
    solve (fun _ => 1) 1 3 = some [] :=
  ⟨by decide, solve_valid (fun _ => 1) 1 4 [1, 3, 0, 2] (by decide) (by decide)⟩

end Hw2

namespace Hw1

/-! ### The 32-bit layer and the exact layer -/

theorem int32_add (a b : Int) : int32 (int32 a + b) = int32 (a + b) := by
  unfold int32
  omega

theorem int32_id {x : Int} (h1 : -2147483648 ≤ x) (h2 : x ≤ 2147483647) : int32 x = x := by
  unfold int32
  omega

theorem int32_range (x : Int) : -2147483648 ≤ int32 x ∧ int32 x ≤ 2147483647 := by
  unfold int32
  omega

theorem int32_le_self {x : Int} (h : 0 ≤ x) : int32 x ≤ x := by
  unfold int32
  omega

theorem int32_emod_two (x : Int) : int32 x % 2 = x % 2 := by
  unfold int32
  omega

theorem int32_eq_zero_iff {x : Int} (h1 : 0 ≤ x) (h2 : x < 4294967296) :
    int32 x = 0 ↔ x = 0 := by
  unfold int32
  omega

/-- A loop whose every step commutes with the reduction to 32 bits computes
the reduction of what the exact loop computes. -/
theorem foldl_int32 {α β : Type} (e : β → Int) (F : β → α → β) (F32 : Int → α → Int)
    (h : ∀ x i, F32 (int32 (e x)) i = int32 (e (F x i))) :
    ∀ (l : List α) (x : β), l.foldl F32 (int32 (e x)) = int32 (e (l.foldl F x)) := by
  intro l
  induction l with
  | nil => intro x; rfl
  | cons i l ih =>
    intro x
    rw [List.foldl_cons, List.foldl_cons, h, ih]

/-- The value that `h()` returns is the exact sum reduced to 32 bits. -/
theorem State.h32_eq (s : State) : s.h32 = int32 s.h := by
  unfold State.h32 State.h
  have h0 : (0 : Int) = int32 (id (0 : Int)) := by decide
  rw [h0]
  exact foldl_int32 id _ _ (fun x i => int32_add _ _) _ _

theorem State.h32_of_le (s : State) (h : s.h ≤ INF) : s.h32 = s.h := by
  rw [State.h32_eq]
  have := s.h_nonneg
  exact int32_id (by omega) (by unfold INF at h; omega)

/-- The value that `inversions()` returns is the exact count reduced to 32
bits. -/
theorem Grid.inversions32_eq (s : Grid) : s.inversions32 = int32 (s.inversions : Int) := by
  unfold Grid.inversions32 Grid.inversions
  have h0 : (0 : Int) = int32 ((fun k : Nat => (k : Int)) 0) := by decide
  rw [h0]
  apply foldl_int32 (fun k : Nat => (k : Int))
  intro x i
  by_cases hi : s.board.getD i 0 = 0
  · simp only [hi, if_true]
  · simp only [hi, if_false]
    apply foldl_int32 (fun k : Nat => (k : Int))
    intro y j
    by_cases hj : s.board.getD j 0 = 0
    · simp only [hj, if_true]
    · simp only [hj, if_false]
      by_cases hgt : s.board.getD i 0 > s.board.getD j 0
      · simp only [hgt, if_true]
        rw [int32_add]
        push_cast
        rfl
      · simp only [hgt, if_false]

theorem tmod_two_of_nonneg {x : Int} (h : 0 ≤ x) : Int.tmod x 2 = x % 2 :=
  Int.tmod_eq_emod h (by decide)

theorem tmod_two_of_neg {x : Int} (h : x < 0) : Int.tmod x 2 = -((-x) % 2) := by
  cases x with
  | ofNat n => exact absurd h (not_lt.mpr (Int.ofNat_nonneg n))
  | negSucc n =>
    have e1 : Int.tmod (Int.negSucc n) 2 = -(((n + 1) % 2 : Nat) : Int) := rfl
    rw [e1, Int.neg_negSucc]
    push_cast
    omega

theorem tmod_two_eq_zero_iff (x : Int) : Int.tmod x 2 = 0 ↔ x % 2 = 0 := by
  rcases lt_or_le x 0 with h | h
  · rw [tmod_two_of_neg h]
    omega
  · rw [tmod_two_of_nonneg h]

end Hw1

namespace Hw1

theorem is_solvable32_new {n : Nat} {b g : List Nat} (hn : 1 ≤ n) (hb : ValidBoard n b)
    (hg : ValidBoard n g) (m : String) :
    (State.new b (Grid.new g) m).is_solvable32 =
      if n % 2 = 1 then
        Int.tmod (int32 (inv (tiles g) : Nat)) 2 == Int.tmod (int32 (inv (tiles b) : Nat)) 2
      else
        Int.tmod (int32 (inv (tiles g) : Nat)) 2 ==
          Int.tmod (int32 ((inv (tiles b) : Nat) + ((g.indexOf 0 / n : Nat) : Int) +
            ((b.indexOf 0 / n : Nat) : Int))) 2 := by
  have h0 : 0 < n * n := Nat.mul_pos hn hn
  have e1 : (State.new b (Grid.new g) m).n = n := Grid.new_n hn hb
  have e2 : (State.new b (Grid.new g) m).goal.n = n := Grid.new_n hn hg
  have e3 : (State.new b (Grid.new g) m).inversions32 = int32 (inv (tiles b) : Nat) := by
    rw [Grid.inversions32_eq, inversions_eq_inv_tiles]
    rfl
  have e4 : (State.new b (Grid.new g) m).goal.inversions32 = int32 (inv (tiles g) : Nat) := by
    rw [Grid.inversions32_eq, inversions_eq_inv_tiles]
    rfl
  have e5 : (State.new b (Grid.new g) m).row 0 = b.indexOf 0 / n := Grid.new_row hn hb h0
  have e6 : (State.new b (Grid.new g) m).goal.row 0 = g.indexOf 0 / n := Grid.new_row hn hg h0
  unfold State.is_solvable32
  simp only [e1, e2, e3, e4, e5, e6, ne_eq, not_true_eq_false, if_false, int32_add]

/-- Without overflow the 32-bit `is_solvable()` is the exact one. -/
theorem is_solvable32_eq {n : Nat} {b g : List Nat} (hn : 1 ≤ n) (hb : ValidBoard n b)
    (hg : ValidBoard n g) (m : String) (h1 : inv (tiles g) ≤ 2147483647)
    (h2 : inv (tiles b) + g.indexOf 0 / n + b.indexOf 0 / n ≤ 2147483647) :
    (State.new b (Grid.new g) m).is_solvable32 = (State.new b (Grid.new g) m).is_solvable := by
  rw [is_solvable32_new hn hb hg, is_solvable_new hn hb hg]
  generalize inv (tiles g) = gi at h1 h2 ⊢
  generalize inv (tiles b) = si at h2 ⊢
  generalize g.indexOf 0 / n = gz at h2 ⊢
  generalize b.indexOf 0 / n = sz at h2 ⊢
  have a1 : int32 (gi : Nat) = (gi : Nat) := int32_id (by omega) (by omega)
  have a2 : int32 (si : Nat) = (si : Nat) := int32_id (by omega) (by omega)
  have a3 : int32 ((si : Nat) + (gz : Int) + (sz : Int)) = ((si + gz + sz : Nat) : Int) := by
    rw [int32_id (by omega) (by omega)]
    push_cast
    rfl
  rw [a1, a2, a3, tmod_two_of_nonneg (by omega), tmod_two_of_nonneg (by omega),
    tmod_two_of_nonneg (by omega)]
  by_cases hodd : n % 2 = 1
  · simp only [hodd, if_true]
    rw [Bool.eq_iff_iff, beq_iff_eq, beq_iff_eq]
    omega
  · simp only [hodd, if_false]
    rw [Bool.eq_iff_iff, beq_iff_eq, beq_iff_eq]
    omega

/-- Against a goal without inversions, as `solve` builds it, the 32-bit
`is_solvable()` is the exact one on every valid board. -/
theorem is_solvable32_sorted {n : Nat} {b g : List Nat} (hn : 1 ≤ n) (hb : ValidBoard n b)
    (hg : ValidBoard n g) (m : String) (h1 : inv (tiles g) = 0) :
    (State.new b (Grid.new g) m).is_solvable32 = (State.new b (Grid.new g) m).is_solvable := by
  rw [is_solvable32_new hn hb hg, is_solvable_new hn hb hg, h1]
  generalize inv (tiles b) = si
  generalize g.indexOf 0 / n = gz
  generalize b.indexOf 0 / n = sz
  have a1 : Int.tmod (int32 ((0 : Nat) : Int)) 2 = 0 := by decide
  rw [a1]
  by_cases hodd : n % 2 = 1
  · simp only [hodd, if_true]
    rw [Bool.eq_iff_iff, beq_iff_eq, beq_iff_eq, eq_comm, tmod_two_eq_zero_iff, int32_emod_two]
    omega
  · simp only [hodd, if_false]
    rw [Bool.eq_iff_iff, beq_iff_eq, beq_iff_eq, eq_comm, tmod_two_eq_zero_iff, int32_emod_two]
    omega

/-- C10 (amended): for valid state and goal boards of the same length `n * n`,
the value that `h()` returns is the Manhattan distance sum over the tile
values `1 .. n*n-1` reduced to 32 bits; it is that sum whenever the sum is at
most `INT_MAX`. -/
theorem h32_eq_manhattan (n : Nat) (b g : List Nat) (m : String) (hn : 1 ≤ n)
    (hb : ValidBoard n b) (hg : ValidBoard n g) :
    (State.new b (Grid.new g) m).h32 =
      int32 (∑ v in Finset.Ico 1 (n * n),
        (|((b.indexOf v / n : Nat) : Int) - ((g.indexOf v / n : Nat) : Int)| +
         |((b.indexOf v % n : Nat) : Int) - ((g.indexOf v % n : Nat) : Int)|)) ∧
    ((∑ v in Finset.Ico 1 (n * n),
        (|((b.indexOf v / n : Nat) : Int) - ((g.indexOf v / n : Nat) : Int)| +
         |((b.indexOf v % n : Nat) : Int) - ((g.indexOf v % n : Nat) : Int)|)) ≤ 2147483647 →
      (State.new b (Grid.new g) m).h32 =
        ∑ v in Finset.Ico 1 (n * n),
          (|((b.indexOf v / n : Nat) : Int) - ((g.indexOf v / n : Nat) : Int)| +
           |((b.indexOf v % n : Nat) : Int) - ((g.indexOf v % n : Nat) : Int)|)) := by
  have e := h_eq_manhattan n b g m hn hb hg
  constructor
  · rw [State.h32_eq, e]
  · intro hle
    rw [State.h32_of_le _ (by rw [e]; exact hle), e]

theorem h32_eq_manhattan_witness :
    (State.new [1, 2, 3, 4, 5, 6, 0, 7, 8] (Grid.new [1, 2, 3, 4, 5, 6, 7, 8, 0]) "").h32 =
      int32 (∑ v in Finset.Ico 1 (3 * 3),
        (|(([1, 2, 3, 4, 5, 6, 0, 7, 8].indexOf v / 3 : Nat) : Int) -
            (([1, 2, 3, 4, 5, 6, 7, 8, 0].indexOf v / 3 : Nat) : Int)| +
         |(([1, 2, 3, 4, 5, 6, 0, 7, 8].indexOf v % 3 : Nat) : Int) -
            (([1, 2, 3, 4, 5, 6, 7, 8, 0].indexOf v % 3 : Nat) : Int)|)) ∧
    ((∑ v in Finset.Ico 1 (3 * 3),
        (|(([1, 2, 3, 4, 5, 6, 0, 7, 8].indexOf v / 3 : Nat) : Int) -
            (([1, 2, 3, 4, 5, 6, 7, 8, 0].indexOf v / 3 : Nat) : Int)| +
         |(([1, 2, 3, 4, 5, 6, 0, 7, 8].indexOf v % 3 : Nat) : Int) -
            (([1, 2, 3, 4, 5, 6, 7, 8, 0].indexOf v % 3 : Nat) : Int)|)) ≤ 2147483647 →
      (State.new [1, 2, 3, 4, 5, 6, 0, 7, 8] (Grid.new [1, 2, 3, 4, 5, 6, 7, 8, 0]) "").h32 =
        ∑ v in Finset.Ico 1 (3 * 3),
          (|(([1, 2, 3, 4, 5, 6, 0, 7, 8].indexOf v / 3 : Nat) : Int) -
              (([1, 2, 3, 4, 5, 6, 7, 8, 0].indexOf v / 3 : Nat) : Int)| +
           |(([1, 2, 3, 4, 5, 6, 0, 7, 8].indexOf v % 3 : Nat) : Int) -
              (([1, 2, 3, 4, 5, 6, 7, 8, 0].indexOf v % 3 : Nat) : Int)|)) :=
  h32_eq_manhattan 3 [1, 2, 3, 4, 5, 6, 0, 7, 8] [1, 2, 3, 4, 5, 6, 7, 8, 0] "" (by decide)
    (by decide) (by decide)

/-- C12 (amended): for every valid board `B` and valid goal board `G` of the
same size whose Manhattan sum is below `INT_MAX`, and every `B'` in
`B.successors()`, the values that `h()` returns satisfy `h(B) ≤ h(B') + 1` and
`h(B') ≤ h(B) + 1`. -/
theorem h32_consistent (n : Nat) (B G : List Nat) (m : String) (hn : 1 ≤ n)
    (hB : ValidBoard n B) (hG : ValidBoard n G) (hlt : manhattan n B G < 2147483647) :
    ∀ s ∈ (State.new B (Grid.new G) m).successors,
      (State.new B (Grid.new G) m).h32 ≤ s.h32 + 1 ∧
      s.h32 ≤ (State.new B (Grid.new G) m).h32 + 1 := by
  intro s hs
  have e := h_new_eq hn hB hG m
  obtain ⟨c1, c2⟩ := h_consistent n B (Grid.new G) m hn hB s hs
  rw [State.h32_of_le _ (by rw [e]; unfold INF; omega),
    State.h32_of_le s (by rw [e] at c2; unfold INF; omega)]
  exact ⟨c1, c2⟩

theorem h32_consistent_witness :
    (ValidBoard 3 [1, 2, 3, 4, 0, 6, 7, 5, 8] ∧ ValidBoard 3 [1, 2, 3, 4, 5, 6, 7, 8, 0] ∧
      manhattan 3 [1, 2, 3, 4, 0, 6, 7, 5, 8] [1, 2, 3, 4, 5, 6, 7, 8, 0] < 2147483647) ∧
    ∀ s ∈ (State.new [1, 2, 3, 4, 0, 6, 7, 5, 8] (Grid.new [1, 2, 3, 4, 5, 6, 7, 8, 0])
        "").successors,
      (State.new [1, 2, 3, 4, 0, 6, 7, 5, 8] (Grid.new [1, 2, 3, 4, 5, 6, 7, 8, 0]) "").h32
        ≤ s.h32 + 1 ∧
      s.h32 ≤
        (State.new [1, 2, 3, 4, 0, 6, 7, 5, 8] (Grid.new [1, 2, 3, 4, 5, 6, 7, 8, 0]) "").h32 + 1 :=
  ⟨⟨by decide, by decide, by decide⟩,
    h32_consistent 3 [1, 2, 3, 4, 0, 6, 7, 5, 8] [1, 2, 3, 4, 5, 6, 7, 8, 0] "" (by decide)
      (by decide) (by decide) (by decide)⟩

/-- C31 (amended): for valid boards of the state and of the goal, of the same
length `n * n`, whose Manhattan sum is below `2^32`, the value that `h()`
returns is 0 exactly when `is_goal()` is true, that is when the board equals
the goal board. -/
theorem h32_zero_iff_goal (n : Nat) (b g : List Nat) (m : String) (hb : ValidBoard n b)
    (hg : ValidBoard n g) (hlt : manhattan n b g < 4294967296) :
    ((State.new b (Grid.new g) m).h32 = 0 ↔ (State.new b (Grid.new g) m).is_goal = true) ∧
    ((State.new b (Grid.new g) m).is_goal = true ↔ b = g) := by
  obtain ⟨k1, k2⟩ := h_zero_iff_goal n b g m hb hg
  refine ⟨?_, k2⟩
  rw [← k1, State.h32_eq]
  rcases Nat.eq_zero_or_pos n with h0 | hpos
  · subst h0
    have e1 : b = [] := List.length_eq_zero.mp hb.length_eq
    have e2 : g = [] := List.length_eq_zero.mp hg.length_eq
    subst e1 e2
    exact ⟨fun _ => rfl, fun _ => rfl⟩
  · have e := h_new_eq hpos hb hg m
    have hnn := (State.new b (Grid.new g) m).h_nonneg
    rw [e] at hnn ⊢
    exact int32_eq_zero_iff hnn hlt

theorem h32_zero_iff_goal_witness :
    (ValidBoard 3 [1, 2, 3, 4, 5, 6, 0, 7, 8] ∧ ValidBoard 3 [1, 2, 3, 4, 5, 6, 7, 8, 0] ∧
      manhattan 3 [1, 2, 3, 4, 5, 6, 0, 7, 8] [1, 2, 3, 4, 5, 6, 7, 8, 0] < 4294967296) ∧
    (((State.new [1, 2, 3, 4, 5, 6, 0, 7, 8] (Grid.new [1, 2, 3, 4, 5, 6, 7, 8, 0]) "").h32 = 0 ↔
      (State.new [1, 2, 3, 4, 5, 6, 0, 7, 8] (Grid.new [1, 2, 3, 4, 5, 6, 7, 8, 0])
        "").is_goal = true) ∧
    ((State.new [1, 2, 3, 4, 5, 6, 0, 7, 8] (Grid.new [1, 2, 3, 4, 5, 6, 7, 8, 0])
        "").is_goal = true ↔
      [1, 2, 3, 4, 5, 6, 0, 7, 8] = [1, 2, 3, 4, 5, 6, 7, 8, 0])) :=
  ⟨⟨by decide, by decide, by decide⟩,
    h32_zero_iff_goal 3 [1, 2, 3, 4, 5, 6, 0, 7, 8] [1, 2, 3, 4, 5, 6, 7, 8, 0] "" (by decide)
      (by decide) (by decide)⟩

end Hw1

namespace Hw1

/-- C13 (amended): on every non-empty board the value that `inversions()`
returns is the number of index pairs `(i, j)` with `i < j`, both entries
nonzero and `board[i] > board[j]`, reduced to 32 bits; it is that number
whenever the number is at most `INT_MAX`. -/
theorem inversions32_count (b : List Nat) (G : Grid) (m : String) (_hb : b ≠ []) :
    (State.new b G m).inversions32 =
      int32 (((Finset.range b.length ×ˢ Finset.range b.length).filter (fun p =>
        p.1 < p.2 ∧ b.getD p.1 0 ≠ 0 ∧ b.getD p.2 0 ≠ 0 ∧
          b.getD p.1 0 > b.getD p.2 0)).card : Nat) ∧
    (((Finset.range b.length ×ˢ Finset.range b.length).filter (fun p =>
        p.1 < p.2 ∧ b.getD p.1 0 ≠ 0 ∧ b.getD p.2 0 ≠ 0 ∧
          b.getD p.1 0 > b.getD p.2 0)).card ≤ 2147483647 →
      (State.new b G m).inversions32 =
        (((Finset.range b.length ×ˢ Finset.range b.length).filter (fun p =>
          p.1 < p.2 ∧ b.getD p.1 0 ≠ 0 ∧ b.getD p.2 0 ≠ 0 ∧
            b.getD p.1 0 > b.getD p.2 0)).card : Nat)) := by
  have e : (State.new b G m).inversions32 = int32 (inversionPairs b : Nat) := by
    rw [Grid.inversions32_eq, inversions_eq_inversionPairs]
    rfl
  constructor
  · exact e
  · intro hle
    rw [e]
    exact int32_id (by omega) (by unfold inversionPairs; omega)

theorem inversions32_count_witness :
    ([3, 1, 0, 2] : List Nat) ≠ [] ∧
    ((State.new [3, 1, 0, 2] (Grid.new [1, 2, 3, 0]) "").inversions32 =
      int32 (((Finset.range [3, 1, 0, 2].length ×ˢ Finset.range [3, 1, 0, 2].length).filter
        (fun p => p.1 < p.2 ∧ [3, 1, 0, 2].getD p.1 0 ≠ 0 ∧ [3, 1, 0, 2].getD p.2 0 ≠ 0 ∧
          [3, 1, 0, 2].getD p.1 0 > [3, 1, 0, 2].getD p.2 0)).card : Nat) ∧
    (((Finset.range [3, 1, 0, 2].length ×ˢ Finset.range [3, 1, 0, 2].length).filter
        (fun p => p.1 < p.2 ∧ [3, 1, 0, 2].getD p.1 0 ≠ 0 ∧ [3, 1, 0, 2].getD p.2 0 ≠ 0 ∧
          [3, 1, 0, 2].getD p.1 0 > [3, 1, 0, 2].getD p.2 0)).card ≤ 2147483647 →
      (State.new [3, 1, 0, 2] (Grid.new [1, 2, 3, 0]) "").inversions32 =
        (((Finset.range [3, 1, 0, 2].length ×ˢ Finset.range [3, 1, 0, 2].length).filter
          (fun p => p.1 < p.2 ∧ [3, 1, 0, 2].getD p.1 0 ≠ 0 ∧ [3, 1, 0, 2].getD p.2 0 ≠ 0 ∧
            [3, 1, 0, 2].getD p.1 0 > [3, 1, 0, 2].getD p.2 0)).card : Nat))) :=
  ⟨by decide, inversions32_count [3, 1, 0, 2] (Grid.new [1, 2, 3, 0]) "" (by decide)⟩

/-- C6 (amended): for valid start and goal boards of the same `n` whose
inversion counts do not overflow (the goal's count, and the start's count
plus the two rows of the blank, are at most `INT_MAX`), `is_solvable()` is the
parity formula of the spec: for odd `n` the inversion counts of start and goal
agree modulo 2; for even `n` the goal's count agrees modulo 2 with the start's
count plus the two rows of the blank (row = position / n, counted from the
top); and `inversions()` returns the counts. -/
theorem is_solvable32_formula (n : Nat) (b g : List Nat) (m : String) (hn : 1 ≤ n)
    (hb : ValidBoard n b) (hg : ValidBoard n g) (h1 : inversionPairs g ≤ 2147483647)
    (h2 : inversionPairs b + g.indexOf 0 / n + b.indexOf 0 / n ≤ 2147483647) :
    ((State.new b (Grid.new g) m).is_solvable32 = true ↔
      if n % 2 = 1 then inversionPairs b % 2 = inversionPairs g % 2
      else inversionPairs g % 2 = (inversionPairs b + g.indexOf 0 / n + b.indexOf 0 / n) % 2) ∧
    (State.new b (Grid.new g) m).inversions32 = (inversionPairs b : Nat) ∧
    (State.new b (Grid.new g) m).goal.inversions32 = (inversionPairs g : Nat) := by
  obtain ⟨k1, k2, k3⟩ := is_solvable_formula n b g m hn hb hg
  rw [inversionPairs_eq_inv_tiles] at h1
  rw [inversionPairs_eq_inv_tiles b] at h2
  have h3 : inv (tiles b) ≤ 2147483647 :=
    le_trans (le_trans (Nat.le_add_right _ _) (Nat.le_add_right _ _)) h2
  refine ⟨?_, ?_, ?_⟩
  · rw [is_solvable32_eq hn hb hg m h1 h2]
    exact k1
  · rw [Grid.inversions32_eq, k2, inversionPairs_eq_inv_tiles]
    exact int32_id (by omega) (by omega)
  · rw [Grid.inversions32_eq, k3, inversionPairs_eq_inv_tiles]
    exact int32_id (by omega) (by omega)

theorem is_solvable32_formula_witness :
    (ValidBoard 3 [1, 2, 3, 4, 5, 6, 0, 7, 8] ∧ ValidBoard 3 [1, 2, 3, 4, 5, 6, 7, 8, 0] ∧
      inversionPairs [1, 2, 3, 4, 5, 6, 7, 8, 0] ≤ 2147483647 ∧
      inversionPairs [1, 2, 3, 4, 5, 6, 0, 7, 8] + [1, 2, 3, 4, 5, 6, 7, 8, 0].indexOf 0 / 3 +
        [1, 2, 3, 4, 5, 6, 0, 7, 8].indexOf 0 / 3 ≤ 2147483647) ∧
    (((State.new [1, 2, 3, 4, 5, 6, 0, 7, 8] (Grid.new [1, 2, 3, 4, 5, 6, 7, 8, 0])
        "").is_solvable32 = true ↔
      if 3 % 2 = 1 then inversionPairs [1, 2, 3, 4, 5, 6, 0, 7, 8] % 2 =
          inversionPairs [1, 2, 3, 4, 5, 6, 7, 8, 0] % 2
      else inversionPairs [1, 2, 3, 4, 5, 6, 7, 8, 0] % 2 =
        (inversionPairs [1, 2, 3, 4, 5, 6, 0, 7, 8] +
          [1, 2, 3, 4, 5, 6, 7, 8, 0].indexOf 0 / 3 +
          [1, 2, 3, 4, 5, 6, 0, 7, 8].indexOf 0 / 3) % 2) ∧
    (State.new [1, 2, 3, 4, 5, 6, 0, 7, 8] (Grid.new [1, 2, 3, 4, 5, 6, 7, 8, 0])
        "").inversions32 = (inversionPairs [1, 2, 3, 4, 5, 6, 0, 7, 8] : Nat) ∧
    (State.new [1, 2, 3, 4, 5, 6, 0, 7, 8] (Grid.new [1, 2, 3, 4, 5, 6, 7, 8, 0])
        "").goal.inversions32 = (inversionPairs [1, 2, 3, 4, 5, 6, 7, 8, 0] : Nat)) :=
  ⟨⟨by decide, by decide, by decide, by decide⟩,
    is_solvable32_formula 3 [1, 2, 3, 4, 5, 6, 0, 7, 8] [1, 2, 3, 4, 5, 6, 7, 8, 0] ""
      (by decide) (by decide) (by decide) (by decide) (by decide)⟩

/-- C23 (amended): for every `n ≥ 1`, valid board `B` and valid goal `G` whose
inversion counts do not overflow (the goal's count, and the board's count plus
the two rows of the blank, are at most `INT_MAX`), every successor `B'` that
`successors()` returns for `B` and whose count plus the two rows of the blank
is at most `INT_MAX` as well gets from `is_solvable()` against `G` the verdict
of `B`. -/
theorem is_solvable32_invariant (n : Nat) (B G : List Nat) (m : String) (hn : 1 ≤ n)
    (hB : ValidBoard n B) (hG : ValidBoard n G) (h1 : inversionPairs G ≤ 2147483647)
    (h2 : inversionPairs B + G.indexOf 0 / n + B.indexOf 0 / n ≤ 2147483647) :
    ∀ s ∈ (State.new B (Grid.new G) m).successors,
      inversionPairs s.board + G.indexOf 0 / n + s.board.indexOf 0 / n ≤ 2147483647 →
      s.is_solvable32 = (State.new B (Grid.new G) m).is_solvable32 := by
  intro s hs h3
  have k := is_solvable_invariant n B G m hn hB hG s hs
  obtain ⟨j, lbl, hj, hadj, -, rfl⟩ := mem_successors hn hB (Grid.new G) m s hs
  have hz := hB.indexOf_lt (Nat.mul_pos hn hn)
  have hB1 : ValidBoard n (swapAt B (B.indexOf 0) j) := swapAt_valid hB hz hj
  rw [State.new_board, inversionPairs_eq_inv_tiles] at h3
  rw [inversionPairs_eq_inv_tiles] at h1
  rw [inversionPairs_eq_inv_tiles B] at h2
  rw [is_solvable32_eq hn hB1 hG lbl h1 h3, is_solvable32_eq hn hB hG m h1 h2]
  exact k

theorem is_solvable32_invariant_witness :
    (ValidBoard 3 [1, 2, 3, 4, 0, 6, 7, 5, 8] ∧ ValidBoard 3 [1, 2, 3, 4, 5, 6, 7, 8, 0] ∧
      inversionPairs [1, 2, 3, 4, 5, 6, 7, 8, 0] ≤ 2147483647 ∧
      inversionPairs [1, 2, 3, 4, 0, 6, 7, 5, 8] + [1, 2, 3, 4, 5, 6, 7, 8, 0].indexOf 0 / 3 +
        [1, 2, 3, 4, 0, 6, 7, 5, 8].indexOf 0 / 3 ≤ 2147483647) ∧
    (∀ s ∈ (State.new [1, 2, 3, 4, 0, 6, 7, 5, 8] (Grid.new [1, 2, 3, 4, 5, 6, 7, 8, 0])
        "").successors,
      inversionPairs s.board + [1, 2, 3, 4, 5, 6, 7, 8, 0].indexOf 0 / 3 +
        s.board.indexOf 0 / 3 ≤ 2147483647 →
      s.is_solvable32 =
        (State.new [1, 2, 3, 4, 0, 6, 7, 5, 8] (Grid.new [1, 2, 3, 4, 5, 6, 7, 8, 0])
          "").is_solvable32) :=
  ⟨⟨by decide, by decide, by decide, by decide⟩,
    is_solvable32_invariant 3 [1, 2, 3, 4, 0, 6, 7, 5, 8] [1, 2, 3, 4, 5, 6, 7, 8, 0] ""
      (by decide) (by decide) (by decide) (by decide) (by decide)⟩

end Hw1

namespace Hw1

/-! ### Boards whose Manhattan sum leaves the range of `int` -/

/-- Below the cell above the goal cell of the blank, from row 1032 on,
`bigBoard` holds every tile on its goal cell. -/
theorem bigBoard_free {x : Nat} (h1 : 2113536 ≤ x) (h2 : x < 4192255) :
    bigBoard.getD x 0 = x + 1 := by
  have hl : bigBase.length = 2048 * 2048 := bigBase_valid.length_eq
  rw [bigBoard_getD, if_neg (by omega), if_neg (by omega),
    swapAt_getD bigBase (by omega) (by omega), if_neg (by omega), if_neg (by omega),
    bigBase_getD h1 (by omega)]

theorem bigBoard_blank : bigBoard.getD 4194302 0 = 0 := by
  rw [bigBoard_getD, if_pos rfl]

/-- Exchanging further tiles of `bigBoard` at pairwise disjoint pairs of cells
between row 1032 and the cell two rows above the blank: the board stays valid,
the Manhattan sum grows by twice the distance of each pair, the parity flips
once per pair, the blank stays where it is, and moving the blank to the cell
above it adds one to the sum. -/
theorem extra_spec (E : List (Nat × Nat)) (hpw : E.Pairwise DisjointPair)
    (hE : ∀ p ∈ E, p.1 ≠ p.2 ∧ 2113536 ≤ p.1 ∧ p.1 < 4192254 ∧ 2113536 ≤ p.2 ∧ p.2 < 4192254) :
    ValidBoard 2048 (applySwaps E bigBoard) ∧
    manhattan 2048 (applySwaps E bigBoard) bigGoal =
      2147483645 + 2 * (E.map (fun p => cellDist 2048 p.1 p.2)).sum ∧
    parity 2048 (applySwaps E bigBoard) = (parity 2048 bigGoal + E.length) % 2 ∧
    (applySwaps E bigBoard).indexOf 0 = 4194302 ∧
    ValidBoard 2048 (swapAt (applySwaps E bigBoard) 4194302 4192254) ∧
    manhattan 2048 (swapAt (applySwaps E bigBoard) 4194302 4192254) bigGoal =
      2147483646 + 2 * (E.map (fun p => cellDist 2048 p.1 p.2)).sum ∧
    (swapAt (applySwaps E bigBoard) 4194302 4192254).getD 4192254 0 = 0 := by
  obtain ⟨r1, r2, r3, r4⟩ := applySwaps_spec (by decide : 1 ≤ 2048) bigGoal_valid E bigBoard
    bigBoard_valid hpw (by
      intro p hp
      obtain ⟨h1, h2, h3, h4, h5⟩ := hE p hp
      refine ⟨h1, by omega, by omega, ?_, ?_, ?_, ?_⟩
      · rw [bigBoard_free h2 (by omega), bigGoal_getD (by omega)]
      · rw [bigBoard_free h4 (by omega), bigGoal_getD (by omega)]
      · rw [bigGoal_getD (by omega)]; omega
      · rw [bigGoal_getD (by omega)]; omega)
  have hl : (applySwaps E bigBoard).length = 2048 * 2048 := r1.length_eq
  have g1 : (applySwaps E bigBoard).getD 4194302 0 = 0 := by
    rw [r4 4194302 (by omega) (fun p hp => by have := hE p hp; omega), bigBoard_blank]
  have g2 : (applySwaps E bigBoard).getD 4192254 0 = 4192255 := by
    rw [r4 4192254 (by omega) (fun p hp => by have := hE p hp; omega),
      bigBoard_free (by omega) (by omega)]
  have hz : (applySwaps E bigBoard).indexOf 0 = 4194302 :=
    indexOf_eq_of_getD r1 (by omega) g1
  have hm := manhattan_blank_swap bigGoal (by decide : 1 ≤ 2048) r1
    (by omega : 4192254 < 2048 * 2048) (by rw [hz]; omega)
  rw [hz, g2, bigGoal_indexOf (by omega : 4192254 < 4194303), cellDist_self,
    cellDist_eval 4194302 4192254 1 (by decide), r2] at hm
  refine ⟨r1, ?_, ?_, hz, swapAt_valid r1 (by omega) (by omega), ?_, ?_⟩
  · rw [r2, bigBoard_manhattan]
  · rw [r3, bigBoard_parity]
  · rw [hm, bigBoard_manhattan]
    ring
  · rw [swapAt_getD _ (by omega) (by omega), if_pos rfl, g1]

theorem mem_crossPairs {p : Nat × Nat} (hp : p ∈ crossPairs) :
    ∃ k, k < 524288 ∧ p.1 = 2113536 + k ∧
      ((k % 2048 < 1024 ∧ p.2 = p.1 + 1049600) ∨ (1024 ≤ k % 2048 ∧ p.2 = p.1 + 1047552)) := by
  unfold crossPairs at hp
  rw [List.mem_map] at hp
  obtain ⟨k, hk, rfl⟩ := hp
  refine ⟨k, List.mem_range.mp hk, rfl, ?_⟩
  by_cases h : k % 2048 < 1024
  · left; exact ⟨h, by simp only [h, if_true]⟩
  · right; exact ⟨by omega, by simp only [h, if_false]⟩

theorem mem_rowPairs {p : Nat × Nat} (hp : p ∈ rowPairs) :
    ∃ k, k < 262144 ∧ p.1 = 2637824 + (k / 1024) * 2048 + k % 1024 ∧ p.2 = p.1 + 1024 := by
  unfold rowPairs at hp
  rw [List.mem_map] at hp
  obtain ⟨k, hk, rfl⟩ := hp
  exact ⟨k, List.mem_range.mp hk, rfl, rfl⟩

theorem crossPairs_cellDist {p : Nat × Nat} (hp : p ∈ crossPairs) :
    cellDist 2048 p.1 p.2 = 1536 := by
  obtain ⟨k, hk, h1, h2⟩ := mem_crossPairs hp
  apply cellDist_eval p.1 p.2 1536
  rcases h2 with ⟨h2, h3⟩ | ⟨h2, h3⟩ <;> split_ifs <;> omega

theorem rowPairs_cellDist {p : Nat × Nat} (hp : p ∈ rowPairs) :
    cellDist 2048 p.1 p.2 = 1024 := by
  obtain ⟨k, hk, h1, h2⟩ := mem_rowPairs hp
  apply cellDist_eval p.1 p.2 1024
  split_ifs <;> omega

theorem crossPairs_range {p : Nat × Nat} (hp : p ∈ crossPairs) :
    p.1 ≠ p.2 ∧ 2113536 ≤ p.1 ∧ p.1 < 2637824 ∧ 3162112 ≤ p.2 ∧ p.2 < 3686400 := by
  obtain ⟨k, hk, h1, h2⟩ := mem_crossPairs hp
  rcases h2 with ⟨h2, h3⟩ | ⟨h2, h3⟩ <;> omega

theorem rowPairs_range {p : Nat × Nat} (hp : p ∈ rowPairs) :
    p.1 ≠ p.2 ∧ 2637824 ≤ p.1 ∧ p.1 < 3162112 ∧ 2637824 ≤ p.2 ∧ p.2 < 3162112 := by
  obtain ⟨k, hk, h1, h2⟩ := mem_rowPairs hp
  omega

theorem crossPairs_pairwise : crossPairs.Pairwise DisjointPair := by
  unfold crossPairs
  rw [List.pairwise_map]
  apply List.Pairwise.imp_of_mem _ (List.pairwise_lt_range 524288)
  intro i j hi hj hij
  rw [List.mem_range] at hi hj
  unfold DisjointPair
  simp only
  split_ifs <;> omega

theorem rowPairs_pairwise : rowPairs.Pairwise DisjointPair := by
  unfold rowPairs
  rw [List.pairwise_map]
  apply List.Pairwise.imp_of_mem _ (List.pairwise_lt_range 262144)
  intro i j hi hj hij
  rw [List.mem_range] at hi hj
  unfold DisjointPair
  simp only
  omega

theorem wrapPairs_pairwise : (crossPairs ++ rowPairs).Pairwise DisjointPair := by
  rw [List.pairwise_append]
  refine ⟨crossPairs_pairwise, rowPairs_pairwise, ?_⟩
  intro p hp q hq
  have h1 := crossPairs_range hp
  have h2 := rowPairs_range hq
  unfold DisjointPair
  omega

theorem wrapPairs_range {p : Nat × Nat} (hp : p ∈ crossPairs ++ rowPairs) :
    p.1 ≠ p.2 ∧ 2113536 ≤ p.1 ∧ p.1 < 3686400 ∧ 2113536 ≤ p.2 ∧ p.2 < 3686400 := by
  rw [List.mem_append] at hp
  rcases hp with hp | hp
  · have := crossPairs_range hp; omega
  · have := rowPairs_range hp; omega

theorem wrapPairs_sum :
    ((crossPairs ++ rowPairs).map (fun p => cellDist 2048 p.1 p.2)).sum = 1073741824 := by
  rw [List.map_append, List.sum_append,
    sum_map_const crossPairs _ 1536 (fun p hp => crossPairs_cellDist hp),
    sum_map_const rowPairs _ 1024 (fun p hp => rowPairs_cellDist hp)]
  have l1 : crossPairs.length = 524288 := by simp [crossPairs]
  have l2 : rowPairs.length = 262144 := by simp [rowPairs]
  rw [l1, l2]
  norm_num

theorem wrapPairs_length : (crossPairs ++ rowPairs).length = 786432 := by
  simp [crossPairs, rowPairs]

end Hw1

namespace Hw1

theorem wrapBoard_spec :
    ValidBoard 2048 wrapBoard ∧
    manhattan 2048 wrapBoard bigGoal = 4294967293 ∧
    parity 2048 wrapBoard = parity 2048 bigGoal ∧
    wrapBoard.indexOf 0 = 4194302 ∧
    ValidBoard 2048 (swapAt wrapBoard 4194302 4192254) ∧
    manhattan 2048 (swapAt wrapBoard 4194302 4192254) bigGoal = 4294967294 ∧
    (swapAt wrapBoard 4194302 4192254).getD 4192254 0 = 0 := by
  obtain ⟨k1, k2, k3, k4, k5, k6, k7⟩ := extra_spec (crossPairs ++ rowPairs) wrapPairs_pairwise
    (fun p hp => by have := wrapPairs_range hp; omega)
  rw [wrapPairs_sum] at k2 k6
  rw [wrapPairs_length] at k3
  refine ⟨k1, ?_, ?_, k4, k5, ?_, k7⟩
  · rw [show wrapBoard = applySwaps (crossPairs ++ rowPairs) bigBoard from rfl, k2]
    norm_num
  · rw [show wrapBoard = applySwaps (crossPairs ++ rowPairs) bigBoard from rfl, k3]
    have := parity_lt_two 2048 bigGoal
    omega
  · rw [show wrapBoard = applySwaps (crossPairs ++ rowPairs) bigBoard from rfl, k6]
    norm_num

theorem edgeBoard_spec :
    ValidBoard 2048 edgeBoard ∧
    manhattan 2048 edgeBoard bigGoal = 2147483647 ∧
    edgeBoard.indexOf 0 = 4194302 ∧
    ValidBoard 2048 (swapAt edgeBoard 4194302 4192254) ∧
    manhattan 2048 (swapAt edgeBoard 4194302 4192254) bigGoal = 2147483648 := by
  obtain ⟨k1, k2, -, k4, k5, k6, -⟩ := extra_spec [(3686400, 3686401)]
    (List.pairwise_singleton _ _)
    (fun p hp => by
      rw [List.mem_singleton] at hp
      subst hp
      exact ⟨by decide, by decide, by decide, by decide, by decide⟩)
  have hs : ([(3686400, 3686401)].map (fun p : Nat × Nat => cellDist 2048 p.1 p.2)).sum = 1 := by
    rw [List.map_singleton, List.sum_singleton]
    exact cellDist_eval 3686400 3686401 1 (by decide)
  rw [hs] at k2 k6
  refine ⟨k1, ?_, k4, k5, ?_⟩
  · rw [show edgeBoard = applySwaps [(3686400, 3686401)] bigBoard from rfl, k2]
    norm_num
  · rw [show edgeBoard = applySwaps [(3686400, 3686401)] bigBoard from rfl, k6]
    norm_num

theorem zeroBoard_spec :
    ValidBoard 2048 zeroBoard ∧ manhattan 2048 zeroBoard bigGoal = 4294967296 ∧
    zeroBoard.getD 4192254 0 = 0 := by
  have hpw : (crossPairs ++ rowPairs ++ [(3686400, 3686401)]).Pairwise DisjointPair := by
    rw [List.pairwise_append]
    refine ⟨wrapPairs_pairwise, List.pairwise_singleton _ _, ?_⟩
    intro p hp q hq
    rw [List.mem_singleton] at hq
    subst hq
    have := wrapPairs_range hp
    unfold DisjointPair
    simp only
    omega
  obtain ⟨-, -, -, -, k5, k6, k7⟩ := extra_spec (crossPairs ++ rowPairs ++ [(3686400, 3686401)])
    hpw (fun p hp => by
      rw [List.mem_append, List.mem_singleton] at hp
      rcases hp with hp | rfl
      · have := wrapPairs_range hp; omega
      · exact ⟨by decide, by decide, by decide, by decide, by decide⟩)
  have hs : ((crossPairs ++ rowPairs ++ [(3686400, 3686401)]).map
      (fun p : Nat × Nat => cellDist 2048 p.1 p.2)).sum = 1073741825 := by
    rw [List.map_append, List.sum_append, wrapPairs_sum, List.map_singleton, List.sum_singleton,
      cellDist_eval 3686400 3686401 1 (by decide)]
    norm_num
  rw [hs] at k6
  refine ⟨k5, ?_, k7⟩
  rw [show zeroBoard = swapAt (applySwaps (crossPairs ++ rowPairs ++ [(3686400, 3686401)])
    bigBoard) 4194302 4192254 from rfl, k6]
  norm_num

/-- The successors of a state of the 2048 × 2048 puzzle whose blank is in the
last row, one cell left of the corner. -/
theorem corner_successors {W : List Nat} (hW : ValidBoard 2048 W)
    (hz : W.indexOf 0 = 4194302) (G : Grid) (m : String) :
    (State.new W G m).successors =
      [State.new (swapAt W 4194302 4192254) G "down",
       State.new (swapAt W 4194302 4194303) G "left",
       State.new (swapAt W 4194302 4194301) G "right"] := by
  rw [successors_new (by decide) hW G m, hz, if_neg (by decide), if_pos (by decide),
    if_pos (by decide), if_pos (by decide)]
  rfl

/-- C10 as stated fails: on the valid 2048 × 2048 board `wrapBoard` the
Manhattan distance sum to the goal is `2^32 - 3`, which no `int` holds; the
value that `h()` returns is `-3`. -/
theorem h_eq_manhattan_counterexample :
    ValidBoard 2048 wrapBoard ∧ ValidBoard 2048 bigGoal ∧
    (∑ v in Finset.Ico 1 (2048 * 2048),
      (|((wrapBoard.indexOf v / 2048 : Nat) : Int) - ((bigGoal.indexOf v / 2048 : Nat) : Int)| +
       |((wrapBoard.indexOf v % 2048 : Nat) : Int) - ((bigGoal.indexOf v % 2048 : Nat) : Int)|))
      = 4294967293 ∧
    (State.new wrapBoard (Grid.new bigGoal) "").h32 = -3 := by
  refine ⟨wrapBoard_spec.1, bigGoal_valid, wrapBoard_spec.2.1, ?_⟩
  rw [State.h32_eq, h_new_eq (by decide) wrapBoard_spec.1 bigGoal_valid, wrapBoard_spec.2.1]
  decide

/-- C12 as stated fails: the valid 2048 × 2048 board `edgeBoard` has the
Manhattan sum `INT_MAX`, and its successor by the move `down` has the sum
`INT_MAX + 1`, for which `h()` returns `INT_MIN`; so `h(B) ≤ h(B') + 1` does
not hold. -/
theorem h_consistent_counterexample :
    ValidBoard 2048 edgeBoard ∧ ValidBoard 2048 bigGoal ∧
    (State.new edgeBoard (Grid.new bigGoal) "").h32 = 2147483647 ∧
    ∃ s ∈ (State.new edgeBoard (Grid.new bigGoal) "").successors,
      s.h32 = -2147483648 ∧
      ¬ ((State.new edgeBoard (Grid.new bigGoal) "").h32 ≤ s.h32 + 1) := by
  obtain ⟨k1, k2, k3, k4, k5⟩ := edgeBoard_spec
  have e1 : (State.new edgeBoard (Grid.new bigGoal) "").h32 = 2147483647 := by
    rw [State.h32_eq, h_new_eq (by decide) k1 bigGoal_valid, k2]
    decide
  have e2 : (State.new (swapAt edgeBoard 4194302 4192254) (Grid.new bigGoal) "down").h32 =
      -2147483648 := by
    rw [State.h32_eq, h_new_eq (by decide) k4 bigGoal_valid, k5]
    decide
  refine ⟨k1, bigGoal_valid, e1, _, ?_, e2, ?_⟩
  · rw [corner_successors k1 k3]
    exact List.mem_cons_self _ _
  · rw [e1, e2]
    decide

/-- C31 as stated fails: the valid 2048 × 2048 board `zeroBoard` is not the
goal board, its Manhattan sum is `2^32`, and `h()` returns 0. -/
theorem h_zero_counterexample :
    ValidBoard 2048 zeroBoard ∧ ValidBoard 2048 bigGoal ∧
    (State.new zeroBoard (Grid.new bigGoal) "").h32 = 0 ∧
    (State.new zeroBoard (Grid.new bigGoal) "").is_goal = false ∧
    zeroBoard ≠ bigGoal := by
  obtain ⟨k1, k2, k3⟩ := zeroBoard_spec
  have hne : zeroBoard ≠ bigGoal := by
    intro h
    rw [h, bigGoal_getD (by omega)] at k3
    omega
  refine ⟨k1, bigGoal_valid, ?_, ?_, hne⟩
  · rw [State.h32_eq, h_new_eq (by decide) k1 bigGoal_valid, k2]
    decide
  · unfold State.is_goal
    rw [beq_eq_false_iff_ne, State.new_board, State.new_goal, Grid.new_board_eq]
    exact hne

end Hw1

namespace Hw1

/-! ### The 32-bit search agrees with the exact search while nothing overflows -/

theorem searchLoop32_eq (rec32 rec : List State → Int → Option (Int × List State)) (g : Int)
    (path : List State) (hg0 : 0 ≤ g) (hg1 : g + 1 ≤ 2147483647) :
    ∀ (succs : List State) (min : Int),
      (∀ s ∈ succs, rec32 (path ++ [s]) (g + 1) = rec (path ++ [s]) (g + 1)) →
      (∀ s ∈ succs, ∀ t p, rec (path ++ [s]) (g + 1) = some (t, p) → t ≠ FOUND →
        p = path ++ [s]) →
      searchLoop32 rec32 g succs path min = searchLoop rec g succs path min := by
  intro succs
  induction succs with
  | nil => intro min _ _; rfl
  | cons s rest ih =>
    intro min h1 h2
    have hc : int32 (g + s.cost) = g + 1 := by
      rw [State.cost_eq]
      exact int32_id (by omega) (by omega)
    have hc2 : g + s.cost = g + 1 := by rw [State.cost_eq]
    have ih' := fun min => ih min (fun s1 hs1 => h1 s1 (List.mem_cons_of_mem _ hs1))
      (fun s1 hs1 => h2 s1 (List.mem_cons_of_mem _ hs1))
    unfold searchLoop32 searchLoop
    by_cases hin : inPath path s = true
    · rw [if_pos hin, if_pos hin]
      exact ih' min
    · rw [if_neg hin, if_neg hin, hc, hc2, h1 s (List.mem_cons_self _ _)]
      cases hr : rec (path ++ [s]) (g + 1) with
      | none => rfl
      | some tp =>
        obtain ⟨t, p⟩ := tp
        simp only
        by_cases hF : t = FOUND
        · rw [if_pos hF, if_pos hF]
        · rw [if_neg hF, if_neg hF, h2 s (List.mem_cons_self _ _) t p hr hF,
            List.dropLast_concat]
          exact ih' _

theorem search32_eq {n : Nat} {gb : List Nat} (hn : 1 ≤ n) (hg : ValidBoard n gb) :
    ∀ (fuel : Nat) (path : List State) (g bound : Int),
      (∀ s ∈ path, GoodState n gb s) → 0 ≤ g → bound + 2 ≤ 2147483647 →
      (∀ last, path.getLast? = some last → g + last.h ≤ 2147483647) →
      search32 fuel path g bound = search fuel path g bound := by
  intro fuel
  induction fuel with
  | zero => intro path g bound _ _ _ _; rfl
  | succ fuel ih =>
    intro path g bound hgood hg0 hb hh
    rw [search32, search]
    cases hl : path.getLast? with
    | none => rfl
    | some state =>
      simp only
      have hst : GoodState n gb state := hgood state (List.mem_of_getLast?_eq_some hl)
      have hnn := state.h_nonneg
      have hle := hh state hl
      have e1 : state.h32 = state.h := state.h32_of_le (by unfold INF; omega)
      have e2 : int32 (g + state.h) = g + state.h := int32_id (by omega) (by omega)
      rw [e1, e2]
      by_cases hf : g + state.h > bound
      · rw [if_pos hf, if_pos hf]
      · rw [if_neg hf, if_neg hf]
        by_cases hgl : state.is_goal = true
        · rw [if_pos hgl, if_pos hgl]
        · rw [if_neg hgl, if_neg hgl]
          apply searchLoop32_eq _ _ g path hg0 (by omega)
          · intro s hs
            obtain ⟨hs1, -, -⟩ := hst.succ hn hs
            have hsl := (hst.h_succ_le hn hg hs).2
            apply ih (path ++ [s]) (g + 1) bound _ (by omega) hb
            · intro last hlast
              rw [List.getLast?_concat, Option.some.injEq] at hlast
              subst hlast
              omega
            · intro x hx
              rw [List.mem_append, List.mem_singleton] at hx
              rcases hx with hx | rfl
              · exact hgood x hx
              · exact hs1
          · intro s _ t p hr hF
            exact (search_gt_bound hr hF).1

theorem idaLoop32_eq {n : Nat} {gb : List Nat} (hn : 1 ≤ n) (hg : ValidBoard n gb)
    (sfuel : Nat) (root : State) (hroot : GoodState n gb root) (e0 : List State)
    (he0 : PathInv n gb ([root] ++ e0)) (hend0 : EndsAtGoal ([root] ++ e0))
    (hlt : (e0.length : Int) + 2 ≤ 2147483647) :
    ∀ (fuel : Nat) (bound : Int), bound ≤ e0.length →
      idaLoop32 sfuel fuel [root] bound = idaLoop sfuel fuel [root] bound := by
  have hadm : root.h ≤ e0.length := admissible hn hg e0 [root] root (by simp) he0 hend0
  intro fuel
  induction fuel with
  | zero => intro bound _; rfl
  | succ fuel ih =>
    intro bound hb
    rw [idaLoop32, idaLoop, search32_eq hn hg sfuel [root] 0 bound
      (fun s hs => by rw [List.mem_singleton] at hs; subst hs; exact hroot) (le_refl _)
      (by omega) (fun last hlast => by
        rw [List.getLast?_singleton, Option.some.injEq] at hlast
        subst hlast
        omega)]
    cases hr : search sfuel [root] 0 bound with
    | none => rfl
    | some tp =>
      obtain ⟨t, p⟩ := tp
      simp only
      by_cases hF : t = FOUND
      · rw [if_pos hF, if_pos hF]
      · rw [if_neg hF, if_neg hF]
        by_cases hI : t = INF
        · rw [if_pos hI, if_pos hI]
        · rw [if_neg hI, if_neg hI]
          rcases search_spec hn hg sfuel [root] 0 bound t p (pathInv_singleton hroot)
            (le_refl _) hr with ⟨hF', -⟩ | ⟨-, h2, -, -, h5⟩
          · exact absurd hF' hF
          · have hle := h5 e0 he0 hend0
            rw [h2]
            exact ih t (by omega)

/-- When the goal is reachable from the root in `k` moves with
`k + 2 ≤ INT_MAX`, the 32-bit `ida_star` is the exact one. -/
theorem ida_star32_eq {n : Nat} {gb : List Nat} (hn : 1 ≤ n) (hg : ValidBoard n gb)
    (fuel : Nat) (root : State) (hroot : GoodState n gb root) {k : Nat}
    (hreach : ReachIn k root.board gb) (hk : (k : Int) + 2 ≤ 2147483647) :
    ida_star32 fuel root = ida_star fuel root := by
  obtain ⟨d, hd1, hd2, hd3⟩ := exists_min_reach hreach
  obtain ⟨e0, he1, he2, he3, -⟩ := path_of_reach hn d root hroot hd2 hd3
  have hadm : root.h ≤ e0.length := admissible hn hg e0 [root] root (by simp) he2 he3
  have hlen : (e0.length : Int) + 2 ≤ 2147483647 := by rw [he1]; omega
  unfold ida_star32 ida_star
  rw [root.h32_of_le (by unfold INF; omega)]
  exact idaLoop32_eq hn hg fuel root hroot e0 he2 he3 hlen fuel root.h hadm

/-- The body of `solve32` in terms of the root state it builds. -/
theorem solve32_unfold (fuel : Nat) (N I : Int) (board : List Nat) :
    solve32 fuel N I board =
      if (solveRoot N I board).is_solvable32 = false then some none
      else (ida_star32 fuel (solveRoot N I board)).map (fun path => some (pathMoves path)) := by
  unfold solve32 solveRoot solveGoal pathMoves
  simp only
  generalize (State.new board (Grid.new (goalBoard board.length (if I = -1 then N else I)))
    "") = root
  cases hs : root.is_solvable32
  · simp
  · cases hr : ida_star32 fuel root <;> simp

theorem goalBoard_inv (n I : Nat) (hI : I < n * n) : inv (tiles (goalBoard (n * n) I)) = 0 := by
  rw [tiles_goalBoard _ _ hI, inv_range']

/-- On a valid board from which the goal that `solve` builds is reachable in
`k` moves with `k + 2 ≤ INT_MAX`, and on every valid board from which it is
not reachable, the 32-bit `solve` returns what the exact `solve` returns. -/
theorem solve32_eq {n : Nat} {board : List Nat} (hn : 1 ≤ n) (hb : ValidBoard n board)
    {I : Nat} (hI : I < n * n) (N : Int) (fuel : Nat)
    (h : ∀ k, ReachIn k board (goalBoard (n * n) I) →
      ∃ k1, ReachIn k1 board (goalBoard (n * n) I) ∧ (k1 : Int) + 2 ≤ 2147483647) :
    solve32 fuel N I board = solve fuel N I board := by
  have hg : ValidBoard n (goalBoard (n * n) I) := goalBoard_valid n I hI
  have hgoal := solveGoal_eq hb N (I := I)
  have hroot : GoodState n (goalBoard (n * n) I) (solveRoot N I board) := by
    rw [← hgoal]; exact solveRoot_good hb N I
  have hrb : (solveRoot N I board).board = board := rfl
  have hre : solveRoot N I board = State.new board (Grid.new (goalBoard (n * n) I)) "" := by
    unfold solveRoot
    rw [hgoal]
  have hsol : (solveRoot N I board).is_solvable32 = (solveRoot N I board).is_solvable := by
    rw [hre]
    exact is_solvable32_sorted hn hb hg "" (goalBoard_inv n I hI)
  rw [solve32_unfold, solve_eq, hsol]
  by_cases hs : (solveRoot N I board).is_solvable = false
  · rw [if_pos hs, if_pos hs]
  · rw [if_neg hs, if_neg hs]
    have hs' : (solveRoot N I board).is_solvable = true := by
      cases hh : (solveRoot N I board).is_solvable
      · exact absurd hh hs
      · rfl
    obtain ⟨k0, hk0⟩ := (solveRoot_solvable_iff hn hb hI N).mp hs'
    obtain ⟨k1, hk1, hk2⟩ := h k0 hk0
    rw [ida_star32_eq hn hg fuel _ hroot (by rw [hrb]; exact hk1) hk2]

end Hw1

namespace Hw1

/-- The 32-bit `search` at a root with `h() = -3` whose first successor has
`h() = -2`: the successor's `f = 1 + (-2)` exceeds the bound `-3` and is
returned, and it is the value of `FOUND`. -/
theorem search32_spurious (fuel : Nat) (root child : State) (rest : List State)
    (hr : root.h32 = -3) (hgoal : root.is_goal = false)
    (hsucc : root.successors = child :: rest) (hne : (root.board == child.board) = false)
    (hc : child.h32 = -2) :
    search32 (fuel + 2) [root] 0 (-3) = some (FOUND, [root, child]) := by
  have e1 : int32 (0 + -3) = -3 := by decide
  have e2 : int32 (int32 (0 + 1) + -2) = -1 := by decide
  rw [search32]
  simp only [List.getLast?_singleton, hr, e1, gt_iff_lt, lt_self_iff_false, if_false, hgoal,
    Bool.false_eq_true, hsucc]
  rw [searchLoop32]
  have hin : inPath [root] child = false := by
    unfold inPath
    simp only [List.any_cons, List.any_nil, Bool.or_false, hne]
  have hl : ([root] ++ [child]).getLast? = some child := by simp
  rw [hin, State.cost_eq, search32, hl]
  simp only [Bool.false_eq_true, if_false, hc, e2]
  rfl

theorem idaLoop32_found (sfuel fuel : Nat) (path p1 : List State) (bound : Int)
    (h : search32 sfuel path 0 bound = some (FOUND, p1)) :
    idaLoop32 sfuel (fuel + 1) path bound = some p1 := by
  unfold idaLoop32
  rw [h]
  simp only
  rw [if_pos trivial]

theorem wrapRoot_eq (N : Int) :
    solveRoot N ((4194303 : Nat) : Int) wrapBoard = State.new wrapBoard (Grid.new bigGoal) "" := by
  unfold solveRoot
  rw [solveGoal_eq wrapBoard_spec.1 N]
  unfold bigGoal
  rfl

theorem wrapRoot_facts :
    (State.new wrapBoard (Grid.new bigGoal) "").h32 = -3 ∧
    (State.new wrapBoard (Grid.new bigGoal) "").is_goal = false ∧
    (State.new (swapAt wrapBoard 4194302 4192254) (Grid.new bigGoal) "down").h32 = -2 ∧
    (State.new (swapAt wrapBoard 4194302 4192254) (Grid.new bigGoal) "down").is_goal = false ∧
    ((State.new wrapBoard (Grid.new bigGoal) "").board ==
      (State.new (swapAt wrapBoard 4194302 4192254) (Grid.new bigGoal) "down").board) = false ∧
    (State.new wrapBoard (Grid.new bigGoal) "").is_solvable32 = true := by
  obtain ⟨k1, k2, k3, k4, k5, k6, k7⟩ := wrapBoard_spec
  have hl : wrapBoard.length = 2048 * 2048 := k1.length_eq
  have g0 : wrapBoard.getD 4194302 0 = 0 := by
    have := k1.getD_indexOf (by decide : 0 < 2048 * 2048)
    rwa [k4] at this
  have hne1 : wrapBoard ≠ bigGoal := by
    intro h
    rw [h, bigGoal_getD (by omega)] at g0
    omega
  have hne2 : swapAt wrapBoard 4194302 4192254 ≠ bigGoal := by
    intro h
    rw [h, bigGoal_getD (by omega)] at k7
    omega
  have hne3 : wrapBoard ≠ swapAt wrapBoard 4194302 4192254 := by
    intro h
    rw [← h, k2] at k6
    omega
  refine ⟨?_, ?_, ?_, ?_, ?_, ?_⟩
  · rw [State.h32_eq, h_new_eq (by decide) k1 bigGoal_valid, k2]
    decide
  · unfold State.is_goal
    rw [beq_eq_false_iff_ne, State.new_board, State.new_goal, Grid.new_board_eq]
    exact hne1
  · rw [State.h32_eq, h_new_eq (by decide) k5 bigGoal_valid, k6]
    decide
  · unfold State.is_goal
    rw [beq_eq_false_iff_ne, State.new_board, State.new_goal, Grid.new_board_eq]
    exact hne2
  · rw [beq_eq_false_iff_ne, State.new_board, State.new_board]
    exact hne3
  · have hinv : inv (tiles bigGoal) = 0 := goalBoard_inv 2048 4194303 (by decide)
    rw [is_solvable32_sorted (by decide) k1 bigGoal_valid "" hinv,
      is_solvable_iff_parity (by decide) k1 bigGoal_valid]
    exact k3

/-- C27 as stated fails on 32-bit `int`s: `wrapBoard` is a valid board of the
2048 × 2048 puzzle that `is_solvable()` accepts, with the Manhattan sum
`2^32 - 3`, so that `h()` returns `-3`; its first successor, by the move
`down`, has `h() = -2` and `f = 1 + (-2) = -1`, which exceeds the bound `-3`
and is the value of `FOUND`.  The call `search(path, 0, -3)` that `ida_star`
makes returns `FOUND` with the path ending in that successor, which is not the
goal, and `solve` returns the one move `down`. -/
theorem search32_found_counterexample :
    ValidBoard 2048 wrapBoard ∧
    (State.new wrapBoard (Grid.new bigGoal) "").is_solvable32 = true ∧
    (State.new wrapBoard (Grid.new bigGoal) "").h32 = -3 ∧
    search32 2 [State.new wrapBoard (Grid.new bigGoal) ""] 0 (-3) =
      some (FOUND, [State.new wrapBoard (Grid.new bigGoal) "",
        State.new (swapAt wrapBoard 4194302 4192254) (Grid.new bigGoal) "down"]) ∧
    (State.new (swapAt wrapBoard 4194302 4192254) (Grid.new bigGoal) "down").is_goal = false ∧
    ida_star32 2 (State.new wrapBoard (Grid.new bigGoal) "") =
      some [State.new wrapBoard (Grid.new bigGoal) "",
        State.new (swapAt wrapBoard 4194302 4192254) (Grid.new bigGoal) "down"] ∧
    solve32 2 4194303 ((4194303 : Nat) : Int) wrapBoard = some (some ["down"]) := by
  obtain ⟨f1, f2, f3, f4, f5, f6⟩ := wrapRoot_facts
  have hs := search32_spurious 0 _ _ _ f1 f2
    (corner_successors wrapBoard_spec.1 wrapBoard_spec.2.2.2.1 (Grid.new bigGoal) "") f5 f3
  have hida : ida_star32 2 (State.new wrapBoard (Grid.new bigGoal) "") =
      some [State.new wrapBoard (Grid.new bigGoal) "",
        State.new (swapAt wrapBoard 4194302 4192254) (Grid.new bigGoal) "down"] := by
    unfold ida_star32
    rw [f1]
    exact idaLoop32_found 2 1 _ _ _ hs
  refine ⟨wrapBoard_spec.1, f6, f1, hs, f4, hida, ?_⟩
  rw [solve32_unfold, wrapRoot_eq, f6, if_neg (by decide), hida]
  rfl

theorem idaLoop32_chain {n : Nat} {gb : List Nat} (hn : 1 ≤ n) (hg : ValidBoard n gb)
    (ifuel : Nat) (root : State) (hroot : GoodState n gb root) {k : Nat}
    (hreach : ReachIn k root.board gb) (hk : (k : Int) + 2 ≤ 2147483647) (r : List State)
    (hr : ida_star32 ifuel root = some r) (hne : r ≠ []) :
    r.head? = some root ∧ (∃ last, r.getLast? = some last ∧ last.is_goal = true) ∧
      List.Chain' (fun a b => b ∈ a.successors) r := by
  rw [ida_star32_eq hn hg ifuel root hroot hreach hk] at hr
  unfold ida_star at hr
  exact idaLoop_chain ifuel root ifuel _ r hr hne

/-- C27 (amended): whenever `search(path, g, bound)`, called on a path of
states as `solve` and `successors()` build them for valid boards with
`g ≥ 0`, `bound ≤ INT_MAX - 2` and `g` plus the Manhattan sum of the last state
at most `INT_MAX` (so that no `int` overflows), returns `FOUND`, the path on
return is the path on entry followed by states `e`, its last state is the
goal, and every state of `e` is a successor of the state immediately before
it, built with the label of the move that produced it; hence, when the goal
is reachable from the root in `k` moves with `k + 2 ≤ INT_MAX`, a non-empty
path returned by `ida_star` starts at the root, ends at the goal and is a
chain of successors, and the root that `solve` builds has the empty label. -/
theorem search32_found_path (n : Nat) (gb : List Nat) (fuel : Nat) (path : List State)
    (g bound : Int) (p : List State) (hn : 1 ≤ n) (hgb : ValidBoard n gb)
    (hpath : ∀ s ∈ path, GoodState n gb s) (hg : 0 ≤ g) (hb : bound + 2 ≤ 2147483647)
    (hh : ∀ last, path.getLast? = some last → g + manhattan n last.board gb ≤ 2147483647)
    (h : search32 fuel path g bound = some (FOUND, p)) :
    (∃ e l last, p = path ++ e ∧ path.getLast? = some l ∧ p.getLast? = some last ∧
      last.is_goal = true ∧ List.Chain (fun a b => b ∈ a.successors) l e) ∧
    (∀ a b : State, b ∈ a.successors → ∃ mv ∈ moves,
      b = State.new (swapAt a.board (a.idx 0)
        (a.idx2 ((a.row 0 : Int) + mv.row) ((a.col 0 : Int) + mv.col)).toNat) a.goal mv.move ∧
      b.move = mv.move) ∧
    (∀ (ifuel : Nat) (root : State) (r : List State) (k : Nat), GoodState n gb root →
      ReachIn k root.board gb → (k : Int) + 2 ≤ 2147483647 →
      ida_star32 ifuel root = some r → r ≠ [] →
      r.head? = some root ∧ (∃ last, r.getLast? = some last ∧ last.is_goal = true) ∧
      List.Chain' (fun a b => b ∈ a.successors) r) ∧
    (∀ (N I : Int) (board : List Nat), (solveRoot N I board).move = "") := by
  have hh' : ∀ last, path.getLast? = some last → g + last.h ≤ 2147483647 := by
    intro last hl
    have hgood := hpath last (List.mem_of_getLast?_eq_some hl)
    rw [hgood.h_eq hn hgb]
    exact hh last hl
  rw [search32_eq hn hgb fuel path g bound hpath hg hb hh'] at h
  obtain ⟨k1, k2, -, k4⟩ := search_found_path fuel path g bound p hg h
  exact ⟨k1, k2, fun ifuel root r k hroot hreach hk hr hne =>
    idaLoop32_chain hn hgb ifuel root hroot hreach hk r hr hne, k4⟩

theorem search32_found_path_witness :
    ((1 : Nat) ≤ 3 ∧ ValidBoard 3 [1, 2, 3, 4, 5, 6, 7, 8, 0] ∧
      (∀ s ∈ [State.new [1, 2, 3, 4, 5, 6, 0, 7, 8] (Grid.new [1, 2, 3, 4, 5, 6, 7, 8, 0]) ""],
        GoodState 3 [1, 2, 3, 4, 5, 6, 7, 8, 0] s) ∧
      (0 : Int) ≤ 0 ∧ (2 : Int) + 2 ≤ 2147483647 ∧
      (∀ last,
        [State.new [1, 2, 3, 4, 5, 6, 0, 7, 8]
          (Grid.new [1, 2, 3, 4, 5, 6, 7, 8, 0]) ""].getLast? = some last →
        0 + manhattan 3 last.board [1, 2, 3, 4, 5, 6, 7, 8, 0] ≤ 2147483647) ∧
      search32 3 [State.new [1, 2, 3, 4, 5, 6, 0, 7, 8] (Grid.new [1, 2, 3, 4, 5, 6, 7, 8, 0]) ""]
        0 2 = some (FOUND,
          [State.new [1, 2, 3, 4, 5, 6, 0, 7, 8] (Grid.new [1, 2, 3, 4, 5, 6, 7, 8, 0]) "",
           State.new [1, 2, 3, 4, 5, 6, 7, 0, 8] (Grid.new [1, 2, 3, 4, 5, 6, 7, 8, 0]) "left",
           State.new [1, 2, 3, 4, 5, 6, 7, 8, 0] (Grid.new [1, 2, 3, 4, 5, 6, 7, 8, 0])
             "left"])) ∧
    ((∃ e l last,
      [State.new [1, 2, 3, 4, 5, 6, 0, 7, 8] (Grid.new [1, 2, 3, 4, 5, 6, 7, 8, 0]) "",
        State.new [1, 2, 3, 4, 5, 6, 7, 0, 8] (Grid.new [1, 2, 3, 4, 5, 6, 7, 8, 0]) "left",
        State.new [1, 2, 3, 4, 5, 6, 7, 8, 0] (Grid.new [1, 2, 3, 4, 5, 6, 7, 8, 0]) "left"] =
        [State.new [1, 2, 3, 4, 5, 6, 0, 7, 8] (Grid.new [1, 2, 3, 4, 5, 6, 7, 8, 0]) ""] ++ e ∧
      [State.new [1, 2, 3, 4, 5, 6, 0, 7, 8]
        (Grid.new [1, 2, 3, 4, 5, 6, 7, 8, 0]) ""].getLast? = some l ∧
      [State.new [1, 2, 3, 4, 5, 6, 0, 7, 8] (Grid.new [1, 2, 3, 4, 5, 6, 7, 8, 0]) "",
        State.new [1, 2, 3, 4, 5, 6, 7, 0, 8] (Grid.new [1, 2, 3, 4, 5, 6, 7, 8, 0]) "left",
        State.new [1, 2, 3, 4, 5, 6, 7, 8, 0] (Grid.new [1, 2, 3, 4, 5, 6, 7, 8, 0])
          "left"].getLast? = some last ∧
      last.is_goal = true ∧ List.Chain (fun a b => b ∈ a.successors) l e) ∧
    (∀ a b : State, b ∈ a.successors → ∃ mv ∈ moves,
      b = State.new (swapAt a.board (a.idx 0)
        (a.idx2 ((a.row 0 : Int) + mv.row) ((a.col 0 : Int) + mv.col)).toNat) a.goal mv.move ∧
      b.move = mv.move) ∧
    (∀ (ifuel : Nat) (root : State) (r : List State) (k : Nat),
      GoodState 3 [1, 2, 3, 4, 5, 6, 7, 8, 0] root →
      ReachIn k root.board [1, 2, 3, 4, 5, 6, 7, 8, 0] → (k : Int) + 2 ≤ 2147483647 →
      ida_star32 ifuel root = some r → r ≠ [] →
      r.head? = some root ∧ (∃ last, r.getLast? = some last ∧ last.is_goal = true) ∧
      List.Chain' (fun a b => b ∈ a.successors) r) ∧
    (∀ (N I : Int) (board : List Nat), (solveRoot N I board).move = "")) :=
  ⟨⟨by decide, by decide,
      fun s hs => by
        rw [List.mem_singleton] at hs
        subst hs
        exact GoodState.of_new (by decide) "",
      le_refl 0, by decide,
      fun last hl => by
        rw [List.getLast?_singleton, Option.some.injEq] at hl
        subst hl
        decide,
      rfl⟩,
    search32_found_path 3 [1, 2, 3, 4, 5, 6, 7, 8, 0] 3
      [State.new [1, 2, 3, 4, 5, 6, 0, 7, 8] (Grid.new [1, 2, 3, 4, 5, 6, 7, 8, 0]) ""] 0 2 _
      (by decide) (by decide)
      (fun s hs => by
        rw [List.mem_singleton] at hs
        subst hs
        exact GoodState.of_new (by decide) "")
      (le_refl 0) (by decide)
      (fun last hl => by
        rw [List.getLast?_singleton, Option.some.injEq] at hl
        subst hl
        decide)
      rfl⟩

end Hw1

namespace Hw1

/-! ### A 257 × 257 board whose inversion count crosses `INT_MAX` in one move -/

theorem inv_of_desc : ∀ l : List Nat, l.Pairwise (fun a b => b < a) →
    inv l = l.length.choose 2 := by
  intro l
  induction l with
  | nil => intro _; rfl
  | cons x xs ih =>
    intro h
    rw [List.pairwise_cons] at h
    have hc : xs.countP (fun y => decide (y < x)) = xs.length :=
      List.countP_eq_length.mpr (fun a ha => by simpa using h.1 a ha)
    rw [inv_cons, hc, ih h.2, List.length_cons, Nat.choose_succ_succ, Nat.choose_one_right]

theorem cross_all : ∀ (a b : List Nat), (∀ x ∈ a, ∀ y ∈ b, y < x) →
    cross a b = a.length * b.length := by
  intro a
  induction a with
  | nil => intro b _; simp [cross_nil_left]
  | cons x xs ih =>
    intro b h
    have hc : b.countP (fun y => decide (y < x)) = b.length :=
      List.countP_eq_length.mpr (fun y hy => by simpa using h x (List.mem_cons_self _ _) y hy)
    rw [cross_cons_left, hc, ih b (fun x1 hx1 => h x1 (List.mem_cons_of_mem _ hx1)),
      List.length_cons]
    ring

theorem cross_none : ∀ (a b : List Nat), (∀ x ∈ a, ∀ y ∈ b, ¬ y < x) → cross a b = 0 := by
  intro a
  induction a with
  | nil => intro b _; exact cross_nil_left b
  | cons x xs ih =>
    intro b h
    have hc : b.countP (fun y => decide (y < x)) = 0 :=
      List.countP_eq_zero.mpr (fun y hy => by simpa using h x (List.mem_cons_self _ _) y hy)
    rw [cross_cons_left, hc, ih b (fun x1 hx1 => h x1 (List.mem_cons_of_mem _ hx1))]

theorem mem_rev_range' {s k x : Nat} : x ∈ (List.range' s k).reverse ↔ s ≤ x ∧ x < s + k := by
  rw [List.mem_reverse, List.mem_range'_1]

theorem inv_rev_range' (s k : Nat) : inv (List.range' s k).reverse = k.choose 2 := by
  rw [inv_of_desc _ (List.pairwise_reverse.mpr (List.pairwise_lt_range' s k)),
    List.length_reverse, List.length_range']

theorem invBoard_eq :
    invBoard = invHead ++ 65792 :: (List.range' 65793 256 ++ 0 :: []) := by
  have e1 : List.range' 65538 511 = List.range' 65538 254 ++ List.range' 65792 257 :=
    (List.range'_append 65538 254 257 1).symm
  have e2 : List.range' 65792 257 = 65792 :: List.range' 65793 256 :=
    List.range'_succ 65792 256 1
  unfold invBoard invHead
  rw [e1, e2]
  simp only [List.append_assoc, List.cons_append, List.nil_append]

theorem mem_invHead {x : Nat} : x ∈ invHead ↔ 1 ≤ x ∧ x < 65792 := by
  unfold invHead
  simp only [List.mem_append, mem_rev_range', List.mem_singleton, List.mem_range'_1]
  omega

theorem invHead_length : invHead.length = 65791 := by
  have e : invHead.length = 32769 + 1 + 32767 + 254 := by
    unfold invHead
    rw [List.length_append, List.length_append, List.length_append, List.length_reverse,
      List.length_reverse, List.length_range', List.length_range', List.length_range',
      List.length_singleton]
  rw [e]

theorem invHead_nodup : invHead.Nodup := by
  unfold invHead
  rw [List.nodup_append, List.nodup_append, List.nodup_append]
  refine ⟨⟨⟨List.nodup_reverse.mpr (List.nodup_range' _ _), List.nodup_singleton _, ?_⟩,
    List.nodup_reverse.mpr (List.nodup_range' _ _), ?_⟩, List.nodup_range' _ _, ?_⟩
  · intro a h1 h2
    rw [mem_rev_range'] at h1
    rw [List.mem_singleton] at h2
    omega
  · intro a h1 h2
    rw [List.mem_append, mem_rev_range', List.mem_singleton] at h1
    rw [mem_rev_range'] at h2
    omega
  · intro a h1 h2
    rw [List.mem_append, List.mem_append, mem_rev_range', List.mem_singleton,
      mem_rev_range'] at h1
    rw [List.mem_range'_1] at h2
    omega

theorem invHead_inv : inv invHead = 2147483647 := by
  unfold invHead
  rw [inv_append, inv_append, inv_append, inv_rev_range', inv_rev_range', inv_range',
    cross_none _ [65537], cross_all _ (List.range' 1 32767).reverse, cross_none _ (List.range' 65538 254)]
  · have e : inv [65537] = 0 := rfl
    have hlen : ((List.range' 32768 32769).reverse ++ [65537]).length = 32770 := by
      rw [List.length_append, List.length_reverse, List.length_range', List.length_singleton]
    have hlen2 : (List.range' 1 32767).reverse.length = 32767 := by
      rw [List.length_reverse, List.length_range']
    rw [hlen, hlen2, Nat.choose_two_right, Nat.choose_two_right, e]
  · intro x hx y hy
    rw [List.mem_append, List.mem_append, mem_rev_range', List.mem_singleton,
      mem_rev_range'] at hx
    rw [List.mem_range'_1] at hy
    omega
  · intro x hx y hy
    rw [List.mem_append, mem_rev_range', List.mem_singleton] at hx
    rw [mem_rev_range'] at hy
    omega
  · intro x hx y hy
    rw [mem_rev_range'] at hx
    rw [List.mem_singleton] at hy
    omega

end Hw1

namespace Hw1

theorem invTail_mem {x : Nat} (hx : x ∈ 65792 :: (List.range' 65793 256 ++ 0 :: [])) :
    x = 0 ∨ (65792 ≤ x ∧ x < 66049) := by
  rw [List.mem_cons, List.mem_append, List.mem_range'_1, List.mem_singleton] at hx
  omega

theorem invTail_nodup : (65792 :: (List.range' 65793 256 ++ 0 :: [])).Nodup := by
  rw [List.nodup_cons, List.nodup_append]
  refine ⟨?_, List.nodup_range' _ _, List.nodup_singleton _, ?_⟩
  · intro h
    rw [List.mem_append, List.mem_range'_1, List.mem_singleton] at h
    omega
  · intro a h1 h2
    rw [List.mem_range'_1] at h1
    rw [List.mem_singleton] at h2
    omega

theorem invBoard_length : invBoard.length = 257 * 257 := by
  rw [invBoard_eq, List.length_append, invHead_length, List.length_cons, List.length_append,
    List.length_range', List.length_singleton]

theorem invBoard_valid : ValidBoard 257 invBoard := by
  apply validBoard_of_nodup invBoard_length
  · rw [invBoard_eq, List.nodup_append]
    refine ⟨invHead_nodup, invTail_nodup, ?_⟩
    intro a h1 h2
    rw [mem_invHead] at h1
    have := invTail_mem h2
    omega
  · intro x hx
    rw [invBoard_eq, List.mem_append] at hx
    rcases hx with hx | hx
    · rw [mem_invHead] at hx; omega
    · have := invTail_mem hx; omega

theorem invHead_no_zero : 0 ∉ invHead := by
  intro h
  rw [mem_invHead] at h
  omega

theorem range_no_zero {s k : Nat} (hs : 1 ≤ s) : 0 ∉ List.range' s k := by
  intro h
  rw [List.mem_range'_1] at h
  omega

theorem tiles_nil : tiles [] = [] := rfl

theorem invBoard_tiles : tiles invBoard = invHead ++ 65792 :: List.range' 65793 256 := by
  rw [invBoard_eq, tiles_append, tiles_eq_self invHead_no_zero, tiles_cons_pos (by decide),
    tiles_append, tiles_eq_self (range_no_zero (by decide)), tiles_cons_zero, tiles_nil,
    List.append_nil]

theorem invBoard_inv : inv (tiles invBoard) = 2147483647 := by
  have e : 65792 :: List.range' 65793 256 = List.range' 65792 257 :=
    (List.range'_succ 65792 256 1).symm
  rw [invBoard_tiles, e, inv_append, invHead_inv, inv_range', cross_none]
  intro x hx y hy
  rw [mem_invHead] at hx
  rw [List.mem_range'_1] at hy
  omega

theorem invBoard_indexOf : invBoard.indexOf 0 = 66048 := by
  apply indexOf_eq_of_getD invBoard_valid (by decide)
  have hl : invHead.length + 1 + (List.range' 65793 256).length = 66048 := by
    rw [invHead_length, List.length_range']
  have e : invBoard = (invHead ++ 65792 :: List.range' 65793 256) ++ [0] := by
    rw [invBoard_eq]
    simp only [List.append_assoc, List.cons_append]
  have hl2 : (invHead ++ 65792 :: List.range' 65793 256).length = 66048 := by
    rw [List.length_append, List.length_cons, invHead_length, List.length_range']
  rw [e, List.getD_append_right _ _ _ _ (by rw [hl2]), hl2]
  rfl

/-- The board of the successor of `invBoard` by the move `down`. -/
theorem invNext_eq :
    swapAt invBoard 66048 65791 = invHead ++ 0 :: (List.range' 65793 256 ++ 65792 :: []) := by
  have hl := invBoard_length
  rw [swapAt_comm invBoard (by omega) (by omega)]
  have h := swapAt_append invHead (List.range' 65793 256) [] 65792 0
  rw [invHead_length, List.length_range'] at h
  rw [invBoard_eq]
  exact h

theorem invNext_valid : ValidBoard 257 (swapAt invBoard 66048 65791) :=
  swapAt_valid invBoard_valid (by decide) (by decide)

theorem invNext_tiles :
    tiles (swapAt invBoard 66048 65791) = invHead ++ (List.range' 65793 256 ++ [65792]) := by
  rw [invNext_eq, tiles_append, tiles_eq_self invHead_no_zero, tiles_cons_zero, tiles_append,
    tiles_eq_self (range_no_zero (by decide)), tiles_cons_pos (by decide), tiles_nil]

theorem invNext_inv : inv (tiles (swapAt invBoard 66048 65791)) = 2147483903 := by
  rw [invNext_tiles, inv_append, invHead_inv, inv_append, inv_range',
    cross_all (List.range' 65793 256) [65792], cross_none invHead]
  · rw [List.length_range']
    rfl
  · intro x hx y hy
    rw [mem_invHead] at hx
    rw [List.mem_append, List.mem_range'_1, List.mem_singleton] at hy
    omega
  · intro x hx y hy
    rw [List.mem_range'_1] at hx
    rw [List.mem_singleton] at hy
    omega

theorem oddGoal_valid : ValidBoard 257 oddGoal := by
  unfold oddGoal
  apply validBoard_of_nodup
  · rw [List.length_append, List.length_append, List.length_range']
    rfl
  · rw [List.nodup_append, List.nodup_append]
    refine ⟨⟨by decide, List.nodup_range' _ _, ?_⟩, List.nodup_singleton _, ?_⟩
    · intro a h1 h2
      rw [List.mem_range'_1] at h2
      simp only [List.mem_cons, List.mem_singleton, List.not_mem_nil, or_false] at h1
      omega
    · intro a h1 h2
      rw [List.mem_append, List.mem_range'_1] at h1
      rw [List.mem_singleton] at h2
      simp only [List.mem_cons, List.mem_singleton, List.not_mem_nil, or_false] at h1
      omega
  · intro x hx
    rw [List.mem_append, List.mem_append, List.mem_range'_1, List.mem_singleton] at hx
    simp only [List.mem_cons, List.mem_singleton, List.not_mem_nil, or_false] at hx
    omega

theorem oddGoal_tiles : tiles oddGoal = [2, 1] ++ List.range' 3 66046 := by
  unfold oddGoal
  rw [tiles_append, tiles_append, tiles_eq_self (range_no_zero (by decide)),
    tiles_cons_pos (by decide), tiles_cons_pos (by decide), tiles_cons_zero, tiles_nil,
    List.append_nil]

theorem oddGoal_inv : inv (tiles oddGoal) = 1 := by
  rw [oddGoal_tiles, inv_append, inv_range', cross_none [2, 1] (List.range' 3 66046)]
  · rfl
  · intro x hx y hy
    rw [List.mem_range'_1] at hy
    simp only [List.mem_cons, List.mem_singleton, List.not_mem_nil, or_false] at hx
    omega

end Hw1

namespace Hw1

theorem invNext_def : invNext = swapAt invBoard 66048 65791 := rfl

theorem invBoard_successors (G : Grid) (m : String) :
    State.new invNext G "down" ∈ (State.new invBoard G m).successors := by
  rw [successors_new (by decide) invBoard_valid G m, invBoard_indexOf, if_neg (by decide),
    if_pos (by decide), invNext_def]
  exact List.mem_append_right _ (List.mem_append_left _ (List.mem_singleton_self _))

theorem invNext_facts :
    ValidBoard 257 invNext ∧ inversionPairs invNext = 2147483903 ∧
    (∀ (G : Grid) (m : String), (State.new invNext G m).inversions32 = -2147483393) ∧
    (∀ m : String, (State.new invNext (Grid.new oddGoal) m).is_solvable32 = false) := by
  have hv : ValidBoard 257 invNext := invNext_valid
  have hinv : inv (tiles invNext) = 2147483903 := invNext_inv
  refine ⟨hv, ?_, ?_, ?_⟩
  · rw [inversionPairs_eq_inv_tiles, hinv]
  · intro G m
    rw [Grid.inversions32_eq, inversions_eq_inv_tiles, State.new_board, hinv]
    decide
  · intro m
    rw [is_solvable32_new (by decide) hv oddGoal_valid, if_pos (by decide), hinv, oddGoal_inv]
    decide

/-- C13 as stated fails: the valid 257 × 257 board `invNext` has
`2^31 + 255` index pairs `(i, j)` with `i < j`, both entries nonzero and
`board[i] > board[j]`, more than an `int` holds; `inversions()` returns
`-2147483393`. -/
theorem inversions_count_counterexample :
    ValidBoard 257 invNext ∧ invNext ≠ [] ∧
    ((Finset.range invNext.length ×ˢ Finset.range invNext.length).filter (fun p =>
      p.1 < p.2 ∧ invNext.getD p.1 0 ≠ 0 ∧ invNext.getD p.2 0 ≠ 0 ∧
        invNext.getD p.1 0 > invNext.getD p.2 0)).card = 2147483903 ∧
    (State.new invNext (Grid.new oddGoal) "").inversions32 = -2147483393 := by
  obtain ⟨k1, k2, k3, -⟩ := invNext_facts
  refine ⟨k1, ?_, k2, k3 _ _⟩
  intro h
  have := k1.length_eq
  rw [h] at this
  exact absurd this (by decide)

/-- C6 as stated fails: for the valid boards `invNext` and `oddGoal` of the
257 × 257 puzzle (`n` odd) the inversion counts `2^31 + 255` and `1` agree
modulo 2, and so do the values that `inversions()` returns for them, yet
`is_solvable()` is false: the returned count of `invNext` is negative and odd,
and its remainder `-1` differs from the goal's remainder `1`. -/
theorem is_solvable_formula_counterexample :
    ValidBoard 257 invNext ∧ ValidBoard 257 oddGoal ∧ 257 % 2 = 1 ∧
    inversionPairs invNext % 2 = inversionPairs oddGoal % 2 ∧
    (State.new invNext (Grid.new oddGoal) "").inversions32 % 2 =
      (State.new invNext (Grid.new oddGoal) "").goal.inversions32 % 2 ∧
    (State.new invNext (Grid.new oddGoal) "").is_solvable32 = false := by
  obtain ⟨k1, k2, k3, k4⟩ := invNext_facts
  have hg : (State.new invNext (Grid.new oddGoal) "").goal.inversions32 = 1 := by
    rw [Grid.inversions32_eq, inversions_eq_inv_tiles, State.new_goal, Grid.new_board_eq,
      oddGoal_inv]
    decide
  refine ⟨k1, oddGoal_valid, by decide, ?_, ?_, k4 _⟩
  · rw [k2, inversionPairs_eq_inv_tiles, oddGoal_inv]
  · rw [k3, hg]
    decide

/-- C23 as stated fails: for the valid board `invBoard` of the 257 × 257
puzzle, with `2^31 - 1` inversions, and the valid goal `oddGoal`,
`is_solvable()` is true; for its successor by the move `down`, with
`2^31 + 255` inversions, the count that `inversions()` returns is negative and
`is_solvable()` against the same goal is false. -/
theorem is_solvable_invariant_counterexample :
    ValidBoard 257 invBoard ∧ ValidBoard 257 oddGoal ∧
    (State.new invBoard (Grid.new oddGoal) "").is_solvable32 = true ∧
    ∃ s ∈ (State.new invBoard (Grid.new oddGoal) "").successors,
      s.is_solvable32 = false := by
  refine ⟨invBoard_valid, oddGoal_valid, ?_, _, invBoard_successors (Grid.new oddGoal) "",
    invNext_facts.2.2.2 "down"⟩
  rw [is_solvable32_new (by decide) invBoard_valid oddGoal_valid, if_pos (by decide),
    invBoard_inv, oddGoal_inv]
  decide

end Hw1
